import Mathlib

/-!
# The rpm macro expander (`rpmio/macro.c`)

A shallow embedding of the macro table and of the recursive expander, and
theorems about them.

Conventions of the embedding.

* A C string is the list of its characters before the terminating NUL; a
  pointer into a string is the suffix that starts at it, so `*s` is the head
  of the list (NUL at the empty list), `s + 1` its tail, and `se - s` the
  difference of the two lengths.
* A table slot (`rpmMacroEntry *`) is the list of the entries chained through
  `prev`, the visible one first; the NULL slot is the empty list.
* `rpmMacroEntry.id` stands for the address of the allocation: `pushMacro`
  numbers the entries it allocates, and the expander finds `me` again by it.
* Storage is unbounded (`xmalloc` never fails, the fixed scratch buffers are
  large enough); the messages written to the log and to stderr are left out.
* A read past the terminator of a string, or through a freed entry, has no
  defined result in C: the model raises `MacroBuf.fault` and stops the scan.
-/

namespace RpmMacro

/-! ## Characters and strings -/

def isblank (c : Char) : Bool := c == ' ' || c == '\t'

def iseol (c : Char) : Bool := c == '\n' || c == '\r'

/-- Modelled from the spec: `risalpha` of rpmstring.h, the ASCII letters. -/
def risalpha (c : Char) : Bool :=
  (97 ≤ c.toNat && c.toNat ≤ 122) || (65 ≤ c.toNat && c.toNat ≤ 90)

/-- Modelled from the spec: `risdigit` of rpmstring.h, the ASCII digits. -/
def risdigit (c : Char) : Bool := 48 ≤ c.toNat && c.toNat ≤ 57

/-- Modelled from the spec: `risalnum` of rpmstring.h. -/
def risalnum (c : Char) : Bool := risalpha c || risdigit c

/-- The character a pointer points at; NUL at the end of the string. -/
def peek (s : List Char) : Char := s.headD (Char.ofNat 0)

/-- Sign of `strcmp(3)`: the bytes are compared as unsigned values. -/
def strcmp : List Char → List Char → Int
  | [], [] => 0
  | [], _ :: _ => -1
  | _ :: _, [] => 1
  | a :: as, b :: bs =>
    if a.toNat = b.toNat then strcmp as bs
    else if a.toNat < b.toNat then -1 else 1

/-- `STREQ(_t, _f, _fn)`: the field of `fn` bytes at `f` is the literal `t`. -/
def STREQ (t : String) (f : List Char) (fn : Nat) : Bool :=
  fn == t.toList.length && f.take fn == t.toList

/-! ## The macro table -/

/-- One definition of a macro (`struct rpmMacroEntry_s`); `prev` is the rest
of the slot the entry stands in. -/
structure rpmMacroEntry where
  id : Nat
  name : List Char
  opts : Option (List Char)
  body : List Char
  used : Int
  level : Int
deriving DecidableEq, Repr

/-- A slot of the table: the stack of definitions of one name, top first. -/
abbrev Slot := List rpmMacroEntry

/-- The set of macros of a context (`struct rpmMacroContext_s`).
`macrosAllocated` is the length of `macroTable`, the NULL table is `[]`;
`nalloc` counts the entries allocated so far. -/
structure rpmMacroContext where
  macroTable : List Slot
  firstFree : Nat
  nalloc : Nat
deriving DecidableEq, Repr

def MACRO_CHUNK_SIZE : Nat := 16

def max_macro_depth : Int := 16

def rpmMacroContext.macrosAllocated (mc : rpmMacroContext) : Nat := mc.macroTable.length

/-- The context after static initialisation (all zero). -/
def emptyContext : rpmMacroContext := { macroTable := [], firstFree := 0, nalloc := 0 }

def compareMacroName (ap bp : Slot) : Int :=
  match ap, bp with
  | [], [] => 0
  | [], _ :: _ => 1
  | _ :: _, [] => -1
  | ame :: _, bme :: _ => strcmp ame.name bme.name

/-- Overwrite `n` slots from index `i` on with NULL (`memset`). -/
def zeroSlots : List Slot → Nat → Nat → List Slot
  | [], _, _ => []
  | x :: xs, 0, 0 => x :: xs
  | _ :: xs, 0, n + 1 => [] :: zeroSlots xs 0 n
  | x :: xs, i + 1, n => x :: zeroSlots xs i n

def expandMacroTable (mc : rpmMacroContext) : rpmMacroContext :=
  if mc.macroTable = [] then
    { mc with macroTable := List.replicate MACRO_CHUNK_SIZE [], firstFree := 0 }
  else
    let grown := mc.macroTable ++ List.replicate MACRO_CHUNK_SIZE []
    { mc with macroTable := zeroSlots grown mc.firstFree MACRO_CHUNK_SIZE }

/-- Order of `qsort` under `compareMacroName`. -/
def slotLE (a b : Slot) : Prop := compareMacroName a b ≤ 0

instance : DecidableRel slotLE := fun a b => by unfold slotLE; exact inferInstance

/-- The library routine `qsort(3)` over the first `firstFree` slots. Entries with
different names are never equal under the comparison, so every sorting
algorithm gives the result of this one. -/
def qsort (l : List Slot) : List Slot := l.insertionSort slotLE

def sortMacroTable (mc : rpmMacroContext) : rpmMacroContext :=
  if mc.macroTable = [] then mc
  else
    let sorted := qsort (mc.macroTable.take mc.firstFree)
    { mc with
      macroTable := sorted ++ mc.macroTable.drop mc.firstFree
      firstFree := (sorted.findIdx? (fun s => s.isEmpty)).getD mc.firstFree }

/-- The library routine `bsearch(3)`: binary search between `l` and `u`;
`fuel` bounds the number of probes, `u - l` of them are enough. -/
def bsearch (key : Slot) (base : List Slot) : Nat → Nat → Nat → Option Nat
  | 0, _, _ => none
  | fuel + 1, l, u =>
    if l < u then
      let idx := (l + u) / 2
      let c := compareMacroName key (base.getD idx [])
      if c < 0 then bsearch key base fuel l idx
      else if c > 0 then bsearch key base fuel (idx + 1) u
      else some idx
    else none

/-- Find the slot of a name: the index of the slot in the table, or `none`. -/
def findEntry (mc : rpmMacroContext) (name : List Char) (namelen : Nat) : Option Nat :=
  if mc.macroTable = [] ∨ mc.firstFree = 0 then none
  else
    let mname := if namelen > 0 then name.take namelen else name
    let key : Slot := [{ id := 0, name := mname, opts := none, body := [], used := 0, level := 0 }]
    bsearch key mc.macroTable mc.firstFree 0 mc.firstFree

/-- Push a definition on a slot; `id` is the address of the new entry. -/
def pushMacro (slot : Slot) (id : Nat) (n : List Char) (o : Option (List Char))
    (b : List Char) (level : Int) : Slot :=
  { id := id
    name := match slot with
      | prev :: _ => prev.name
      | [] => n
    opts := o
    body := b
    used := 0
    level := level } :: slot

def popMacro (slot : Slot) : Slot := slot.tail

def addMacro (mc : rpmMacroContext) (n : List Char) (o : Option (List Char))
    (b : List Char) (level : Int) : rpmMacroContext :=
  let (mc, mep) :=
    match findEntry mc n 0 with
    | some i => (mc, some i)
    | none =>
      let mc := if mc.firstFree = mc.macrosAllocated then expandMacroTable mc else mc
      if mc.macroTable ≠ [] then ({ mc with firstFree := mc.firstFree + 1 }, some mc.firstFree)
      else (mc, none)
  match mep with
  | none => mc
  | some i =>
    let slot := pushMacro (mc.macroTable.getD i []) mc.nalloc n o b level
    let mc := { mc with macroTable := mc.macroTable.set i slot, nalloc := mc.nalloc + 1 }
    if slot.tail = [] then sortMacroTable mc else mc

def delMacro (mc : rpmMacroContext) (n : List Char) : rpmMacroContext :=
  match findEntry mc n 0 with
  | none => mc
  | some i =>
    let slot := popMacro (mc.macroTable.getD i [])
    let mc := { mc with macroTable := mc.macroTable.set i slot }
    if slot = [] then sortMacroTable mc else mc

/-- The visible definition of a name, as the expander reads it: `*mep`. -/
def lookup (mc : rpmMacroContext) (name : List Char) (namelen : Nat) : Option rpmMacroEntry :=
  match findEntry mc name namelen with
  | none => none
  | some i => (mc.macroTable.getD i []).head?

/-! ## Scanning helpers -/

/-- `SKIPBLANK(_s, _c)`. -/
def SKIPBLANK (s : List Char) : List Char := s.dropWhile isblank

def isNameChar (c : Char) : Bool := risalnum c || c == '_'

/-- `COPYNAME(_ne, _s, _c)`: the name copied and the scan position after it. -/
def COPYNAME (s : List Char) : List Char × List Char :=
  ((SKIPBLANK s).takeWhile isNameChar, (SKIPBLANK s).dropWhile isNameChar)

/-- `COPYOPTS(_oe, _s, _c)`: the options copied and the position of the
character that stopped the copy (`)` or the terminator). -/
def COPYOPTS (s : List Char) : List Char × List Char :=
  (s.takeWhile (fun c => c != ')'), s.dropWhile (fun c => c != ')'))

/-- `strchr(s, c)` for `c` other than NUL: the suffix at its first occurrence. -/
def strchr (s : List Char) (c : Char) : Option (List Char) :=
  match s.dropWhile (fun d => d != c) with
  | [] => none
  | r => some r

/-- `strrchr(s, c)` for `c` other than NUL: the suffix at its last occurrence. -/
def strrchr : List Char → Char → Option (List Char)
  | [], _ => none
  | d :: s, c =>
    match strrchr s c with
    | some r => some r
    | none => if d = c then some (d :: s) else none

/-! ## The continuation reader -/

/-- What `fgets(3)` stores when there is room for `n` characters: the
characters of the stream up to the first newline, the newline included. -/
def fgetsLine : Nat → List Char → List Char
  | 0, _ => []
  | _ + 1, [] => []
  | n + 1, c :: s => if c = '\n' then [c] else c :: fgetsLine n s

/-- The library routine `fgets(3)` on a stream that holds `f`: the string
stored and what is left of the stream; `none` is NULL (end of file, or no
room at all). With room for the terminator only nothing is read. -/
def fgets (size : Nat) (f : List Char) : Option (List Char × List Char) :=
  if size = 0 then none
  else if size = 1 then some ([], f)
  else if fgetsLine (size - 1) f = [] then none
  else some (fgetsLine (size - 1) f, f.drop (fgetsLine (size - 1) f).length)

/-- The loop of `rdcl` over the characters read, `for (; p <= q; p++)`: `s`
is the text from `p` to `q` and `after` what the buffer holds behind `q` (the
line end that was trimmed; the terminator is the end of the list). Gives `bc`,
`pc` and how far beyond `q + 1` the loop leaves `p`. -/
def rdclScan : List Char → List Char → Int → Int → Int × Int × Nat
  | [], _, bc, pc => (bc, pc, 0)
  | [c], after, bc, pc =>
    if c = '\\' then (if after = [] then (bc, pc, 0) else (bc, pc, 1))
    else if c = '%' then
      if peek after = '{' then (bc + 1, pc, 1)
      else if peek after = '(' then (bc, pc + 1, 1)
      else if peek after = '%' then (bc, pc, 1)
      else (bc, pc, 0)
    else if c = '{' then (if bc > 0 then bc + 1 else bc, pc, 0)
    else if c = '}' then (if bc > 0 then bc - 1 else bc, pc, 0)
    else if c = '(' then (bc, if pc > 0 then pc + 1 else pc, 0)
    else if c = ')' then (bc, if pc > 0 then pc - 1 else pc, 0)
    else (bc, pc, 0)
  | c :: d :: s, after, bc, pc =>
    if c = '\\' then rdclScan s after bc pc
    else if c = '%' then
      if d = '{' then rdclScan s after (bc + 1) pc
      else if d = '(' then rdclScan s after bc (pc + 1)
      else if d = '%' then rdclScan s after bc pc
      else rdclScan (d :: s) after bc pc
    else if c = '{' then rdclScan (d :: s) after (if bc > 0 then bc + 1 else bc) pc
    else if c = '}' then rdclScan (d :: s) after (if bc > 0 then bc - 1 else bc) pc
    else if c = '(' then rdclScan (d :: s) after bc (if pc > 0 then pc + 1 else pc)
    else if c = ')' then rdclScan (d :: s) after bc (if pc > 0 then pc - 1 else pc)
    else rdclScan (d :: s) after bc pc

/-- The `do ... while` loop of `rdcl`. `acc` is what the buffer holds before
the place the next line is read to, `skip` how far `p` is beyond that place,
`f` the stream. Every turn reads from the stream or leaves the loop, so a
`fuel` above the length of the stream is enough. Gives the string returned
(`none` is NULL) and what is left of the stream. -/
def rdclLoop : Nat → List Char → List Char → Nat → Int → Int → Nat → Nat →
    Option (List Char) × List Char
  | 0, f, acc, _, _, _, _, nread => (if nread > 0 then some acc else none, f)
  | fuel + 1, f, acc, skip, bc, pc, size, nread =>
    match fgets size f with
    | none => (if nread > 0 then some acc else none, f)
    | some (line, f1) =>
      let body := line.rdropWhile iseol
      let eols := line.drop body.length
      let r := rdclScan (body.drop skip) eols bc pc
      if body = [] ∨ (body.getLast? ≠ some '\\' ∧ r.1 = 0 ∧ r.2.1 = 0) ∨ eols = [] then
        (if nread + line.length > 0 then some (acc ++ body) else none, f1)
      else
        let joiner := if peek eols = '\r' then '\n' else peek eols
        if size - (body.length + 1) > 0 then
          rdclLoop fuel f1 (acc ++ body ++ [joiner]) (skip - body.length + r.2.2) r.1 r.2.1
            (size - (body.length + 1)) (nread + line.length)
        else (some (acc ++ body ++ joiner :: eols.tail), f1)

/-- An `fgets(3)` analogue that reads `\` continuations: one logical line is
read from the stream `f` (`none` is a NULL file handle) into a buffer of
`size` bytes. Gives the buffer, or `none` for NULL, and what is left of the
stream. -/
def rdcl (size : Nat) (f : Option (List Char)) : Option (List Char) × List Char :=
  match f with
  | none => (none, [])
  | some f => rdclLoop (f.length + 1) f [] 0 0 0 size 0

/-- Result of `matchchar`. -/
inductive MatchResult where
  /-- The closing character was found; the pointer returned points at it. -/
  | found (p : List Char)
  /-- The terminator was reached: NULL. -/
  | null
  /-- An escaping backslash stood right before the terminator: the scan
  stepped over the terminator and reads what lies behind the string. -/
  | overrun
deriving DecidableEq, Repr

/-- The loop of `matchchar`, entered with the nesting level `lvl`. -/
def matchcharFrom (pl pr : Char) : List Char → Int → MatchResult
  | [], _ => .null
  | c :: p, lvl =>
    if c = '\\' then
      match p with
      | [] => .overrun
      | _ :: p2 => matchcharFrom pl pr p2 lvl
    else if c = pr then
      if lvl - 1 ≤ 0 then .found (c :: p) else matchcharFrom pl pr p (lvl - 1)
    else if c = pl then matchcharFrom pl pr p (lvl + 1)
    else matchcharFrom pl pr p lvl

def matchchar (p : List Char) (pl pr : Char) : MatchResult := matchcharFrom pl pr p 0

/-- Flags before a name: the end of the flags, `negate` and `chkexist`. -/
def parseMacroFlags : List Char → Bool → Int → List Char × Bool × Int
  | [], negate, chkexist => ([], negate, chkexist)
  | c :: s, negate, chkexist =>
    if c = '!' then parseMacroFlags s (!negate) chkexist
    else if c = '?' then parseMacroFlags s negate (chkexist + 1)
    else (c :: s, negate, chkexist)

/-- The end of the name at `s`, `none` when no valid name starts there. -/
def parseMacroName (s : List Char) : Option (List Char) :=
  let special : Option (List Char) :=
    match s with
    | [] => none
    | c :: s1 =>
      if c = '0' ∨ c = '#' ∨ c = 'S' ∨ c = 'P' ∨ c = 'F' then some s1
      else if c = '*' then
        (if peek s1 = '*' then some s1.tail else some s1)
      else if c = '-' then
        (if risalnum (peek s1) then
          (if peek s1.tail = '*' then some s1.tail.tail else some s1.tail)
        else none)
      else if risdigit c then some (s1.dropWhile risdigit)
      else none
  if risalpha (peek s) || peek s == '_' then
    let se := s.tail.dropWhile isNameChar
    if s.length - se.length = 1 then special
    else if s.length - se.length = 2 then none
    else some se
  else special

/-! ## The argument vector and getopt -/

/-- Modelled from the spec: `argvSplit` of argv.c, which is not part of the
sources at hand. The argument region is split at spaces and tabs (the
separators `seps`) into its tokens, without quoting. -/
def argvSplit (str : List Char) (seps : List Char) : List (List Char) :=
  (str.splitOnP (fun c => seps.contains c)).filter (fun t => !t.isEmpty)

/-- Modelled from the spec: `argvJoin` of argv.c, the elements joined by `sep`
(the NULL it returns for an empty vector is read as the empty string by both
of its callers). -/
def argvJoin (argv : List (List Char)) (sep : List Char) : List Char :=
  sep.intercalate argv

/-- How `getopt` treats the arguments that are not options. -/
inductive GetoptOrdering where
  | REQUIRE_ORDER
  | PERMUTE
  | RETURN_IN_ORDER
deriving DecidableEq, Repr

/-- What a run of calls of `getopt` leaves behind: the values returned before
the final -1, each with `optarg`, and `argv[optind..argc)` after it. -/
structure GetoptRun where
  events : List (Char × Option (List Char))
  rest : List (List Char)
deriving DecidableEq, Repr

/-- The library routine `getopt(3)` of the GNU C library, called until it
returns -1, on the arguments after `argv[0]`. `cur` is what is left of the
element being scanned (`nextchar`), `args` the elements not yet scanned,
`skipped` the non-options passed over. Long options and the `W;` extension are
not modelled (the expander passes no long options). -/
def getoptFrom (optstring : List Char) (ordering : GetoptOrdering) :
    Nat → List Char → List (List Char) → List (List Char) → GetoptRun
  | 0, _, args, skipped => { events := [], rest := skipped ++ args }
  | _ + 1, [], [], skipped => { events := [], rest := skipped }
  | fuel + 1, [], a :: args, skipped =>
    if a = ['-', '-'] then { events := [], rest := skipped ++ args }
    else if peek a ≠ '-' ∨ a.tail = [] then
      match ordering with
      | .PERMUTE => getoptFrom optstring ordering fuel [] args (skipped ++ [a])
      | .REQUIRE_ORDER => { events := [], rest := a :: args }
      | .RETURN_IN_ORDER =>
        let r := getoptFrom optstring ordering fuel [] args skipped
        { r with events := (Char.ofNat 1, some a) :: r.events }
    else getoptFrom optstring ordering fuel a.tail args skipped
  | fuel + 1, c :: cur, args, skipped =>
    match strchr optstring c with
    | none =>
      let r := getoptFrom optstring ordering fuel cur args skipped
      { r with events := ('?', none) :: r.events }
    | some temp =>
      if c = ':' ∨ c = ';' then
        let r := getoptFrom optstring ordering fuel cur args skipped
        { r with events := ('?', none) :: r.events }
      else if peek temp.tail = ':' then
        if peek temp.tail.tail = ':' then
          let r := getoptFrom optstring ordering fuel [] args skipped
          { r with events := (c, if cur = [] then none else some cur) :: r.events }
        else if cur ≠ [] then
          let r := getoptFrom optstring ordering fuel [] args skipped
          { r with events := (c, some cur) :: r.events }
        else
          match args with
          | [] =>
            { events := [(if peek optstring = ':' then ':' else '?', none)], rest := skipped }
          | a :: args =>
            let r := getoptFrom optstring ordering fuel [] args skipped
            { r with events := (c, some a) :: r.events }
      else
        let r := getoptFrom optstring ordering fuel cur args skipped
        { r with events := (c, none) :: r.events }

/-- The run of `getopt(argc, argv, opts)` that `grabArgs` makes, `av` being
`argv[1..argc)`. A leading `+` or `-` of `opts`, or POSIXLY_CORRECT in the
environment, selects the ordering. -/
def getopt (posixlyCorrect : Bool) (av : List (List Char)) (opts : List Char) : GetoptRun :=
  let ordering :=
    if peek opts = '-' then GetoptOrdering.RETURN_IN_ORDER
    else if peek opts = '+' ∨ posixlyCorrect then GetoptOrdering.REQUIRE_ORDER
    else GetoptOrdering.PERMUTE
  let optstring := if peek opts = '-' ∨ peek opts = '+' then opts.tail else opts
  getoptFrom optstring ordering ((av.map List.length).sum + av.length + 1) [] av []

/-! ## Expansion state and collaborators -/

/-- Kinds of compressed file that `rpmFileIsCompressed` tells apart. -/
inductive rpmCompressedMagic where
  | COMPRESSED_NOT
  | COMPRESSED_OTHER
  | COMPRESSED_BZIP2
  | COMPRESSED_ZIP
  | COMPRESSED_LZMA
  | COMPRESSED_XZ
  | COMPRESSED_LZIP
  | COMPRESSED_LRZIP
  | COMPRESSED_7ZIP
deriving DecidableEq, Repr

/-- What the expander takes from outside `macro.c`: the shell (`popen` gives
the output of the command, `none` when it cannot be started), the verbosity of
the logger, the environment, the configuration directory, `urlPath`, the
compression probe, the scripting host (`none` when built without it; it returns
whether the script ran and what it printed), POSIXLY_CORRECT as `getopt` sees
it, and the level constant `RMIL_GLOBAL` of rpmmacro.h. -/
structure Env where
  popen : List Char → Option (List Char)
  rpmIsVerbose : Bool
  getenv : List Char → Option (List Char)
  rpmConfigDir : List Char
  urlPath : List Char → List Char
  rpmFileIsCompressed : List Char → rpmCompressedMagic
  rpmluaRunScript : Option (List Char → Bool × Option (List Char))
  posixlyCorrect : Bool
  RMIL_GLOBAL : Int

/-- Macro expansion state (`struct MacroBuf_s`). `buf` is the text expanded
so far (`tpos` is its length); `fault` is raised when the C code reads past
the end of a string or through a freed entry. -/
structure MacroBuf where
  buf : List Char
  depth : Int
  macro_trace : Int
  expand_trace : Int
  mc : rpmMacroContext
  fault : Bool
deriving DecidableEq, Repr

/-- The type of `expandMacro(mb, src, slen)`: the state after the call and
the value returned. -/
abbrev Expander := MacroBuf → List Char → Nat → MacroBuf × Int

def mbAppend (mb : MacroBuf) (c : Char) : MacroBuf := { mb with buf := mb.buf ++ [c] }

def mbAppendStr (mb : MacroBuf) (str : List Char) : MacroBuf := { mb with buf := mb.buf ++ str }

/-- Expand `src` into a buffer of its own: the state of the caller
afterwards (the table is shared), the result and the text expanded. -/
def expandThis (rec : Expander) (mb : MacroBuf) (src : List Char) (slen : Nat) :
    MacroBuf × Int × List Char :=
  let r := rec { mb with buf := [] } src slen
  ({ mb with mc := r.1.mc, fault := r.1.fault }, r.2, r.1.buf)

def doShellEscape (env : Env) (rec : Expander) (mb : MacroBuf) (cmd : List Char) (clen : Nat) :
    MacroBuf × Int :=
  let r := expandThis rec mb cmd clen
  if r.2.1 ≠ 0 then (r.1, r.2.1)
  else
    match env.popen r.2.2 with
    | none => (r.1, 1)
    | some out => (mbAppendStr r.1 (out.rdropWhile iseol), 0)

/-- The free-field body of `doDefine`: the loop that copies the body up to the
end of the line. Gives the body copied, the scan position, `bc` and `pc`. -/
def copyBody : List Char → Int → Int → List Char → List Char × List Char × Int × Int
  | [], bc, pc, be => (be, [], bc, pc)
  | [c], bc, pc, be =>
    if bc = 0 ∧ pc = 0 ∧ iseol c then (be, [c], bc, pc)
    else if c = '{' then (be ++ [c], [], if bc > 0 then bc + 1 else bc, pc)
    else if c = '}' then (be ++ [c], [], if bc > 0 then bc - 1 else bc, pc)
    else if c = '(' then (be ++ [c], [], bc, if pc > 0 then pc + 1 else pc)
    else if c = ')' then (be ++ [c], [], bc, if pc > 0 then pc - 1 else pc)
    else (be ++ [c], [], bc, pc)
  | c :: d :: s, bc, pc, be =>
    if bc = 0 ∧ pc = 0 ∧ iseol c then (be, c :: d :: s, bc, pc)
    else if c = '\\' then copyBody s bc pc (be ++ [d])
    else if c = '%' then
      if d = '{' then copyBody s (bc + 1) pc (be ++ [c, d])
      else if d = '(' then copyBody s bc (pc + 1) (be ++ [c, d])
      else if d = '%' then copyBody s bc pc (be ++ [c, d])
      else copyBody (d :: s) bc pc (be ++ [c])
    else if c = '{' then copyBody (d :: s) (if bc > 0 then bc + 1 else bc) pc (be ++ [c])
    else if c = '}' then copyBody (d :: s) (if bc > 0 then bc - 1 else bc) pc (be ++ [c])
    else if c = '(' then copyBody (d :: s) bc (if pc > 0 then pc + 1 else pc) (be ++ [c])
    else if c = ')' then copyBody (d :: s) bc (if pc > 0 then pc - 1 else pc) (be ++ [c])
    else copyBody (d :: s) bc pc (be ++ [c])

/-- What `doDefine` makes of the body of a definition. -/
inductive BodyParse where
  /-- The body and the scan position after it. -/
  | ok (b : List Char) (s : List Char)
  /-- Unterminated body; the position the scan stopped at. -/
  | unterminated (s : List Char)
  | overrun
deriving DecidableEq, Repr

/-- The body of a definition, from the scan position after `SKIPBLANK`. -/
def parseDefineBody (s : List Char) : BodyParse :=
  if peek s = '{' then
    match matchchar s '{' '}' with
    | .null => .unterminated s
    | .overrun => .overrun
    | .found se => .ok (s.tail.take (s.tail.length - se.length)) se.tail
  else
    let r := copyBody s 0 0 []
    if r.2.2.1 ≠ 0 ∨ r.2.2.2 ≠ 0 then .unterminated r.2.1
    else .ok (r.1.rdropWhile (fun c => isblank c || iseol c)) r.2.1

/-- Names must start with alphabetic or _ and be at least 3 chars. -/
def legalName (n : List Char) : Bool :=
  (risalpha (peek n) || peek n == '_') && decide (n.length > 2)

/-- Parse (and execute) a new definition: the state afterwards and the
address to continue parsing at. -/
def doDefine (rec : Expander) (mb : MacroBuf) (se : List Char) (level : Int)
    (expandbody : Bool) : MacroBuf × List Char :=
  let n := (COPYNAME se).1
  let s := (COPYNAME se).2
  if peek s = '(' ∧ (COPYOPTS s.tail).2 = [] then
    -- the options are not closed: `s++` steps over the terminator
    ({ mb with fault := true }, [])
  else
    let o : Option (List Char) := if peek s = '(' then some (COPYOPTS s.tail).1 else none
    let sbody := if peek s = '(' then (COPYOPTS s.tail).2.tail else s
    match parseDefineBody (SKIPBLANK sbody) with
    | .overrun => ({ mb with fault := true }, [])
    | .unterminated s1 => (mb, s1)
    | .ok b s1 =>
      let se1 := s1.dropWhile iseol
      if !legalName n then (mb, se1)
      else if b = [] then (mb, se1)
      else if expandbody then
        let r := expandThis rec mb b 0
        if r.2.1 ≠ 0 then (r.1, se1)
        else ({ r.1 with mc := addMacro r.1.mc n o r.2.2 (level - 1) }, se1)
      else ({ mb with mc := addMacro mb.mc n o b (level - 1) }, se1)

/-- Parse (and execute) an undefinition: the table afterwards and the
address to continue parsing at. -/
def doUndefine (mc : rpmMacroContext) (se : List Char) : rpmMacroContext × List Char :=
  let n := (COPYNAME se).1
  let s := ((COPYNAME se).2).dropWhile iseol
  if !legalName n then (mc, s) else (delMacro mc n, s)

/-- One turn of the loop of `freeArgs` on a slot. -/
def freeArgsSlot (depth : Int) (slot : Slot) : Slot :=
  match slot with
  | [] => []
  | me :: _ => if me.level < depth then slot else popMacro slot

def freeArgs (mb : MacroBuf) : MacroBuf :=
  let mc := mb.mc
  if mc.macroTable = [] then mb
  else
    let live := mc.macroTable.take mc.firstFree
    let freed := live.map (freeArgsSlot mb.depth)
    let ndeleted := ((live.zip freed).filter (fun p => !p.1.isEmpty && p.2.isEmpty)).length
    let mc1 := { mc with macroTable := freed ++ mc.macroTable.drop mc.firstFree }
    { mb with mc := if ndeleted ≠ 0 then sortMacroTable mc1 else mc1 }

/-- Decimal numeral of `rasprintf(&s, "%d", n)` for `n ≥ 0`. -/
def decimal (n : Nat) : List Char := Nat.toDigits 10 n

/-- The loop of `grabArgs` over the values of `getopt`: the table with the
option macros, and whether every option was known. -/
def grabOpts (opts : List Char) (depth : Int) :
    List (Char × Option (List Char)) → rpmMacroContext → rpmMacroContext × Bool
  | [], mc => (mc, true)
  | (c, optarg) :: evs, mc =>
    if c = '?' ∨ strchr opts c = none then (mc, false)
    else
      match optarg with
      | some a =>
        grabOpts opts depth evs
          (addMacro (addMacro mc ['-', c] none (['-', c, ' '] ++ a) depth) ['-', c, '*'] none a depth)
      | none => grabOpts opts depth evs (addMacro mc ['-', c] none ['-', c] depth)

/-- The loop of `grabArgs` that adds a macro for each argument, from number `i` on. -/
def grabArgv (depth : Int) : List (List Char) → Nat → rpmMacroContext → rpmMacroContext
  | [], _, mc => mc
  | a :: as, i, mc => grabArgv depth as (i + 1) (addMacro mc (decimal i) none a depth)

/-- Parse the arguments of a parameterized macro; `se` is where they start
and `lastc` where they stop. Gives the state with the argument macros and the
address to continue parsing at. -/
def grabArgs (env : Env) (mb : MacroBuf) (me : rpmMacroEntry) (se lastc : List Char) :
    MacroBuf × List Char :=
  let next := if lastc ≠ [] then lastc.tail else lastc
  let mc0 := addMacro mb.mc ['0'] none me.name mb.depth
  let av := argvSplit (se.take (se.length - lastc.length)) [' ', '\t']
  let mc1 := addMacro mc0 ['*', '*'] none (argvJoin av [' ']) mb.depth
  let opts := me.opts.getD []
  let run := getopt env.posixlyCorrect av opts
  let r := grabOpts opts mb.depth run.events mc1
  if !r.2 then ({ mb with mc := r.1 }, next)
  else
    let mc2 := addMacro r.1 ['#'] none (decimal run.rest.length) mb.depth
    let mc3 := grabArgv mb.depth run.rest 1 mc2
    ({ mb with mc := addMacro mc3 ['*'] none (argvJoin run.rest [' ']) mb.depth }, next)

def doOutput (rec : Expander) (mb : MacroBuf) (msg : List Char) (msglen : Nat) : MacroBuf :=
  (expandThis rec mb msg msglen).1

/-- The string `b` that `doFoo` computes from the expanded argument `buf`;
`none` is NULL. -/
def fooResult (env : Env) (negate : Bool) (f : List Char) (fn : Nat) (buf : List Char) :
    Option (List Char) :=
  if STREQ "basename" f fn then
    match strrchr buf '/' with
    | none => some buf
    | some b => some b.tail
  else if STREQ "dirname" f fn then
    match strrchr buf '/' with
    | none => some buf
    | some b => some (buf.take (buf.length - b.length))
  else if STREQ "suffix" f fn then
    match strrchr buf '.' with
    | none => none
    | some b => some b.tail
  else if STREQ "expand" f fn then some buf
  else if STREQ "verbose" f fn then
    if negate then (if env.rpmIsVerbose then none else some buf)
    else (if env.rpmIsVerbose then some buf else none)
  else if STREQ "url2path" f fn || STREQ "u2p" f fn then
    if env.urlPath buf = [] then some ['/'] else some (env.urlPath buf)
  else if STREQ "uncompress" f fn then
    let b := (buf.dropWhile isblank).takeWhile (fun c => !isblank c)
    match env.rpmFileIsCompressed b with
    | .COMPRESSED_NOT => some ("%__cat ".toList ++ b)
    | .COMPRESSED_OTHER => some ("%__gzip -dc ".toList ++ b)
    | .COMPRESSED_BZIP2 => some ("%__bzip2 -dc ".toList ++ b)
    | .COMPRESSED_ZIP => some ("%__unzip ".toList ++ b)
    | .COMPRESSED_LZMA => some ("%__xz -dc ".toList ++ b)
    | .COMPRESSED_XZ => some ("%__xz -dc ".toList ++ b)
    | .COMPRESSED_LZIP => some ("%__lzip -dc ".toList ++ b)
    | .COMPRESSED_LRZIP => some ("%__lrzip -dqo- ".toList ++ b)
    | .COMPRESSED_7ZIP => some ("%__7zip x ".toList ++ b)
  else if STREQ "getenv" f fn then env.getenv buf
  else if STREQ "getconfdir" f fn then some env.rpmConfigDir
  else if STREQ "S" f fn then
    if buf.all risdigit then some ("%SOURCE".toList ++ buf) else some buf
  else if STREQ "P" f fn then
    if buf.all risdigit then some ("%PATCH".toList ++ buf) else some buf
  else if STREQ "F" f fn then some ("file".toList ++ buf ++ ".file".toList)
  else none

/-- Execute macro primitives. `g` is `none` when the field is absent. -/
def doFoo (env : Env) (rec : Expander) (mb : MacroBuf) (negate : Bool) (f : List Char) (fn : Nat)
    (g : Option (List Char)) (gn : Nat) : MacroBuf :=
  let r : MacroBuf × List Char :=
    match g with
    | some g =>
      let x := expandThis rec mb g gn
      (x.1, x.2.2)
    | none => (mb, [])
  match fooResult env negate f fn r.2 with
  | some b => (rec r.1 b 0).1
  | none => r.1

/-! ## The expander -/

/-- The pointers that `expandMacro` sets while it parses a reference:
`f`..`fe` is the name, `g`..`ge` the field after the colon (`g` is `none`
when NULL), `se` the end of the reference, `lastc` the end of the arguments. -/
structure MacroRef where
  f : List Char
  fe : List Char
  g : Option (List Char)
  ge : List Char
  se : List Char
  lastc : Option (List Char)
  negate : Bool
  chkexist : Int
deriving DecidableEq, Repr

def MacroRef.fn (r : MacroRef) : Nat := r.f.length - r.fe.length

def MacroRef.gn (r : MacroRef) : Nat :=
  match r.g with
  | some g => g.length - r.ge.length
  | none => 0

/-- What the first switch of the expansion loop finds after a `%`. -/
inductive ParsedRef where
  /-- Not a valid name: the `%` is copied as it is. -/
  | asis
  /-- An unterminated or invalid reference: `rc = 1`. -/
  | error
  /-- The bracket matcher ran over the terminator. -/
  | overrun
  /-- A shell escape; `se` points at its closing parenthesis. -/
  | shell (se : List Char)
  | ref (r : MacroRef)
deriving DecidableEq, Repr

/-- The first switch of the expansion loop; `s` is the text after the `%`. -/
def parseRef (s : List Char) : ParsedRef :=
  if peek s = '(' then
    match matchchar s '(' ')' with
    | .null => .error
    | .overrun => .overrun
    | .found se => .shell se
  else if peek s = '{' then
    match matchchar s '{' '}' with
    | .null => .error
    | .overrun => .overrun
    | .found se0 =>
      let fl := parseMacroFlags s.tail false 0
      match parseMacroName fl.1 with
      | none => .error
      | some fe =>
        if peek fe = ':' then
          .ref { f := fl.1, fe := fe, g := some fe.tail, ge := se0, se := se0.tail,
                 lastc := none, negate := fl.2.1, chkexist := fl.2.2 }
        else if peek fe = ' ' ∨ peek fe = '\t' then
          .ref { f := fl.1, fe := fe, g := none, ge := [], se := se0.tail,
                 lastc := some se0, negate := fl.2.1, chkexist := fl.2.2 }
        else if peek fe = '}' then
          .ref { f := fl.1, fe := fe, g := none, ge := [], se := se0.tail,
                 lastc := none, negate := fl.2.1, chkexist := fl.2.2 }
        else .error
  else
    let fl := parseMacroFlags s false 0
    match parseMacroName fl.1 with
    | none => .asis
    | some fe =>
      .ref { f := fl.1, fe := fe, g := none, ge := [], se := fe,
             lastc := if isblank (peek fe) then some ((strchr fe '\n').getD []) else none,
             negate := fl.2.1, chkexist := fl.2.2 }

/-- The `used` counter of the entry at address `id`, incremented. -/
def markUsed (mc : rpmMacroContext) (id : Nat) : rpmMacroContext :=
  { mc with macroTable := mc.macroTable.map (fun slot =>
      slot.map (fun e => if e.id = id then { e with used := e.used + 1 } else e)) }

/-- The entry at address `id` has not been freed. -/
def isLive (mc : rpmMacroContext) (id : Nat) : Bool :=
  mc.macroTable.any (fun slot => slot.any (fun e => e.id == id))

/-- Names of the primitives that `doFoo` executes. -/
def isFoo (f : List Char) (fn : Nat) : Bool :=
  STREQ "basename" f fn || STREQ "dirname" f fn || STREQ "suffix" f fn ||
  STREQ "expand" f fn || STREQ "verbose" f fn || STREQ "uncompress" f fn ||
  STREQ "url2path" f fn || STREQ "u2p" f fn || STREQ "getenv" f fn ||
  STREQ "getconfdir" f fn || STREQ "S" f fn || STREQ "P" f fn || STREQ "F" f fn

/-- Special processing for flags (`%{-f...}`) and for macro existence
(`%{?f...}`): what follows the lookup when the name starts with `-` or
`chkexist` is set. -/
def expandCond (rec : Expander) (mb : MacroBuf) (r : MacroRef) (me : Option rpmMacroEntry) :
    MacroBuf × Int × List Char :=
  if (me.isNone ∧ !r.negate) ∨ (me.isSome ∧ r.negate) then (mb, 0, r.se)
  else if r.g.isSome ∧ r.gn > 0 then
    let x := rec mb (r.g.getD []) r.gn
    (x.1, x.2, r.se)
  else
    match me with
    | some e =>
      if e.body ≠ [] then
        let x := rec mb e.body 0
        (x.1, x.2, r.se)
      else (mb, 0, r.se)
    | none => (mb, 0, r.se)

/-- Substitution of a defined macro `me`: the arguments are set up, the body
is expanded, the arguments are freed. -/
def expandBody (env : Env) (rec : Expander) (mb : MacroBuf) (r : MacroRef) (me : rpmMacroEntry) :
    MacroBuf × Int × List Char :=
  let a : MacroBuf × List Char :=
    if me.opts.isSome then
      match r.lastc with
      | some lastc => grabArgs env mb me r.fe lastc
      | none =>
        let mc1 := addMacro mb.mc ['*', '*'] none [] mb.depth
        let mc2 := addMacro mc1 ['*'] none [] mb.depth
        let mc3 := addMacro mc2 ['#'] none ['0'] mb.depth
        ({ mb with mc := addMacro mc3 ['0'] none me.name mb.depth }, r.se)
    else (mb, r.se)
  let b : MacroBuf × Int :=
    if me.body ≠ [] then
      let x := rec a.1 me.body 0
      if ¬ isLive x.1.mc me.id then ({ x.1 with fault := true }, x.2)
      else if x.2 = 0 then ({ x.1 with mc := markUsed x.1.mc me.id }, x.2)
      else x
    else (a.1, 0)
  (if me.opts.isSome then freeArgs b.1 else b.1, b.2, a.2)

/-- Expand defined macros: the part of the expansion loop from the lookup of
the name on. `s` is the text after the `%`. -/
def expandDefined (env : Env) (rec : Expander) (mb : MacroBuf) (s : List Char) (r : MacroRef) :
    MacroBuf × Int × List Char :=
  let me := lookup mb.mc r.f r.fn
  if peek r.f = '-' then
    expandCond rec
      (match me with
        | some e => { mb with mc := markUsed mb.mc e.id }
        | none => mb) r me
  else if r.chkexist ≠ 0 then expandCond rec mb r me
  else
    match me with
    | none => (mbAppend mb '%', 0, s)
    | some e => expandBody env rec mb r e

/-- The part of the expansion loop after the reference is parsed: the
built-in macros, then the defined ones. `s` is the text after the `%`. Gives
the state, `rc` and the address to continue at. -/
def expandRef (env : Env) (rec : Expander) (mb : MacroBuf) (s : List Char) (r : MacroRef) :
    MacroBuf × Int × List Char :=
  if STREQ "global" r.f r.fn then
    let x := doDefine rec mb r.se env.RMIL_GLOBAL true
    (x.1, 0, x.2)
  else if STREQ "define" r.f r.fn then
    let x := doDefine rec mb r.se mb.depth false
    (x.1, 0, x.2)
  else if STREQ "undefine" r.f r.fn then
    let x := doUndefine mb.mc r.se
    ({ mb with mc := x.1 }, 0, x.2)
  else if STREQ "echo" r.f r.fn || STREQ "warn" r.f r.fn || STREQ "error" r.f r.fn then
    if r.g.isSome ∧ r.gn > 0 then (doOutput rec mb (r.g.getD []) r.gn, 0, r.se)
    else (doOutput rec mb r.f r.fn, 0, r.se)
  else if STREQ "trace" r.f r.fn then
    ({ mb with expand_trace := if r.negate then 0 else mb.depth,
               macro_trace := if r.negate then 0 else mb.depth }, 0, r.se)
  else if STREQ "dump" r.f r.fn then (mb, 0, r.se.dropWhile iseol)
  else if env.rpmluaRunScript.isSome ∧ STREQ "lua" r.f r.fn then
    match env.rpmluaRunScript with
    | none => (mb, 0, r.se)
    | some run =>
      if s.length < r.se.length + 6 then ({ mb with fault := true }, 1, r.se)
      else
        let out := run ((s.drop 5).take (s.length - 5 - (r.se.length + 1)))
        (mbAppendStr mb (out.2.getD []), if out.1 then 0 else 1, r.se)
  else if isFoo r.f r.fn then (doFoo env rec mb r.negate r.f r.fn r.g r.gn, 0, r.se)
  else expandDefined env rec mb s r

/-- One turn of the expansion loop at the character `c`, `s` being the text
after it: the state, `rc` and the address to continue at. -/
def expandStep (env : Env) (rec : Expander) (mb : MacroBuf) (c : Char) (s : List Char) :
    MacroBuf × Int × List Char :=
  if c ≠ '%' then (mbAppend mb c, 0, s)
  else if s = [] then (mbAppend mb c, 0, s)
  else if peek s = '%' then (mbAppend mb c, 0, s.tail)
  else
    match parseRef s with
    | .asis => (mbAppend mb '%', 0, s)
    | .error => (mb, 1, s)
    | .overrun => ({ mb with fault := true }, 1, s)
    | .shell se =>
      let x := doShellEscape env rec mb s.tail (s.tail.length - se.length)
      (x.1, x.2, se.tail)
    | .ref r => expandRef env rec mb s r

/-- The loop of `expandMacro`, `while (rc == 0 && (c = *s) != 0)`, entered with
`rc = 0`. `fuel` bounds the number of turns (every turn moves `s` forward, so
the length of `s` is enough); the value 2, which the C function never returns,
tells that it ran out. -/
def expandLoop (env : Env) (rec : Expander) : Nat → MacroBuf → List Char → MacroBuf × Int
  | _, mb, [] => (mb, 0)
  | 0, mb, _ :: _ => (mb, 2)
  | fuel + 1, mb, c :: s =>
    let x := expandStep env rec mb c s
    if x.2.1 ≠ 0 then (x.1, x.2.1) else expandLoop env rec fuel x.1 x.2.2

/-- The main macro recursion loop. `fuel` bounds the depth of the recursion:
`max_macro_depth + 1 - mb.depth` is enough, the value 2 tells that it ran out. -/
def expandMacro (env : Env) : Nat → Expander
  | 0, mb, _, _ => (mb, 2)
  | fuel + 1, mb, src, slen =>
    if mb.depth + 1 > max_macro_depth then ({ mb with expand_trace := 1 }, 1)
    else
      let source := src.take (if slen = 0 then src.length else slen)
      let r := expandLoop env (expandMacro env fuel) (source.length + 1)
        { mb with depth := mb.depth + 1 } source
      ({ r.1 with depth := r.1.depth - 1 }, r.2)

/-- The state `doExpandMacros` starts from (tracing off). -/
def initialBuf (mc : rpmMacroContext) : MacroBuf :=
  { buf := [], depth := 0, macro_trace := 0, expand_trace := 0, mc := mc, fault := false }

/-- Expand `src` in the context `mc`: the final state (`buf` is the target,
`mc` the context afterwards) and the value returned. -/
def doExpandMacros (env : Env) (mc : rpmMacroContext) (src : List Char) : MacroBuf × Int :=
  expandMacro env 17 (initialBuf mc) src 0

/-! ## The interface functions -/

/-- Define a macro from the text of a definition (`name[(opts)] body`): the
context afterwards and the value returned, which is always 0. -/
def rpmDefineMacro (env : Env) (mc : rpmMacroContext) (text : List Char) (level : Int) :
    rpmMacroContext × Int :=
  ((doDefine (expandMacro env 17) (initialBuf mc) text level false).1.mc, 0)

/-- One turn of the loop of `rpmLoadMacros`, on the slot `slot` of the source
context: its visible entry is added to the global context `g`. -/
def loadSlot (level : Int) (g : rpmMacroContext) (slot : Slot) : rpmMacroContext :=
  match slot with
  | [] => g
  | me :: _ => addMacro g me.name me.opts me.body (level - 1)

/-- Load the macros of the context `mc` into the global context `glob`;
`none` stands for a NULL `mc` and for the global context itself. The global
context afterwards. -/
def rpmLoadMacros (glob : rpmMacroContext) (mc : Option rpmMacroContext) (level : Int) :
    rpmMacroContext :=
  match mc with
  | none => glob
  | some src =>
    if src.macroTable = [] then glob
    else (src.macroTable.take src.firstFree).foldl (loadSlot level) glob

/-- The strings `arg, ...` joined and expanded in the global context `glob`:
the text expanded, whatever the expansion returns, and the global context
afterwards. -/
def rpmExpand (env : Env) (glob : rpmMacroContext) (args : List (List Char)) :
    List Char × rpmMacroContext :=
  ((doExpandMacros env glob args.flatten).1.buf, (doExpandMacros env glob args.flatten).1.mc)

/-- `isspace(3)` in the C locale. -/
def isspace (c : Char) : Bool :=
  c == ' ' || c == '\t' || c == '\n' || c == Char.ofNat 11 || c == Char.ofNat 12 || c == '\r'

/-- The value of a character as a digit, in bases up to 36. -/
def digitVal (c : Char) : Option Nat :=
  if 48 ≤ c.toNat ∧ c.toNat ≤ 57 then some (c.toNat - 48)
  else if 97 ≤ c.toNat ∧ c.toNat ≤ 122 then some (c.toNat - 97 + 10)
  else if 65 ≤ c.toNat ∧ c.toNat ≤ 90 then some (c.toNat - 65 + 10)
  else none

/-- The character is a digit of the base. -/
def isDigitOf (base : Nat) (c : Char) : Bool :=
  match digitVal c with
  | some d => decide (d < base)
  | none => false

/-- The digits of `strtol`: the value accumulated and the first character
that is not a digit of the base. -/
def strtolDigits (base : Nat) : List Char → Nat → Nat × List Char
  | [], acc => (acc, [])
  | c :: s, acc =>
    match digitVal c with
    | some d => if d < base then strtolDigits base s (acc * base + d) else (acc, c :: s)
    | none => (acc, c :: s)

def LONG_MAX : Int := 2 ^ 63 - 1

def LONG_MIN : Int := -(2 ^ 63)

/-- The value `strtol` returns for the magnitude `v`: out of range it is
`LONG_MAX` or `LONG_MIN`. -/
def strtolValue (neg : Bool) (v : Nat) : Int :=
  if neg then (if -(v : Int) < LONG_MIN then LONG_MIN else -(v : Int))
  else (if (v : Int) > LONG_MAX then LONG_MAX else (v : Int))

/-- The library routine `strtol(3)` called with base 0, `long` being 64 bits
wide: white space, an optional sign, then a hexadecimal number after `0x`, an
octal one after `0`, a decimal one otherwise. Gives the value and `*endptr`;
when no digit is found the value is 0 and `*endptr` is the string itself. -/
def strtol (s : List Char) : Int × List Char :=
  let s1 := s.dropWhile isspace
  let neg : Bool := peek s1 == '-'
  let s2 := if peek s1 = '-' ∨ peek s1 = '+' then s1.tail else s1
  if peek s2 = '0' ∧ (peek s2.tail = 'x' ∨ peek s2.tail = 'X') ∧
      isDigitOf 16 (peek s2.tail.tail) = true then
    let r := strtolDigits 16 s2.tail.tail 0
    (strtolValue neg r.1, r.2)
  else
    let r := strtolDigits (if peek s2 = '0' then 8 else 10) s2 0
    if r.2.length = s2.length then (0, s) else (strtolValue neg r.1, r.2)

/-- Conversion of a `long` to `int` (32 bits, two's complement). -/
def longToInt (v : Int) : Int := (v + 2 ^ 31) % 2 ^ 32 - 2 ^ 31

/-- Return the value of the macro expression `arg` as a number; `none` is a
NULL `arg`. -/
def rpmExpandNumeric (env : Env) (glob : rpmMacroContext) (arg : Option (List Char)) : Int :=
  match arg with
  | none => 0
  | some a =>
    let val := (rpmExpand env glob [a]).1
    if ¬ (peek val ≠ '%') then 0
    else if peek val = 'Y' ∨ peek val = 'y' then 1
    else if peek val = 'N' ∨ peek val = 'n' then 0
    else
      let r := strtol val
      if ¬ (r.2 = []) then 0 else longToInt r.1

/-- A collaborator set for examples: no shell, quiet, empty environment, no
scripting host. -/
def quietEnv : Env :=
  { popen := fun _ => none
    rpmIsVerbose := false
    getenv := fun _ => none
    rpmConfigDir := "/usr/lib/rpm".toList
    urlPath := fun u => u
    rpmFileIsCompressed := fun _ => .COMPRESSED_NOT
    rpmluaRunScript := none
    posixlyCorrect := false
    RMIL_GLOBAL := 0 }

/-- The table of the example of the specification, but for the option spec:
`greet` is defined with the option spec `opts` and the body
`hello %{-n*} world`. -/
def greetTable (opts : List Char) : rpmMacroContext :=
  addMacro emptyContext "greet".toList (some opts)
    ("hello %".toList ++ '{' :: ("-n*".toList ++ '}' :: " world".toList)) 0

/-! ## Auxiliary notions for the theorems -/

/-- The state with the text `p` put in front of what the buffer holds. -/
def MacroBuf.pre (p : List Char) (mb : MacroBuf) : MacroBuf := { mb with buf := p ++ mb.buf }

/-- An expander that only appends to the buffer it is given. -/
@[reducible] def Framed (rec : Expander) : Prop :=
  ∀ p buf d mt et mc fl src slen, rec ⟨p ++ buf, d, mt, et, mc, fl⟩ src slen
    = ((rec ⟨buf, d, mt, et, mc, fl⟩ src slen).1.pre p, (rec ⟨buf, d, mt, et, mc, fl⟩ src slen).2)

/-- The name of a slot: the name its entries share; the empty string for the
NULL slot. -/
def slotName (s : Slot) : List Char :=
  match s with
  | [] => []
  | e :: _ => e.name

/-- The slots in use: those below `firstFree`. -/
def rpmMacroContext.live (mc : rpmMacroContext) : List Slot := mc.macroTable.take mc.firstFree

/-- The stack of definitions of the name `n`, as `findEntry` finds it; empty
when the name is not defined. -/
def stackOf (mc : rpmMacroContext) (n : List Char) : Slot :=
  match findEntry mc n 0 with
  | some i => mc.macroTable.getD i []
  | none => []

/-- The key that `findEntry` searches with: an entry holding only the name. -/
def keyOf (n : List Char) : Slot :=
  [{ id := 0, name := n, opts := none, body := [], used := 0, level := 0 }]

/-- The first NULL among the slots, their number when there is none. -/
def firstNull (s : List Slot) : Nat := (s.findIdx? (fun x => x.isEmpty)).getD s.length

/-- Two slots in use do not hold the same name. -/
def DistinctNames (a b : Slot) : Prop := a ≠ [] → b ≠ [] → slotName a ≠ slotName b

/-- The shape of a macro table right before `sortMacroTable`: as `TableInv`,
but the slots below `firstFree` may be in any order and some may be NULL. -/
structure PreInv (mc : rpmMacroContext) : Prop where
  le : mc.firstFree ≤ mc.macroTable.length
  free : ∀ s ∈ mc.macroTable.drop mc.firstFree, s = []
  distinct : mc.live.Pairwise DistinctNames
  names : ∀ s ∈ mc.live, ∀ e ∈ s, e.name = slotName s

/-- The shape of a macro table between two calls: the slots below
`firstFree` are in use, each holds the definitions of one name, and they are
sorted by name without repetition; the slots from `firstFree` on are NULL. -/
structure TableInv (mc : rpmMacroContext) : Prop where
  le : mc.firstFree ≤ mc.macroTable.length
  used : ∀ s ∈ mc.live, s ≠ []
  free : ∀ s ∈ mc.macroTable.drop mc.firstFree, s = []
  sorted : mc.live.Pairwise (fun a b => strcmp (slotName a) (slotName b) < 0)
  names : ∀ s ∈ mc.live, ∀ e ∈ s, e.name = slotName s

/-- The contexts that `addMacro` and `delMacro` make from the empty one. -/
inductive Reachable : rpmMacroContext → Prop where
  | empty : Reachable emptyContext
  | add (mc : rpmMacroContext) (n : List Char) (o : Option (List Char)) (b : List Char)
      (level : Int) : Reachable mc → Reachable (addMacro mc n o b level)
  | del (mc : rpmMacroContext) (n : List Char) : Reachable mc → Reachable (delMacro mc n)

/-- The name `f`..`f + fn` is one of the built-in macros of the expansion
loop (`lua` only when the scripting host is compiled in). -/
def isBuiltin (env : Env) (f : List Char) (fn : Nat) : Bool :=
  STREQ "global" f fn || STREQ "define" f fn || STREQ "undefine" f fn ||
  STREQ "echo" f fn || STREQ "warn" f fn || STREQ "error" f fn ||
  STREQ "trace" f fn || STREQ "dump" f fn ||
  (env.rpmluaRunScript.isSome && STREQ "lua" f fn) || isFoo f fn

/-- The name `n` is the name of a built-in macro. -/
def isBuiltinName (env : Env) (n : List Char) : Bool := isBuiltin env n n.length

/-- The characters a name is made of. -/
def nameCharOK (c : Char) : Bool := isNameChar c || c == '#' || c == '*' || c == '-'

/-- The shapes of the names that `parseMacroName` accepts in full. -/
def NameShape (n : List Char) : Prop :=
  (∃ c s1, n = c :: s1 ∧ (risalpha c = true ∨ c = '_') ∧ (∀ a ∈ s1, isNameChar a = true) ∧
      2 ≤ s1.length) ∨
  n = ['0'] ∨ n = ['#'] ∨ n = ['S'] ∨ n = ['P'] ∨ n = ['F'] ∨ n = ['*'] ∨ n = ['*', '*'] ∨
  (∃ x, n = ['-', x] ∧ risalnum x = true) ∨
  (∃ x, n = ['-', x, '*'] ∧ risalnum x = true) ∨
  (∃ c s1, n = c :: s1 ∧ risdigit c = true ∧ c ≠ '0' ∧ (∀ a ∈ s1, risdigit a = true))

/-- A character that the free-field body of a definition copies as it is:
no line end, no `%`, no backslash, no brace, no parenthesis. -/
def isBodyChar (c : Char) : Bool :=
  !(iseol c || c == '%' || c == '\\' || c == '{' || c == '}' || c == '(' || c == ')')

/-- A body character that is not a blank. -/
def isPlain (c : Char) : Bool := isBodyChar c && !isblank c

/-- A text is at its end or at a character for which `p` fails. -/
def StopsAt (p : Char → Bool) (s : List Char) : Prop := s = [] ∨ p (peek s) = false

/-- The text `s` starts with a name that ends where `rest` starts, the name
being: an identifier of 3 or more letters, digits and underscores that begins
with a letter or an underscore and is not continued in `rest`; one of the
letters `S`, `P`, `F` alone; `0` or `#`; `*` not followed by `*`, or `**`;
`-X`, not followed by `*`, or `-X*`, with `X` a letter or digit; a run of
digits that begins with a digit other than `0` and is not continued. -/
def AcceptedName (s rest : List Char) : Prop :=
  (∃ c w, s = c :: (w ++ rest) ∧ (risalpha c = true ∨ c = '_') ∧
      (∀ a ∈ w, isNameChar a = true) ∧ 2 ≤ w.length ∧ StopsAt isNameChar rest) ∨
  (∃ c, s = c :: rest ∧ (c = 'S' ∨ c = 'P' ∨ c = 'F') ∧ StopsAt isNameChar rest) ∨
  (∃ c, s = c :: rest ∧ (c = '0' ∨ c = '#')) ∨
  (s = '*' :: rest ∧ peek rest ≠ '*') ∨
  s = '*' :: '*' :: rest ∨
  (∃ x, s = '-' :: x :: rest ∧ risalnum x = true ∧ peek rest ≠ '*') ∨
  (∃ x, s = '-' :: x :: '*' :: rest ∧ risalnum x = true) ∨
  (∃ c w, s = c :: (w ++ rest) ∧ risdigit c = true ∧ c ≠ '0' ∧
      (∀ a ∈ w, risdigit a = true) ∧ StopsAt risdigit rest)

/-- The number that the digits `ds` denote in the base `base`. -/
def literalValue (base : Nat) (ds : List Char) : Nat :=
  ds.foldl (fun a c => a * base + (digitVal c).getD 0) 0

/-- The text `s` is, as a whole, an integer literal with automatic base that
denotes `v`, in the words of the specification: hexadecimal digits after `0x`
or `0X`, octal digits after `0`, or decimal digits that do not begin with
`0`. -/
def AutoBaseLiteral (s : List Char) (v : Nat) : Prop :=
  (∃ x ds, s = '0' :: x :: ds ∧ (x = 'x' ∨ x = 'X') ∧ ds ≠ [] ∧
      (∀ c ∈ ds, isDigitOf 16 c = true) ∧ v = literalValue 16 ds) ∨
  (∃ ds, s = '0' :: ds ∧ (∀ c ∈ ds, isDigitOf 8 c = true) ∧ v = literalValue 8 ds) ∨
  (∃ d ds, s = d :: ds ∧ isDigitOf 10 d = true ∧ d ≠ '0' ∧
      (∀ c ∈ ds, isDigitOf 10 c = true) ∧ v = literalValue 10 (d :: ds))

/-- The macros `bs` (name and body) defined one after the other at the
level `d`, without options. -/
def bindAll (d : Int) (bs : List (List Char × List Char)) (mc : rpmMacroContext) :
    rpmMacroContext :=
  bs.foldl (fun m b => addMacro m b.1 none b.2 d) mc

/-- The macros of the arguments `av`, numbered from `i` on. -/
def numbered : List (List Char) → Nat → List (List Char × List Char)
  | [], _ => []
  | a :: as, i => (decimal i, a) :: numbered as (i + 1)

/-- The macros that a call of the macro `name` with the arguments `av`, none
of them an option, binds, in the order `grabArgs` binds them. -/
def argBindings (name : List Char) (av : List (List Char)) : List (List Char × List Char) :=
  [(['0'], name), (['*', '*'], argvJoin av [' ']), (['#'], decimal av.length)] ++
    (numbered av 1 ++ [(['*'], argvJoin av [' '])])

/-- The macros that a call without an argument region binds. -/
def noArgBindings (name : List Char) : List (List Char × List Char) :=
  [(['*', '*'], []), (['*'], []), (['#'], ['0']), (['0'], name)]

/-- The pointers of a parsed reference lie inside the text it was parsed from. -/
def MacroRef.within (r : MacroRef) (s : List Char) : Prop :=
  r.se.length ≤ s.length ∧ (∀ l, r.lastc = some l → l.length ≤ s.length)


/-- An expander that keeps the table in shape and returns at the depth it was
entered at. -/
@[reducible] def Keeps (rec : Expander) : Prop :=
  ∀ mb src slen, TableInv mb.mc →
    TableInv (rec mb src slen).1.mc ∧ (rec mb src slen).1.depth = mb.depth

/-- What a definition says: name, options, body and level of the entry. -/
def defOf (e : rpmMacroEntry) : List Char × Option (List Char) × List Char × Int :=
  (e.name, e.opts, e.body, e.level)

/-- The table `mc1` holds the definitions of `mc`: under every name the same
definitions in the same stack order. -/
def SameDefs (mc mc1 : rpmMacroContext) : Prop :=
  ∀ m, (stackOf mc1 m).map defOf = (stackOf mc m).map defOf

/-- The option macros that the loop of `grabArgs` over the values of `getopt`
binds, in the order it binds them. -/
def optBindings (opts : List Char) :
    List (Char × Option (List Char)) → List (List Char × List Char)
  | [] => []
  | (c, optarg) :: evs =>
    if c = '?' ∨ strchr opts c = none then []
    else
      match optarg with
      | some a => (['-', c], ['-', c, ' '] ++ a) :: (['-', c, '*'], a) :: optBindings opts evs
      | none => (['-', c], ['-', c]) :: optBindings opts evs

/-- Every value of `getopt` is an option of `opts`. -/
def optsKnown (opts : List Char) : List (Char × Option (List Char)) → Bool
  | [] => true
  | (c, _) :: evs => if c = '?' ∨ strchr opts c = none then false else optsKnown opts evs

/-- The macros that a call of the macro `name` (options `opts`) with the
words `av` binds, in the order `grabArgs` binds them; after an unknown option
the remaining ones are not bound. -/
def callBindings (posix : Bool) (name opts : List Char) (av : List (List Char)) :
    List (List Char × List Char) :=
  [(['0'], name), (['*', '*'], argvJoin av [' '])] ++
    (optBindings opts (getopt posix av opts).events ++
      (if optsKnown opts (getopt posix av opts).events then
        [(['#'], decimal (getopt posix av opts).rest.length)] ++
          (numbered (getopt posix av opts).rest 1 ++
            [(['*'], argvJoin (getopt posix av opts).rest [' '])])
       else []))

/-- An expander that returns at the depth it was entered at. -/
@[reducible] def KeepsDepth (rec : Expander) : Prop :=
  ∀ mb src slen, (rec mb src slen).1.depth = mb.depth

/-- The text of a file made of the physical lines `lines`, each of them ended
by a newline. -/
def fileOf (lines : List (List Char)) : List Char :=
  (lines.map (fun l => l ++ ['\n'])).flatten

/-- The lines of a run joined by newlines. -/
def joinLines (run : List (List Char)) : List Char := ['\n'].intercalate run

/-- The numbers of `%{` and of `%(` that a text leaves open, as the scanner
of `rdcl` counts them on the text as a whole. -/
def openCounts (t : List Char) : Int × Int := ((rdclScan t [] 0 0).1, (rdclScan t [] 0 0).2.1)

/-- The run of lines ends a logical line: its last line is empty, or it does
not end in a backslash while the run leaves no `%{` and no `%(` open. -/
def EndsRun (run : List (List Char)) : Prop :=
  run ≠ [] ∧ (run.getLastD [] = [] ∨
    ((run.getLastD []).getLast? ≠ some '\\' ∧ openCounts (joinLines run) = (0, 0)))

instance (run : List (List Char)) : Decidable (EndsRun run) :=
  inferInstanceAs (Decidable (run ≠ [] ∧ (run.getLastD [] = [] ∨
    ((run.getLastD []).getLast? ≠ some '\\' ∧ openCounts (joinLines run) = (0, 0)))))

/-- A character that the scanner of `rdcl` passes over without a look. -/
def rdclPlain (c : Char) : Bool :=
  !(c == '\\' || c == '%' || c == '{' || c == '}' || c == '(' || c == ')')

/-- What each character of a text counts for in the matching of `pl` and
`pr`: 1 for an opener, -1 for a closer, 0 for every other character and for a
character that directly follows an unescaped backslash. `esc` tells that the
first character follows an unescaped backslash. -/
def bracketMarks (pl pr : Char) : Bool → List Char → List Int
  | _, [] => []
  | true, _ :: s => 0 :: bracketMarks pl pr false s
  | false, c :: s =>
    if c = '\\' then 0 :: bracketMarks pl pr true s
    else if c = pr then -1 :: bracketMarks pl pr false s
    else if c = pl then 1 :: bracketMarks pl pr false s
    else 0 :: bracketMarks pl pr false s

/-- The text ends in an unescaped backslash. -/
def endsEscaping : Bool → List Char → Bool
  | esc, [] => esc
  | true, _ :: s => endsEscaping false s
  | false, c :: s => endsEscaping (c == '\\') s

/-- With the level `lvl` before the text, the mark at position `k` is one of
a closer and the openers and closers up to it balance. -/
def BalMarks (ms : List Int) (lvl : Int) (k : Nat) : Prop :=
  ms.getD k 0 = -1 ∧ lvl + (ms.take (k + 1)).sum = 0

/-- Position `k` of the text `p` holds a closer `pr` at which the openers and
closers seen so far balance, a character that directly follows an unescaped
backslash counting as neither. -/
def BalancedAt (pl pr : Char) (p : List Char) (k : Nat) : Prop :=
  BalMarks (bracketMarks pl pr false p) 0 k

instance (ms : List Int) (lvl : Int) (k : Nat) : Decidable (BalMarks ms lvl k) :=
  inferInstanceAs (Decidable (ms.getD k 0 = -1 ∧ lvl + (ms.take (k + 1)).sum = 0))

instance (pl pr : Char) (p : List Char) (k : Nat) : Decidable (BalancedAt pl pr p k) :=
  inferInstanceAs (Decidable (BalMarks (bracketMarks pl pr false p) 0 k))

/-- The contexts that `addMacro`, `delMacro` and `freeArgs` (at any depth)
make from the empty one. -/
inductive Reached : rpmMacroContext → Prop where
  | empty : Reached emptyContext
  | add (mc : rpmMacroContext) (n : List Char) (o : Option (List Char)) (b : List Char)
      (level : Int) : Reached mc → Reached (addMacro mc n o b level)
  | del (mc : rpmMacroContext) (n : List Char) : Reached mc → Reached (delMacro mc n)
  | free (mb : MacroBuf) : Reached mb.mc → Reached (freeArgs mb).mc

/-- Two expanders give the same result on every state at depth `d`, and that
result is not the value 2 that tells the recursion ran out of fuel. -/
def AgreeAt (d : Int) (r1 r2 : Expander) : Prop :=
  ∀ (mb : MacroBuf) (src : List Char) (slen : Nat), mb.depth = d →
    r1 mb src slen = r2 mb src slen ∧ (r1 mb src slen).2 ≠ 2

/-! ## Traces

The trace functions follow the expander function by function, with the same
tests in the same order, and record for one name `n` what the table keeps of
an expansion: the definitions of `n` that `%define` and `%global` push, the
`%undefine`s of `n`, and the calls that bind `n` more than once. They change
nothing of the expansion itself, which they read from the functions above. -/

/-- What an expansion does to the stack of one name, apart from the bindings
of a call that the call itself removes: a `%define` or `%global` pushes a
definition of the name, a `%undefine` pops the stack of the name, a call binds
the name more than once. -/
inductive TableEvent where
  | defined
  | undefined
  | boundTwice
deriving DecidableEq, Repr

/-- The name of an option macro of a call, `-X` or `-X*`. -/
def isOptName (n : List Char) : Bool :=
  match n with
  | ['-', _] => true
  | ['-', _, '*'] => true
  | _ => false

/-- The events that a trace for the name `n` can hold: a definition pushed or
popped by a directive only when `n` is a name that a directive accepts, a
double binding only when `n` is the name of an option macro. -/
def TraceOK (n : List Char) (l : List TableEvent) : Prop :=
  ∀ t ∈ l, (t = TableEvent.boundTwice → isOptName n = true) ∧
    (t ≠ TableEvent.boundTwice → legalName n = true)

/-- The list of definitions `L` is the list `O` without at most `k` of its
first members, below at most `a` other ones. -/
def WithinL (O : List (List Char × Option (List Char) × List Char × Int)) (k a : Nat)
    (L : List (List Char × Option (List Char) × List Char × Int)) : Prop :=
  ∃ (A : List (List Char × Option (List Char) × List Char × Int)) (j : Nat),
    L = A ++ O.drop j ∧ j ≤ k ∧ A.length ≤ a

section framing
variable (p buf : List Char) (d mt et : Int) (mc : rpmMacroContext) (fl : Bool)

theorem expandThis_mk (rec : Expander) (src : List Char) (slen : Nat) :
    expandThis rec ⟨p ++ buf, d, mt, et, mc, fl⟩ src slen
      = ((expandThis rec ⟨buf, d, mt, et, mc, fl⟩ src slen).1.pre p,
         (expandThis rec ⟨buf, d, mt, et, mc, fl⟩ src slen).2) := by
  simp [expandThis, MacroBuf.pre]

theorem doShellEscape_mk (env : Env) (rec : Expander) (cmd : List Char) (clen : Nat) :
    doShellEscape env rec ⟨p ++ buf, d, mt, et, mc, fl⟩ cmd clen
      = ((doShellEscape env rec ⟨buf, d, mt, et, mc, fl⟩ cmd clen).1.pre p,
         (doShellEscape env rec ⟨buf, d, mt, et, mc, fl⟩ cmd clen).2) := by
  simp only [doShellEscape, expandThis_mk]
  split
  · rfl
  · split <;> simp [MacroBuf.pre, mbAppendStr]

theorem doDefine_mk (rec : Expander) (se : List Char) (level : Int) (eb : Bool) :
    doDefine rec ⟨p ++ buf, d, mt, et, mc, fl⟩ se level eb
      = ((doDefine rec ⟨buf, d, mt, et, mc, fl⟩ se level eb).1.pre p,
         (doDefine rec ⟨buf, d, mt, et, mc, fl⟩ se level eb).2) := by
  simp only [doDefine, expandThis_mk]
  split
  · rfl
  · split
    · rfl
    · rfl
    · split
      · rfl
      · split
        · rfl
        · split
          · split <;> rfl
          · rfl

theorem doOutput_mk (rec : Expander) (msg : List Char) (n : Nat) :
    doOutput rec ⟨p ++ buf, d, mt, et, mc, fl⟩ msg n
      = (doOutput rec ⟨buf, d, mt, et, mc, fl⟩ msg n).pre p := by
  simp [doOutput, expandThis_mk]

theorem doFoo_mk (env : Env) (rec : Expander) (hrec : Framed rec) (negate : Bool)
    (f : List Char) (fn : Nat) (g : Option (List Char)) (gn : Nat) :
    doFoo env rec ⟨p ++ buf, d, mt, et, mc, fl⟩ negate f fn g gn
      = (doFoo env rec ⟨buf, d, mt, et, mc, fl⟩ negate f fn g gn).pre p := by
  unfold doFoo
  cases g with
  | none =>
    simp only []
    split
    · rw [hrec]
    · rfl
  | some g =>
    simp only [expandThis_mk, MacroBuf.pre]
    split
    · rw [hrec]; rfl
    · rfl

theorem grabArgs_mk (env : Env) (me : rpmMacroEntry) (se lastc : List Char) :
    grabArgs env ⟨p ++ buf, d, mt, et, mc, fl⟩ me se lastc
      = ((grabArgs env ⟨buf, d, mt, et, mc, fl⟩ me se lastc).1.pre p,
         (grabArgs env ⟨buf, d, mt, et, mc, fl⟩ me se lastc).2) := by
  simp only [grabArgs]
  split <;> rfl

theorem freeArgs_mk :
    freeArgs ⟨p ++ buf, d, mt, et, mc, fl⟩ = (freeArgs ⟨buf, d, mt, et, mc, fl⟩).pre p := by
  simp only [freeArgs]
  split <;> rfl

theorem expandCond_mk (rec : Expander) (hrec : Framed rec) (r : MacroRef)
    (me : Option rpmMacroEntry) :
    expandCond rec ⟨p ++ buf, d, mt, et, mc, fl⟩ r me
      = ((expandCond rec ⟨buf, d, mt, et, mc, fl⟩ r me).1.pre p,
         (expandCond rec ⟨buf, d, mt, et, mc, fl⟩ r me).2) := by
  unfold expandCond
  split
  · rfl
  · split
    · simp only [hrec p buf]
    · split
      · split
        · simp only [hrec p buf]
        · rfl
      · rfl

theorem expandBody_mk (env : Env) (rec : Expander) (hrec : Framed rec) (r : MacroRef)
    (me : rpmMacroEntry) :
    expandBody env rec ⟨p ++ buf, d, mt, et, mc, fl⟩ r me
      = ((expandBody env rec ⟨buf, d, mt, et, mc, fl⟩ r me).1.pre p,
         (expandBody env rec ⟨buf, d, mt, et, mc, fl⟩ r me).2) := by
  unfold expandBody
  cases ho : me.opts.isSome
  · simp only [Bool.false_eq_true, if_false]
    split
    · simp only [hrec p buf, MacroBuf.pre]
      split
      · rfl
      · split <;> rfl
    · rfl
  · simp only [if_true]
    cases hl : r.lastc with
    | none =>
      simp only []
      split
      · simp only [hrec p buf, MacroBuf.pre]
        split
        · simp only [freeArgs_mk, MacroBuf.pre]
        · split <;> simp only [freeArgs_mk, MacroBuf.pre]
      · simp only [freeArgs_mk, MacroBuf.pre]
    | some lastc =>
      simp only [grabArgs_mk, MacroBuf.pre]
      split
      · simp only [hrec p, MacroBuf.pre]
        split
        · simp only [freeArgs_mk, MacroBuf.pre]
        · split <;> simp only [freeArgs_mk, MacroBuf.pre]
      · simp only [freeArgs_mk, MacroBuf.pre]

theorem expandDefined_mk (env : Env) (rec : Expander) (hrec : Framed rec) (s : List Char)
    (r : MacroRef) :
    expandDefined env rec ⟨p ++ buf, d, mt, et, mc, fl⟩ s r
      = ((expandDefined env rec ⟨buf, d, mt, et, mc, fl⟩ s r).1.pre p,
         (expandDefined env rec ⟨buf, d, mt, et, mc, fl⟩ s r).2) := by
  have hcond := fun p buf d mt et mc fl => expandCond_mk p buf d mt et mc fl rec hrec
  have hbody := fun p buf d mt et mc fl => expandBody_mk p buf d mt et mc fl env rec hrec
  unfold expandDefined
  simp only []
  by_cases h9 : peek r.f = '-'
  · simp only [h9, if_true]
    cases lookup mc r.f r.fn <;> simp only [hcond p buf]
  simp only [h9, if_false]
  by_cases h10 : r.chkexist ≠ 0
  · simp only [h10, if_true, ne_eq, not_false_eq_true, hcond p buf]
  simp only [h10, if_false]
  cases lookup mc r.f r.fn with
  | none => simp [MacroBuf.pre, mbAppend]
  | some e => simp only [hbody p buf]

theorem expandRef_mk (env : Env) (rec : Expander) (hrec : Framed rec) (s : List Char)
    (r : MacroRef) :
    expandRef env rec ⟨p ++ buf, d, mt, et, mc, fl⟩ s r
      = ((expandRef env rec ⟨buf, d, mt, et, mc, fl⟩ s r).1.pre p,
         (expandRef env rec ⟨buf, d, mt, et, mc, fl⟩ s r).2) := by
  have hfoo := fun p buf d mt et mc fl => doFoo_mk p buf d mt et mc fl env rec hrec
  unfold expandRef
  by_cases h1 : STREQ "global" r.f r.fn = true
  · simp only [h1, if_true, doDefine_mk p buf]
  simp only [h1, Bool.false_eq_true, if_false]
  by_cases h2 : STREQ "define" r.f r.fn = true
  · simp only [h2, if_true, doDefine_mk p buf]
  simp only [h2, Bool.false_eq_true, if_false]
  by_cases h3 : STREQ "undefine" r.f r.fn = true
  · simp only [h3, if_true]; rfl
  simp only [h3, Bool.false_eq_true, if_false]
  by_cases h4 : (STREQ "echo" r.f r.fn || STREQ "warn" r.f r.fn || STREQ "error" r.f r.fn) = true
  · simp only [h4, if_true, doOutput_mk p buf]
    by_cases h4a : r.g.isSome = true ∧ r.gn > 0
    · simp only [h4a, and_self, if_true]
    · simp only [h4a, if_false]
  simp only [h4, Bool.false_eq_true, if_false]
  by_cases h5 : STREQ "trace" r.f r.fn = true
  · simp only [h5, if_true]; rfl
  simp only [h5, Bool.false_eq_true, if_false]
  by_cases h6 : STREQ "dump" r.f r.fn = true
  · simp only [h6, if_true]; rfl
  simp only [h6, Bool.false_eq_true, if_false]
  by_cases h7 : env.rpmluaRunScript.isSome = true ∧ STREQ "lua" r.f r.fn = true
  · simp only [h7, and_self, if_true]
    cases hl : env.rpmluaRunScript with
    | none => rfl
    | some run =>
      simp only []
      by_cases h7a : s.length < r.se.length + 6
      · simp only [h7a, if_true]; rfl
      · simp only [h7a, if_false]; simp [MacroBuf.pre, mbAppendStr]
  simp only [h7, if_false]
  by_cases h8 : isFoo r.f r.fn = true
  · simp only [h8, if_true, hfoo p buf]
  simp only [h8, Bool.false_eq_true, if_false]
  exact expandDefined_mk p buf d mt et mc fl env rec hrec s r

theorem expandStep_mk (env : Env) (rec : Expander) (hrec : Framed rec) (c : Char)
    (s : List Char) :
    expandStep env rec ⟨p ++ buf, d, mt, et, mc, fl⟩ c s
      = ((expandStep env rec ⟨buf, d, mt, et, mc, fl⟩ c s).1.pre p,
         (expandStep env rec ⟨buf, d, mt, et, mc, fl⟩ c s).2) := by
  have href := fun p buf d mt et mc fl => expandRef_mk p buf d mt et mc fl env rec hrec
  unfold expandStep
  split
  · simp [MacroBuf.pre, mbAppend]
  · split
    · simp [MacroBuf.pre, mbAppend]
    · split
      · simp [MacroBuf.pre, mbAppend]
      · split
        · simp [MacroBuf.pre, mbAppend]
        · rfl
        · rfl
        · simp only [doShellEscape_mk]
        · simp only [href]

end framing

theorem expandLoop_pre (env : Env) (rec : Expander) (hrec : Framed rec) (p : List Char) :
    ∀ (fuel : Nat) (mb : MacroBuf) (s : List Char),
      expandLoop env rec fuel (mb.pre p) s
        = ((expandLoop env rec fuel mb s).1.pre p, (expandLoop env rec fuel mb s).2) := by
  intro fuel
  induction fuel with
  | zero =>
    intro mb s
    cases s <;> simp [expandLoop]
  | succ n ih =>
    intro mb s
    cases s with
    | nil => simp [expandLoop]
    | cons c s =>
      obtain ⟨buf, d, mt, et, mc, fl⟩ := mb
      have hstep := fun p buf d mt et mc fl => expandStep_mk p buf d mt et mc fl env rec hrec
      simp only [expandLoop, MacroBuf.pre, hstep]
      split
      · rfl
      · exact ih _ _

theorem expandMacro_framed (env : Env) : ∀ fuel : Nat, Framed (expandMacro env fuel) := by
  intro fuel
  induction fuel with
  | zero => intro p buf d mt et mc fl src slen; simp [expandMacro, MacroBuf.pre]
  | succ n ih =>
    intro p buf d mt et mc fl src slen
    simp only [expandMacro]
    split
    · rfl
    · have h := expandLoop_pre env (expandMacro env n) ih p
        (src.take (if slen = 0 then src.length else slen)).length.succ
        ⟨buf, d + 1, mt, et, mc, fl⟩ (src.take (if slen = 0 then src.length else slen))
      simp only [MacroBuf.pre] at h ⊢
      rw [h]

/-- The expander only appends: with `p` already in the buffer the result is
the one for the empty buffer, with `p` in front. -/
theorem expandMacro_pre (env : Env) (fuel : Nat) (p : List Char) (mb : MacroBuf)
    (src : List Char) (slen : Nat) :
    expandMacro env fuel (mb.pre p) src slen
      = ((expandMacro env fuel mb src slen).1.pre p, (expandMacro env fuel mb src slen).2) := by
  obtain ⟨buf, d, mt, et, mc, fl⟩ := mb
  exact expandMacro_framed env fuel p buf d mt et mc fl src slen

/-! ## Scan positions only move forward -/

theorem matchcharFrom_length (pl pr : Char) :
    ∀ (n : Nat) (p : List Char) (lvl : Int) (q : List Char), p.length ≤ n →
      matchcharFrom pl pr p lvl = .found q → q.length ≤ p.length ∧ q ≠ [] := by
  intro n
  induction n with
  | zero =>
    intro p lvl q hp h
    cases p with
    | nil => simp [matchcharFrom] at h
    | cons c p => simp at hp
  | succ n ih =>
    intro p lvl q hp h
    cases p with
    | nil => simp [matchcharFrom] at h
    | cons c p =>
      simp only [List.length_cons, Nat.add_le_add_iff_right] at hp
      unfold matchcharFrom at h
      split at h
      · cases p with
        | nil => simp at h
        | cons c2 p2 =>
          simp only [] at h
          have := ih p2 lvl q (by simp at hp; omega) h
          simp only [List.length_cons]
          exact ⟨by omega, this.2⟩
      · split at h
        · split at h
          · cases h; simp
          · have := ih p _ q hp h
            simp only [List.length_cons]
            exact ⟨by omega, this.2⟩
        · split at h
          · have := ih p _ q hp h
            simp only [List.length_cons]
            exact ⟨by omega, this.2⟩
          · have := ih p _ q hp h
            simp only [List.length_cons]
            exact ⟨by omega, this.2⟩

theorem matchchar_length {p q : List Char} {pl pr : Char} (h : matchchar p pl pr = .found q) :
    q.length ≤ p.length ∧ q ≠ [] :=
  matchcharFrom_length pl pr p.length p 0 q (Nat.le_refl _) h

theorem parseMacroFlags_length :
    ∀ (s : List Char) (n : Bool) (c : Int), (parseMacroFlags s n c).1.length ≤ s.length := by
  intro s
  induction s with
  | nil => intro n c; simp [parseMacroFlags]
  | cons a s ih =>
    intro n c
    unfold parseMacroFlags
    split
    · exact Nat.le_succ_of_le (ih _ _)
    · split
      · exact Nat.le_succ_of_le (ih _ _)
      · simp

theorem length_dropWhile_le {α : Type} (p : α → Bool) (l : List α) :
    (l.dropWhile p).length ≤ l.length :=
  (List.dropWhile_sublist p).length_le

theorem parseMacroName_length {f fe : List Char} (h : parseMacroName f = some fe) :
    fe.length < f.length := by
  have hsp : ∀ r, (match f with
      | [] => none
      | c :: s1 =>
        if c = '0' ∨ c = '#' ∨ c = 'S' ∨ c = 'P' ∨ c = 'F' then some s1
        else if c = '*' then
          (if peek s1 = '*' then some s1.tail else some s1)
        else if c = '-' then
          (if risalnum (peek s1) then
            (if peek s1.tail = '*' then some s1.tail.tail else some s1.tail)
          else none)
        else if risdigit c then some (s1.dropWhile risdigit)
        else none) = some r → r.length < f.length := by
    intro r hr
    cases f with
    | nil => simp at hr
    | cons c s1 =>
      simp only [] at hr
      simp only [List.length_cons]
      have ht : s1.tail.length ≤ s1.length := by simp
      have htt : s1.tail.tail.length ≤ s1.length := by simp; omega
      have hd := length_dropWhile_le risdigit s1
      split at hr
      · cases hr; omega
      · split at hr
        · split at hr <;> cases hr <;> omega
        · split at hr
          · split at hr
            · split at hr <;> cases hr <;> omega
            · cases hr
          · split at hr
            · cases hr; omega
            · cases hr
  unfold parseMacroName at h
  simp only [] at h
  split at h
  · split at h
    · exact hsp _ h
    · split at h
      · cases h
      · cases h
        have := length_dropWhile_le isNameChar f.tail
        cases f with
        | nil => simp [peek, risalpha] at *
        | cons c s1 => simp at this ⊢; omega
  · exact hsp _ h

theorem copyBody_length :
    ∀ (n : Nat) (s : List Char) (bc pc : Int) (be : List Char), s.length ≤ n →
      (copyBody s bc pc be).2.1.length ≤ s.length := by
  intro n
  induction n with
  | zero =>
    intro s bc pc be hs
    cases s with
    | nil => simp [copyBody]
    | cons c s => simp at hs
  | succ n ih =>
    intro s bc pc be hs
    match s with
    | [] => simp [copyBody]
    | [c] =>
      unfold copyBody
      split
      · simp
      · split
        · simp
        · split
          · simp
          · split
            · simp
            · split <;> simp
    | c :: d :: s =>
      simp only [List.length_cons] at hs ⊢
      have h1 : ∀ bc pc be, (copyBody s bc pc be).2.1.length ≤ s.length :=
        fun bc pc be => ih s bc pc be (by omega)
      have h2 : ∀ bc pc be, (copyBody (d :: s) bc pc be).2.1.length ≤ s.length + 1 :=
        fun bc pc be => ih (d :: s) bc pc be (by simp; omega)
      unfold copyBody
      split
      · simp
      · split
        · exact Nat.le_trans (h1 _ _ _) (by omega)
        · split
          · split
            · exact Nat.le_trans (h1 _ _ _) (by omega)
            · split
              · exact Nat.le_trans (h1 _ _ _) (by omega)
              · split
                · exact Nat.le_trans (h1 _ _ _) (by omega)
                · exact Nat.le_trans (h2 _ _ _) (by omega)
          · split
            · exact Nat.le_trans (h2 _ _ _) (by omega)
            · split
              · exact Nat.le_trans (h2 _ _ _) (by omega)
              · split
                · exact Nat.le_trans (h2 _ _ _) (by omega)
                · split
                  · exact Nat.le_trans (h2 _ _ _) (by omega)
                  · exact Nat.le_trans (h2 _ _ _) (by omega)

theorem parseDefineBody_length (s : List Char) :
    (∀ b s1, parseDefineBody s = .ok b s1 → s1.length ≤ s.length) ∧
    (∀ s1, parseDefineBody s = .unterminated s1 → s1.length ≤ s.length) := by
  unfold parseDefineBody
  constructor
  · intro b s1 h
    split at h
    · split at h
      · cases h
      · cases h
      · rename_i se hm
        cases h
        have := (matchchar_length hm).1
        simp; omega
    · simp only [] at h
      split at h
      · cases h
      · cases h
        exact copyBody_length s.length s 0 0 [] (Nat.le_refl _)
  · intro s1 h
    split at h
    · split at h
      · cases h; exact Nat.le_refl _
      · cases h
      · cases h
    · simp only [] at h
      split at h
      · cases h
        exact copyBody_length s.length s 0 0 [] (Nat.le_refl _)
      · cases h

theorem COPYNAME_length (s : List Char) : (COPYNAME s).2.length ≤ s.length := by
  unfold COPYNAME SKIPBLANK
  exact Nat.le_trans (length_dropWhile_le _ _) (length_dropWhile_le _ _)

theorem COPYOPTS_length (s : List Char) : (COPYOPTS s).2.length ≤ s.length := by
  unfold COPYOPTS
  exact length_dropWhile_le _ _

theorem doDefine_length (rec : Expander) (mb : MacroBuf) (se : List Char) (level : Int)
    (eb : Bool) : (doDefine rec mb se level eb).2.length ≤ se.length := by
  have hn := COPYNAME_length se
  have ho := COPYOPTS_length (COPYNAME se).2.tail
  have ht : (COPYNAME se).2.tail.length ≤ (COPYNAME se).2.length := by simp
  have ht2 : (COPYOPTS (COPYNAME se).2.tail).2.tail.length
      ≤ (COPYOPTS (COPYNAME se).2.tail).2.length := by simp
  unfold doDefine
  simp only []
  split
  · simp
  · have hsb : (SKIPBLANK (if peek (COPYNAME se).2 = '(' then (COPYOPTS (COPYNAME se).2.tail).2.tail
        else (COPYNAME se).2)).length ≤ se.length := by
      unfold SKIPBLANK
      refine Nat.le_trans (length_dropWhile_le _ _) ?_
      split <;> omega
    have hb := parseDefineBody_length (SKIPBLANK (if peek (COPYNAME se).2 = '('
      then (COPYOPTS (COPYNAME se).2.tail).2.tail else (COPYNAME se).2))
    split
    · simp
    · rename_i s1 h
      exact Nat.le_trans (hb.2 s1 h) hsb
    · rename_i b s1 h
      have h1 := hb.1 b s1 h
      have h2 := length_dropWhile_le iseol s1
      have : (s1.dropWhile iseol).length ≤ se.length := by omega
      split
      · exact this
      · split
        · exact this
        · split
          · split <;> exact this
          · exact this

theorem doUndefine_length (mc : rpmMacroContext) (se : List Char) :
    (doUndefine mc se).2.length ≤ se.length := by
  have hn := COPYNAME_length se
  have h2 := length_dropWhile_le iseol (COPYNAME se).2
  unfold doUndefine
  simp only []
  split <;> simp only [] <;> omega

theorem grabArgs_length (env : Env) (mb : MacroBuf) (me : rpmMacroEntry) (se lastc : List Char) :
    (grabArgs env mb me se lastc).2.length ≤ lastc.length := by
  unfold grabArgs
  simp only []
  split <;> split <;> simp

theorem strchr_length {s r : List Char} {c : Char} (h : strchr s c = some r) :
    r.length ≤ s.length := by
  unfold strchr at h
  have := length_dropWhile_le (fun d => d != c) s
  split at h
  · cases h
  · cases h; exact this

theorem parseRef_within {s : List Char} {r : MacroRef} (h : parseRef s = .ref r) :
    r.within s := by
  unfold parseRef at h
  split at h
  · split at h <;> cases h
  · split at h
    · split at h
      · cases h
      · cases h
      · rename_i se0 hm
        have hl := (matchchar_length hm).1
        simp only [] at h
        split at h
        · cases h
        · split at h
          · cases h
            refine ⟨by simp; omega, by simp⟩
          · split at h
            · cases h
              refine ⟨by simp; omega, ?_⟩
              intro l hl'
              cases hl'
              exact hl
            · split at h
              · cases h
                refine ⟨by simp; omega, by simp⟩
              · cases h
    · simp only [] at h
      split at h
      · cases h
      · rename_i fe hn
        cases h
        have h1 := parseMacroName_length hn
        have h2 := parseMacroFlags_length s false 0
        refine ⟨by simp only []; omega, ?_⟩
        intro l hl
        simp only [] at hl
        split at hl
        · cases hl
          cases hc : strchr fe '\n' with
          | none => simp
          | some x =>
            have := strchr_length hc
            simp; omega
        · cases hl

theorem parseRef_shell_length {s se : List Char} (h : parseRef s = .shell se) :
    se.length ≤ s.length := by
  unfold parseRef at h
  split at h
  · split at h
    · cases h
    · cases h
    · rename_i se0 hm
      cases h
      exact (matchchar_length hm).1
  · split at h
    · split at h
      · cases h
      · cases h
      · simp only [] at h
        split at h
        · cases h
        · split at h
          · cases h
          · split at h
            · cases h
            · split at h <;> cases h
    · simp only [] at h
      split at h <;> cases h

theorem expandCond_next (rec : Expander) (mb : MacroBuf) (r : MacroRef)
    (me : Option rpmMacroEntry) : (expandCond rec mb r me).2.2 = r.se := by
  unfold expandCond
  split
  · rfl
  · split
    · rfl
    · split
      · split <;> rfl
      · rfl

theorem expandBody_length (env : Env) (rec : Expander) (mb : MacroBuf) (r : MacroRef)
    (me : rpmMacroEntry) (s : List Char) (hr : r.within s) :
    (expandBody env rec mb r me).2.2.length ≤ s.length := by
  unfold expandBody
  simp only []
  split
  · cases hl : r.lastc with
    | none => exact hr.1
    | some lastc =>
      simp only []
      exact Nat.le_trans (grabArgs_length _ _ _ _ _) (hr.2 lastc hl)
  · exact hr.1

theorem expandDefined_length (env : Env) (rec : Expander) (mb : MacroBuf) (s : List Char)
    (r : MacroRef) (hr : r.within s) :
    (expandDefined env rec mb s r).2.2.length ≤ s.length := by
  have hse := hr.1
  unfold expandDefined
  simp only []
  by_cases h9 : peek r.f = '-'
  · simp only [h9, if_true]
    rw [expandCond_next]; exact hse
  simp only [h9, if_false]
  by_cases h10 : r.chkexist ≠ 0
  · simp only [h10, if_true, ne_eq, not_false_eq_true]
    rw [expandCond_next]; exact hse
  simp only [h10, if_false]
  split
  · exact Nat.le_refl _
  · exact expandBody_length _ _ _ _ _ _ hr

theorem expandRef_length (env : Env) (rec : Expander) (mb : MacroBuf) (s : List Char)
    (r : MacroRef) (hr : r.within s) : (expandRef env rec mb s r).2.2.length ≤ s.length := by
  have hse := hr.1
  unfold expandRef
  by_cases h1 : STREQ "global" r.f r.fn = true
  · simp only [h1, if_true]
    exact Nat.le_trans (doDefine_length _ _ _ _ _) hse
  simp only [h1, Bool.false_eq_true, if_false]
  by_cases h2 : STREQ "define" r.f r.fn = true
  · simp only [h2, if_true]
    exact Nat.le_trans (doDefine_length _ _ _ _ _) hse
  simp only [h2, Bool.false_eq_true, if_false]
  by_cases h3 : STREQ "undefine" r.f r.fn = true
  · simp only [h3, if_true]
    exact Nat.le_trans (doUndefine_length _ _) hse
  simp only [h3, Bool.false_eq_true, if_false]
  by_cases h4 : (STREQ "echo" r.f r.fn || STREQ "warn" r.f r.fn || STREQ "error" r.f r.fn) = true
  · simp only [h4, if_true]
    split <;> exact hse
  simp only [h4, Bool.false_eq_true, if_false]
  by_cases h5 : STREQ "trace" r.f r.fn = true
  · simp only [h5, if_true]; exact hse
  simp only [h5, Bool.false_eq_true, if_false]
  by_cases h6 : STREQ "dump" r.f r.fn = true
  · simp only [h6, if_true]
    exact Nat.le_trans (length_dropWhile_le _ _) hse
  simp only [h6, Bool.false_eq_true, if_false]
  by_cases h7 : env.rpmluaRunScript.isSome = true ∧ STREQ "lua" r.f r.fn = true
  · simp only [h7, and_self, if_true]
    split
    · exact hse
    · split <;> exact hse
  simp only [h7, if_false]
  by_cases h8 : isFoo r.f r.fn = true
  · simp only [h8, if_true]; exact hse
  simp only [h8, Bool.false_eq_true, if_false]
  exact expandDefined_length _ _ _ _ _ hr

/-- Every turn of the expansion loop leaves the scan position at or after
the character that follows the one it started at. -/
theorem expandStep_length (env : Env) (rec : Expander) (mb : MacroBuf) (c : Char)
    (s : List Char) : (expandStep env rec mb c s).2.2.length ≤ s.length := by
  unfold expandStep
  split
  · exact Nat.le_refl _
  · split
    · exact Nat.le_refl _
    · split
      · simp
      · split
        · exact Nat.le_refl _
        · exact Nat.le_refl _
        · exact Nat.le_refl _
        · rename_i se h
          have := parseRef_shell_length h
          simp; omega
        · rename_i r h
          exact expandRef_length _ _ _ _ _ (parseRef_within h)

/-- The loop does not depend on its fuel once the fuel exceeds the length
of the text. -/
theorem expandLoop_fuel (env : Env) (rec : Expander) :
    ∀ (n m : Nat) (mb : MacroBuf) (s : List Char), s.length < n → s.length < m →
      expandLoop env rec n mb s = expandLoop env rec m mb s := by
  intro n
  induction n with
  | zero => intro m mb s h; omega
  | succ n ih =>
    intro m mb s hn hm
    cases m with
    | zero => omega
    | succ m =>
      cases s with
      | nil => simp [expandLoop]
      | cons c s =>
        simp only [expandLoop]
        split
        · rfl
        · have := expandStep_length env rec mb c s
          simp only [List.length_cons] at hn hm
          exact ih m _ _ (by omega) (by omega)

/-! ## Literal text -/

/-- Text without `%` is copied to the buffer, one character a turn. -/
theorem expandLoop_literal (env : Env) (rec : Expander) (rest : List Char) (k : Nat) :
    ∀ (t : List Char) (mb : MacroBuf), '%' ∉ t →
      expandLoop env rec (t.length + k) mb (t ++ rest)
        = expandLoop env rec k (mbAppendStr mb t) rest := by
  intro t
  induction t with
  | nil =>
    intro mb _
    simp [mbAppendStr]
  | cons c t ih =>
    intro mb h
    have hc : c ≠ '%' := fun e => h (by simp [e])
    have ht : '%' ∉ t := fun e => h (by simp [e])
    have e : (c :: t).length + k = (t.length + k) + 1 := by simp; omega
    rw [e]
    simp only [List.cons_append, expandLoop, expandStep, hc, ne_eq, not_false_eq_true, if_true,
      not_true_eq_false, if_false]
    exact (ih _ ht).trans (by simp [mbAppendStr, mbAppend])

theorem expandLoop_nil (env : Env) (rec : Expander) (k : Nat) (mb : MacroBuf) :
    expandLoop env rec k mb [] = (mb, 0) := by
  cases k <;> rfl

theorem expandMacro_succ (env : Env) (fuel : Nat) (mb : MacroBuf) (src : List Char) (slen : Nat) :
    expandMacro env (fuel + 1) mb src slen
      = if mb.depth + 1 > max_macro_depth then ({ mb with expand_trace := 1 }, 1)
        else
          (({ (expandLoop env (expandMacro env fuel)
                ((src.take (if slen = 0 then src.length else slen)).length + 1)
                { mb with depth := mb.depth + 1 }
                (src.take (if slen = 0 then src.length else slen))).1 with
              depth := (expandLoop env (expandMacro env fuel)
                ((src.take (if slen = 0 then src.length else slen)).length + 1)
                { mb with depth := mb.depth + 1 }
                (src.take (if slen = 0 then src.length else slen))).1.depth - 1 } : MacroBuf),
           (expandLoop env (expandMacro env fuel)
                ((src.take (if slen = 0 then src.length else slen)).length + 1)
                { mb with depth := mb.depth + 1 }
                (src.take (if slen = 0 then src.length else slen))).2) := rfl

theorem doExpandMacros_eq (env : Env) (mc : rpmMacroContext) (src : List Char) :
    doExpandMacros env mc src
      = (({ (expandLoop env (expandMacro env 16) (src.length + 1)
              { initialBuf mc with depth := 1 } src).1 with
            depth := (expandLoop env (expandMacro env 16) (src.length + 1)
              { initialBuf mc with depth := 1 } src).1.depth - 1 } : MacroBuf),
         (expandLoop env (expandMacro env 16) (src.length + 1)
              { initialBuf mc with depth := 1 } src).2) := by
  unfold doExpandMacros
  have hd : ¬ ((initialBuf mc).depth + 1 > max_macro_depth) := by
    simp [initialBuf, max_macro_depth]
  rw [show (17 : Nat) = 16 + 1 from rfl, expandMacro_succ, if_neg hd]
  simp only [if_true, List.take_length]
  rfl

/-- C1: text without `%` expands to itself, with success, and the table
(and everything else in the state) is as before. -/
theorem expand_literal (env : Env) (mc : rpmMacroContext) (t : List Char) (h : '%' ∉ t) :
    doExpandMacros env mc t = ({ initialBuf mc with buf := t }, 0) := by
  have hl := expandLoop_literal env (expandMacro env 16) [] 1 t
    { initialBuf mc with depth := 1 } h
  simp only [List.append_nil] at hl
  rw [doExpandMacros_eq, hl, expandLoop_nil]
  simp [mbAppendStr, initialBuf]

theorem expand_literal_witness :
    '%' ∉ "hello world".toList ∧
    doExpandMacros quietEnv emptyContext "hello world".toList
      = ({ initialBuf emptyContext with buf := "hello world".toList }, 0) :=
  ⟨by decide, expand_literal quietEnv emptyContext "hello world".toList (by decide)⟩

/-- C2: `%%` followed by `t` expands to `%` followed by the expansion of
`t`; the value returned and the final state, the table included, are those of
expanding `t` alone. -/
theorem expand_double_percent (env : Env) (mc : rpmMacroContext) (t : List Char) :
    doExpandMacros env mc ('%' :: '%' :: t)
      = ((doExpandMacros env mc t).1.pre ['%'], (doExpandMacros env mc t).2) := by
  have hf := expandLoop_fuel env (expandMacro env 16) (t.length + 2) (t.length + 1)
    (mbAppend { initialBuf mc with depth := 1 } '%') t (by omega) (by omega)
  have hp := expandLoop_pre env (expandMacro env 16) (expandMacro_framed env 16) ['%']
    (t.length + 1) { initialBuf mc with depth := 1 } t
  have e : mbAppend { initialBuf mc with depth := 1 } '%'
      = MacroBuf.pre ['%'] { initialBuf mc with depth := 1 } := rfl
  rw [e] at hf
  rw [hp] at hf
  have hs : expandStep env (expandMacro env 16) { initialBuf mc with depth := 1 } '%' ('%' :: t)
      = (MacroBuf.pre ['%'] { initialBuf mc with depth := 1 }, 0, t) := by
    rw [← e]
    simp [expandStep, peek]
  rw [doExpandMacros_eq, doExpandMacros_eq]
  have hstep : expandLoop env (expandMacro env 16) (('%' :: '%' :: t).length + 1)
      { initialBuf mc with depth := 1 } ('%' :: '%' :: t)
      = expandLoop env (expandMacro env 16) (t.length + 2)
          (MacroBuf.pre ['%'] { initialBuf mc with depth := 1 }) t := by
    show expandLoop env (expandMacro env 16) ((t.length + 2) + 1) _ _ = _
    rw [expandLoop, hs]
    simp
  rw [hstep, hf]
  rfl

/-! ## Names -/

theorem dropWhile_append_stop {α : Type} (p : α → Bool) (l : List α) (x : α) (rest : List α)
    (hl : ∀ a ∈ l, p a = true) (hx : p x = false) :
    (l ++ x :: rest).dropWhile p = x :: rest := by
  induction l with
  | nil => simp [List.dropWhile, hx]
  | cons a l ih =>
    have ha : p a = true := hl a (by simp)
    simp only [List.cons_append, List.dropWhile, ha]
    exact ih (fun b hb => hl b (by simp [hb]))

theorem dropWhile_nil_all {α : Type} (p : α → Bool) (l : List α) (h : l.dropWhile p = []) :
    ∀ a ∈ l, p a = true := by
  induction l with
  | nil => simp
  | cons a l ih =>
    simp only [List.dropWhile] at h
    split at h
    · rename_i ha
      intro b hb
      cases hb with
      | head => exact ha
      | tail _ hb => exact ih h b hb
    · cases h

theorem peek_cons (c : Char) (s : List Char) : peek (c :: s) = c := rfl

theorem tail_eq_nil_of_peek {s : List Char} {c : Char} (hc : c ≠ Char.ofNat 0)
    (hp : peek s = c) (ht : s.tail = []) : s = [c] := by
  cases s with
  | nil => exact absurd hp.symm hc
  | cons a t =>
    simp only [List.tail_cons] at ht
    simp only [peek_cons] at hp
    rw [ht, hp]

theorem risalnum_ne_nul {s : List Char} (h : risalnum (peek s) = true) : s ≠ [] := by
  intro e
  rw [e] at h
  revert h
  decide

theorem parseMacroName_special_shape (c : Char) (s1 : List Char)
    (h : (if c = '0' ∨ c = '#' ∨ c = 'S' ∨ c = 'P' ∨ c = 'F' then some s1
        else if c = '*' then
          (if peek s1 = '*' then some s1.tail else some s1)
        else if c = '-' then
          (if risalnum (peek s1) then
            (if peek s1.tail = '*' then some s1.tail.tail else some s1.tail)
          else none)
        else if risdigit c then some (s1.dropWhile risdigit)
        else none) = some []) : NameShape (c :: s1) := by
  unfold NameShape
  split at h
  · rename_i hc
    cases h
    rcases hc with hc | hc | hc | hc | hc <;> subst hc <;> simp
  · split at h
    · rename_i hc
      subst hc
      split at h
      · rename_i hp
        have ht : s1.tail = [] := by simpa using h
        have := tail_eq_nil_of_peek (by decide) hp ht
        subst this
        simp
      · cases h; simp
    · split at h
      · rename_i hc
        subst hc
        split at h
        · rename_i ha
          have hne := risalnum_ne_nul ha
          cases s1 with
          | nil => exact absurd rfl hne
          | cons x t =>
            simp only [peek_cons] at ha
            simp only [List.tail_cons] at h
            split at h
            · rename_i hp
              have ht : t.tail = [] := by simpa using h
              have := tail_eq_nil_of_peek (by decide) hp ht
              subst this
              right; right; right; right; right; right; right; right; right; left
              exact ⟨x, rfl, ha⟩
            · have ht : t = [] := by simpa using h
              subst ht
              right; right; right; right; right; right; right; right; left
              exact ⟨x, rfl, ha⟩
        · cases h
      · split at h
        · rename_i hd
          have hs : s1.dropWhile risdigit = [] := by simpa using h
          right; right; right; right; right; right; right; right; right; right
          rename_i h0 _ _
          exact ⟨c, s1, rfl, hd, fun e => h0 (Or.inl e), dropWhile_nil_all _ _ hs⟩
        · cases h

/-- A name that the parser accepts in full has one of the shapes of `NameShape`. -/
theorem parseMacroName_shape {n : List Char} (h : parseMacroName n = some []) : NameShape n := by
  cases n with
  | nil => exact absurd h (by decide)
  | cons c s1 =>
    unfold parseMacroName at h
    simp only [peek_cons, List.tail_cons, List.length_cons] at h
    split at h
    · rename_i hid
      split at h
      · -- one letter: S, P or F
        exact parseMacroName_special_shape c s1 h
      · split at h
        · cases h
        · rename_i h1 h2
          have hs : s1.dropWhile isNameChar = [] := by simpa using h
          left
          refine ⟨c, s1, rfl, ?_, dropWhile_nil_all _ _ hs, ?_⟩
          · simpa using hid
          · rw [hs] at h1 h2
            simp only [List.length_nil, Nat.sub_zero] at h1 h2
            omega
    · exact parseMacroName_special_shape c s1 h


theorem risdigit_nameChar {c : Char} (h : risdigit c = true) : isNameChar c = true := by
  simp [isNameChar, risalnum, h]

theorem risalnum_nameChar {c : Char} (h : risalnum c = true) : isNameChar c = true := by
  simp [isNameChar, h]

theorem NameShape.chars {n : List Char} (h : NameShape n) : ∀ a ∈ n, nameCharOK a = true := by
  rcases h with ⟨c, s1, rfl, hc, hs, _⟩ | h | h | h | h | h | h | h | ⟨x, rfl, hx⟩ |
    ⟨x, rfl, hx⟩ | ⟨c, s1, rfl, hc, _, hs⟩
  · intro a ha
    rcases List.mem_cons.1 ha with e | ha
    · subst e
      rcases hc with hc | hc
      · simp [nameCharOK, isNameChar, risalnum, hc]
      · subst hc; decide
    · simp [nameCharOK, hs a ha]
  all_goals first
    | (subst h; decide)
    | skip
  · intro a ha
    simp only [List.mem_cons, List.mem_singleton, List.not_mem_nil, or_false] at ha
    rcases ha with e | e
    · subst e; decide
    · subst e; simp [nameCharOK, risalnum_nameChar hx]
  · intro a ha
    simp only [List.mem_cons, List.mem_singleton, List.not_mem_nil, or_false] at ha
    rcases ha with e | e | e
    · subst e; decide
    · subst e; simp [nameCharOK, risalnum_nameChar hx]
    · subst e; decide
  · intro a ha
    rcases List.mem_cons.1 ha with e | ha
    · subst e; simp [nameCharOK, risdigit_nameChar hc]
    · simp [nameCharOK, risdigit_nameChar (hs a ha)]

theorem NameShape.ne_nil {n : List Char} (h : NameShape n) : n ≠ [] := by
  rcases h with ⟨c, s1, rfl, _⟩ | h | h | h | h | h | h | h | ⟨x, rfl, _⟩ |
    ⟨x, rfl, _⟩ | ⟨c, s1, rfl, _⟩ <;> first | (subst h; simp) | simp


theorem nameCharOK_ne {c : Char} (h : nameCharOK c = true) :
    c ≠ '%' ∧ c ≠ '(' ∧ c ≠ '{' ∧ c ≠ '}' ∧ c ≠ '!' ∧ c ≠ '?' ∧ c ≠ '\\' ∧ c ≠ ':' ∧
    c ≠ ' ' ∧ c ≠ '\t' := by
  refine ⟨?_, ?_, ?_, ?_, ?_, ?_, ?_, ?_, ?_, ?_⟩ <;>
    (intro e; subst e; revert h; decide)

theorem risdigit_not_start {c : Char} (h : risdigit c = true) :
    risalpha c = false ∧ c ≠ '_' ∧ c ≠ '#' ∧ c ≠ 'S' ∧ c ≠ 'P' ∧ c ≠ 'F' ∧ c ≠ '*' ∧ c ≠ '-' := by
  refine ⟨?_, ?_, ?_, ?_, ?_, ?_, ?_, ?_⟩
  · cases ha : risalpha c
    · rfl
    · exfalso
      simp only [risdigit, risalpha, Bool.and_eq_true, decide_eq_true_eq, Bool.or_eq_true]
        at h ha
      omega
  all_goals (intro e; subst e; revert h; decide)

theorem idstart_not_special {c : Char} (h : risalpha c = true ∨ c = '_') :
    c ≠ '0' ∧ c ≠ '#' ∧ c ≠ '*' ∧ c ≠ '-' ∧ risdigit c = false := by
  rcases h with h | h
  · refine ⟨?_, ?_, ?_, ?_, ?_⟩
    · intro e; subst e; revert h; decide
    · intro e; subst e; revert h; decide
    · intro e; subst e; revert h; decide
    · intro e; subst e; revert h; decide
    · cases hd : risdigit c
      · rfl
      · exfalso
        simp only [risdigit, risalpha, Bool.and_eq_true, decide_eq_true_eq, Bool.or_eq_true]
          at h hd
        omega
  · subst h; decide

/-- A name accepted in full is read as the same name in front of a character
that cannot continue it. -/
theorem NameShape.parse_append {n : List Char} (h : NameShape n) (x : Char) (rest : List Char)
    (hx : isNameChar x = false) (hx2 : x ≠ '*') :
    parseMacroName (n ++ x :: rest) = some (x :: rest) := by
  have hxd : risdigit x = false := by
    cases hd : risdigit x
    · rfl
    · rw [risdigit_nameChar hd] at hx; cases hx
  rcases h with ⟨c, s1, rfl, hc, hs, hl⟩ | h | h | h | h | h | h | h | ⟨a, rfl, ha⟩ |
    ⟨a, rfl, ha⟩ | ⟨c, s1, rfl, hc, hc0, hs⟩
  · have hid : (risalpha c || c == '_') = true := by
      rcases hc with hc | hc
      · simp [hc]
      · simp [hc]
    have hd := dropWhile_append_stop isNameChar s1 x rest hs hx
    unfold parseMacroName
    simp only [List.cons_append, peek_cons, hid, List.tail_cons, hd, if_true, List.length_cons,
      List.length_append]
    rw [if_neg (by omega), if_neg (by omega)]
  · subst h; simp [parseMacroName, peek, risalpha]
  · subst h; simp [parseMacroName, peek, risalpha]
  · subst h
    have : ((x :: rest).dropWhile isNameChar) = x :: rest := by simp [List.dropWhile, hx]
    simp [parseMacroName, peek, risalpha, this]
  · subst h
    have : ((x :: rest).dropWhile isNameChar) = x :: rest := by simp [List.dropWhile, hx]
    simp [parseMacroName, peek, risalpha, this]
  · subst h
    have : ((x :: rest).dropWhile isNameChar) = x :: rest := by simp [List.dropWhile, hx]
    simp [parseMacroName, peek, risalpha, this]
  · subst h; simp [parseMacroName, peek, risalpha, hx2]
  · subst h; simp [parseMacroName, peek, risalpha]
  · simp [parseMacroName, peek, risalpha, ha, hx2]
  · simp [parseMacroName, peek, risalpha, ha]
  · obtain ⟨h1, h2, h3, h4, h5, h6, h7, h8⟩ := risdigit_not_start hc
    have hd := dropWhile_append_stop risdigit s1 x rest hs hxd
    unfold parseMacroName
    simp [peek_cons, h1, h2, h3, h4, h5, h6, h7, h8, hc0, hc, hd]

/-! ## Parsing a reference -/

theorem STREQ_append (t : String) (n rest : List Char) :
    STREQ t (n ++ rest) n.length = STREQ t n n.length := by
  simp [STREQ]

theorem isFoo_append (n rest : List Char) : isFoo (n ++ rest) n.length = isFoo n n.length := by
  simp only [isFoo, STREQ_append]

theorem isBuiltin_append (env : Env) (n rest : List Char) :
    isBuiltin env (n ++ rest) n.length = isBuiltinName env n := by
  simp only [isBuiltinName, isBuiltin, STREQ_append, isFoo_append]

/-- A reference to a name that is not built in goes to the lookup. -/
theorem expandRef_user (env : Env) (rec : Expander) (mb : MacroBuf) (s : List Char)
    (r : MacroRef) (h : isBuiltin env r.f r.fn = false) :
    expandRef env rec mb s r = expandDefined env rec mb s r := by
  simp only [isBuiltin, Bool.or_eq_false_iff, Bool.and_eq_false_imp] at h
  obtain ⟨⟨⟨⟨⟨⟨⟨⟨⟨h1, h2⟩, h3⟩, h4⟩, h5⟩, h6⟩, h7⟩, h8⟩, h9⟩, h10⟩ := h
  unfold expandRef
  have h9' : ¬ (env.rpmluaRunScript.isSome = true ∧ STREQ "lua" r.f r.fn = true) := by
    intro hh
    have := h9 hh.1
    rw [this] at hh
    exact Bool.false_ne_true hh.2
  simp only [h1, h2, h3, h4, h5, h6, h7, h8, h9', h10, Bool.false_eq_true, if_false,
    Bool.or_self]

theorem lookup_append (mc : rpmMacroContext) (n rest : List Char) (hn : n ≠ []) :
    lookup mc (n ++ rest) n.length = lookup mc n n.length := by
  have hl : 0 < n.length := List.length_pos.2 hn
  simp [lookup, findEntry, hl]

theorem parseMacroFlags_stop (s : List Char) (neg : Bool) (chk : Int)
    (h1 : peek s ≠ '!') (h2 : peek s ≠ '?') : parseMacroFlags s neg chk = (s, neg, chk) := by
  cases s with
  | nil => rfl
  | cons c s =>
    simp only [peek_cons] at h1 h2
    simp [parseMacroFlags, h1, h2]

/-- The flags `!` counted modulo 2 and the flags `?` counted. -/
theorem parseMacroFlags_flags (rest : List Char) (h1 : peek rest ≠ '!') (h2 : peek rest ≠ '?') :
    ∀ (fl : List Char) (neg : Bool) (chk : Int), (∀ c ∈ fl, c = '!' ∨ c = '?') →
      parseMacroFlags (fl ++ rest) neg chk
        = (rest, (neg != decide (fl.count '!' % 2 = 1)), chk + (fl.count '?' : Nat)) := by
  intro fl
  induction fl with
  | nil =>
    intro neg chk _
    simp [parseMacroFlags_stop rest neg chk h1 h2]
  | cons c fl ih =>
    intro neg chk h
    have hc := h c (by simp)
    have hfl : ∀ c ∈ fl, c = '!' ∨ c = '?' := fun a ha => h a (by simp [ha])
    rcases hc with hc | hc
    · subst hc
      simp only [List.cons_append, parseMacroFlags, if_true]
      refine Eq.trans (ih (!neg) chk hfl) ?_
      have e1 : List.count '!' ('!' :: fl) = List.count '!' fl + 1 := by simp
      have e2 : List.count '?' ('!' :: fl) = List.count '?' fl := by
        rw [List.count_cons_of_ne (by decide)]
      rw [e1, e2]
      refine Prod.ext rfl (Prod.ext ?_ rfl)
      simp only []
      have key : decide ((List.count '!' fl + 1) % 2 = 1) = !decide (List.count '!' fl % 2 = 1) := by
        rcases Nat.mod_two_eq_zero_or_one (List.count '!' fl) with h | h <;>
          simp [Nat.add_mod, h]
      rw [key]
      cases neg <;> cases decide (List.count '!' fl % 2 = 1) <;> rfl
    · subst hc
      simp only [List.cons_append, parseMacroFlags]
      rw [if_neg (by decide), if_pos trivial]
      refine Eq.trans (ih neg (chk + 1) hfl) ?_
      have e1 : List.count '!' ('?' :: fl) = List.count '!' fl := by
        rw [List.count_cons_of_ne (by decide)]
      have e2 : List.count '?' ('?' :: fl) = List.count '?' fl + 1 := by simp
      rw [e1, e2]
      refine Prod.ext rfl (Prod.ext rfl ?_)
      simp only []
      push_cast
      omega

/-- Text without brackets and backslashes does not change the nesting level. -/
theorem matchcharFrom_plain (pl pr : Char) (rest : List Char) (lvl : Int) :
    ∀ u : List Char, (∀ c ∈ u, c ≠ '\\' ∧ c ≠ pr ∧ c ≠ pl) →
      matchcharFrom pl pr (u ++ rest) lvl = matchcharFrom pl pr rest lvl := by
  intro u
  induction u with
  | nil => intro _; rfl
  | cons c u ih =>
    intro h
    obtain ⟨h1, h2, h3⟩ := h c (by simp)
    rw [List.cons_append, matchcharFrom.eq_def]
    simp only [h1, h2, h3, if_false]
    exact ih (fun a ha => h a (by simp [ha]))

theorem matchchar_braced (pl pr : Char) (hpr : pr ≠ '\\') (hpl : pl ≠ '\\') (hne : pl ≠ pr)
    (u rest : List Char) (h : ∀ c ∈ u, c ≠ '\\' ∧ c ≠ pr ∧ c ≠ pl) :
    matchchar (pl :: (u ++ pr :: rest)) pl pr = .found (pr :: rest) := by
  unfold matchchar
  rw [matchcharFrom.eq_def]
  simp only [hpl, hne, if_false, if_true]
  rw [matchcharFrom_plain pl pr _ _ u h, matchcharFrom.eq_def]
  simp [hpr]

theorem expandMacro_literal_take (env : Env) (fuel : Nat) (mb : MacroBuf) (src : List Char)
    (slen : Nat) (hd : mb.depth + 1 ≤ max_macro_depth)
    (ht : '%' ∉ src.take (if slen = 0 then src.length else slen)) :
    expandMacro env (fuel + 1) mb src slen
      = ({ mb with buf := mb.buf ++ src.take (if slen = 0 then src.length else slen) }, 0) := by
  have hl := expandLoop_literal env (expandMacro env fuel) [] 1 _
    { mb with depth := mb.depth + 1 } ht
  simp only [List.append_nil] at hl
  rw [expandMacro_succ, if_neg (by omega), hl, expandLoop_nil]
  simp [mbAppendStr]

theorem expandMacro_literal (env : Env) (fuel : Nat) (mb : MacroBuf) (t : List Char)
    (hd : mb.depth + 1 ≤ max_macro_depth) (ht : '%' ∉ t) :
    expandMacro env (fuel + 1) mb t 0 = ({ mb with buf := mb.buf ++ t }, 0) := by
  have := expandMacro_literal_take env fuel mb t 0 hd (by simpa using ht)
  simpa using this

theorem NameShape.peek_ok {n : List Char} (h : NameShape n) (rest : List Char) :
    peek (n ++ rest) = peek n ∧ nameCharOK (peek n) = true := by
  have hne := h.ne_nil
  cases n with
  | nil => exact absurd rfl hne
  | cons c s => exact ⟨rfl, h.chars c (by simp)⟩

/-- An unbraced reference `%name`, the name followed by nothing. -/
theorem parseRef_name {n : List Char} (h : NameShape n) (hp : parseMacroName n = some []) :
    parseRef n = .ref { f := n, fe := [], g := none, ge := [], se := [], lastc := none,
                        negate := false, chkexist := 0 } := by
  obtain ⟨_, hok⟩ := h.peek_ok []
  obtain ⟨h1, h2, h3, h4, h5, h6, h7, h8, h9, h10⟩ := nameCharOK_ne hok
  unfold parseRef
  rw [if_neg h2, if_neg h3]
  simp only [parseMacroFlags_stop n false 0 h5 h6, hp]
  simp [peek, isblank]

/-- A braced reference `%{name}`. -/
theorem parseRef_braced {n : List Char} (h : NameShape n) (q : List Char) :
    parseRef ('{' :: (n ++ '}' :: q))
      = .ref { f := n ++ '}' :: q, fe := '}' :: q, g := none, ge := [], se := q, lastc := none,
               negate := false, chkexist := 0 } := by
  obtain ⟨hpk, hok⟩ := h.peek_ok ('}' :: q)
  obtain ⟨h1, h2, h3, h4, h5, h6, h7, h8, h9, h10⟩ := nameCharOK_ne hok
  have hm : matchchar ('{' :: (n ++ '}' :: q)) '{' '}' = .found ('}' :: q) :=
    matchchar_braced '{' '}' (by decide) (by decide) (by decide) n q (fun c hc => by
      obtain ⟨_, _, a3, a4, _, _, a7, _⟩ := nameCharOK_ne (h.chars c hc)
      exact ⟨a7, a4, a3⟩)
  have hfl : parseMacroFlags (n ++ '}' :: q) false 0 = (n ++ '}' :: q, false, 0) :=
    parseMacroFlags_stop _ false 0 (by rw [hpk]; exact h5) (by rw [hpk]; exact h6)
  have hpn := h.parse_append '}' q (by decide) (by decide)
  unfold parseRef
  simp only [peek_cons, hm, List.tail_cons, hfl, hpn]
  simp

/-- A braced conditional reference `%{flags name:text}`. -/
theorem parseRef_cond {n : List Char} (h : NameShape n) (fl a q : List Char)
    (hfl : ∀ c ∈ fl, c = '!' ∨ c = '?')
    (ha : ∀ c ∈ a, c ≠ '\\' ∧ c ≠ '{' ∧ c ≠ '}') :
    parseRef ('{' :: (fl ++ (n ++ ':' :: (a ++ '}' :: q))))
      = .ref { f := n ++ ':' :: (a ++ '}' :: q), fe := ':' :: (a ++ '}' :: q),
               g := some (a ++ '}' :: q), ge := '}' :: q, se := q, lastc := none,
               negate := decide (fl.count '!' % 2 = 1), chkexist := (fl.count '?' : Nat) } := by
  obtain ⟨hpk, hok⟩ := h.peek_ok (':' :: (a ++ '}' :: q))
  obtain ⟨h1, h2, h3, h4, h5, h6, h7, h8, h9, h10⟩ := nameCharOK_ne hok
  have e : fl ++ (n ++ ':' :: (a ++ '}' :: q)) = (fl ++ (n ++ ':' :: a)) ++ '}' :: q := by simp
  have hm : matchchar ('{' :: ((fl ++ (n ++ ':' :: a)) ++ '}' :: q)) '{' '}'
      = .found ('}' :: q) :=
    matchchar_braced '{' '}' (by decide) (by decide) (by decide) _ q (fun c hc => by
      simp only [List.mem_append, List.mem_cons] at hc
      rcases hc with hc | hc | hc | hc
      · rcases hfl c hc with e | e <;> subst e <;> decide
      · obtain ⟨_, _, a3, a4, _, _, a7, _⟩ := nameCharOK_ne (h.chars c hc)
        exact ⟨a7, a4, a3⟩
      · subst hc; decide
      · obtain ⟨b1, b2, b3⟩ := ha c hc
        exact ⟨b1, b3, b2⟩)
  have hflags := parseMacroFlags_flags (n ++ ':' :: (a ++ '}' :: q))
    (by rw [hpk]; exact h5) (by rw [hpk]; exact h6) fl false 0 hfl
  have hpn : parseMacroName (n ++ ':' :: (a ++ '}' :: q)) = some (':' :: (a ++ '}' :: q)) :=
    h.parse_append ':' (a ++ '}' :: q) (by decide) (by decide)
  rw [← e] at hm
  unfold parseRef
  simp only [peek_cons, hm, List.tail_cons, hflags, hpn]
  simp

/-! ## References to defined and to unknown macros -/

theorem doExpandMacros_of_loop (env : Env) (mc : rpmMacroContext) (src : List Char)
    (mb : MacroBuf) (rc : Int)
    (h : expandLoop env (expandMacro env 16) (src.length + 1)
      { initialBuf mc with depth := 1 } src = (mb, rc)) :
    doExpandMacros env mc src = ({ mb with depth := mb.depth - 1 }, rc) := by
  have e := doExpandMacros_eq env mc src
  simp only [h] at e
  exact e

theorem lookup_emptyContext (n : List Char) (k : Nat) : lookup emptyContext n k = none := by
  simp [lookup, findEntry, emptyContext]

/-- The turn of the loop at `%name...` when the name, if the parser finds
one, is neither built in nor defined: the `%` is copied and the scan goes on
right after it. -/
theorem expandStep_unknown (env : Env) (rec : Expander) (mb : MacroBuf) (n tail : List Char)
    (hs : NameShape n) (hdash : peek n ≠ '-')
    (hb : ∀ fe, parseMacroName (n ++ tail) = some fe →
      isBuiltin env (n ++ tail) ((n ++ tail).length - fe.length) = false)
    (hl : ∀ k, lookup mb.mc (n ++ tail) k = none) :
    expandStep env rec mb '%' (n ++ tail) = (mbAppend mb '%', 0, n ++ tail) := by
  obtain ⟨hpk, hok⟩ := hs.peek_ok tail
  obtain ⟨h1, h2, h3, h4, h5, h6, h7, h8, h9, h10⟩ := nameCharOK_ne hok
  have hne : n ++ tail ≠ [] := by simp [hs.ne_nil]
  have hfl := parseMacroFlags_stop (n ++ tail) false 0 (by rw [hpk]; exact h5)
    (by rw [hpk]; exact h6)
  unfold expandStep
  rw [if_neg (by simp), if_neg hne, if_neg (by rw [hpk]; exact h1)]
  unfold parseRef
  rw [if_neg (by rw [hpk]; exact h2), if_neg (by rw [hpk]; exact h3)]
  simp only [hfl]
  cases hp : parseMacroName (n ++ tail) with
  | none => rfl
  | some fe =>
    simp only []
    rw [expandRef_user env rec mb (n ++ tail)
      { f := n ++ tail, fe := fe, g := none, ge := [], se := fe,
        lastc := if isblank (peek fe) then some ((strchr fe '\n').getD []) else none,
        negate := false, chkexist := 0 } (hb fe hp)]
    unfold expandDefined
    simp only [hl, hpk, hdash, if_false, ne_eq, not_true_eq_false]


/-- C3, as amended: for a name `n` that the parser accepts, that does not
begin with `-`, and such that the name the parser reads at the start of
`n ++ tail` is not a built-in one, expanding `%` + `n` + `tail` in the empty
table gives `%` + `n` and then the expansion of `tail` in the empty table,
with the value returned and the final table of that expansion. -/
theorem unknown_passthrough (env : Env) (n tail : List Char)
    (hn : parseMacroName n = some []) (hdash : peek n ≠ '-')
    (hb : ∀ fe, parseMacroName (n ++ tail) = some fe →
      isBuiltin env (n ++ tail) ((n ++ tail).length - fe.length) = false) :
    doExpandMacros env emptyContext ('%' :: (n ++ tail))
      = ((doExpandMacros env emptyContext tail).1.pre ('%' :: n),
         (doExpandMacros env emptyContext tail).2) := by
  have hs := parseMacroName_shape hn
  have hpc : '%' ∉ n := fun hm => (nameCharOK_ne (hs.chars _ hm)).1 rfl
  have hstep := expandStep_unknown env (expandMacro env 16)
    { initialBuf emptyContext with depth := 1 } n tail hs hdash hb
    (fun k => lookup_emptyContext _ k)
  have hlit := expandLoop_literal env (expandMacro env 16) tail (tail.length + 1) n
    (mbAppend { initialBuf emptyContext with depth := 1 } '%') hpc
  have hpre := expandLoop_pre env (expandMacro env 16) (expandMacro_framed env 16) ('%' :: n)
    (tail.length + 1) { initialBuf emptyContext with depth := 1 } tail
  have e : mbAppendStr (mbAppend { initialBuf emptyContext with depth := 1 } '%') n
      = MacroBuf.pre ('%' :: n) { initialBuf emptyContext with depth := 1 } := by
    simp [mbAppendStr, mbAppend, MacroBuf.pre, initialBuf]
  rw [e, hpre] at hlit
  have hloop : expandLoop env (expandMacro env 16) (('%' :: (n ++ tail)).length + 1)
      { initialBuf emptyContext with depth := 1 } ('%' :: (n ++ tail))
      = expandLoop env (expandMacro env 16) (n.length + (tail.length + 1))
          (mbAppend { initialBuf emptyContext with depth := 1 } '%') (n ++ tail) := by
    have el : ('%' :: (n ++ tail)).length + 1 = (n.length + (tail.length + 1)) + 1 := by
      simp; omega
    rw [el, expandLoop, hstep]
    simp
  rw [doExpandMacros_eq, doExpandMacros_eq, hloop, hlit]
  rfl

theorem unknown_passthrough_witness :
    parseMacroName "foo".toList = some [] ∧ peek "foo".toList ≠ '-' ∧
    doExpandMacros quietEnv emptyContext ('%' :: ("foo".toList ++ " %%bar".toList))
      = ((doExpandMacros quietEnv emptyContext " %%bar".toList).1.pre ('%' :: "foo".toList),
         (doExpandMacros quietEnv emptyContext " %%bar".toList).2) :=
  ⟨by decide, by decide,
   unknown_passthrough quietEnv "foo".toList " %%bar".toList (by decide) (by decide)
     (by decide)⟩

/-- C3 as stated fails: `F` is accepted by the name parser and the empty
table does not define it, yet `%F` expands to `file.file`, not to `%F`. -/
theorem unknown_passthrough_counterexample :
    parseMacroName "F".toList = some [] ∧ lookup emptyContext "F".toList 1 = none ∧
    (doExpandMacros quietEnv emptyContext ("%".toList ++ "F".toList ++ "".toList)).1.buf
      = "file.file".toList ∧
    (doExpandMacros quietEnv emptyContext ("%".toList ++ "F".toList ++ "".toList)).1.buf
      ≠ "%".toList ++ "F".toList ++ (doExpandMacros quietEnv emptyContext "".toList).1.buf := by
  decide

/-- The turn of the loop at `%{name}` for a name that is not built in and
that the table defines without options: the body, unless it is empty, is
expanded by `rec`, and the scan goes on after the closing brace. -/
theorem expandStep_braced (env : Env) (rec : Expander) (mb : MacroBuf) (n q : List Char)
    (me : rpmMacroEntry) (hs : NameShape n) (hb : isBuiltinName env n = false)
    (hme : lookup mb.mc n n.length = some me) (ho : me.opts = none) :
    (expandStep env rec mb '%' ('{' :: (n ++ '}' :: q))).2.2 = q ∧
    (expandStep env rec mb '%' ('{' :: (n ++ '}' :: q))).2.1
      = (if me.body = [] then (0 : Int)
         else (rec { mb with mc := if peek n = '-' then markUsed mb.mc me.id else mb.mc }
                me.body 0).2) ∧
    (expandStep env rec mb '%' ('{' :: (n ++ '}' :: q))).1.buf
      = (if me.body = [] then mb.buf
         else (rec { mb with mc := if peek n = '-' then markUsed mb.mc me.id else mb.mc }
                me.body 0).1.buf) := by
  obtain ⟨hpk, hok⟩ := hs.peek_ok ('}' :: q)
  have hr := parseRef_braced hs q
  have hlen : (n ++ '}' :: q).length - ('}' :: q).length = n.length := by simp
  have hnb : isBuiltin env (n ++ '}' :: q) n.length = false := by
    rw [isBuiltin_append]; exact hb
  have hlk : lookup mb.mc (n ++ '}' :: q) n.length = some me := by
    rw [lookup_append _ _ _ hs.ne_nil]; exact hme
  have hstep : expandStep env rec mb '%' ('{' :: (n ++ '}' :: q))
      = expandDefined env rec mb ('{' :: (n ++ '}' :: q))
          { f := n ++ '}' :: q, fe := '}' :: q, g := none, ge := [], se := q, lastc := none,
            negate := false, chkexist := 0 } := by
    unfold expandStep
    rw [if_neg (by simp), if_neg (by simp), if_neg (by simp [peek]), hr]
    simp only []
    exact expandRef_user env rec mb _ _ (by simp only [MacroRef.fn, hlen]; exact hnb)
  rw [hstep]
  unfold expandDefined
  simp only [MacroRef.fn, hlen, hlk, hpk]
  by_cases hd : peek n = '-'
  · simp only [hd, if_true]
    unfold expandCond
    simp only [Option.isNone_some, Bool.false_eq_true, false_and, Option.isSome_some,
      Bool.not_false, and_false, or_self, if_false, Option.isSome_none, and_true]
    by_cases hbd : me.body = []
    · simp [hbd]
    · simp [hbd]
  · simp only [hd, if_false, ne_eq, not_true_eq_false]
    unfold expandBody
    simp only [ho, Option.isSome_none, Bool.false_eq_true, if_false]
    by_cases hbd : me.body = []
    · simp [hbd]
    · simp only [hbd, ne_eq, not_false_eq_true, if_true, if_false]
      split
      · simp
      · split <;> simp


/-- C4: for a name `n` that the parser accepts, that is not built in, and that
the table defines without an option spec, expanding `p%{n}q` with `p` and `q`
free of `%` returns what the recursive expansion of the body returns, and
when that is success the output is `p`, then the output of that expansion,
then `q`; it is `p ++ body ++ q`, with success, when the body holds no `%`.
The body is expanded one level down with `p` in the buffer (for an option
name `-X` after the entry is marked used); an empty body is not expanded. -/
theorem expand_braced_reference (env : Env) (mc : rpmMacroContext) (n p q : List Char)
    (me : rpmMacroEntry) (hn : parseMacroName n = some []) (hb : isBuiltinName env n = false)
    (hme : lookup mc n n.length = some me) (ho : me.opts = none)
    (hp : '%' ∉ p) (hq : '%' ∉ q) :
    let start : MacroBuf :=
      { initialBuf (if peek n = '-' then markUsed mc me.id else mc) with buf := p, depth := 1 }
    let r : MacroBuf × Int :=
      if me.body = [] then (start, 0) else expandMacro env 16 start me.body 0
    let out := doExpandMacros env mc (p ++ '%' :: '{' :: (n ++ '}' :: q))
    out.2 = r.2 ∧ out.1.buf = (if r.2 = 0 then r.1.buf ++ q else r.1.buf) ∧
    ('%' ∉ me.body → out.2 = 0 ∧ out.1.buf = p ++ me.body ++ q) := by
  intro start r out
  have hs := parseMacroName_shape hn
  -- the literal text in front
  have hlit := expandLoop_literal env (expandMacro env 16) ('%' :: '{' :: (n ++ '}' :: q))
    ((n.length + q.length + 3) + 1) p { initialBuf mc with depth := 1 } hp
  have hfuel : (p ++ '%' :: '{' :: (n ++ '}' :: q)).length + 1
      = p.length + ((n.length + q.length + 3) + 1) := by simp; omega
  have hmbp : mbAppendStr { initialBuf mc with depth := 1 } p
      = { initialBuf mc with buf := p, depth := 1 } := by simp [mbAppendStr, initialBuf]
  rw [hmbp] at hlit
  -- the reference
  obtain ⟨h1, h2, h3⟩ := expandStep_braced env (expandMacro env 16)
    { initialBuf mc with buf := p, depth := 1 } n q me hs hb hme ho
  have hstart : ({ ({ initialBuf mc with buf := p, depth := 1 } : MacroBuf) with
      mc := if peek n = '-'
        then markUsed ({ initialBuf mc with buf := p, depth := 1 } : MacroBuf).mc me.id
        else ({ initialBuf mc with buf := p, depth := 1 } : MacroBuf).mc } : MacroBuf)
      = start := by
    simp only [start, initialBuf]
  rw [hstart] at h2 h3
  have hr2 : (expandStep env (expandMacro env 16) { initialBuf mc with buf := p, depth := 1 }
      '%' ('{' :: (n ++ '}' :: q))).2.1 = r.2 := by
    rw [h2]; simp only [r]; split <;> rfl
  have hr3 : (expandStep env (expandMacro env 16) { initialBuf mc with buf := p, depth := 1 }
      '%' ('{' :: (n ++ '}' :: q))).1.buf = r.1.buf := by
    rw [h3]; simp only [r]; split <;> rfl
  have hloop : expandLoop env (expandMacro env 16)
      ((p ++ '%' :: '{' :: (n ++ '}' :: q)).length + 1) { initialBuf mc with depth := 1 }
      (p ++ '%' :: '{' :: (n ++ '}' :: q))
      = (if r.2 ≠ 0 then
          ((expandStep env (expandMacro env 16) { initialBuf mc with buf := p, depth := 1 }
            '%' ('{' :: (n ++ '}' :: q))).1, r.2)
         else
          (mbAppendStr (expandStep env (expandMacro env 16)
            { initialBuf mc with buf := p, depth := 1 } '%' ('{' :: (n ++ '}' :: q))).1 q,
           0)) := by
    rw [hfuel, hlit, expandLoop]
    simp only [hr2, h1]
    split
    · rfl
    · rw [expandLoop_fuel env (expandMacro env 16) (n.length + q.length + 3) (q.length + 1) _ q
        (by omega) (by omega)]
      have := expandLoop_literal env (expandMacro env 16) [] 1 q
        (expandStep env (expandMacro env 16) { initialBuf mc with buf := p, depth := 1 }
          '%' ('{' :: (n ++ '}' :: q))).1 hq
      simp only [List.append_nil] at this
      rw [this, expandLoop_nil]
  have hout : out.2 = r.2 ∧ out.1.buf = (if r.2 = 0 then r.1.buf ++ q else r.1.buf) := by
    simp only [out]
    rw [doExpandMacros_eq, hloop]
    by_cases h0 : r.2 = 0
    · simp [h0, mbAppendStr, hr3]
    · simp [h0, hr3]
  refine ⟨hout.1, hout.2, ?_⟩
  intro hbody
  have hr : r = ({ start with buf := p ++ me.body }, 0) := by
    simp only [r]
    split
    · rename_i he; simp [he, start]
    · rw [show (16 : Nat) = 15 + 1 from rfl,
        expandMacro_literal env 15 start me.body (by simp [start, max_macro_depth]) hbody]
  rw [hout.1, hout.2, hr]
  simp

theorem expand_braced_reference_witness :
    parseMacroName "foo".toList = some [] ∧ isBuiltinName quietEnv "foo".toList = false ∧
    lookup (addMacro emptyContext "foo".toList none "b%%c".toList 0) "foo".toList 3
      = some { id := 0, name := "foo".toList, opts := none, body := "b%%c".toList, used := 0,
               level := 0 } ∧
    '%' ∉ "a ".toList ∧ '%' ∉ " d".toList ∧
    (doExpandMacros quietEnv (addMacro emptyContext "foo".toList none "b%%c".toList 0)
      ("a ".toList ++ '%' :: '{' :: ("foo".toList ++ '}' :: " d".toList))).1.buf
      = "a b%c d".toList :=
  ⟨by decide, by decide, by decide, by decide, by decide, by
    have h := expand_braced_reference quietEnv
      (addMacro emptyContext "foo".toList none "b%%c".toList 0) "foo".toList "a ".toList
      " d".toList
      { id := 0, name := "foo".toList, opts := none, body := "b%%c".toList, used := 0, level := 0 }
      (by decide) (by decide) (by decide) rfl (by decide) (by decide)
    exact h.2.1.trans (by decide)⟩

/-- C10: for a name `n` that the parser accepts and that is not built in,
flags `fl` made of `!` and `?` with at least one `?`, and a non-empty text
`a` free of `%`, backslash and braces, `%{fl n:a}` expands with success to `a`
when "the table defines `n`" differs from "the number of `!` is odd", and to
nothing otherwise. So `%{?n:a}` gives `a` exactly when `n` is defined,
`%{!?n:a}` and `%{?!n:a}` give `a` exactly when it is not, and an even number
of `!` is the same as none. -/
theorem expand_conditional (env : Env) (mc : rpmMacroContext) (n a fl : List Char)
    (hn : parseMacroName n = some []) (hb : isBuiltinName env n = false)
    (hfl : ∀ c ∈ fl, c = '!' ∨ c = '?') (hq : '?' ∈ fl) (ha : a ≠ [])
    (hfree : ∀ c ∈ a, c ≠ '%' ∧ c ≠ '\\' ∧ c ≠ '{' ∧ c ≠ '}') :
    (doExpandMacros env mc ('%' :: '{' :: (fl ++ (n ++ ':' :: (a ++ ['}']))))).2 = 0 ∧
    (doExpandMacros env mc ('%' :: '{' :: (fl ++ (n ++ ':' :: (a ++ ['}']))))).1.buf
      = (if ((lookup mc n n.length).isSome != decide (fl.count '!' % 2 = 1)) then a else []) := by
  have hs := parseMacroName_shape hn
  obtain ⟨hpk, hok⟩ := hs.peek_ok (':' :: (a ++ ['}']))
  have hr := parseRef_cond hs fl a [] hfl (fun c hc => ⟨(hfree c hc).2.1, (hfree c hc).2.2⟩)
  have hpa : '%' ∉ a := fun hm => (hfree _ hm).1 rfl
  have hlen : (n ++ ':' :: (a ++ ['}'])).length - (':' :: (a ++ ['}'])).length = n.length := by
    simp
  have hnb : isBuiltin env (n ++ ':' :: (a ++ ['}'])) n.length = false := by
    rw [isBuiltin_append]; exact hb
  have hlk : lookup mc (n ++ ':' :: (a ++ ['}'])) n.length = lookup mc n n.length :=
    lookup_append _ _ _ hs.ne_nil
  have hcnt : (0 : Int) < (fl.count '?' : Nat) := by
    have := List.count_pos_iff.2 hq
    exact_mod_cast this
  have hgn : (a ++ ['}']).length - ['}'].length = a.length := by simp
  have hapos : 0 < a.length := List.length_pos.2 ha
  -- the conditional part, for any state one level down
  have hcond : ∀ mb : MacroBuf, mb.depth = 1 →
      expandCond (expandMacro env 16) mb
        { f := n ++ ':' :: (a ++ ['}']), fe := ':' :: (a ++ ['}']), g := some (a ++ ['}']),
          ge := ['}'], se := [], lastc := none, negate := decide (fl.count '!' % 2 = 1),
          chkexist := (fl.count '?' : Nat) } (lookup mc n n.length)
        = ({ mb with buf := mb.buf ++
              (if ((lookup mc n n.length).isSome != decide (fl.count '!' % 2 = 1)) then a
               else []) }, 0, []) := by
    intro mb hd
    have hlitA : expandMacro env 16 mb (a ++ ['}']) a.length
        = ({ mb with buf := mb.buf ++ a }, 0) := by
      have ht : (a ++ ['}']).take (if a.length = 0 then (a ++ ['}']).length else a.length) = a := by
        rw [if_neg (by omega)]; simp
      have := expandMacro_literal_take env 15 mb (a ++ ['}']) a.length
        (by simp [hd, max_macro_depth]) (by rw [ht]; exact hpa)
      rw [ht] at this
      exact this
    unfold expandCond
    simp only [MacroRef.gn, hgn, Option.isSome_some, true_and, Option.getD_some, hlitA]
    cases hl : lookup mc n n.length with
    | none =>
      cases hneg : decide (fl.count '!' % 2 = 1)
      · simp
      · simp [hapos]
    | some e =>
      cases hneg : decide (fl.count '!' % 2 = 1)
      · simp [hapos]
      · simp
  have hstep : ∃ m : rpmMacroContext,
      expandStep env (expandMacro env 16) { initialBuf mc with depth := 1 } '%'
        ('{' :: (fl ++ (n ++ ':' :: (a ++ ['}']))))
      = (⟨(if ((lookup mc n n.length).isSome != decide (fl.count '!' % 2 = 1)) then a
             else []), 1, 0, 0, m, false⟩, 0, []) := by
    unfold expandStep
    rw [if_neg (by simp), if_neg (by simp), if_neg (by simp [peek]), hr]
    simp only []
    rw [expandRef_user env (expandMacro env 16) _ _ _ (by simp only [MacroRef.fn, hlen]; exact hnb)]
    unfold expandDefined
    simp only [initialBuf, MacroRef.fn, hlen, hlk, hpk]
    by_cases hd : peek n = '-'
    · simp only [hd, if_true]
      cases hl : lookup mc n n.length with
      | none =>
        have := hcond ⟨[], 1, 0, 0, mc, false⟩ rfl
        rw [hl] at this
        exact ⟨mc, by rw [this]; simp⟩
      | some e =>
        have := hcond ⟨[], 1, 0, 0, markUsed mc e.id, false⟩ rfl
        rw [hl] at this
        exact ⟨markUsed mc e.id, by simp only []; rw [this]; simp⟩
    · simp only [hd, if_false]
      rw [if_pos (by omega)]
      have := hcond ⟨[], 1, 0, 0, mc, false⟩ rfl
      exact ⟨mc, by rw [this]; simp⟩
  obtain ⟨m, hst⟩ := hstep
  have hloop : expandLoop env (expandMacro env 16)
      (('%' :: '{' :: (fl ++ (n ++ ':' :: (a ++ ['}'])))).length + 1)
      { initialBuf mc with depth := 1 } ('%' :: '{' :: (fl ++ (n ++ ':' :: (a ++ ['}']))))
      = (⟨(if ((lookup mc n n.length).isSome != decide (fl.count '!' % 2 = 1)) then a
             else []), 1, 0, 0, m, false⟩, 0) := by
    rw [List.length_cons, expandLoop, hst]
    simp [expandLoop_nil]
  rw [doExpandMacros_eq, hloop]
  simp

theorem expand_conditional_witness :
    parseMacroName "aaa".toList = some [] ∧ isBuiltinName quietEnv "aaa".toList = false ∧
    '?' ∈ "!?".toList ∧ "no".toList ≠ [] ∧
    (doExpandMacros quietEnv emptyContext
        ('%' :: '{' :: ("!?".toList ++ ("aaa".toList ++ ':' :: ("no".toList ++ ['}']))))).1.buf
      = "no".toList :=
  ⟨by decide, by decide, by decide, by decide,
   ((expand_conditional quietEnv emptyContext "aaa".toList "no".toList "!?".toList (by decide)
      (by decide) (by decide) (by decide) (by decide) (by decide)).2).trans (by decide)⟩

/-! ## The order of names -/

theorem strcmp_refl : ∀ a : List Char, strcmp a a = 0 := by
  intro a
  induction a with
  | nil => rfl
  | cons c a ih => simp [strcmp, ih]

theorem strcmp_eq_zero : ∀ a b : List Char, strcmp a b = 0 → a = b := by
  intro a
  induction a with
  | nil =>
    intro b h
    cases b with
    | nil => rfl
    | cons d b => simp [strcmp] at h
  | cons c a ih =>
    intro b h
    cases b with
    | nil => simp [strcmp] at h
    | cons d b =>
      simp only [strcmp] at h
      split at h
      · rename_i hcd
        have : c = d := by simpa using congrArg Char.ofNat hcd
        rw [this, ih b h]
      · split at h <;> simp at h

theorem strcmp_eq_zero_iff (a b : List Char) : strcmp a b = 0 ↔ a = b :=
  ⟨strcmp_eq_zero a b, fun h => h ▸ strcmp_refl a⟩

theorem strcmp_swap : ∀ a b : List Char, strcmp a b < 0 ↔ 0 < strcmp b a := by
  intro a
  induction a with
  | nil =>
    intro b
    cases b <;> simp [strcmp]
  | cons c a ih =>
    intro b
    cases b with
    | nil => simp [strcmp]
    | cons d b =>
      simp only [strcmp]
      by_cases h : c.toNat = d.toNat
      · simp only [h, if_true]
        exact ih b
      · have h' : ¬ d.toNat = c.toNat := fun e => h e.symm
        simp only [h, h', if_false]
        by_cases hlt : c.toNat < d.toNat
        · have : ¬ d.toNat < c.toNat := by omega
          simp [hlt, this]
        · have : d.toNat < c.toNat := by omega
          simp [hlt, this]

theorem strcmp_trans : ∀ a b c : List Char, strcmp a b < 0 → strcmp b c < 0 → strcmp a c < 0 := by
  intro a
  induction a with
  | nil =>
    intro b c h1 h2
    cases b with
    | nil => simp [strcmp] at h1
    | cons y b =>
      cases c with
      | nil => simp [strcmp] at h2
      | cons z c => simp [strcmp]
  | cons x a ih =>
    intro b c h1 h2
    cases b with
    | nil => simp [strcmp] at h1
    | cons y b =>
      cases c with
      | nil => simp [strcmp] at h2
      | cons z c =>
        simp only [strcmp] at h1 h2 ⊢
        by_cases hxy : x.toNat = y.toNat
        · by_cases hyz : y.toNat = z.toNat
          · simp only [hxy, hyz, if_true] at h1 h2 ⊢
            exact ih b c h1 h2
          · simp only [hxy, hyz, if_true, if_false] at h1 h2 ⊢
            exact h2
        · simp only [hxy, if_false] at h1
          by_cases hlt : x.toNat < y.toNat
          · by_cases hyz : y.toNat = z.toNat
            · have : ¬ x.toNat = z.toNat := by omega
              have h3 : x.toNat < z.toNat := by omega
              simp [this, h3]
            · simp only [hyz, if_false] at h2
              by_cases hlt2 : y.toNat < z.toNat
              · have : ¬ x.toNat = z.toNat := by omega
                have h3 : x.toNat < z.toNat := by omega
                simp [this, h3]
              · simp [hlt2] at h2
          · simp [hlt] at h1

theorem strcmp_irrefl (a : List Char) : ¬ strcmp a a < 0 := by
  rw [strcmp_refl]; decide

theorem strcmp_total (a b : List Char) : strcmp a b < 0 ∨ a = b ∨ strcmp b a < 0 := by
  by_cases h : strcmp a b < 0
  · exact Or.inl h
  · by_cases h0 : strcmp a b = 0
    · exact Or.inr (Or.inl (strcmp_eq_zero a b h0))
    · right; right
      rw [strcmp_swap]
      omega

/-! ## Binary search in a sorted table -/

theorem compare_key_nonempty (n : List Char) (s : Slot) (h : s ≠ []) :
    compareMacroName (keyOf n) s = strcmp n (slotName s) := by
  cases s with
  | nil => exact absurd rfl h
  | cons e s => rfl

theorem bsearch_some (key : Slot) (base : List Slot) :
    ∀ (fuel l u i : Nat), bsearch key base fuel l u = some i →
      l ≤ i ∧ i < u ∧ compareMacroName key (base.getD i []) = 0 := by
  intro fuel
  induction fuel with
  | zero => intro l u i h; simp [bsearch] at h
  | succ f ih =>
    intro l u i h
    unfold bsearch at h
    split at h
    · rename_i hlu
      simp only [] at h
      split at h
      · have := ih _ _ _ h
        omega
      · split at h
        · have := ih _ _ _ h
          omega
        · cases h
          refine ⟨by omega, by omega, ?_⟩
          omega
    · cases h

theorem bsearch_none (n : List Char) (base : List Slot) (m : Nat)
    (hne : ∀ i, i < m → base.getD i [] ≠ [])
    (hs : ∀ i j, i < j → j < m →
      strcmp (slotName (base.getD i [])) (slotName (base.getD j [])) < 0) :
    ∀ (fuel l u : Nat), u ≤ m → u - l ≤ fuel → bsearch (keyOf n) base fuel l u = none →
      ∀ i, l ≤ i → i < u → slotName (base.getD i []) ≠ n := by
  intro fuel
  induction fuel with
  | zero =>
    intro l u _ hf _ i hl hu
    omega
  | succ f ih =>
    intro l u hum hf h i hl hu
    unfold bsearch at h
    rw [if_pos (by omega)] at h
    simp only [] at h
    have hmid : (l + u) / 2 < m := by omega
    rw [compare_key_nonempty n _ (hne _ hmid)] at h
    split at h
    · rename_i hlt
      -- the key is below the probe: it is not at or above it
      by_cases hi : i < (l + u) / 2
      · exact ih l _ (by omega) (by omega) h i hl hi
      · intro e
        by_cases hie : i = (l + u) / 2
        · rw [hie] at e; rw [e] at hlt; exact strcmp_irrefl _ hlt
        · have := hs ((l + u) / 2) i (by omega) (by omega)
          rw [e] at this
          exact strcmp_irrefl _ (strcmp_trans _ _ _ hlt this)
    · split at h
      · rename_i hgt
        by_cases hi : (l + u) / 2 < i
        · exact ih _ u hum (by omega) h i (by omega) hu
        · intro e
          have hgt' : strcmp (slotName (base.getD ((l + u) / 2) [])) n < 0 :=
            (strcmp_swap _ _).2 hgt
          by_cases hie : i = (l + u) / 2
          · rw [hie] at e; rw [e] at hgt'; exact strcmp_irrefl _ hgt'
          · have := hs i ((l + u) / 2) (by omega) hmid
            rw [e] at this
            exact strcmp_irrefl _ (strcmp_trans _ _ _ this hgt')
      · cases h

/-! ## Sorting the table -/

theorem strcmp_le_trans (a b c : List Char) (h1 : strcmp a b ≤ 0) (h2 : strcmp b c ≤ 0) :
    strcmp a c ≤ 0 := by
  rcases lt_or_eq_of_le h1 with h1 | h1
  · rcases lt_or_eq_of_le h2 with h2 | h2
    · exact Int.le_of_lt (strcmp_trans a b c h1 h2)
    · rw [← strcmp_eq_zero b c h2]; exact Int.le_of_lt h1
  · rw [strcmp_eq_zero a b h1]; exact h2

theorem slotLE_total (a b : Slot) : slotLE a b ∨ slotLE b a := by
  unfold slotLE
  cases a with
  | nil => cases b with
    | nil => left; decide
    | cons e t => right; simp [compareMacroName]
  | cons d s => cases b with
    | nil => left; simp [compareMacroName]
    | cons e t =>
      simp only [compareMacroName]
      rcases strcmp_total d.name e.name with h | h | h
      · left; omega
      · left; rw [h, strcmp_refl]
      · right; omega

theorem slotLE_trans (a b c : Slot) : slotLE a b → slotLE b c → slotLE a c := by
  unfold slotLE
  cases a with
  | nil => cases b with
    | nil => intro _ h; exact h
    | cons e t => intro h; simp [compareMacroName] at h
  | cons d s => cases b with
    | nil => cases c with
      | nil => intro h _; exact h
      | cons f u => intro _ h; simp [compareMacroName] at h
    | cons e t => cases c with
      | nil => intro _ _; simp [compareMacroName]
      | cons f u =>
        simp only [compareMacroName]
        exact strcmp_le_trans _ _ _

theorem qsort_perm (l : List Slot) : (qsort l).Perm l := List.perm_insertionSort slotLE l

theorem qsort_sorted (l : List Slot) : (qsort l).Pairwise slotLE :=
  @List.sorted_insertionSort Slot slotLE _ ⟨slotLE_total⟩ ⟨slotLE_trans⟩ l

theorem qsort_length (l : List Slot) : (qsort l).length = l.length := (qsort_perm l).length_eq

theorem firstNull_nil : firstNull [] = 0 := rfl

theorem firstNull_null (t : List Slot) : firstNull ([] :: t) = 0 := by
  simp [firstNull, List.findIdx?_cons]

theorem firstNull_cons (e : rpmMacroEntry) (x : Slot) (t : List Slot) :
    firstNull ((e :: x) :: t) = firstNull t + 1 := by
  simp only [firstNull, List.findIdx?_cons, List.isEmpty_cons, Bool.false_eq_true, if_false,
    List.findIdx?_succ, List.length_cons, zero_add]
  cases List.findIdx? (fun x => x.isEmpty) t <;> rfl

theorem firstNull_le (s : List Slot) : firstNull s ≤ s.length := by
  induction s with
  | nil => simp [firstNull_nil]
  | cons x t ih =>
    cases x with
    | nil => simp [firstNull_null]
    | cons e x => rw [firstNull_cons]; simpa using ih

theorem slotLE_null (b : Slot) (h : slotLE [] b) : b = [] := by
  cases b with
  | nil => rfl
  | cons e t => simp [slotLE, compareMacroName] at h

/-- In a sorted list the slots in use come first, the NULL ones after them. -/
theorem sorted_split (s : List Slot) (h : s.Pairwise slotLE) :
    (∀ x ∈ s.take (firstNull s), x ≠ []) ∧ (∀ x ∈ s.drop (firstNull s), x = []) := by
  induction s with
  | nil => simp
  | cons x t ih =>
    rw [List.pairwise_cons] at h
    cases x with
    | nil =>
      rw [firstNull_null]
      refine ⟨by simp, ?_⟩
      intro y hy
      rw [List.drop_zero, List.mem_cons] at hy
      rcases hy with hy | hy
      · exact hy
      · exact slotLE_null y (h.1 y hy)
    | cons e x =>
      rw [firstNull_cons]
      have := ih h.2
      refine ⟨?_, ?_⟩
      · intro y hy
        rw [List.take_succ_cons, List.mem_cons] at hy
        rcases hy with hy | hy
        · rw [hy]; exact List.cons_ne_nil _ _
        · exact this.1 y hy
      · intro y hy
        rw [List.drop_succ_cons] at hy
        exact this.2 y hy

theorem distinct_symm : Symmetric DistinctNames := by
  intro a b h hb ha e
  exact h ha hb e.symm

theorem strict_of_le (a b : Slot) (ha : a ≠ []) (hb : b ≠ []) (hle : slotLE a b)
    (hd : DistinctNames a b) : strcmp (slotName a) (slotName b) < 0 := by
  cases a with
  | nil => exact absurd rfl ha
  | cons d s =>
    cases b with
    | nil => exact absurd rfl hb
    | cons e t =>
      have hne := hd ha hb
      simp only [slotLE, compareMacroName] at hle
      simp only [slotName] at hne ⊢
      rcases lt_or_eq_of_le hle with h | h
      · exact h
      · exact absurd (strcmp_eq_zero _ _ h) hne

/-- What `qsort` and the reset of `firstFree` make of slots with distinct names. -/
theorem qsort_spec (l : List Slot) (hd : l.Pairwise DistinctNames) :
    firstNull (qsort l) ≤ l.length ∧
    (∀ x ∈ (qsort l).take (firstNull (qsort l)), x ≠ []) ∧
    (∀ x ∈ (qsort l).drop (firstNull (qsort l)), x = []) ∧
    ((qsort l).take (firstNull (qsort l))).Pairwise
      (fun a b => strcmp (slotName a) (slotName b) < 0) ∧
    (∀ x, x ∈ (qsort l).take (firstNull (qsort l)) ↔ x ∈ l ∧ x ≠ []) := by
  have hs := sorted_split (qsort l) (qsort_sorted l)
  have hd' : (qsort l).Pairwise DistinctNames :=
    ((qsort_perm l).pairwise_iff (fun {a b} h => distinct_symm h)).2 hd
  refine ⟨by rw [← qsort_length l]; exact firstNull_le _, hs.1, hs.2, ?_, ?_⟩
  · have hboth : (qsort l).Pairwise (fun a b => slotLE a b ∧ DistinctNames a b) :=
      List.pairwise_and_iff.2 ⟨qsort_sorted l, hd'⟩
    have ht := hboth.sublist (List.take_sublist (firstNull (qsort l)) (qsort l))
    refine List.Pairwise.imp_of_mem ?_ ht
    intro a b ha hb hab
    exact strict_of_le a b (hs.1 a ha) (hs.1 b hb) hab.1 hab.2
  · intro x
    constructor
    · intro hx
      exact ⟨(qsort_perm l).mem_iff.1 (List.mem_of_mem_take hx), hs.1 x hx⟩
    · intro hx
      have hm : x ∈ qsort l := (qsort_perm l).mem_iff.2 hx.1
      rw [← List.take_append_drop (firstNull (qsort l)) (qsort l), List.mem_append] at hm
      rcases hm with hm | hm
      · exact hm
      · exact absurd (hs.2 x hm) hx.2

/-! ## The table invariant -/

theorem live_length (mc : rpmMacroContext) (h : mc.firstFree ≤ mc.macroTable.length) :
    mc.live.length = mc.firstFree := by
  simp [rpmMacroContext.live, h]

theorem live_getD (mc : rpmMacroContext) (i : Nat) (hi : i < mc.firstFree) :
    mc.live.getD i [] = mc.macroTable.getD i [] := by
  simp [rpmMacroContext.live, List.getD_eq_getElem?_getD, List.getElem?_take, hi]

theorem getD_mem_live (mc : rpmMacroContext) (h : mc.firstFree ≤ mc.macroTable.length)
    (i : Nat) (hi : i < mc.firstFree) : mc.macroTable.getD i [] ∈ mc.live := by
  rw [← live_getD mc i hi]
  have hl : i < mc.live.length := by rw [live_length mc h]; exact hi
  rw [List.getD_eq_getElem _ _ hl]
  exact List.getElem_mem _

theorem mem_live (mc : rpmMacroContext) (h : mc.firstFree ≤ mc.macroTable.length)
    (s : Slot) (hs : s ∈ mc.live) : ∃ i, i < mc.firstFree ∧ mc.macroTable.getD i [] = s := by
  obtain ⟨i, hi, e⟩ := List.mem_iff_getElem.1 hs
  have hi' : i < mc.firstFree := by rw [← live_length mc h]; exact hi
  refine ⟨i, hi', ?_⟩
  rw [← live_getD mc i hi', List.getD_eq_getElem _ _ hi, e]

theorem TableInv.lt (mc : rpmMacroContext) (h : TableInv mc) (i j : Nat) (hij : i < j)
    (hj : j < mc.firstFree) :
    strcmp (slotName (mc.macroTable.getD i [])) (slotName (mc.macroTable.getD j [])) < 0 := by
  have hs := List.pairwise_iff_getElem.1 h.sorted
  have hl := live_length mc h.le
  have := hs i j (by omega) (by omega) hij
  rw [← live_getD mc i (by omega), ← live_getD mc j hj,
    List.getD_eq_getElem _ _ (by omega : i < mc.live.length),
    List.getD_eq_getElem _ _ (by omega : j < mc.live.length)]
  exact this

theorem findEntry_eq (mc : rpmMacroContext) (name : List Char) (namelen : Nat) :
    findEntry mc name namelen =
      if mc.macroTable = [] ∨ mc.firstFree = 0 then none
      else bsearch (keyOf (if namelen > 0 then name.take namelen else name))
        mc.macroTable mc.firstFree 0 mc.firstFree := rfl

theorem compare_key_zero (n : List Char) (s : Slot) (h : compareMacroName (keyOf n) s = 0) :
    ∃ e rest, s = e :: rest ∧ e.name = n := by
  cases s with
  | nil => simp [compareMacroName, keyOf] at h
  | cons e rest =>
    exact ⟨e, rest, rfl, (strcmp_eq_zero _ _ h).symm⟩

/-- What `findEntry` finds is a slot in use holding the name asked for. -/
theorem findEntry_some (mc : rpmMacroContext) (name : List Char) (namelen i : Nat)
    (h : findEntry mc name namelen = some i) :
    i < mc.firstFree ∧ ∃ e rest, mc.macroTable.getD i [] = e :: rest ∧
      e.name = (if namelen > 0 then name.take namelen else name) := by
  rw [findEntry_eq] at h
  split at h
  · cases h
  · have := bsearch_some _ _ _ _ _ _ h
    exact ⟨this.2.1, compare_key_zero _ _ this.2.2⟩

/-- When `findEntry` finds nothing, no slot in use holds the name. -/
theorem findEntry_none (mc : rpmMacroContext) (hinv : TableInv mc) (name : List Char)
    (namelen : Nat) (h : findEntry mc name namelen = none) :
    ∀ s ∈ mc.live, slotName s ≠ (if namelen > 0 then name.take namelen else name) := by
  intro s hs
  obtain ⟨i, hi, e⟩ := mem_live mc hinv.le s hs
  rw [findEntry_eq] at h
  split at h
  · rename_i hz
    rcases hz with hz | hz
    · have := hinv.le; rw [hz] at this; simp at this; omega
    · omega
  · rw [← e]
    refine bsearch_none _ mc.macroTable mc.firstFree ?_ ?_ mc.firstFree 0 mc.firstFree
      (Nat.le_refl _) (by omega) h i (Nat.zero_le _) hi
    · intro j hj
      exact hinv.used _ (getD_mem_live mc hinv.le j hj)
    · intro a b hab hb
      exact TableInv.lt mc hinv a b hab hb

theorem TableInv.unique (mc : rpmMacroContext) (h : TableInv mc) (a b : Slot)
    (ha : a ∈ mc.live) (hb : b ∈ mc.live) (e : slotName a = slotName b) : a = b := by
  by_contra hne
  have hp : mc.live.Pairwise (fun a b => slotName a ≠ slotName b) := by
    refine h.sorted.imp ?_
    intro x y hxy exy
    rw [exy] at hxy
    exact strcmp_irrefl _ hxy
  exact List.Pairwise.forall (fun x y hxy => Ne.symm hxy) hp ha hb hne e

/-- The stack of a name is the slot in use that holds the name. -/
theorem stackOf_mem (mc : rpmMacroContext) (h : TableInv mc) (s : Slot) (hs : s ∈ mc.live) :
    stackOf mc (slotName s) = s := by
  unfold stackOf
  cases hf : findEntry mc (slotName s) 0 with
  | none => exact absurd (by simp) (findEntry_none mc h _ 0 hf s hs)
  | some i =>
    obtain ⟨hi, e, rest, he, hn⟩ := findEntry_some mc _ 0 i hf
    simp only [gt_iff_lt, Nat.lt_irrefl, if_false] at hn
    simp only []
    refine TableInv.unique mc h _ _ (getD_mem_live mc h.le i hi) hs ?_
    rw [he]; exact hn

/-- A name that no slot in use holds has the empty stack. -/
theorem stackOf_not_mem (mc : rpmMacroContext) (n : List Char)
    (h : ∀ s ∈ mc.live, s ≠ [] → slotName s ≠ n) (hle : mc.firstFree ≤ mc.macroTable.length) :
    stackOf mc n = [] := by
  unfold stackOf
  cases hf : findEntry mc n 0 with
  | none => rfl
  | some i =>
    obtain ⟨hi, e, rest, he, hn⟩ := findEntry_some mc _ 0 i hf
    simp only [gt_iff_lt, Nat.lt_irrefl, if_false] at hn
    exact absurd (by rw [he]; exact hn) (h _ (getD_mem_live mc hle i hi) (by rw [he]; simp))

/-- The slots that `sortMacroTable` leaves in use are those in use before,
now in the order of their names. -/
theorem sortMacroTable_spec (mc : rpmMacroContext) (h : PreInv mc) :
    TableInv (sortMacroTable mc) ∧
      ∀ x, x ∈ (sortMacroTable mc).live ↔ x ∈ mc.live ∧ x ≠ [] := by
  by_cases ht : mc.macroTable = []
  · have hl : mc.live = [] := by simp [rpmMacroContext.live, ht]
    have hs : sortMacroTable mc = mc := by simp [sortMacroTable, ht]
    rw [hs]
    refine ⟨⟨h.le, ?_, h.free, ?_, h.names⟩, ?_⟩
    · rw [hl]; simp
    · rw [hl]; exact List.Pairwise.nil
    · rw [hl]; simp
  · have hq := qsort_spec mc.live h.distinct
    have hlen := live_length mc h.le
    have hff : (sortMacroTable mc).firstFree = firstNull (qsort mc.live) := by
      have e1 : (sortMacroTable mc).firstFree
          = ((qsort mc.live).findIdx? (fun s => s.isEmpty)).getD mc.firstFree := by
        simp only [sortMacroTable, ht, if_false]; rfl
      rw [e1, firstNull, qsort_length, hlen]
    have htab : (sortMacroTable mc).macroTable
        = qsort mc.live ++ mc.macroTable.drop mc.firstFree := by
      simp only [sortMacroTable, ht, if_false]; rfl
    have hk : firstNull (qsort mc.live) ≤ (qsort mc.live).length := firstNull_le _
    have hlive : (sortMacroTable mc).live
        = (qsort mc.live).take (firstNull (qsort mc.live)) := by
      unfold rpmMacroContext.live
      rw [hff, htab, List.take_append_of_le_length hk]
      rfl
    refine ⟨⟨?_, ?_, ?_, ?_, ?_⟩, ?_⟩
    · rw [hff, htab, List.length_append]; omega
    · rw [hlive]; exact hq.2.1
    · rw [hff, htab, List.drop_append_of_le_length hk]
      intro s hs
      rw [List.mem_append] at hs
      rcases hs with hs | hs
      · exact hq.2.2.1 s hs
      · exact h.free s hs
    · rw [hlive]; exact hq.2.2.2.1
    · rw [hlive]
      intro s hs
      exact h.names s ((hq.2.2.2.2 s).1 hs).1
    · rw [hlive]; exact hq.2.2.2.2

/-! ## `addMacro` and `delMacro` on a table -/

theorem pairwise_set {α : Type} (R : α → α → Prop) (b : α) (hl : ∀ x, R x b) (hr : ∀ x, R b x) :
    ∀ (l : List α) (i : Nat), l.Pairwise R → (l.set i b).Pairwise R := by
  intro l
  induction l with
  | nil => intro i h; simp
  | cons a t ih =>
    intro i h
    rw [List.pairwise_cons] at h
    cases i with
    | zero =>
      rw [List.set_cons_zero, List.pairwise_cons]
      exact ⟨fun x _ => hr x, h.2⟩
    | succ i =>
      rw [List.set_cons_succ, List.pairwise_cons]
      refine ⟨?_, ih i h.2⟩
      intro x hx
      rcases List.mem_or_eq_of_mem_set hx with hx | hx
      · exact h.1 x hx
      · rw [hx]; exact hl a

theorem live_set (mc : rpmMacroContext) (i : Nat) (s : Slot) (k : Nat) :
    rpmMacroContext.live { mc with macroTable := mc.macroTable.set i s, nalloc := k }
      = mc.live.set i s := by
  simp only [rpmMacroContext.live]
  exact List.set_take

theorem map_set_same (l : List Slot) (i : Nat) (s : Slot)
    (h : slotName s = slotName (l.getD i [])) (hi : i < l.length) :
    (l.set i s).map slotName = l.map slotName := by
  rw [List.map_set, h, List.getD_eq_getElem _ _ hi]
  refine List.ext_getElem (by simp) ?_
  intro j h1 h2
  by_cases hj : i = j
  · subst hj; simp
  · rw [List.getElem_set_ne hj]

/-- Replacing the stack of a slot in use by another stack of the same name
keeps the table in shape. -/
theorem TableInv.set (mc : rpmMacroContext) (h : TableInv mc) (i : Nat) (hi : i < mc.firstFree)
    (s : Slot) (hs : s ≠ []) (hn : slotName s = slotName (mc.macroTable.getD i []))
    (hnames : ∀ e ∈ s, e.name = slotName s) (k : Nat) :
    TableInv { mc with macroTable := mc.macroTable.set i s, nalloc := k } := by
  have hl := live_set mc i s k
  refine ⟨?_, ?_, ?_, ?_, ?_⟩
  · simp only [List.length_set]; exact h.le
  · rw [hl]
    intro x hx
    rcases List.mem_or_eq_of_mem_set hx with hx | hx
    · exact h.used x hx
    · rw [hx]; exact hs
  · simp only [List.drop_set_of_lt _ _ hi]
    exact h.free
  · rw [hl]
    have hlen := live_length mc h.le
    have e := map_set_same mc.live i s (by rw [live_getD mc i hi]; exact hn) (by omega)
    have hm : (mc.live.map slotName).Pairwise (fun a b => strcmp a b < 0) :=
      List.pairwise_map.2 h.sorted
    rw [← e] at hm
    exact List.pairwise_map.1 hm
  · rw [hl]
    intro x hx
    rcases List.mem_or_eq_of_mem_set hx with hx | hx
    · exact h.names x hx
    · rw [hx]; exact hnames

/-- Pushing on a name that is defined: the slot found gets the new entry on
top, nothing else changes. -/
theorem addMacro_found (mc : rpmMacroContext) (n : List Char) (o : Option (List Char))
    (b : List Char) (level : Int) (i : Nat) (e : rpmMacroEntry) (rest : Slot)
    (hf : findEntry mc n 0 = some i) (hs : mc.macroTable.getD i [] = e :: rest) :
    addMacro mc n o b level =
      { mc with
        macroTable := mc.macroTable.set i
          (⟨mc.nalloc, e.name, o, b, 0, level⟩ :: e :: rest)
        nalloc := mc.nalloc + 1 } := by
  simp only [addMacro, hf, pushMacro, hs, List.tail_cons]
  rw [if_neg (List.cons_ne_nil _ _)]

theorem getD_set_self (l : List Slot) (i : Nat) (s : Slot) (hi : i < l.length) :
    (l.set i s).getD i [] = s := by
  simp [List.getD_eq_getElem?_getD, hi]

theorem getD_set_ne (l : List Slot) (i j : Nat) (s : Slot) (hij : i ≠ j) :
    (l.set i s).getD j [] = l.getD j [] := by
  simp [List.getD_eq_getElem?_getD, List.getElem?_set_ne hij]

theorem getD_lt_of_ne (l : List Slot) (i : Nat) (h : l.getD i [] ≠ []) : i < l.length := by
  by_contra hn
  exact h (by simp [List.getD_eq_getElem?_getD, List.getElem?_eq_none (Nat.le_of_not_lt hn)])

/-- The comparison with a key reads only whether the slot is in use and the
name on top of it. -/
theorem compare_congr (key a b : Slot) (hn : slotName a = slotName b) (he : a = [] ↔ b = []) :
    compareMacroName key a = compareMacroName key b := by
  cases a with
  | nil => rw [he.1 rfl]
  | cons d s =>
    cases b with
    | nil => exact absurd (he.2 rfl) (List.cons_ne_nil _ _)
    | cons e t =>
      cases key with
      | nil => rfl
      | cons k ks => simp only [compareMacroName]; rw [show d.name = e.name from hn]

theorem bsearch_congr (key : Slot) (t1 t2 : List Slot)
    (h : ∀ i, compareMacroName key (t1.getD i []) = compareMacroName key (t2.getD i [])) :
    ∀ fuel l u, bsearch key t1 fuel l u = bsearch key t2 fuel l u := by
  intro fuel
  induction fuel with
  | zero => intro l u; rfl
  | succ f ih =>
    intro l u
    unfold bsearch
    simp only [h, ih]

/-- Replacing a stack by another one of the same name changes no search. -/
theorem findEntry_set (mc : rpmMacroContext) (i : Nat) (s : Slot) (k : Nat)
    (hs : s ≠ []) (hold : mc.macroTable.getD i [] ≠ [])
    (hn : slotName s = slotName (mc.macroTable.getD i [])) (name : List Char) (namelen : Nat) :
    findEntry { mc with macroTable := mc.macroTable.set i s, nalloc := k } name namelen
      = findEntry mc name namelen := by
  have hi := getD_lt_of_ne _ _ hold
  rw [findEntry_eq, findEntry_eq]
  have hnil : (mc.macroTable.set i s = []) ↔ (mc.macroTable = []) := by
    constructor
    · intro h; have := congrArg List.length h; simp at this; exact this
    · intro h; rw [h]; rfl
  simp only [hnil]
  split
  · rfl
  · refine bsearch_congr _ _ _ ?_ _ _ _
    intro j
    by_cases hj : i = j
    · subst hj
      rw [getD_set_self _ _ _ hi]
      exact compare_congr _ _ _ hn ⟨fun h => absurd h hs, fun h => absurd h hold⟩
    · rw [getD_set_ne _ _ _ _ hj]

theorem set_getD_self (l : List Slot) (i : Nat) (hi : i < l.length) :
    l.set i (l.getD i []) = l := by
  rw [List.getD_eq_getElem _ _ hi]
  refine List.ext_getElem (by simp) ?_
  intro j h1 h2
  by_cases hj : i = j
  · subst hj; simp
  · rw [List.getElem_set_ne hj]

theorem set_set_same (l : List Slot) (i : Nat) (a b : Slot) :
    (l.set i a).set i b = l.set i b := List.set_set a b ..

/-- Popping a name that is defined more than once: the slot found loses its
top entry, nothing else changes. -/
theorem delMacro_found (mc : rpmMacroContext) (n : List Char) (i : Nat) (e d : rpmMacroEntry)
    (rest : Slot) (hf : findEntry mc n 0 = some i)
    (hs : mc.macroTable.getD i [] = e :: d :: rest) :
    delMacro mc n = { mc with macroTable := mc.macroTable.set i (d :: rest) } := by
  simp only [delMacro, hf, popMacro, hs, List.tail_cons]
  rw [if_neg (List.cons_ne_nil _ _)]

/-- Popping the only definition of a name: the slot becomes NULL and the
table is sorted again. -/
theorem delMacro_last (mc : rpmMacroContext) (n : List Char) (i : Nat) (e : rpmMacroEntry)
    (hf : findEntry mc n 0 = some i) (hs : mc.macroTable.getD i [] = [e]) :
    delMacro mc n = sortMacroTable { mc with macroTable := mc.macroTable.set i [] } := by
  simp only [delMacro, hf, popMacro, hs, List.tail_cons, if_true]

theorem delMacro_none (mc : rpmMacroContext) (n : List Char) (hf : findEntry mc n 0 = none) :
    delMacro mc n = mc := by
  simp only [delMacro, hf]

/-- A definition pushed on a defined name and popped again leaves the table
as it was; only the count of allocations has moved. -/
theorem delMacro_addMacro_found (mc : rpmMacroContext) (n : List Char) (o : Option (List Char))
    (b : List Char) (level : Int) (i : Nat) (hf : findEntry mc n 0 = some i) :
    delMacro (addMacro mc n o b level) n = { mc with nalloc := mc.nalloc + 1 } := by
  obtain ⟨hi, e, rest, hs, hn⟩ := findEntry_some mc n 0 i hf
  have hlt : i < mc.macroTable.length := getD_lt_of_ne _ _ (by rw [hs]; exact List.cons_ne_nil _ _)
  rw [addMacro_found mc n o b level i e rest hf hs]
  have hf2 : findEntry { mc with
      macroTable := mc.macroTable.set i (⟨mc.nalloc, e.name, o, b, 0, level⟩ :: e :: rest)
      nalloc := mc.nalloc + 1 } n 0 = some i := by
    rw [findEntry_set mc i _ _ (List.cons_ne_nil _ _) (by rw [hs]; exact List.cons_ne_nil _ _)
      (by rw [hs]; rfl)]
    exact hf
  rw [delMacro_found _ n i _ e rest hf2 (getD_set_self _ _ _ hlt)]
  simp only [set_set_same]
  rw [← hs, set_getD_self _ _ hlt]

theorem zeroSlots_replicate : ∀ (a b : Nat),
    zeroSlots (List.replicate a ([] : Slot)) 0 b = List.replicate a [] := by
  intro a
  induction a with
  | zero => intro b; rfl
  | succ a ih =>
    intro b
    cases b with
    | zero => rfl
    | succ b => simp only [List.replicate_succ, zeroSlots, ih]

theorem zeroSlots_append (r : List Slot) (k : Nat) :
    ∀ l : List Slot, zeroSlots (l ++ r) l.length k = l ++ zeroSlots r 0 k := by
  intro l
  induction l with
  | nil => rfl
  | cons x t ih =>
    simp only [List.cons_append, List.length_cons, zeroSlots]
    exact congrArg (x :: ·) ih

/-- Growing a full table adds one chunk of NULL slots at its end. -/
theorem expandMacroTable_full (mc : rpmMacroContext)
    (h : mc.firstFree = mc.macroTable.length) :
    expandMacroTable mc
      = { mc with macroTable := mc.macroTable ++ List.replicate MACRO_CHUNK_SIZE [] } := by
  unfold expandMacroTable
  by_cases ht : mc.macroTable = []
  · rw [if_pos ht]
    rw [ht] at h
    simp only [ht, List.nil_append]
    rw [← show mc.firstFree = 0 from h]
  · rw [if_neg ht]
    simp only [h, zeroSlots_append, zeroSlots_replicate]

theorem take_succ_set (l : List Slot) (i : Nat) (s : Slot) (hi : i < l.length) :
    (l.set i s).take (i + 1) = l.take i ++ [s] := by
  rw [List.take_succ]
  have h1 : (l.set i s).take i = l.take i := by
    rw [List.set_take, List.set_eq_of_length_le (by simp)]
  have h2 : (l.set i s)[i]? = some s := by simp [hi]
  rw [h1, h2]; rfl

/-- Defining a new name: the entry goes to the first free slot, after the
table has grown when it was full, and the table is sorted again. -/
theorem addMacro_none (mc : rpmMacroContext) (hinv : TableInv mc) (n : List Char)
    (o : Option (List Char)) (b : List Char) (level : Int) (hf : findEntry mc n 0 = none) :
    ∃ pad : List Slot, (∀ x ∈ pad, x = []) ∧ mc.firstFree < (mc.macroTable ++ pad).length ∧
      addMacro mc n o b level = sortMacroTable
        { macroTable := (mc.macroTable ++ pad).set mc.firstFree [⟨mc.nalloc, n, o, b, 0, level⟩]
          firstFree := mc.firstFree + 1
          nalloc := mc.nalloc + 1 } := by
  have hfree : mc.macroTable.getD mc.firstFree [] = [] := by
    by_cases hlt : mc.firstFree < mc.macroTable.length
    · rw [List.getD_eq_getElem _ _ hlt]
      refine hinv.free _ ?_
      rw [List.mem_iff_getElem]
      exact ⟨0, by simp; omega, by simp⟩
    · simp [List.getD_eq_getElem?_getD, List.getElem?_eq_none (Nat.le_of_not_lt hlt)]
  by_cases hfull : mc.firstFree = mc.macroTable.length
  · refine ⟨List.replicate MACRO_CHUNK_SIZE [], ?_, ?_, ?_⟩
    · intro x hx; exact (List.mem_replicate.1 hx).2
    · simp [MACRO_CHUNK_SIZE]; omega
    · have hne : mc.macroTable ++ List.replicate MACRO_CHUNK_SIZE ([] : Slot) ≠ [] := by
        simp [MACRO_CHUNK_SIZE]
      have hg : (mc.macroTable ++ List.replicate MACRO_CHUNK_SIZE ([] : Slot)).getD
          mc.firstFree [] = [] := by
        rw [hfull, List.getD_eq_getElem?_getD, List.getElem?_append_right (Nat.le_refl _)]
        simp [MACRO_CHUNK_SIZE]
      simp only [addMacro, hf, rpmMacroContext.macrosAllocated, hfull, if_true,
        expandMacroTable_full mc hfull, ne_eq, hne, not_false_eq_true, pushMacro]
      rw [← hfull, hg]
      simp only [List.tail_cons, if_true]
  · have hlt : mc.firstFree < mc.macroTable.length := by
      have := hinv.le; omega
    refine ⟨[], by simp, by simpa using hlt, ?_⟩
    have hne : mc.macroTable ≠ [] := by
      intro h; rw [h] at hlt; simp at hlt
    simp only [addMacro, hf, rpmMacroContext.macrosAllocated, hfull, if_false, ne_eq, hne,
      not_false_eq_true, if_true, pushMacro, hfree, List.tail_cons, List.append_nil]

/-- After a new name is defined the table is in shape again, and the slots
in use are those of before and the one of the new name. -/
theorem addMacro_new_spec (mc : rpmMacroContext) (hinv : TableInv mc) (n : List Char)
    (o : Option (List Char)) (b : List Char) (level : Int) (hf : findEntry mc n 0 = none) :
    TableInv (addMacro mc n o b level) ∧
      ∀ x, x ∈ (addMacro mc n o b level).live ↔
        x ∈ mc.live ∨ x = [⟨mc.nalloc, n, o, b, 0, level⟩] := by
  obtain ⟨pad, hpad, hlt, heq⟩ := addMacro_none mc hinv n o b level hf
  have hlive : rpmMacroContext.live
      { macroTable := (mc.macroTable ++ pad).set mc.firstFree [⟨mc.nalloc, n, o, b, 0, level⟩]
        firstFree := mc.firstFree + 1
        nalloc := mc.nalloc + 1 } = mc.live ++ [[⟨mc.nalloc, n, o, b, 0, level⟩]] := by
    simp only [rpmMacroContext.live]
    rw [take_succ_set _ _ _ hlt, List.take_append_of_le_length hinv.le]
  have hnone := findEntry_none mc hinv n 0 hf
  simp only [gt_iff_lt, Nat.lt_irrefl, if_false] at hnone
  have hpre : PreInv
      { macroTable := (mc.macroTable ++ pad).set mc.firstFree [⟨mc.nalloc, n, o, b, 0, level⟩]
        firstFree := mc.firstFree + 1
        nalloc := mc.nalloc + 1 } := by
    refine ⟨?_, ?_, ?_, ?_⟩
    · simp only [List.length_set]; omega
    · simp only []
      rw [List.drop_set_of_lt _ _ (Nat.lt_succ_self _)]
      intro s hs
      have hdd : (mc.macroTable ++ pad).drop (mc.firstFree + 1)
          = ((mc.macroTable ++ pad).drop mc.firstFree).drop 1 := by
        simp [List.drop_drop, Nat.add_comm]
      have hs' : s ∈ (mc.macroTable ++ pad).drop mc.firstFree :=
        List.mem_of_mem_drop (hdd ▸ hs)
      rw [List.drop_append_of_le_length hinv.le, List.mem_append] at hs'
      rcases hs' with h | h
      · exact hinv.free s h
      · exact hpad s h
    · rw [hlive, List.pairwise_append]
      refine ⟨?_, List.pairwise_singleton _ _, ?_⟩
      · refine hinv.sorted.imp ?_
        intro a c hac _ _ e
        rw [e] at hac
        exact strcmp_irrefl _ hac
      · intro a ha c hc _ _
        rw [List.mem_singleton] at hc
        rw [hc]
        exact hnone a ha
    · rw [hlive]
      intro s hs e he
      rw [List.mem_append, List.mem_singleton] at hs
      rcases hs with hs | hs
      · exact hinv.names s hs e he
      · rw [hs] at he ⊢
        rw [List.mem_singleton] at he
        rw [he]; rfl
  have hspec := sortMacroTable_spec _ hpre
  rw [← heq] at hspec
  refine ⟨hspec.1, ?_⟩
  intro x
  rw [hspec.2 x, hlive, List.mem_append, List.mem_singleton]
  constructor
  · intro h; exact h.1
  · intro h
    refine ⟨h, ?_⟩
    rcases h with h | h
    · exact hinv.used x h
    · rw [h]; exact List.cons_ne_nil _ _

theorem findEntry_mem (mc : rpmMacroContext) (h : TableInv mc) (s : Slot) (hs : s ∈ mc.live) :
    ∃ i, findEntry mc (slotName s) 0 = some i ∧ mc.macroTable.getD i [] = s := by
  cases hf : findEntry mc (slotName s) 0 with
  | none => exact absurd (by simp) (findEntry_none mc h _ 0 hf s hs)
  | some i =>
    obtain ⟨hi, e, rest, he, hn⟩ := findEntry_some mc _ 0 i hf
    simp only [gt_iff_lt, Nat.lt_irrefl, if_false] at hn
    refine ⟨i, rfl, TableInv.unique mc h _ _ (getD_mem_live mc h.le i hi) hs ?_⟩
    rw [he]; exact hn

theorem TableInv.nodup (mc : rpmMacroContext) (h : TableInv mc) : mc.live.Nodup := by
  refine h.sorted.imp ?_
  intro a b hab e
  rw [e] at hab
  exact strcmp_irrefl _ hab

theorem mem_set_nodup {α : Type} (b : α) :
    ∀ (l : List α) (i : Nat) (hi : i < l.length), l.Nodup →
      ∀ x, x ∈ l.set i b ↔ (x ∈ l ∧ x ≠ l[i]) ∨ x = b := by
  intro l
  induction l with
  | nil => intro i hi; simp at hi
  | cons a t ih =>
    intro i hi hnd x
    rw [List.nodup_cons] at hnd
    cases i with
    | zero =>
      simp only [List.set_cons_zero, List.mem_cons, List.getElem_cons_zero]
      constructor
      · rintro (h | h)
        · exact Or.inr h
        · exact Or.inl ⟨Or.inr h, fun e => hnd.1 (e ▸ h)⟩
      · rintro (⟨h | h, hne⟩ | h)
        · exact absurd h hne
        · exact Or.inr h
        · exact Or.inl h
    | succ i =>
      have hi' : i < t.length := by simpa using hi
      simp only [List.set_cons_succ, List.mem_cons, List.getElem_cons_succ, ih i hi' hnd.2 x]
      constructor
      · rintro (h | ⟨h, hne⟩ | h)
        · refine Or.inl ⟨Or.inl h, ?_⟩
          intro e
          exact hnd.1 (by rw [← h, e]; exact List.getElem_mem _)
        · exact Or.inl ⟨Or.inr h, hne⟩
        · exact Or.inr h
      · rintro (⟨h | h, hne⟩ | h)
        · exact Or.inl h
        · exact Or.inr (Or.inl ⟨h, hne⟩)
        · exact Or.inr (Or.inr h)

/-- Pushing on a defined name keeps the table in shape. -/
theorem addMacro_found_inv (mc : rpmMacroContext) (hinv : TableInv mc) (n : List Char)
    (o : Option (List Char)) (b : List Char) (level : Int) (i : Nat)
    (hf : findEntry mc n 0 = some i) : TableInv (addMacro mc n o b level) := by
  obtain ⟨hi, e, rest, hs, _⟩ := findEntry_some mc n 0 i hf
  rw [addMacro_found mc n o b level i e rest hf hs]
  have hm := getD_mem_live mc hinv.le i hi
  refine TableInv.set mc hinv i hi _ (List.cons_ne_nil _ _) (by rw [hs]; rfl) ?_ _
  intro d hd
  rw [List.mem_cons] at hd
  rcases hd with hd | hd
  · rw [hd]; rfl
  · have := hinv.names _ hm d (by rw [hs]; exact hd)
    rw [hs] at this
    exact this

theorem TableInv.addMacro (mc : rpmMacroContext) (hinv : TableInv mc) (n : List Char)
    (o : Option (List Char)) (b : List Char) (level : Int) :
    TableInv (RpmMacro.addMacro mc n o b level) := by
  cases hf : findEntry mc n 0 with
  | none => exact (addMacro_new_spec mc hinv n o b level hf).1
  | some i => exact addMacro_found_inv mc hinv n o b level i hf

/-- Popping the only definition of a name: the table stays in shape and the
slots in use are those of before without the slot of the name. -/
theorem delMacro_last_spec (mc : rpmMacroContext) (hinv : TableInv mc) (n : List Char)
    (i : Nat) (e : rpmMacroEntry) (hf : findEntry mc n 0 = some i)
    (hs : mc.macroTable.getD i [] = [e]) :
    TableInv (delMacro mc n) ∧ ∀ x, x ∈ (delMacro mc n).live ↔ x ∈ mc.live ∧ x ≠ [e] := by
  obtain ⟨hi, _⟩ := findEntry_some mc n 0 i hf
  have hlen := live_length mc hinv.le
  have hl : rpmMacroContext.live { mc with macroTable := mc.macroTable.set i [] }
      = mc.live.set i [] := live_set mc i [] mc.nalloc
  have hpre : PreInv { mc with macroTable := mc.macroTable.set i [] } := by
    refine ⟨?_, ?_, ?_, ?_⟩
    · simp only [List.length_set]; exact hinv.le
    · simp only [List.drop_set_of_lt _ _ hi]; exact hinv.free
    · rw [hl]
      refine pairwise_set DistinctNames [] (fun x _ h => absurd rfl h)
        (fun x h => absurd rfl h) _ _ ?_
      refine hinv.sorted.imp ?_
      intro a c hac _ _ e
      rw [e] at hac
      exact strcmp_irrefl _ hac
    · rw [hl]
      intro x hx
      rcases List.mem_or_eq_of_mem_set hx with hx | hx
      · exact hinv.names x hx
      · rw [hx]; intro d hd; cases hd
  have hspec := sortMacroTable_spec _ hpre
  rw [← delMacro_last mc n i e hf hs] at hspec
  refine ⟨hspec.1, ?_⟩
  intro x
  have hil : i < mc.live.length := by omega
  have hget : mc.live[i] = [e] := by
    rw [← List.getD_eq_getElem _ [] hil, live_getD mc i hi, hs]
  rw [hspec.2 x, hl, mem_set_nodup [] mc.live i hil (TableInv.nodup mc hinv) x, hget]
  constructor
  · rintro ⟨h | h, hne⟩
    · exact h
    · exact absurd h hne
  · intro h
    exact ⟨Or.inl h, hinv.used x h.1⟩

theorem TableInv.delMacro (mc : rpmMacroContext) (hinv : TableInv mc) (n : List Char) :
    TableInv (RpmMacro.delMacro mc n) := by
  cases hf : findEntry mc n 0 with
  | none => rw [delMacro_none mc n hf]; exact hinv
  | some i =>
    obtain ⟨hi, e, rest, hs, _⟩ := findEntry_some mc n 0 i hf
    cases rest with
    | nil => exact (delMacro_last_spec mc hinv n i e hf hs).1
    | cons d rest =>
      rw [delMacro_found mc n i e d rest hf hs]
      have hm := getD_mem_live mc hinv.le i hi
      have hnames := hinv.names _ hm
      rw [hs] at hnames
      refine TableInv.set mc hinv i hi _ (List.cons_ne_nil _ _) ?_ ?_ _
      · rw [hs]
        exact hnames d (by simp)
      · intro x hx
        have h1 := hnames x (List.mem_cons_of_mem _ hx)
        have h2 := hnames d (by simp)
        simp only [slotName] at h1 h2 ⊢
        rw [h1, h2]

theorem TableInv.empty : TableInv emptyContext := by
  refine ⟨Nat.le_refl _, ?_, ?_, ?_, ?_⟩ <;> simp [emptyContext, rpmMacroContext.live]

/-- Every context made by `addMacro` and `delMacro` from the empty one has a
table in shape. -/
theorem Reachable.inv (mc : rpmMacroContext) (h : Reachable mc) : TableInv mc := by
  induction h with
  | empty => exact TableInv.empty
  | add mc n o b level _ ih => exact TableInv.addMacro mc ih n o b level
  | del mc n _ ih => exact TableInv.delMacro mc ih n

/-- Two tables in shape with the same slots in use give every name the same
stack. -/
theorem stackOf_congr (a b : rpmMacroContext) (ha : TableInv a) (hb : TableInv b)
    (h : ∀ x, x ∈ a.live ↔ x ∈ b.live) (m : List Char) : stackOf a m = stackOf b m := by
  by_cases hex : ∃ s ∈ a.live, slotName s = m
  · obtain ⟨s, hs, hn⟩ := hex
    rw [← hn, stackOf_mem a ha s hs, stackOf_mem b hb s ((h s).1 hs)]
  · have hna : ∀ s ∈ a.live, s ≠ [] → slotName s ≠ m := fun s hs _ e => hex ⟨s, hs, e⟩
    have hnb : ∀ s ∈ b.live, s ≠ [] → slotName s ≠ m :=
      fun s hs _ e => hex ⟨s, (h s).2 hs, e⟩
    rw [stackOf_not_mem a m hna ha.le, stackOf_not_mem b m hnb hb.le]

/-- A definition added and removed again leaves every name its stack. -/
theorem stackOf_del_add (mc : rpmMacroContext) (hinv : TableInv mc) (n : List Char)
    (o : Option (List Char)) (b : List Char) (level : Int) (m : List Char) :
    stackOf (delMacro (addMacro mc n o b level) n) m = stackOf mc m := by
  cases hf : findEntry mc n 0 with
  | some i => rw [delMacro_addMacro_found mc n o b level i hf]; rfl
  | none =>
    obtain ⟨hinv1, hmem1⟩ := addMacro_new_spec mc hinv n o b level hf
    have hin : [(⟨mc.nalloc, n, o, b, 0, level⟩ : rpmMacroEntry)]
        ∈ (addMacro mc n o b level).live := (hmem1 _).2 (Or.inr rfl)
    obtain ⟨j, hfj, hgj⟩ := findEntry_mem _ hinv1 _ hin
    have hspec := delMacro_last_spec _ hinv1 n j _ hfj hgj
    refine stackOf_congr _ _ hspec.1 hinv ?_ m
    intro x
    rw [hspec.2 x, hmem1 x]
    have hnone := findEntry_none mc hinv n 0 hf
    simp only [gt_iff_lt, Nat.lt_irrefl, if_false] at hnone
    constructor
    · rintro ⟨h | h, hne⟩
      · exact h
      · exact absurd h hne
    · intro h
      refine ⟨Or.inl h, ?_⟩
      intro e
      exact hnone x h (by rw [e]; rfl)

theorem lookup_some (mc : rpmMacroContext) (n : List Char) (k : Nat) (e : rpmMacroEntry)
    (h : lookup mc n k = some e) :
    ∃ i rest, findEntry mc n k = some i ∧ mc.macroTable.getD i [] = e :: rest := by
  unfold lookup at h
  cases hf : findEntry mc n k with
  | none => rw [hf] at h; cases h
  | some i =>
    rw [hf] at h
    simp only [] at h
    cases hs : mc.macroTable.getD i [] with
    | nil => rw [hs] at h; cases h
    | cons d rest =>
      rw [hs] at h
      simp only [List.head?_cons, Option.some.injEq] at h
      exact ⟨i, rest, rfl, by rw [hs, h]⟩

theorem stackOf_nalloc (mc : rpmMacroContext) (k : Nat) (m : List Char) :
    stackOf { mc with nalloc := k } m = stackOf mc m := rfl

theorem stackOf_set_other (mc : rpmMacroContext) (i : Nat) (s : Slot) (k : Nat)
    (hs : s ≠ []) (hold : mc.macroTable.getD i [] ≠ [])
    (hn : slotName s = slotName (mc.macroTable.getD i [])) (m : List Char)
    (hm : m ≠ slotName s) :
    stackOf { mc with macroTable := mc.macroTable.set i s, nalloc := k } m = stackOf mc m := by
  unfold stackOf
  rw [findEntry_set mc i s k hs hold hn]
  cases hf : findEntry mc m 0 with
  | none => rfl
  | some j =>
    simp only []
    obtain ⟨_, e, rest, he, hname⟩ := findEntry_some mc m 0 j hf
    simp only [gt_iff_lt, Nat.lt_irrefl, if_false] at hname
    have hij : i ≠ j := by
      intro hij
      subst hij
      rw [he] at hn
      exact hm (by rw [hn, ← hname]; rfl)
    exact getD_set_ne _ _ _ _ hij

/-- C8. Definitions are last in, first out per name: after `addMacro` on a
name whose visible entry is `e1` the visible entry is the new one, with the
options, body and level given and a use count of 0, on top of the old stack;
after a following `delMacro` the visible entry is `e1` again, unchanged; the
stack of every other name is the same after each of the two calls. -/
theorem add_del_lifo (mc : rpmMacroContext) (n : List Char) (o2 : Option (List Char))
    (b2 : List Char) (l2 : Int) (e1 : rpmMacroEntry) (h : lookup mc n 0 = some e1) :
    (∃ e2, lookup (addMacro mc n o2 b2 l2) n 0 = some e2 ∧
        e2.opts = o2 ∧ e2.body = b2 ∧ e2.level = l2 ∧ e2.used = 0 ∧
        stackOf (addMacro mc n o2 b2 l2) n = e2 :: stackOf mc n) ∧
      lookup (delMacro (addMacro mc n o2 b2 l2) n) n 0 = some e1 ∧
      stackOf (delMacro (addMacro mc n o2 b2 l2) n) n = stackOf mc n ∧
      ∀ m, m ≠ n →
        stackOf (addMacro mc n o2 b2 l2) m = stackOf mc m ∧
        stackOf (delMacro (addMacro mc n o2 b2 l2) n) m = stackOf mc m := by
  obtain ⟨i, rest, hf, hs⟩ := lookup_some mc n 0 e1 h
  obtain ⟨_, e, rest', hs', hname⟩ := findEntry_some mc n 0 i hf
  simp only [gt_iff_lt, Nat.lt_irrefl, if_false] at hname
  have hlt : i < mc.macroTable.length := getD_lt_of_ne _ _ (by rw [hs]; exact List.cons_ne_nil _ _)
  have hne : mc.macroTable.getD i [] ≠ [] := by rw [hs]; exact List.cons_ne_nil _ _
  have hadd := addMacro_found mc n o2 b2 l2 i e1 rest hf hs
  have hdel := delMacro_addMacro_found mc n o2 b2 l2 i hf
  have hfind : findEntry (addMacro mc n o2 b2 l2) n 0 = some i := by
    rw [hadd, findEntry_set mc i _ _ (List.cons_ne_nil _ _) hne (by rw [hs]; rfl)]
    exact hf
  have hget : (addMacro mc n o2 b2 l2).macroTable.getD i []
      = ⟨mc.nalloc, e1.name, o2, b2, 0, l2⟩ :: e1 :: rest := by
    rw [hadd]; exact getD_set_self _ _ _ hlt
  have hn1 : e1.name = n := by
    rw [hs] at hs'
    injection hs' with h1 h2
    rw [h1]; exact hname
  refine ⟨⟨⟨mc.nalloc, e1.name, o2, b2, 0, l2⟩, ?_, rfl, rfl, rfl, rfl, ?_⟩, ?_, ?_, ?_⟩
  · unfold lookup
    rw [hfind]
    simp only [hget, List.head?_cons]
  · unfold stackOf
    rw [hfind, hf]
    simp only [hget, hs]
  · rw [hdel]; exact h
  · rw [hdel]; rfl
  · intro m hm
    refine ⟨?_, ?_⟩
    · rw [hadd]
      exact stackOf_set_other mc i _ _ (List.cons_ne_nil _ _) hne (by rw [hs]; rfl) m
        (by simp only [slotName]; rw [hn1]; exact hm)
    · rw [hdel]; rfl

theorem add_del_lifo_witness :
    lookup (addMacro emptyContext "foo".toList none "one".toList 0) "foo".toList 0
      = some { id := 0, name := "foo".toList, opts := none, body := "one".toList, used := 0,
               level := 0 } ∧
    lookup (delMacro (addMacro (addMacro emptyContext "foo".toList none "one".toList 0)
      "foo".toList (some "x".toList) "two".toList 3) "foo".toList) "foo".toList 0
      = some { id := 0, name := "foo".toList, opts := none, body := "one".toList, used := 0,
               level := 0 } :=
  ⟨by decide,
    (add_del_lifo (addMacro emptyContext "foo".toList none "one".toList 0) "foo".toList
      (some "x".toList) "two".toList 3
      { id := 0, name := "foo".toList, opts := none, body := "one".toList, used := 0, level := 0 }
      (by decide)).2.1⟩

/-- C9. In a context made by `addMacro` and `delMacro` from the empty one,
`findEntry` returns a slot exactly when some entry of the table has the name
asked for (its first `namelen` characters when `namelen > 0`), compared
character by character, so that names differing in letter case are different
names; the slot returned is in use and every entry in it has that name. -/
theorem findEntry_exact (mc : rpmMacroContext) (h : Reachable mc) (name : List Char)
    (namelen : Nat) :
    (∀ i, findEntry mc name namelen = some i →
      ∃ e rest, mc.macroTable.getD i [] = e :: rest ∧
        ∀ d ∈ e :: rest, d.name = (if namelen > 0 then name.take namelen else name)) ∧
    (findEntry mc name namelen = none ↔
      ∀ s ∈ mc.macroTable, ∀ e ∈ s,
        e.name ≠ (if namelen > 0 then name.take namelen else name)) := by
  have hinv := Reachable.inv mc h
  have hsome : ∀ i, findEntry mc name namelen = some i →
      ∃ e rest, mc.macroTable.getD i [] = e :: rest ∧
        ∀ d ∈ e :: rest, d.name = (if namelen > 0 then name.take namelen else name) := by
    intro i hf
    obtain ⟨hi, e, rest, hs, hn⟩ := findEntry_some mc name namelen i hf
    refine ⟨e, rest, hs, ?_⟩
    intro d hd
    have := hinv.names _ (getD_mem_live mc hinv.le i hi) d (by rw [hs]; exact hd)
    rw [this, hs]
    exact hn
  refine ⟨hsome, ?_, ?_⟩
  · intro hf s hs e he
    have hne : s ≠ [] := by intro h0; rw [h0] at he; cases he
    have hl : s ∈ mc.live := by
      rw [← List.take_append_drop mc.firstFree mc.macroTable, List.mem_append] at hs
      rcases hs with hs | hs
      · exact hs
      · exact absurd (hinv.free s hs) hne
    rw [hinv.names s hl e he]
    exact findEntry_none mc hinv name namelen hf s hl
  · intro hall
    cases hf : findEntry mc name namelen with
    | none => rfl
    | some i =>
      obtain ⟨e, rest, hs, hn⟩ := hsome i hf
      have hlt : i < mc.macroTable.length :=
        getD_lt_of_ne _ _ (by rw [hs]; exact List.cons_ne_nil _ _)
      have hm : e :: rest ∈ mc.macroTable := by
        rw [← hs, List.getD_eq_getElem _ _ hlt]
        exact List.getElem_mem _
      exact absurd (hn e (by simp)) (hall _ hm e (by simp))

theorem findEntry_exact_witness :
    Reachable (addMacro (addMacro emptyContext "foo".toList none "1".toList 0)
      "Foo".toList none "2".toList 0) ∧
    findEntry (addMacro (addMacro emptyContext "foo".toList none "1".toList 0)
      "Foo".toList none "2".toList 0) "FOO".toList 0 = none ∧
    findEntry (addMacro (addMacro emptyContext "foo".toList none "1".toList 0)
      "Foo".toList none "2".toList 0) "foobar".toList 3 = some 1 ∧
    ∀ s ∈ (addMacro (addMacro emptyContext "foo".toList none "1".toList 0)
      "Foo".toList none "2".toList 0).macroTable, ∀ e ∈ s, e.name ≠ "FOO".toList :=
  ⟨Reachable.add _ _ _ _ _ (Reachable.add _ _ _ _ _ Reachable.empty), by decide, by decide,
    by
      have h := findEntry_exact (addMacro (addMacro emptyContext "foo".toList none "1".toList 0)
        "Foo".toList none "2".toList 0)
        (Reachable.add _ _ _ _ _ (Reachable.add _ _ _ _ _ Reachable.empty)) "FOO".toList 0
      exact h.2.1 (by decide)⟩

/-! ## The directives `%define`, `%global` and `%undefine` -/

theorem parseRef_plain {w : List Char} (h : NameShape w) (tail : List Char)
    (hp : parseMacroName (w ++ tail) = some tail) :
    parseRef (w ++ tail)
      = .ref { f := w ++ tail, fe := tail, g := none, ge := [], se := tail,
               lastc := if isblank (peek tail) then some ((strchr tail '\n').getD []) else none,
               negate := false, chkexist := 0 } := by
  obtain ⟨hpk, hok⟩ := h.peek_ok tail
  obtain ⟨h1, h2, h3, h4, h5, h6, h7, h8, h9, h10⟩ := nameCharOK_ne hok
  unfold parseRef
  rw [if_neg (by rw [hpk]; exact h2), if_neg (by rw [hpk]; exact h3)]
  have hfl := parseMacroFlags_stop (w ++ tail) false 0 (by rw [hpk]; exact h5)
    (by rw [hpk]; exact h6)
  simp only [hfl, hp]

theorem shape_define : NameShape "define".toList := by
  left; exact ⟨'d', "efine".toList, rfl, by decide, by decide, by decide⟩

theorem shape_undefine : NameShape "undefine".toList := by
  left; exact ⟨'u', "ndefine".toList, rfl, by decide, by decide, by decide⟩

theorem shape_global : NameShape "global".toList := by
  left; exact ⟨'g', "lobal".toList, rfl, by decide, by decide, by decide⟩

theorem fn_append (w tail : List Char) :
    (⟨w ++ tail, tail, none, [], tail,
      if isblank (peek tail) then some ((strchr tail '\n').getD []) else none,
      false, 0⟩ : MacroRef).fn = w.length := by
  simp [MacroRef.fn]

/-- The turn of the loop at `%define`: the definition is parsed and executed,
the scan goes on where `doDefine` says. -/
theorem expandStep_define (env : Env) (rec : Expander) (mb : MacroBuf) (tail : List Char)
    (hp : parseMacroName ("define".toList ++ tail) = some tail) :
    expandStep env rec mb '%' ("define".toList ++ tail)
      = ((doDefine rec mb tail mb.depth false).1, 0, (doDefine rec mb tail mb.depth false).2) := by
  unfold expandStep
  rw [if_neg (by simp), if_neg (by simp),
    if_neg (by rw [(shape_define.peek_ok tail).1]; decide)]
  rw [parseRef_plain shape_define tail hp]
  simp only []
  unfold expandRef
  rw [fn_append]
  simp only [STREQ_append]
  rw [if_neg (by decide), if_pos (by decide)]

theorem expandStep_global (env : Env) (rec : Expander) (mb : MacroBuf) (tail : List Char)
    (hp : parseMacroName ("global".toList ++ tail) = some tail) :
    expandStep env rec mb '%' ("global".toList ++ tail)
      = ((doDefine rec mb tail env.RMIL_GLOBAL true).1, 0,
         (doDefine rec mb tail env.RMIL_GLOBAL true).2) := by
  unfold expandStep
  rw [if_neg (by simp), if_neg (by simp),
    if_neg (by rw [(shape_global.peek_ok tail).1]; decide)]
  rw [parseRef_plain shape_global tail hp]
  simp only []
  unfold expandRef
  rw [fn_append]
  simp only [STREQ_append]
  rw [if_pos (by decide)]

theorem expandStep_undefine (env : Env) (rec : Expander) (mb : MacroBuf) (tail : List Char)
    (hp : parseMacroName ("undefine".toList ++ tail) = some tail) :
    expandStep env rec mb '%' ("undefine".toList ++ tail)
      = ({ mb with mc := (doUndefine mb.mc tail).1 }, 0, (doUndefine mb.mc tail).2) := by
  unfold expandStep
  rw [if_neg (by simp), if_neg (by simp),
    if_neg (by rw [(shape_undefine.peek_ok tail).1]; decide)]
  rw [parseRef_plain shape_undefine tail hp]
  simp only []
  unfold expandRef
  rw [fn_append]
  simp only [STREQ_append]
  rw [if_neg (by decide), if_neg (by decide), if_pos (by decide)]

theorem takeWhile_append_stop {α : Type} (p : α → Bool) (l : List α) (x : α) (rest : List α)
    (hl : ∀ a ∈ l, p a = true) (hx : p x = false) :
    (l ++ x :: rest).takeWhile p = l := by
  induction l with
  | nil => simp [List.takeWhile, hx]
  | cons a l ih =>
    have ha : p a = true := hl a (by simp)
    simp only [List.cons_append, List.takeWhile, ha]
    exact congrArg (a :: ·) (ih (fun b hb => hl b (by simp [hb])))

theorem takeWhile_all {α : Type} (p : α → Bool) (l : List α) (hl : ∀ a ∈ l, p a = true) :
    l.takeWhile p = l := by
  induction l with
  | nil => rfl
  | cons a l ih =>
    simp only [List.takeWhile, hl a (by simp)]
    exact congrArg (a :: ·) (ih (fun b hb => hl b (by simp [hb])))

theorem dropWhile_all {α : Type} (p : α → Bool) (l : List α) (hl : ∀ a ∈ l, p a = true) :
    l.dropWhile p = [] := by
  induction l with
  | nil => rfl
  | cons a l ih =>
    simp only [List.dropWhile, hl a (by simp)]
    exact ih (fun b hb => hl b (by simp [hb]))

theorem dropWhile_stop (p : Char → Bool) (l s : List Char) (hl : ∀ a ∈ l, p a = true)
    (hs : StopsAt p s) : (l ++ s).dropWhile p = s := by
  rcases hs with hs | hs
  · rw [hs, List.append_nil]; exact dropWhile_all p l hl
  · cases s with
    | nil => rw [List.append_nil]; exact dropWhile_all p l hl
    | cons x rest => exact dropWhile_append_stop p l x rest hl hs

theorem takeWhile_stop (p : Char → Bool) (l s : List Char) (hl : ∀ a ∈ l, p a = true)
    (hs : StopsAt p s) : (l ++ s).takeWhile p = l := by
  rcases hs with hs | hs
  · rw [hs, List.append_nil]; exact takeWhile_all p l hl
  · cases s with
    | nil => rw [List.append_nil]; exact takeWhile_all p l hl
    | cons x rest => exact takeWhile_append_stop p l x rest hl hs

theorem nameChar_not_blank {c : Char} (h : isNameChar c = true) : isblank c = false := by
  cases hb : isblank c
  · rfl
  · exfalso
    simp only [isblank, Bool.or_eq_true, beq_iff_eq] at hb
    rcases hb with hb | hb <;> (subst hb; revert h; decide)

/-- `COPYNAME` at blanks, a name and what follows the name. -/
theorem COPYNAME_name (bl n tail : List Char) (hbl : ∀ c ∈ bl, isblank c = true)
    (hn : ∀ c ∈ n, isNameChar c = true) (hne : n ≠ []) (ht : StopsAt isNameChar tail) :
    COPYNAME (bl ++ (n ++ tail)) = (n, tail) := by
  have hsk : SKIPBLANK (bl ++ (n ++ tail)) = n ++ tail := by
    unfold SKIPBLANK
    refine dropWhile_stop isblank bl _ hbl (Or.inr ?_)
    cases n with
    | nil => exact absurd rfl hne
    | cons c t => exact nameChar_not_blank (hn c (by simp))
  unfold COPYNAME
  rw [hsk, takeWhile_stop isNameChar n tail hn ht, dropWhile_stop isNameChar n tail hn ht]

/-- The free-field body: characters copied as they are up to the line end. -/
theorem copyBody_plain (rest : List Char) (hrest : StopsAt (fun c => !iseol c) rest) :
    ∀ (b be : List Char), (∀ c ∈ b, isBodyChar c = true) →
      copyBody (b ++ rest) 0 0 be = (be ++ b, rest, 0, 0) := by
  intro b
  induction b with
  | nil =>
    intro be _
    rcases hrest with h | h
    · rw [h]; simp [copyBody]
    · cases rest with
      | nil => simp [copyBody]
      | cons c r =>
        simp only [peek_cons, Bool.not_eq_false'] at h
        cases r with
        | nil => simp [copyBody, h]
        | cons d s => simp [copyBody, h]
  | cons c t ih =>
    intro be hb
    have hc := hb c (by simp)
    simp only [isBodyChar, Bool.not_eq_true', Bool.or_eq_false_iff, beq_eq_false_iff_ne,
      ne_eq] at hc
    obtain ⟨⟨⟨⟨⟨⟨h1, h2⟩, h3⟩, h4⟩, h5⟩, h6⟩, h7⟩ := hc
    have iht := ih (be ++ [c]) (fun a ha => hb a (by simp [ha]))
    cases hts : t ++ rest with
    | nil =>
      have ht : t = [] := (List.append_eq_nil.1 hts).1
      have hr : rest = [] := (List.append_eq_nil.1 hts).2
      subst ht; subst hr
      simp [copyBody, h1, h3, h4, h5, h6, h7]
    | cons d s =>
      rw [hts] at iht
      simp only [List.cons_append, hts, copyBody, h1, h2, h3, h4, h5, h6, h7, Bool.false_eq_true,
        and_false, if_false, and_self]
      rw [iht]
      simp

theorem rdropWhile_last (p : Char → Bool) (b : List Char) (x : Char) (hx : p x = false) :
    (b ++ [x]).rdropWhile p = b ++ [x] := by
  rw [List.rdropWhile_concat_neg _ _ _ (by simp [hx])]

theorem bodyChar_ne {c : Char} (h : isBodyChar c = true) :
    iseol c = false ∧ c ≠ '%' ∧ c ≠ '\\' ∧ c ≠ '{' ∧ c ≠ '}' ∧ c ≠ '(' ∧ c ≠ ')' := by
  simp only [isBodyChar, Bool.not_eq_true', Bool.or_eq_false_iff, beq_eq_false_iff_ne,
    ne_eq] at h
  obtain ⟨⟨⟨⟨⟨⟨h1, h2⟩, h3⟩, h4⟩, h5⟩, h6⟩, h7⟩ := h
  exact ⟨h1, h2, h3, h4, h5, h6, h7⟩

theorem peek_body (b rest : List Char) (hb : ∀ c ∈ b, isBodyChar c = true)
    (hrest : StopsAt (fun c => !iseol c) rest) :
    peek (b ++ rest) ≠ '{' ∧ isblank (peek (b ++ rest)) = isblank (peek b) := by
  cases b with
  | nil =>
    rcases hrest with h | h
    · rw [h]; exact ⟨by decide, rfl⟩
    · simp only [Bool.not_eq_false'] at h
      simp only [List.nil_append]
      refine ⟨?_, ?_⟩
      · intro e; rw [e] at h; revert h; decide
      · simp only [iseol, Bool.or_eq_true, beq_iff_eq] at h
        rcases h with h | h <;> rw [h] <;> decide
  | cons c t =>
    exact ⟨(bodyChar_ne (hb c (by simp))).2.2.2.1, rfl⟩

/-- The body of a definition written without braces, up to the line end. -/
theorem parseDefineBody_plain (b rest : List Char) (hb : ∀ c ∈ b, isBodyChar c = true)
    (hlast : b.rdropWhile (fun c => isblank c || iseol c) = b)
    (hrest : StopsAt (fun c => !iseol c) rest) :
    parseDefineBody (b ++ rest) = .ok b rest := by
  unfold parseDefineBody
  rw [if_neg (peek_body b rest hb hrest).1]
  simp only [copyBody_plain rest hrest b [] hb, List.nil_append, ne_eq, not_true_eq_false,
    or_self, if_false, hlast]

/-- A definition without options whose body is written without braces: it is
added when the name is legal and the body is not empty. -/
theorem doDefine_plain (rec : Expander) (mb : MacroBuf) (level : Int)
    (bl n bl2 b rest : List Char) (hbl : ∀ c ∈ bl, isblank c = true)
    (hn : ∀ c ∈ n, isNameChar c = true) (hne : n ≠ [])
    (hbl2 : ∀ c ∈ bl2, isblank c = true)
    (hsep : bl2 ≠ [] ∨ (b = [] ∧ rest = []) ∨ (b = [] ∧ iseol (peek rest) = true))
    (hb : ∀ c ∈ b, isBodyChar c = true) (hfirst : StopsAt isblank b)
    (hlast : b.rdropWhile (fun c => isblank c || iseol c) = b)
    (hrest : StopsAt (fun c => !iseol c) rest) :
    doDefine rec mb (bl ++ (n ++ (bl2 ++ (b ++ rest)))) level false
      = (if legalName n = true ∧ b ≠ [] then
          { mb with mc := addMacro mb.mc n none b (level - 1) } else mb,
         rest.dropWhile iseol) := by
  have hpk : peek (bl2 ++ (b ++ rest)) ≠ '(' ∧ StopsAt isNameChar (bl2 ++ (b ++ rest)) := by
    cases bl2 with
    | cons c t =>
      have hc := hbl2 c (by simp)
      refine ⟨?_, Or.inr ?_⟩
      · intro e
        simp only [List.cons_append, peek_cons] at e
        rw [e] at hc; revert hc; decide
      · simp only [List.cons_append, peek_cons]
        cases hnc : isNameChar c
        · rfl
        · rw [nameChar_not_blank hnc] at hc; cases hc
    | nil =>
      rcases hsep with h | ⟨h1, h2⟩ | ⟨h1, h2⟩
      · exact absurd rfl h
      · subst h1; subst h2
        exact ⟨by decide, Or.inl rfl⟩
      · subst h1
        simp only [List.nil_append]
        refine ⟨?_, Or.inr ?_⟩
        · intro e; rw [e] at h2; revert h2; decide
        · simp only [iseol, Bool.or_eq_true, beq_iff_eq] at h2
          rcases h2 with h | h <;> rw [h] <;> decide
  have hskip : SKIPBLANK (bl2 ++ (b ++ rest)) = b ++ rest := by
    unfold SKIPBLANK
    refine dropWhile_stop isblank bl2 _ hbl2 ?_
    by_cases hbe : b ++ rest = []
    · exact Or.inl hbe
    · right
      rw [(peek_body b rest hb hrest).2]
      rcases hfirst with h | h
      · subst h
        simp only [List.nil_append] at hbe ⊢
        rcases hrest with h | h
        · exact absurd h hbe
        · simp only [Bool.not_eq_false', List.nil_append] at h ⊢
          rfl
      · exact h
  unfold doDefine
  simp only [COPYNAME_name bl n _ hbl hn hne hpk.2]
  rw [if_neg (fun h => hpk.1 h.1)]
  simp only [if_neg hpk.1, hskip, parseDefineBody_plain b rest hb hlast hrest]
  by_cases hl : legalName n = true
  · by_cases hbe : b = []
    · simp [hl, hbe]
    · simp [hl, hbe]
  · simp [hl]

/-- An undefinition: the name is popped when it is legal. -/
theorem doUndefine_plain (mc : rpmMacroContext) (bl n rest : List Char)
    (hbl : ∀ c ∈ bl, isblank c = true) (hn : ∀ c ∈ n, isNameChar c = true) (hne : n ≠ [])
    (hrest : StopsAt isNameChar rest) :
    doUndefine mc (bl ++ (n ++ rest))
      = (if legalName n = true then delMacro mc n else mc, rest.dropWhile iseol) := by
  unfold doUndefine
  simp only [COPYNAME_name bl n rest hbl hn hne hrest]
  by_cases hl : legalName n = true
  · simp [hl]
  · simp [hl]

/-! ## The first turn of the loop at the top level -/

/-- When the first turn of the loop succeeds and leaves the state a fresh
one with the table `mc1` and the output `out`, the rest of the expansion is
the expansion of the rest of the text in `mc1`, after `out`. -/
theorem doExpandMacros_after (env : Env) (mc mc1 : rpmMacroContext) (c : Char)
    (s s1 out : List Char)
    (h : expandStep env (expandMacro env 16) { initialBuf mc with depth := 1 } c s
      = (({ initialBuf mc1 with depth := 1 } : MacroBuf).pre out, 0, s1)) :
    doExpandMacros env mc (c :: s)
      = ((doExpandMacros env mc1 s1).1.pre out, (doExpandMacros env mc1 s1).2) := by
  have hlen : s1.length ≤ s.length := by
    have := expandStep_length env (expandMacro env 16) { initialBuf mc with depth := 1 } c s
    rw [h] at this
    exact this
  have hloop : expandLoop env (expandMacro env 16) ((c :: s).length + 1)
      { initialBuf mc with depth := 1 } (c :: s)
      = expandLoop env (expandMacro env 16) (s1.length + 1)
          (({ initialBuf mc1 with depth := 1 } : MacroBuf).pre out) s1 := by
    rw [show (c :: s).length + 1 = (s.length + 1) + 1 from rfl, expandLoop, h]
    simp only [ne_eq, not_true_eq_false, if_false]
    exact expandLoop_fuel env _ _ _ _ _ (by omega) (by omega)
  rw [doExpandMacros_eq, doExpandMacros_eq, hloop,
    expandLoop_pre env (expandMacro env 16) (expandMacro_framed env 16)]
  rfl

theorem doExpandMacros_nil (env : Env) (mc : rpmMacroContext) :
    doExpandMacros env mc [] = (initialBuf mc, 0) := by
  rw [doExpandMacros_eq, expandLoop_nil]
  rfl

theorem pre_nil (mb : MacroBuf) : mb.pre [] = mb := rfl

theorem blank_stop {bl : List Char} (hbl : ∀ c ∈ bl, isblank c = true) (hne : bl ≠ [])
    (rest : List Char) :
    ∃ x t, bl ++ rest = x :: t ∧ isNameChar x = false ∧ x ≠ '*' := by
  cases bl with
  | nil => exact absurd rfl hne
  | cons c t =>
    have hc := hbl c (by simp)
    refine ⟨c, t ++ rest, rfl, ?_, ?_⟩
    · cases hnc : isNameChar c
      · rfl
      · rw [nameChar_not_blank hnc] at hc; cases hc
    · intro e; rw [e] at hc; revert hc; decide

/-- A line `%define name body` at the top level: the definition is added at
level 0 when the name is legal and the body is not empty, nothing is written,
and the expansion goes on after the line. -/
theorem expand_define_line (env : Env) (mc : rpmMacroContext) (bl n bl2 b rest : List Char)
    (hbl : ∀ c ∈ bl, isblank c = true) (hblne : bl ≠ [])
    (hn : ∀ c ∈ n, isNameChar c = true) (hne : n ≠ [])
    (hbl2 : ∀ c ∈ bl2, isblank c = true)
    (hsep : bl2 ≠ [] ∨ (b = [] ∧ rest = []) ∨ (b = [] ∧ iseol (peek rest) = true))
    (hb : ∀ c ∈ b, isBodyChar c = true) (hfirst : StopsAt isblank b)
    (hlast : b.rdropWhile (fun c => isblank c || iseol c) = b)
    (hrest : StopsAt (fun c => !iseol c) rest) :
    doExpandMacros env mc ('%' :: ("define".toList ++ (bl ++ (n ++ (bl2 ++ (b ++ rest))))))
      = doExpandMacros env
          (if legalName n = true ∧ b ≠ [] then addMacro mc n none b 0 else mc)
          (rest.dropWhile iseol) := by
  obtain ⟨x, t, hx, hx1, hx2⟩ := blank_stop hbl hblne (n ++ (bl2 ++ (b ++ rest)))
  have hp : parseMacroName ("define".toList ++ (bl ++ (n ++ (bl2 ++ (b ++ rest)))))
      = some (bl ++ (n ++ (bl2 ++ (b ++ rest)))) := by
    rw [hx]; exact NameShape.parse_append shape_define x t hx1 hx2
  have hstep := expandStep_define env (expandMacro env 16) { initialBuf mc with depth := 1 } _ hp
  rw [doDefine_plain _ _ _ bl n bl2 b rest hbl hn hne hbl2 hsep hb hfirst hlast hrest] at hstep
  have := doExpandMacros_after env mc
    (if legalName n = true ∧ b ≠ [] then addMacro mc n none b 0 else mc) '%' _
    (rest.dropWhile iseol) [] (by
      rw [hstep]
      by_cases hc : legalName n = true ∧ b ≠ []
      · simp only [if_pos hc]; rfl
      · simp only [if_neg hc]; rfl)
  rw [this]
  rfl

/-- A line `%undefine name` at the top level: the name is popped when it is
legal, nothing is written, and the expansion goes on after the line. -/
theorem expand_undefine_line (env : Env) (mc : rpmMacroContext) (bl n rest : List Char)
    (hbl : ∀ c ∈ bl, isblank c = true) (hblne : bl ≠ [])
    (hn : ∀ c ∈ n, isNameChar c = true) (hne : n ≠ []) (hrest : StopsAt isNameChar rest) :
    doExpandMacros env mc ('%' :: ("undefine".toList ++ (bl ++ (n ++ rest))))
      = doExpandMacros env (if legalName n = true then delMacro mc n else mc)
          (rest.dropWhile iseol) := by
  obtain ⟨x, t, hx, hx1, hx2⟩ := blank_stop hbl hblne (n ++ rest)
  have hp : parseMacroName ("undefine".toList ++ (bl ++ (n ++ rest)))
      = some (bl ++ (n ++ rest)) := by
    rw [hx]; exact NameShape.parse_append shape_undefine x t hx1 hx2
  have hstep := expandStep_undefine env (expandMacro env 16)
    { initialBuf mc with depth := 1 } _ hp
  rw [doUndefine_plain _ bl n rest hbl hn hne hrest] at hstep
  have := doExpandMacros_after env mc (if legalName n = true then delMacro mc n else mc) '%' _
    (rest.dropWhile iseol) [] (by
      rw [hstep]
      by_cases hc : legalName n = true
      · simp only [if_pos hc]; rfl
      · simp only [if_neg hc]; rfl)
  rw [this]
  rfl

theorem plain_body {b : List Char} (hb : ∀ c ∈ b, isPlain c = true) :
    (∀ c ∈ b, isBodyChar c = true) ∧ StopsAt isblank b ∧
      b.rdropWhile (fun c => isblank c || iseol c) = b := by
  have h1 : ∀ c ∈ b, isBodyChar c = true ∧ isblank c = false := by
    intro c hc
    have := hb c hc
    simp only [isPlain, Bool.and_eq_true, Bool.not_eq_true'] at this
    exact this
  refine ⟨fun c hc => (h1 c hc).1, ?_, ?_⟩
  · cases b with
    | nil => exact Or.inl rfl
    | cons c t => exact Or.inr (h1 c (by simp)).2
  · rw [List.rdropWhile_eq_self_iff]
    intro hl
    have hm := List.getLast_mem hl
    have := h1 _ hm
    simp [this.2, (bodyChar_ne this.1).1]

/-- C7. For every table in shape, every name of letters, digits and
underscores (every identifier is one) and every body of one or more
characters other than blanks, line ends, `%`, backslash, braces and
parentheses, expanding `%define n b` and then `%undefine n` both succeed and
leave every name the stack of definitions it had. -/
theorem define_undefine_roundtrip (env : Env) (T : rpmMacroContext) (hT : TableInv T)
    (n b : List Char) (hn : ∀ c ∈ n, isNameChar c = true) (hne : n ≠ [])
    (hb : ∀ c ∈ b, isPlain c = true) (hbne : b ≠ []) (m : List Char) :
    (doExpandMacros env T ("%define ".toList ++ n ++ ' ' :: b)).2 = 0 ∧
    (doExpandMacros env (doExpandMacros env T ("%define ".toList ++ n ++ ' ' :: b)).1.mc
      ("%undefine ".toList ++ n)).2 = 0 ∧
    stackOf (doExpandMacros env (doExpandMacros env T ("%define ".toList ++ n ++ ' ' :: b)).1.mc
      ("%undefine ".toList ++ n)).1.mc m = stackOf T m := by
  obtain ⟨hb1, hb2, hb3⟩ := plain_body hb
  have hd : doExpandMacros env T ("%define ".toList ++ n ++ ' ' :: b)
      = (initialBuf (if legalName n = true ∧ b ≠ [] then addMacro T n none b 0 else T), 0) := by
    have := expand_define_line env T [' '] n [' '] b [] (by decide) (by decide) hn hne
      (by decide) (Or.inl (by decide)) hb1 hb2 hb3 (Or.inl rfl)
    simp only [List.dropWhile_nil, doExpandMacros_nil, List.append_nil] at this
    rw [← this]
    simp
  have hu : ∀ mc, doExpandMacros env mc ("%undefine ".toList ++ n)
      = (initialBuf (if legalName n = true then delMacro mc n else mc), 0) := by
    intro mc
    have := expand_undefine_line env mc [' '] n [] (by decide) (by decide) hn hne (Or.inl rfl)
    simp only [List.dropWhile_nil, doExpandMacros_nil, List.append_nil] at this
    rw [← this]
    simp
  rw [hd, hu]
  refine ⟨rfl, rfl, ?_⟩
  simp only [initialBuf]
  by_cases hl : legalName n = true
  · simp only [hl, hbne, ne_eq, not_false_eq_true, and_self, if_true]
    exact stackOf_del_add T hT n none b 0 m
  · simp only [hl, false_and, if_false]
    trivial

theorem define_undefine_roundtrip_witness :
    TableInv (addMacro emptyContext "abc".toList none "1".toList 0) ∧
    stackOf (doExpandMacros quietEnv
      (doExpandMacros quietEnv (addMacro emptyContext "abc".toList none "1".toList 0)
        ("%define ".toList ++ "xyz".toList ++ ' ' :: "1".toList)).1.mc
      ("%undefine ".toList ++ "xyz".toList)).1.mc "xyz".toList
      = stackOf (addMacro emptyContext "abc".toList none "1".toList 0) "xyz".toList :=
  ⟨TableInv.addMacro _ TableInv.empty _ _ _ _,
    (define_undefine_roundtrip quietEnv (addMacro emptyContext "abc".toList none "1".toList 0)
      (TableInv.addMacro _ TableInv.empty _ _ _ _) "xyz".toList "1".toList (by decide)
      (by decide) (by decide) (by decide) "xyz".toList).2.2⟩

/-! ## Lookups after a change of the table -/

theorem lookup_eq_stackOf (mc : rpmMacroContext) (n : List Char) :
    lookup mc n 0 = (stackOf mc n).head? := by
  unfold lookup stackOf
  cases findEntry mc n 0 <;> rfl

theorem findEntry_len (mc : rpmMacroContext) (n : List Char) :
    findEntry mc n n.length = findEntry mc n 0 := by
  rw [findEntry_eq, findEntry_eq]
  by_cases h : n.length > 0
  · simp [h]
  · have : n = [] := List.eq_nil_of_length_eq_zero (by omega)
    subst this; rfl

theorem lookup_len (mc : rpmMacroContext) (n : List Char) :
    lookup mc n n.length = lookup mc n 0 := by
  unfold lookup
  rw [findEntry_len]

/-- Defining a name leaves the stack of every other name as it is. -/
theorem stackOf_addMacro_other (mc : rpmMacroContext) (hinv : TableInv mc) (m n : List Char)
    (o : Option (List Char)) (b : List Char) (level : Int) (hmn : n ≠ m) :
    stackOf (addMacro mc m o b level) n = stackOf mc n := by
  cases hf : findEntry mc m 0 with
  | some i =>
    obtain ⟨hi, e, rest, hs, hname⟩ := findEntry_some mc m 0 i hf
    simp only [gt_iff_lt, Nat.lt_irrefl, if_false] at hname
    rw [addMacro_found mc m o b level i e rest hf hs]
    refine stackOf_set_other mc i _ _ (List.cons_ne_nil _ _) (by rw [hs]; exact List.cons_ne_nil _ _)
      (by rw [hs]; rfl) n ?_
    simp only [slotName]
    rw [hname]; exact hmn
  | none =>
    obtain ⟨hinv1, hmem1⟩ := addMacro_new_spec mc hinv m o b level hf
    by_cases hex : ∃ s ∈ mc.live, slotName s = n
    · obtain ⟨s, hs, hn⟩ := hex
      rw [← hn, stackOf_mem mc hinv s hs, stackOf_mem _ hinv1 s ((hmem1 s).2 (Or.inl hs))]
    · rw [stackOf_not_mem mc n (fun s hs _ e => hex ⟨s, hs, e⟩) hinv.le]
      refine stackOf_not_mem _ n ?_ hinv1.le
      intro s hs _ e
      rcases (hmem1 s).1 hs with h | h
      · exact hex ⟨s, h, e⟩
      · rw [h] at e
        exact hmn e.symm

theorem lookup_addMacro_other (mc : rpmMacroContext) (hinv : TableInv mc) (m n : List Char)
    (o : Option (List Char)) (b : List Char) (level : Int) (hmn : n ≠ m) :
    lookup (addMacro mc m o b level) n n.length = lookup mc n n.length := by
  rw [lookup_len, lookup_len, lookup_eq_stackOf, lookup_eq_stackOf,
    stackOf_addMacro_other mc hinv m n o b level hmn]

theorem markUsed_getD (mc : rpmMacroContext) (id i : Nat) :
    (markUsed mc id).macroTable.getD i []
      = (mc.macroTable.getD i []).map
          (fun e => if e.id = id then { e with used := e.used + 1 } else e) := by
  simp only [markUsed, List.getD_eq_getElem?_getD, List.getElem?_map]
  cases mc.macroTable[i]? <;> rfl

theorem findEntry_markUsed (mc : rpmMacroContext) (id : Nat) (n : List Char) (k : Nat) :
    findEntry (markUsed mc id) n k = findEntry mc n k := by
  rw [findEntry_eq, findEntry_eq]
  have hnil : ((markUsed mc id).macroTable = []) ↔ (mc.macroTable = []) := by
    simp [markUsed]
  simp only [hnil]
  have hff : (markUsed mc id).firstFree = mc.firstFree := rfl
  rw [hff]
  split
  · rfl
  · refine bsearch_congr _ _ _ ?_ _ _ _
    intro j
    rw [markUsed_getD]
    refine compare_congr _ _ _ ?_ ?_
    · cases mc.macroTable.getD j [] with
      | nil => rfl
      | cons e t =>
        simp only [List.map_cons, slotName]
        split <;> rfl
    · simp

/-- Counting a use changes no lookup but for the counter of the entry. -/
theorem lookup_markUsed (mc : rpmMacroContext) (id : Nat) (n : List Char) (k : Nat) :
    lookup (markUsed mc id) n k
      = (lookup mc n k).map (fun e => if e.id = id then { e with used := e.used + 1 } else e) := by
  unfold lookup
  rw [findEntry_markUsed]
  cases findEntry mc n k with
  | none => rfl
  | some i =>
    simp only [markUsed_getD]
    cases mc.macroTable.getD i [] <;> rfl

/-! ## Self-reference -/

theorem body_rc (x : MacroBuf × Int) (id : Nat) :
    (if ¬ isLive x.1.mc id then (({ x.1 with fault := true } : MacroBuf), x.2)
      else if x.2 = 0 then ({ x.1 with mc := markUsed x.1.mc id }, x.2)
      else x).2 = x.2 := by
  by_cases h1 : isLive x.1.mc id = true
  · by_cases h2 : x.2 = 0
    · simp [h1, h2]
    · simp [h1, h2]
  · simp [h1]

/-- The turn of the loop at `%name`, the name ending the text, for a name
that is not built in and that the table defines with a body: the value of
the turn is the value of the expansion of the body. -/
theorem expandStep_name_rc (env : Env) (rec : Expander) (mb : MacroBuf) (n : List Char)
    (me : rpmMacroEntry) (hs : NameShape n) (hp : parseMacroName n = some [])
    (hb : isBuiltinName env n = false) (hme : lookup mb.mc n n.length = some me)
    (hbody : me.body ≠ []) :
    (expandStep env rec mb '%' n).2.1
      = (rec (if peek n = '-' then { mb with mc := markUsed mb.mc me.id }
              else if me.opts.isSome then
                { mb with
                  mc := addMacro (addMacro (addMacro (addMacro mb.mc ['*', '*'] none []
                          mb.depth) ['*'] none [] mb.depth) ['#'] none ['0'] mb.depth) ['0'] none
                          me.name mb.depth }
              else mb) me.body 0).2 := by
  obtain ⟨_, hok⟩ := hs.peek_ok []
  obtain ⟨h1, h2, h3, h4, h5, h6, h7, h8, h9, h10⟩ := nameCharOK_ne hok
  have hstep : expandStep env rec mb '%' n
      = expandDefined env rec mb n
          { f := n, fe := [], g := none, ge := [], se := [], lastc := none,
            negate := false, chkexist := 0 } := by
    unfold expandStep
    rw [if_neg (by simp), if_neg hs.ne_nil, if_neg h1, parseRef_name hs hp]
    simp only []
    exact expandRef_user env rec mb _ _ (by
      simp only [MacroRef.fn, List.length_nil, Nat.sub_zero]; exact hb)
  rw [hstep]
  unfold expandDefined
  simp only [MacroRef.fn, List.length_nil, Nat.sub_zero, hme]
  by_cases hd : peek n = '-'
  · simp only [hd, if_true]
    unfold expandCond
    simp [hbody]
  · simp only [hd, if_false, ne_eq, not_true_eq_false]
    unfold expandBody
    by_cases ho : me.opts.isSome = true
    · simp only [ho, if_true, hbody, ne_eq, not_false_eq_true]
      exact body_rc _ _
    · simp only [ho, if_false, hbody, ne_eq, not_false_eq_true, Bool.false_eq_true, if_true]
      exact body_rc _ _

/-- What a self-referential definition of `n` needs for the recursion to go
on: the visible definition of `n` has the body `%n`; when it has options,
the table is in shape and `n` is not the name of an argument macro. -/
theorem selfref_descend (env : Env) (n : List Char) (hs : NameShape n)
    (hp : parseMacroName n = some []) (hb : isBuiltinName env n = false) :
    ∀ (k fuel : Nat) (mb : MacroBuf), mb.depth + k = 16 → k < fuel →
      (∃ me, lookup mb.mc n n.length = some me ∧ me.body = '%' :: n ∧
        (me.opts.isSome = true → peek n ≠ '-' →
          TableInv mb.mc ∧ n ≠ ['0'] ∧ n ≠ ['#'] ∧ n ≠ ['*'] ∧ n ≠ ['*', '*'])) →
      (expandMacro env fuel mb ('%' :: n) 0).2 = 1 := by
  intro k
  induction k with
  | zero =>
    intro fuel mb hd hf _
    obtain ⟨f, rfl⟩ : ∃ f, fuel = f + 1 := ⟨fuel - 1, by omega⟩
    rw [expandMacro_succ, if_pos (by simp only [max_macro_depth]; omega)]
  | succ k ih =>
    intro fuel mb hd hf hinv
    obtain ⟨f, rfl⟩ : ∃ f, fuel = f + 1 := ⟨fuel - 1, by omega⟩
    obtain ⟨me, hme, hbody, hside⟩ := hinv
    rw [expandMacro_succ, if_neg (by simp only [max_macro_depth]; omega)]
    simp only [if_true, List.take_length]
    rw [show ('%' :: n).length + 1 = (n.length + 1) + 1 from rfl, expandLoop]
    have hrc := expandStep_name_rc env (expandMacro env f) { mb with depth := mb.depth + 1 } n me
      hs hp hb hme (by rw [hbody]; exact List.cons_ne_nil _ _)
    rw [hbody] at hrc
    have hone : (expandStep env (expandMacro env f) { mb with depth := mb.depth + 1 } '%' n).2.1
        = 1 := by
      rw [hrc]
      refine ih f _ ?_ (by omega) ?_
      · split
        · show mb.depth + 1 + (k : Int) = 16; omega
        · split
          · show mb.depth + 1 + (k : Int) = 16; omega
          · show mb.depth + 1 + (k : Int) = 16; omega
      · by_cases hdash : peek n = '-'
        · rw [if_pos hdash]
          refine ⟨if me.id = me.id then { me with used := me.used + 1 } else me, ?_, ?_, ?_⟩
          · show lookup (markUsed mb.mc me.id) n n.length = _
            rw [lookup_markUsed, hme]; rfl
          · simp [hbody]
          · intro _ h; exact absurd hdash h
        · rw [if_neg hdash]
          by_cases ho : me.opts.isSome = true
          · rw [if_pos ho]
            obtain ⟨hT, n0, n1, n2, n3⟩ := hside ho hdash
            have hT1 := TableInv.addMacro mb.mc hT ['*', '*'] none [] (mb.depth + 1)
            have hT2 := TableInv.addMacro _ hT1 ['*'] none [] (mb.depth + 1)
            have hT3 := TableInv.addMacro _ hT2 ['#'] none ['0'] (mb.depth + 1)
            have hT4 := TableInv.addMacro _ hT3 ['0'] none me.name (mb.depth + 1)
            refine ⟨me, ?_, hbody, fun _ _ => ⟨hT4, n0, n1, n2, n3⟩⟩
            show lookup (addMacro (addMacro (addMacro (addMacro mb.mc ['*', '*'] none []
              (mb.depth + 1)) ['*'] none [] (mb.depth + 1)) ['#'] none ['0'] (mb.depth + 1))
              ['0'] none me.name (mb.depth + 1)) n n.length = some me
            rw [lookup_addMacro_other _ hT3 _ _ _ _ _ n0, lookup_addMacro_other _ hT2 _ _ _ _ _ n1,
              lookup_addMacro_other _ hT1 _ _ _ _ _ n2, lookup_addMacro_other _ hT _ _ _ _ _ n3]
            exact hme
          · rw [if_neg ho]
            exact ⟨me, hme, hbody, fun h => absurd h ho⟩
    simp only [hone, ne_eq, one_ne_zero, not_false_eq_true, if_true]

/-- C5, as amended: for every name `n` that the name parser accepts in full
and that is not the name of a built-in macro, and every table in which the
visible definition of `n` has the body `%n` (and, when that definition has
options and `n` is not an option name, the table is in shape and `n` is none
of `0`, `#`, `*`, `**`), expanding `%n` comes to an end within the 16 levels
of recursion allowed and returns the failure status 1. -/
theorem selfref_fails (env : Env) (mc : rpmMacroContext) (n : List Char) (me : rpmMacroEntry)
    (hn : parseMacroName n = some []) (hb : isBuiltinName env n = false)
    (hme : lookup mc n n.length = some me) (hbody : me.body = '%' :: n)
    (hopts : me.opts = none ∨ peek n = '-' ∨
      (TableInv mc ∧ n ≠ ['0'] ∧ n ≠ ['#'] ∧ n ≠ ['*'] ∧ n ≠ ['*', '*'])) :
    (doExpandMacros env mc ('%' :: n)).2 = 1 := by
  unfold doExpandMacros
  refine selfref_descend env n (parseMacroName_shape hn) hn hb 16 17 (initialBuf mc)
    (by simp [initialBuf]) (by omega) ⟨me, hme, hbody, ?_⟩
  intro ho hdash
  rcases hopts with h | h | h
  · rw [h] at ho; cases ho
  · exact absurd h hdash
  · exact h

theorem selfref_fails_witness :
    parseMacroName "foo".toList = some [] ∧ isBuiltinName quietEnv "foo".toList = false ∧
    lookup (addMacro emptyContext "foo".toList none "%foo".toList 0) "foo".toList 3
      = some { id := 0, name := "foo".toList, opts := none, body := "%foo".toList, used := 0,
               level := 0 } ∧
    (doExpandMacros quietEnv (addMacro emptyContext "foo".toList none "%foo".toList 0)
      ('%' :: "foo".toList)).2 = 1 :=
  ⟨by decide, by decide, by decide,
    selfref_fails quietEnv (addMacro emptyContext "foo".toList none "%foo".toList 0)
      "foo".toList
      { id := 0, name := "foo".toList, opts := none, body := "%foo".toList, used := 0, level := 0 }
      (by decide) (by decide) (by decide) rfl (Or.inl rfl)⟩

/-- C5 as stated fails for the example of the specification: with `f` defined
as `%f`, the text `%f` is not a reference at all, since a name of one letter
other than `S`, `P`, `F` is rejected by the name parser; the expansion
succeeds and gives `%f`. -/
theorem selfref_counterexample :
    lookup (addMacro emptyContext "f".toList none "%f".toList 0) "f".toList 0
      = some { id := 0, name := "f".toList, opts := none, body := "%f".toList, used := 0,
               level := 0 } ∧
    doExpandMacros quietEnv (addMacro emptyContext "f".toList none "%f".toList 0) "%f".toList
      = ({ initialBuf (addMacro emptyContext "f".toList none "%f".toList 0) with
           buf := "%f".toList }, 0) := by
  decide

/-! ## Text before the first `%` -/

/-- Text without `%` at the start of the source is copied, and the rest is
expanded after it. -/
theorem doExpandMacros_literal_lead (env : Env) (mc : rpmMacroContext) (t rest : List Char)
    (ht : '%' ∉ t) :
    doExpandMacros env mc (t ++ rest)
      = ((doExpandMacros env mc rest).1.pre t, (doExpandMacros env mc rest).2) := by
  have hl := expandLoop_literal env (expandMacro env 16) rest (rest.length + 1) t
    { initialBuf mc with depth := 1 } ht
  have e : mbAppendStr { initialBuf mc with depth := 1 } t
      = MacroBuf.pre t { initialBuf mc with depth := 1 } := by
    simp [mbAppendStr, MacroBuf.pre, initialBuf]
  rw [e, expandLoop_pre env (expandMacro env 16) (expandMacro_framed env 16)] at hl
  have hlen : (t ++ rest).length + 1 = t.length + (rest.length + 1) := by
    simp only [List.length_append]; omega
  rw [doExpandMacros_eq, doExpandMacros_eq, hlen, hl]
  rfl

/-- When the first turn of the loop fails, the expansion fails with the
state that turn left. -/
theorem doExpandMacros_fail (env : Env) (mc : rpmMacroContext) (c : Char) (s s1 : List Char)
    (mb1 : MacroBuf) (rc : Int) (hrc : rc ≠ 0)
    (h : expandStep env (expandMacro env 16) { initialBuf mc with depth := 1 } c s
      = (mb1, rc, s1)) :
    doExpandMacros env mc (c :: s) = ({ mb1 with depth := mb1.depth - 1 }, rc) := by
  rw [doExpandMacros_eq, show (c :: s).length + 1 = (s.length + 1) + 1 from rfl, expandLoop, h]
  simp only [ne_eq, hrc, not_false_eq_true, if_true]

theorem matchcharFrom_null (pl pr : Char) :
    ∀ (u : List Char) (lvl : Int), (∀ c ∈ u, c ≠ pr ∧ c ≠ '\\') →
      matchcharFrom pl pr u lvl = .null := by
  intro u
  induction u with
  | nil => intro lvl _; rfl
  | cons c u ih =>
    intro lvl h
    have hc := h c (by simp)
    have hu : ∀ d ∈ u, d ≠ pr ∧ d ≠ '\\' := fun d hd => h d (by simp [hd])
    rw [matchcharFrom.eq_def]
    simp only [hc.1, hc.2, if_false]
    split <;> exact ih _ hu

/-- C14. For every text `t` without `%` and every text `u` without `}` and
without backslash, expanding `t` + `%{` + `u` returns the failure status 1
with the output `t` and the table (and the rest of the state) as before; the
same holds for `t` + `%(` + `u` when `u` has no `)` and no backslash. -/
theorem unterminated_reference (env : Env) (mc : rpmMacroContext) (t u : List Char)
    (ht : '%' ∉ t) :
    ((∀ c ∈ u, c ≠ '}' ∧ c ≠ '\\') →
      doExpandMacros env mc (t ++ '%' :: '{' :: u) = ({ initialBuf mc with buf := t }, 1)) ∧
    ((∀ c ∈ u, c ≠ ')' ∧ c ≠ '\\') →
      doExpandMacros env mc (t ++ '%' :: '(' :: u) = ({ initialBuf mc with buf := t }, 1)) := by
  constructor
  · intro hu
    have hm : matchchar ('{' :: u) '{' '}' = .null := by
      unfold matchchar
      rw [matchcharFrom.eq_def]
      simp only [show ('{' : Char) ≠ '\\' by decide, show ('{' : Char) ≠ '}' by decide,
        if_false, if_true]
      exact matchcharFrom_null '{' '}' u _ hu
    have hstep : expandStep env (expandMacro env 16) { initialBuf mc with depth := 1 } '%'
        ('{' :: u) = ({ initialBuf mc with depth := 1 }, 1, '{' :: u) := by
      unfold expandStep
      rw [if_neg (by simp), if_neg (by simp), if_neg (by simp [peek])]
      unfold parseRef
      rw [if_neg (by simp [peek]), if_pos (by simp [peek]), hm]
    rw [doExpandMacros_literal_lead env mc t _ ht,
      doExpandMacros_fail env mc '%' _ _ _ 1 (by decide) hstep]
    simp [MacroBuf.pre, initialBuf]
  · intro hu
    have hm : matchchar ('(' :: u) '(' ')' = .null := by
      unfold matchchar
      rw [matchcharFrom.eq_def]
      simp only [show ('(' : Char) ≠ '\\' by decide, show ('(' : Char) ≠ ')' by decide,
        if_false, if_true]
      exact matchcharFrom_null '(' ')' u _ hu
    have hstep : expandStep env (expandMacro env 16) { initialBuf mc with depth := 1 } '%'
        ('(' :: u) = ({ initialBuf mc with depth := 1 }, 1, '(' :: u) := by
      unfold expandStep
      rw [if_neg (by simp), if_neg (by simp), if_neg (by simp [peek])]
      unfold parseRef
      rw [if_pos (by simp [peek]), hm]
    rw [doExpandMacros_literal_lead env mc t _ ht,
      doExpandMacros_fail env mc '%' _ _ _ 1 (by decide) hstep]
    simp [MacroBuf.pre, initialBuf]

theorem unterminated_reference_witness :
    '%' ∉ "ab ".toList ∧
    doExpandMacros quietEnv emptyContext ("ab ".toList ++ '%' :: '{' :: "foo bar".toList)
      = ({ initialBuf emptyContext with buf := "ab ".toList }, 1) ∧
    doExpandMacros quietEnv emptyContext ("ab ".toList ++ '%' :: '(' :: "echo hi".toList)
      = ({ initialBuf emptyContext with buf := "ab ".toList }, 1) :=
  ⟨by decide,
    (unterminated_reference quietEnv emptyContext "ab ".toList "foo bar".toList
      (by decide)).1 (by decide),
    (unterminated_reference quietEnv emptyContext "ab ".toList "echo hi".toList
      (by decide)).2 (by decide)⟩

/-- C16. A `%define` line whose name (one or more letters, digits and
underscores) is not legal, that is, has fewer than 3 characters or does not
begin with a letter or an underscore, or whose body is empty, and an
`%undefine` line with such a name: the expansion is the expansion of the
text after the line in the same table, so the table is left as it was, no
failure comes from the directive, and the text that follows is expanded into
the output. -/
theorem illegal_directive_skipped (env : Env) (mc : rpmMacroContext)
    (bl n bl2 b rest : List Char)
    (hbl : ∀ c ∈ bl, isblank c = true) (hblne : bl ≠ [])
    (hn : ∀ c ∈ n, isNameChar c = true) (hne : n ≠ [])
    (hbl2 : ∀ c ∈ bl2, isblank c = true)
    (hsep : bl2 ≠ [] ∨ (b = [] ∧ rest = []) ∨ (b = [] ∧ iseol (peek rest) = true))
    (hb : ∀ c ∈ b, isBodyChar c = true) (hfirst : StopsAt isblank b)
    (hlast : b.rdropWhile (fun c => isblank c || iseol c) = b)
    (hrest : StopsAt (fun c => !iseol c) rest) :
    ((legalName n = false ∨ b = []) →
      doExpandMacros env mc ('%' :: ("define".toList ++ (bl ++ (n ++ (bl2 ++ (b ++ rest))))))
        = doExpandMacros env mc (rest.dropWhile iseol)) ∧
    (legalName n = false →
      doExpandMacros env mc ('%' :: ("undefine".toList ++ (bl ++ (n ++ rest))))
        = doExpandMacros env mc (rest.dropWhile iseol)) := by
  constructor
  · intro h
    rw [expand_define_line env mc bl n bl2 b rest hbl hblne hn hne hbl2 hsep hb hfirst hlast
      hrest, if_neg]
    rintro ⟨h1, h2⟩
    rcases h with h | h
    · rw [h] at h1; cases h1
    · exact h2 h
  · intro h
    have hr : StopsAt isNameChar rest := by
      rcases hrest with hr | hr
      · exact Or.inl hr
      · right
        simp only [Bool.not_eq_false'] at hr
        simp only [iseol, Bool.or_eq_true, beq_iff_eq] at hr
        rcases hr with hr | hr <;> rw [hr] <;> decide
    rw [expand_undefine_line env mc bl n rest hbl hblne hn hne hr, if_neg]
    rw [h]; decide

theorem illegal_directive_skipped_witness :
    legalName "ab".toList = false ∧
    doExpandMacros quietEnv (addMacro emptyContext "abc".toList none "1".toList 0)
      ('%' :: ("define".toList ++ (" ".toList ++ ("ab".toList ++ (" ".toList ++
        ("xy".toList ++ "\n%abc".toList))))))
      = doExpandMacros quietEnv (addMacro emptyContext "abc".toList none "1".toList 0)
          ("\n%abc".toList.dropWhile iseol) ∧
    (doExpandMacros quietEnv (addMacro emptyContext "abc".toList none "1".toList 0)
      ("\n%abc".toList.dropWhile iseol)).1.buf = "1".toList :=
  ⟨by decide,
    (illegal_directive_skipped quietEnv (addMacro emptyContext "abc".toList none "1".toList 0)
      " ".toList "ab".toList " ".toList "xy".toList "\n%abc".toList (by decide) (by decide)
      (by decide) (by decide) (by decide) (Or.inl (by decide)) (by decide)
      (Or.inr (by decide)) (by decide) (Or.inr (by decide))).1 (Or.inl (by decide)),
    by decide⟩

/-! ## The names the parser accepts -/

theorem dropWhile_stopsAt (p : Char → Bool) : ∀ l : List Char, StopsAt p (l.dropWhile p) := by
  intro l
  induction l with
  | nil => exact Or.inl rfl
  | cons a t ih =>
    simp only [List.dropWhile]
    cases ha : p a
    · exact Or.inr ha
    · exact ih

theorem takeWhile_all_mem (p : Char → Bool) (l : List Char) : ∀ a ∈ l.takeWhile p, p a = true :=
  fun _ h => (List.mem_takeWhile_imp h)

theorem length_sub_dropWhile (p : Char → Bool) (l : List Char) :
    l.length - (l.dropWhile p).length = (l.takeWhile p).length := by
  have h := congrArg List.length (List.takeWhile_append_dropWhile p l)
  simp only [List.length_append] at h
  omega

theorem parseMacroName_ident (c : Char) (s1 : List Char) (hc : risalpha c = true ∨ c = '_') :
    parseMacroName (c :: s1)
      = if (s1.takeWhile isNameChar).length = 0 then
          (if c = 'S' ∨ c = 'P' ∨ c = 'F' then some s1 else none)
        else if (s1.takeWhile isNameChar).length = 1 then none
        else some (s1.dropWhile isNameChar) := by
  obtain ⟨n0, n1, n2, n3, n4⟩ := idstart_not_special hc
  have hcond : (risalpha c || c == '_') = true := by
    rcases hc with h | h
    · simp [h]
    · simp [h]
  have hle : (s1.dropWhile isNameChar).length ≤ s1.length := length_dropWhile_le _ _
  have hl := length_sub_dropWhile isNameChar s1
  unfold parseMacroName
  simp only [peek_cons, hcond, if_true, List.tail_cons, List.length_cons]
  have e1 : (s1.length + 1 - (s1.dropWhile isNameChar).length = 1)
      ↔ ((s1.takeWhile isNameChar).length = 0) := by omega
  have e2 : (s1.length + 1 - (s1.dropWhile isNameChar).length = 2)
      ↔ ((s1.takeWhile isNameChar).length = 1) := by omega
  simp only [e1, e2]
  by_cases h0 : (s1.takeWhile isNameChar).length = 0
  · simp only [h0, if_true, n0, n1, n2, n3, n4, false_or, if_false, Bool.false_eq_true]
  · simp only [h0, if_false]

theorem parseMacroName_other (c : Char) (s1 : List Char)
    (hc : ¬ (risalpha c = true ∨ c = '_')) :
    parseMacroName (c :: s1)
      = if c = '0' ∨ c = '#' then some s1
        else if c = '*' then (if peek s1 = '*' then some s1.tail else some s1)
        else if c = '-' then
          (if risalnum (peek s1) then
            (if peek s1.tail = '*' then some s1.tail.tail else some s1.tail)
          else none)
        else if risdigit c then some (s1.dropWhile risdigit)
        else none := by
  have hcond : (risalpha c || c == '_') = false := by
    cases h1 : risalpha c
    · cases h2 : (c == '_')
      · rfl
      · exact absurd (Or.inr (beq_iff_eq.1 h2)) hc
    · exact absurd (Or.inl h1) hc
  have hS : c ≠ 'S' := fun e => hc (Or.inl (by rw [e]; decide))
  have hP : c ≠ 'P' := fun e => hc (Or.inl (by rw [e]; decide))
  have hF : c ≠ 'F' := fun e => hc (Or.inl (by rw [e]; decide))
  unfold parseMacroName
  simp only [peek_cons, hcond, Bool.false_eq_true, if_false, hS, hP, hF, or_false]

theorem parseMacroName_nil : parseMacroName [] = none := by decide

theorem stopsAt_take_drop (p : Char → Bool) (w rest : List Char) (hw : ∀ a ∈ w, p a = true)
    (hr : StopsAt p rest) :
    (w ++ rest).takeWhile p = w ∧ (w ++ rest).dropWhile p = rest :=
  ⟨takeWhile_stop p w rest hw hr, dropWhile_stop p w rest hw hr⟩

theorem digit_not_ident {c : Char} (h : risdigit c = true) : ¬ (risalpha c = true ∨ c = '_') := by
  obtain ⟨h1, h2, _⟩ := risdigit_not_start h
  rintro (h' | h')
  · rw [h1] at h'; cases h'
  · exact h2 h'

theorem parseMacroName_sound (s rest : List Char) (h : parseMacroName s = some rest) :
    AcceptedName s rest := by
  cases s with
  | nil => rw [parseMacroName_nil] at h; cases h
  | cons c s1 =>
    by_cases hc : risalpha c = true ∨ c = '_'
    · rw [parseMacroName_ident c s1 hc] at h
      by_cases h0 : (s1.takeWhile isNameChar).length = 0
      · rw [if_pos h0] at h
        by_cases hspf : c = 'S' ∨ c = 'P' ∨ c = 'F'
        · rw [if_pos hspf] at h
          injection h with h
          subst h
          right; left
          refine ⟨c, rfl, hspf, ?_⟩
          have hd := dropWhile_stopsAt isNameChar s1
          have ht : s1.takeWhile isNameChar = [] := List.eq_nil_of_length_eq_zero h0
          have := List.takeWhile_append_dropWhile isNameChar s1
          rw [ht, List.nil_append] at this
          rw [this] at hd
          exact hd
        · rw [if_neg hspf] at h; cases h
      · rw [if_neg h0] at h
        by_cases h1 : (s1.takeWhile isNameChar).length = 1
        · rw [if_pos h1] at h; cases h
        · rw [if_neg h1] at h
          injection h with h
          left
          refine ⟨c, s1.takeWhile isNameChar, ?_, hc, takeWhile_all_mem _ _, by omega, ?_⟩
          · rw [← h, List.takeWhile_append_dropWhile]
          · rw [← h]; exact dropWhile_stopsAt _ _
    · rw [parseMacroName_other c s1 hc] at h
      by_cases h0 : c = '0' ∨ c = '#'
      · rw [if_pos h0] at h
        injection h with h
        subst h
        right; right; left
        exact ⟨c, rfl, h0⟩
      · rw [if_neg h0] at h
        by_cases hstar : c = '*'
        · rw [if_pos hstar] at h
          subst hstar
          by_cases hp : peek s1 = '*'
          · rw [if_pos hp] at h
            injection h with h
            right; right; right; right; left
            cases s1 with
            | nil => exact absurd hp (by decide)
            | cons d t =>
              simp only [peek_cons] at hp
              simp only [List.tail_cons] at h
              rw [hp, h]
          · rw [if_neg hp] at h
            injection h with h
            subst h
            right; right; right; left
            exact ⟨rfl, hp⟩
        · rw [if_neg hstar] at h
          by_cases hdash : c = '-'
          · rw [if_pos hdash] at h
            subst hdash
            by_cases hx : risalnum (peek s1) = true
            · rw [if_pos hx] at h
              cases s1 with
              | nil => exact absurd hx (by decide)
              | cons x s2 =>
                simp only [peek_cons, List.tail_cons] at hx h
                by_cases hp : peek s2 = '*'
                · rw [if_pos hp] at h
                  injection h with h
                  right; right; right; right; right; right; left
                  cases s2 with
                  | nil => exact absurd hp (by decide)
                  | cons d t =>
                    simp only [peek_cons] at hp
                    simp only [List.tail_cons] at h
                    exact ⟨x, by rw [hp, h], hx⟩
                · rw [if_neg hp] at h
                  injection h with h
                  subst h
                  right; right; right; right; right; left
                  exact ⟨x, rfl, hx, hp⟩
            · rw [if_neg hx] at h; cases h
          · rw [if_neg hdash] at h
            by_cases hd : risdigit c = true
            · rw [if_pos hd] at h
              injection h with h
              right; right; right; right; right; right; right
              refine ⟨c, s1.takeWhile risdigit, ?_, hd, fun e => h0 (Or.inl e),
                takeWhile_all_mem _ _, ?_⟩
              · rw [← h, List.takeWhile_append_dropWhile]
              · rw [← h]; exact dropWhile_stopsAt _ _
            · rw [if_neg hd] at h; cases h

theorem parseMacroName_complete (s rest : List Char) (h : AcceptedName s rest) :
    parseMacroName s = some rest := by
  rcases h with ⟨c, w, rfl, hc, hw, hlen, hr⟩ | ⟨c, rfl, hc, hr⟩ | ⟨c, rfl, hc⟩ | ⟨rfl, hp⟩ | rfl |
    ⟨x, rfl, hx, hp⟩ | ⟨x, rfl, hx⟩ | ⟨c, w, rfl, hc, hc0, hw, hr⟩
  · obtain ⟨ht, hd⟩ := stopsAt_take_drop isNameChar w rest hw hr
    rw [parseMacroName_ident c _ hc, ht, hd, if_neg (by omega), if_neg (by omega)]
  · have hid : risalpha c = true ∨ c = '_' := by
      rcases hc with h | h | h <;> (left; rw [h]; decide)
    have ht : rest.takeWhile isNameChar = [] := by
      have := (stopsAt_take_drop isNameChar [] rest (by simp) hr).1
      simpa using this
    rw [parseMacroName_ident c _ hid, ht]
    simp [hc]
  · have hid : ¬ (risalpha c = true ∨ c = '_') := by
      rcases hc with h | h <;> (rw [h]; decide)
    rw [parseMacroName_other c _ hid, if_pos hc]
  · rw [parseMacroName_other '*' _ (by decide), if_neg (by decide), if_pos rfl, if_neg hp]
  · rw [parseMacroName_other '*' _ (by decide), if_neg (by decide), if_pos rfl,
      if_pos (by simp [peek])]
    rfl
  · rw [parseMacroName_other '-' _ (by decide), if_neg (by decide), if_neg (by decide),
      if_pos rfl]
    simp only [peek_cons, hx, if_true, List.tail_cons, hp, if_false]
  · rw [parseMacroName_other '-' _ (by decide), if_neg (by decide), if_neg (by decide),
      if_pos rfl]
    simp only [peek_cons, hx, if_true, List.tail_cons]
  · obtain ⟨n1, n2, n3, n4, n5, n6, n7, n8⟩ := risdigit_not_start hc
    obtain ⟨_, hd⟩ := stopsAt_take_drop risdigit w rest hw hr
    rw [parseMacroName_other c _ (digit_not_ident hc), if_neg (by simp [hc0, n3]),
      if_neg n7, if_neg n8, if_pos hc, hd]

/-- C13, as amended: the name parser accepts at the start of its input
exactly the names of `AcceptedName` and returns the end of the name: an
identifier of 3 or more characters; `S`, `P` or `F` alone; `0` or `#`; `*` or
`**`; `-X` or `-X*` with `X` a letter or digit; a run of digits that does not
begin with `0`. Everything else is rejected, identifiers of one or two
characters among it. -/
theorem parseMacroName_accepts (s : List Char) :
    (∀ rest, parseMacroName s = some rest ↔ AcceptedName s rest) ∧
    (parseMacroName s = none ↔ ∀ rest, ¬ AcceptedName s rest) := by
  have h1 : ∀ rest, parseMacroName s = some rest ↔ AcceptedName s rest :=
    fun rest => ⟨parseMacroName_sound s rest, parseMacroName_complete s rest⟩
  refine ⟨h1, ?_, ?_⟩
  · intro hn rest ha
    rw [(h1 rest).2 ha] at hn
    cases hn
  · intro hall
    cases hp : parseMacroName s with
    | none => rfl
    | some rest => exact absurd ((h1 rest).1 hp) (hall rest)

/-- C13 as stated fails: `a` is an identifier of length 1, which is other
than 2, and the parser rejects it, alone and before other text. -/
theorem parseMacroName_counterexample :
    parseMacroName "a".toList = none ∧ parseMacroName "a+b".toList = none := by
  decide

/-! ## Definitions that are not completed -/

/-- The start of `doDefine` on a name followed by blanks and the text of the
body: what remains is what the body parser finds. -/
theorem doDefine_head (rec : Expander) (mb : MacroBuf) (level : Int) (expandbody : Bool)
    (bl n bl2 u : List Char) (hbl : ∀ c ∈ bl, isblank c = true)
    (hn : ∀ c ∈ n, isNameChar c = true) (hne : n ≠ [])
    (hbl2 : ∀ c ∈ bl2, isblank c = true) (hsep : bl2 ≠ []) (hu : StopsAt isblank u) :
    doDefine rec mb (bl ++ (n ++ (bl2 ++ u))) level expandbody
      = match parseDefineBody u with
        | .overrun => ({ mb with fault := true }, [])
        | .unterminated s1 => (mb, s1)
        | .ok b s1 =>
          if !legalName n then (mb, s1.dropWhile iseol)
          else if b = [] then (mb, s1.dropWhile iseol)
          else if expandbody then
            if (expandThis rec mb b 0).2.1 ≠ 0 then
              ((expandThis rec mb b 0).1, s1.dropWhile iseol)
            else
              ({ (expandThis rec mb b 0).1 with
                 mc := addMacro (expandThis rec mb b 0).1.mc n none
                         (expandThis rec mb b 0).2.2 (level - 1) }, s1.dropWhile iseol)
          else ({ mb with mc := addMacro mb.mc n none b (level - 1) }, s1.dropWhile iseol) := by
  have hpk : peek (bl2 ++ u) ≠ '(' ∧ StopsAt isNameChar (bl2 ++ u) := by
    cases bl2 with
    | nil => exact absurd rfl hsep
    | cons c t =>
      have hc := hbl2 c (by simp)
      refine ⟨?_, Or.inr ?_⟩
      · intro e
        simp only [List.cons_append, peek_cons] at e
        rw [e] at hc; revert hc; decide
      · simp only [List.cons_append, peek_cons]
        cases hnc : isNameChar c
        · rfl
        · rw [nameChar_not_blank hnc] at hc; cases hc
  have hskip : SKIPBLANK (bl2 ++ u) = u := by
    unfold SKIPBLANK
    exact dropWhile_stop isblank bl2 u hbl2 hu
  unfold doDefine
  simp only [COPYNAME_name bl n _ hbl hn hne hpk.2]
  rw [if_neg (fun h => hpk.1 h.1)]
  simp only [if_neg hpk.1, hskip] <;> rfl

theorem copyBody_head (rest : List Char) (hrest : rest ≠ []) (bc pc : Int) :
    ∀ (w be : List Char), (∀ c ∈ w, isBodyChar c = true) →
      copyBody (w ++ rest) bc pc be = copyBody rest bc pc (be ++ w) := by
  intro w
  induction w with
  | nil => intro be _; simp
  | cons c t ih =>
    intro be hw
    obtain ⟨h1, h2, h3, h4, h5, h6, h7⟩ := bodyChar_ne (hw c (by simp))
    have iht := ih (be ++ [c]) (fun a ha => hw a (by simp [ha]))
    cases hts : t ++ rest with
    | nil => exact absurd (List.append_eq_nil.1 hts).2 hrest
    | cons d s =>
      rw [hts] at iht
      simp only [List.cons_append, hts, copyBody, h1, h2, h3, h4, h5, h6, h7, Bool.false_eq_true,
        and_false, if_false]
      rw [iht]
      simp

/-- Inside an open `%{` with no `}` to come, or an open `%(` with no `)` to
come, the copy of the body runs to the end of the text and stays open. -/
theorem copyBody_open : ∀ (k : Nat) (s : List Char) (bc pc : Int) (be : List Char),
    s.length ≤ k → ((1 ≤ bc ∧ '}' ∉ s) ∨ (1 ≤ pc ∧ ')' ∉ s)) →
      (copyBody s bc pc be).2.1 = [] ∧
        ((copyBody s bc pc be).2.2.1 ≠ 0 ∨ (copyBody s bc pc be).2.2.2 ≠ 0) := by
  intro k
  induction k with
  | zero =>
    intro s bc pc be hk h
    have : s = [] := List.eq_nil_of_length_eq_zero (by omega)
    subst this
    simp only [copyBody, true_and]
    rcases h with h | h
    · left; omega
    · right; omega
  | succ k ih =>
    intro s bc pc be hk h
    have hz : ¬ (bc = 0 ∧ pc = 0) := by
      rintro ⟨h1, h2⟩
      rcases h with h | h <;> omega
    match s, hk, h with
    | [], _, h =>
      simp only [copyBody, true_and]
      rcases h with h | h
      · left; omega
      · right; omega
    | [c], _, h =>
      have hcond : ¬ (bc = 0 ∧ pc = 0 ∧ iseol c = true) := fun x => hz ⟨x.1, x.2.1⟩
      simp only [copyBody, hcond, if_false]
      have hcb : (1 ≤ bc ∧ c ≠ '}') ∨ (1 ≤ pc ∧ c ≠ ')') := by
        rcases h with h | h
        · exact Or.inl ⟨h.1, fun e => h.2 (by simp [e])⟩
        · exact Or.inr ⟨h.1, fun e => h.2 (by simp [e])⟩
      by_cases c1 : c = '{'
      · simp only [c1, if_true, true_and]
        rcases hcb with h | h
        · left; simp only [show bc > 0 by omega, if_true]; omega
        · right; omega
      · simp only [c1, if_false]
        by_cases c2 : c = '}'
        · simp only [c2, if_true, true_and]
          rcases hcb with h | h
          · exact absurd c2 h.2
          · right; omega
        · simp only [c2, if_false]
          by_cases c3 : c = '('
          · simp only [c3, if_true, true_and]
            rcases hcb with h | h
            · left; omega
            · right; simp only [show pc > 0 by omega, if_true]; omega
          · simp only [c3, if_false]
            by_cases c4 : c = ')'
            · simp only [c4, if_true, true_and]
              rcases hcb with h | h
              · left; omega
              · exact absurd c4 h.2
            · simp only [c4, if_false, true_and]
              rcases hcb with h | h
              · left; omega
              · right; omega
    | c :: d :: s, hk, h =>
      have hcond : ¬ (bc = 0 ∧ pc = 0 ∧ iseol c = true) := fun x => hz ⟨x.1, x.2.1⟩
      have hlen1 : (d :: s).length ≤ k := by simp only [List.length_cons] at hk ⊢; omega
      have hlen2 : s.length ≤ k := by simp only [List.length_cons] at hk; omega
      have hs2 : (1 ≤ bc ∧ '}' ∉ s) ∨ (1 ≤ pc ∧ ')' ∉ s) := by
        rcases h with h | h
        · exact Or.inl ⟨h.1, fun e => h.2 (by simp [e])⟩
        · exact Or.inr ⟨h.1, fun e => h.2 (by simp [e])⟩
      have hs1 : (1 ≤ bc ∧ '}' ∉ d :: s) ∨ (1 ≤ pc ∧ ')' ∉ d :: s) := by
        rcases h with h | h
        · exact Or.inl ⟨h.1, fun e => h.2 (List.mem_cons_of_mem _ e)⟩
        · exact Or.inr ⟨h.1, fun e => h.2 (List.mem_cons_of_mem _ e)⟩
      have hcb : (1 ≤ bc ∧ c ≠ '}') ∨ (1 ≤ pc ∧ c ≠ ')') := by
        rcases h with h | h
        · exact Or.inl ⟨h.1, fun e => h.2 (by simp [e])⟩
        · exact Or.inr ⟨h.1, fun e => h.2 (by simp [e])⟩
      simp only [copyBody, hcond, if_false]
      by_cases c0 : c = '\\'
      · simp only [c0, if_true]
        exact ih s bc pc _ hlen2 hs2
      · simp only [c0, if_false]
        by_cases cp : c = '%'
        · simp only [cp, if_true]
          by_cases d1 : d = '{'
          · simp only [d1, if_true]
            refine ih s (bc + 1) pc _ hlen2 ?_
            rcases hs2 with h | h
            · exact Or.inl ⟨by omega, h.2⟩
            · exact Or.inr h
          · simp only [d1, if_false]
            by_cases d2 : d = '('
            · simp only [d2, if_true]
              refine ih s bc (pc + 1) _ hlen2 ?_
              rcases hs2 with h | h
              · exact Or.inl h
              · exact Or.inr ⟨by omega, h.2⟩
            · simp only [d2, if_false]
              by_cases d3 : d = '%'
              · simp only [d3, if_true]
                exact ih s bc pc _ hlen2 hs2
              · simp only [d3, if_false]
                exact ih (d :: s) bc pc _ hlen1 hs1
        · simp only [cp, if_false]
          by_cases c1 : c = '{'
          · simp only [c1, if_true]
            refine ih (d :: s) _ pc _ hlen1 ?_
            rcases hs1 with h | h
            · left; simp only [show bc > 0 by omega, if_true]; exact ⟨by omega, h.2⟩
            · exact Or.inr h
          · simp only [c1, if_false]
            by_cases c2 : c = '}'
            · simp only [c2, if_true]
              refine ih (d :: s) _ pc _ hlen1 ?_
              rcases hcb with h | h
              · exact absurd c2 h.2
              · rcases hs1 with h1 | h1
                · exact Or.inr ⟨h.1, fun e => by
                    rcases ‹(1 ≤ bc ∧ '}' ∉ c :: d :: s) ∨ (1 ≤ pc ∧ ')' ∉ c :: d :: s)› with
                      x | x
                    · exact x.2 (by simp [c2])
                    · exact x.2 (List.mem_cons_of_mem _ e)⟩
                · exact Or.inr h1
            · simp only [c2, if_false]
              by_cases c3 : c = '('
              · simp only [c3, if_true]
                refine ih (d :: s) bc _ _ hlen1 ?_
                rcases hs1 with h | h
                · exact Or.inl h
                · right; simp only [show pc > 0 by omega, if_true]; exact ⟨by omega, h.2⟩
              · simp only [c3, if_false]
                by_cases c4 : c = ')'
                · simp only [c4, if_true]
                  refine ih (d :: s) bc _ _ hlen1 ?_
                  rcases hcb with h | h
                  · rcases hs1 with h1 | h1
                    · exact Or.inl h1
                    · exact Or.inl ⟨h.1, fun e => by
                        rcases ‹(1 ≤ bc ∧ '}' ∉ c :: d :: s) ∨ (1 ≤ pc ∧ ')' ∉ c :: d :: s)› with
                          x | x
                        · exact x.2 (List.mem_cons_of_mem _ e)
                        · exact x.2 (by simp [c4])⟩
                  · exact absurd c4 h.2
                · simp only [c4, if_false]
                  exact ih (d :: s) bc pc _ hlen1 hs1

theorem parseDefineBody_open (w v : List Char) (o : Char) (ho : o = '{' ∨ o = '(')
    (hw : ∀ c ∈ w, isBodyChar c = true)
    (hv : (o = '{' → '}' ∉ v) ∧ (o = '(' → ')' ∉ v)) :
    parseDefineBody (w ++ '%' :: o :: v) = .unterminated [] := by
  have hpk : peek (w ++ '%' :: o :: v) ≠ '{' := by
    cases w with
    | nil => simp [peek]
    | cons c t => exact (bodyChar_ne (hw c (by simp))).2.2.2.1
  have hcopy : copyBody (w ++ '%' :: o :: v) 0 0 []
      = copyBody v (if o = '{' then 1 else 0) (if o = '{' then 0 else 1) (w ++ ['%', o]) := by
    rw [copyBody_head _ (by simp) 0 0 w [] hw]
    rcases ho with h | h
    · subst h; simp [copyBody, iseol]
    · subst h; simp [copyBody, iseol]
  have hopen := copyBody_open v.length v (if o = '{' then 1 else 0) (if o = '{' then 0 else 1)
    (w ++ ['%', o]) (Nat.le_refl _) (by
      rcases ho with h | h
      · left; subst h; exact ⟨by simp, hv.1 rfl⟩
      · right; subst h; exact ⟨by simp, hv.2 rfl⟩)
  unfold parseDefineBody
  rw [if_neg hpk]
  simp only [hcopy]
  rw [if_pos hopen.2, hopen.1]

theorem parseDefineBody_group (v : List Char) (hv : ∀ c ∈ v, c ≠ '}' ∧ c ≠ '\\') :
    parseDefineBody ('{' :: v) = .unterminated ('{' :: v) := by
  have hm : matchchar ('{' :: v) '{' '}' = .null := by
    unfold matchchar
    rw [matchcharFrom.eq_def]
    simp only [show ('{' : Char) ≠ '\\' by decide, show ('{' : Char) ≠ '}' by decide,
      if_false, if_true]
    exact matchcharFrom_null '{' '}' v _ hv
  unfold parseDefineBody
  rw [if_pos (by simp [peek]), hm]

/-- A `%define` whose body is not terminated: nothing is defined, and the
expansion goes on where the body parser stopped. -/
theorem expand_define_open (env : Env) (mc : rpmMacroContext) (bl n bl2 u s1 : List Char)
    (hbl : ∀ c ∈ bl, isblank c = true) (hblne : bl ≠ [])
    (hn : ∀ c ∈ n, isNameChar c = true) (hne : n ≠ [])
    (hbl2 : ∀ c ∈ bl2, isblank c = true) (hsep : bl2 ≠ []) (hu : StopsAt isblank u)
    (hbody : parseDefineBody u = .unterminated s1) :
    doExpandMacros env mc ('%' :: ("define".toList ++ (bl ++ (n ++ (bl2 ++ u)))))
      = doExpandMacros env mc s1 := by
  obtain ⟨x, t, hx, hx1, hx2⟩ := blank_stop hbl hblne (n ++ (bl2 ++ u))
  have hp : parseMacroName ("define".toList ++ (bl ++ (n ++ (bl2 ++ u))))
      = some (bl ++ (n ++ (bl2 ++ u))) := by
    rw [hx]; exact NameShape.parse_append shape_define x t hx1 hx2
  have hstep := expandStep_define env (expandMacro env 16) { initialBuf mc with depth := 1 } _ hp
  rw [doDefine_head _ _ _ _ bl n bl2 u hbl hn hne hbl2 hsep hu, hbody] at hstep
  have := doExpandMacros_after env mc mc '%' _ s1 [] (by rw [hstep]; rfl)
  rw [this]
  rfl

/-- C15, as amended: a `%define` whose body is not terminated defines
nothing and does not make the call fail. With an open `%{` (no `}` after it)
or an open `%(` (no `)` after it) in a body written without braces, the rest
of the source is taken for the body, and the call returns success with the
text before the directive as output and the table as it was; with a body
that opens with `{` and has no `}` (and no backslash) the expansion goes on
at the `{` as ordinary text. -/
theorem define_unterminated (env : Env) (mc : rpmMacroContext) (t bl n bl2 w v : List Char)
    (ht : '%' ∉ t) (hbl : ∀ c ∈ bl, isblank c = true) (hblne : bl ≠ [])
    (hn : ∀ c ∈ n, isNameChar c = true) (hne : n ≠ [])
    (hbl2 : ∀ c ∈ bl2, isblank c = true) (hsep : bl2 ≠ [])
    (hw : ∀ c ∈ w, isBodyChar c = true) (hw0 : StopsAt isblank w) :
    ('}' ∉ v →
      doExpandMacros env mc
        (t ++ '%' :: ("define".toList ++ (bl ++ (n ++ (bl2 ++ (w ++ '%' :: '{' :: v))))))
        = ({ initialBuf mc with buf := t }, 0)) ∧
    (')' ∉ v →
      doExpandMacros env mc
        (t ++ '%' :: ("define".toList ++ (bl ++ (n ++ (bl2 ++ (w ++ '%' :: '(' :: v))))))
        = ({ initialBuf mc with buf := t }, 0)) ∧
    ((∀ c ∈ v, c ≠ '}' ∧ c ≠ '\\') →
      doExpandMacros env mc
        (t ++ '%' :: ("define".toList ++ (bl ++ (n ++ (bl2 ++ '{' :: v)))))
        = ((doExpandMacros env mc ('{' :: v)).1.pre t, (doExpandMacros env mc ('{' :: v)).2)) := by
  have hstop : ∀ o : Char, o = '{' ∨ o = '(' → StopsAt isblank (w ++ '%' :: o :: v) := by
    intro o _
    right
    cases w with
    | nil => rfl
    | cons c r =>
      rcases hw0 with h | h
      · cases h
      · exact h
  refine ⟨?_, ?_, ?_⟩
  · intro hv
    rw [doExpandMacros_literal_lead env mc t _ ht,
      expand_define_open env mc bl n bl2 _ [] hbl hblne hn hne hbl2 hsep (hstop '{' (Or.inl rfl))
        (parseDefineBody_open w v '{' (Or.inl rfl) hw ⟨fun _ => hv, fun h => absurd h (by decide)⟩),
      doExpandMacros_nil]
    simp [MacroBuf.pre, initialBuf]
  · intro hv
    rw [doExpandMacros_literal_lead env mc t _ ht,
      expand_define_open env mc bl n bl2 _ [] hbl hblne hn hne hbl2 hsep (hstop '(' (Or.inr rfl))
        (parseDefineBody_open w v '(' (Or.inr rfl) hw ⟨fun h => absurd h (by decide), fun _ => hv⟩),
      doExpandMacros_nil]
    simp [MacroBuf.pre, initialBuf]
  · intro hv
    rw [doExpandMacros_literal_lead env mc t _ ht,
      expand_define_open env mc bl n bl2 _ _ hbl hblne hn hne hbl2 hsep
        (Or.inr (show isblank (peek ('{' :: v)) = false from rfl))
        (parseDefineBody_group v hv)]

theorem define_unterminated_witness :
    '%' ∉ "ab".toList ∧
    doExpandMacros quietEnv emptyContext
      ("ab".toList ++ '%' :: ("define".toList ++ (" ".toList ++ ("foo".toList ++
        (" ".toList ++ ("x".toList ++ '%' :: '{' :: "bar".toList))))))
      = ({ initialBuf emptyContext with buf := "ab".toList }, 0) :=
  ⟨by decide,
    (define_unterminated quietEnv emptyContext "ab".toList " ".toList "foo".toList " ".toList
      "x".toList "bar".toList (by decide) (by decide) (by decide) (by decide) (by decide)
      (by decide) (by decide) (by decide) (Or.inr (by decide))).1 (by decide)⟩

/-- C15 as stated fails: the body of this `%define` has an open `%{`, and the
expansion returns success. -/
theorem define_unterminated_counterexample :
    (doExpandMacros quietEnv emptyContext ("%define foo ".toList ++ '%' :: '{' :: "bar".toList)).2
      = 0 := by
  decide

/-! ## The definition on top after `addMacro` -/

/-- After `addMacro` the stack of the name is the new entry on the old stack. -/
theorem stackOf_addMacro_same (mc : rpmMacroContext) (hinv : TableInv mc) (n : List Char)
    (o : Option (List Char)) (b : List Char) (level : Int) :
    stackOf (addMacro mc n o b level) n = ⟨mc.nalloc, n, o, b, 0, level⟩ :: stackOf mc n := by
  cases hf : findEntry mc n 0 with
  | some i =>
    obtain ⟨hi, e, rest, hs, hname⟩ := findEntry_some mc n 0 i hf
    simp only [gt_iff_lt, Nat.lt_irrefl, if_false] at hname
    have hne : mc.macroTable.getD i [] ≠ [] := by rw [hs]; exact List.cons_ne_nil _ _
    have hlt := getD_lt_of_ne _ _ hne
    have hfind : findEntry (addMacro mc n o b level) n 0 = some i := by
      rw [addMacro_found mc n o b level i e rest hf hs,
        findEntry_set mc i _ _ (List.cons_ne_nil _ _) hne (by rw [hs]; rfl)]
      exact hf
    unfold stackOf
    rw [hfind, hf]
    simp only []
    rw [addMacro_found mc n o b level i e rest hf hs]
    simp only [getD_set_self _ _ _ hlt, hs, hname]
  | none =>
    obtain ⟨hinv1, hmem1⟩ := addMacro_new_spec mc hinv n o b level hf
    have hin : [(⟨mc.nalloc, n, o, b, 0, level⟩ : rpmMacroEntry)]
        ∈ (addMacro mc n o b level).live := (hmem1 _).2 (Or.inr rfl)
    have h1 := stackOf_mem _ hinv1 _ hin
    simp only [slotName] at h1
    rw [h1]
    unfold stackOf
    rw [hf]

theorem lookup_addMacro_same (mc : rpmMacroContext) (hinv : TableInv mc) (n : List Char)
    (o : Option (List Char)) (b : List Char) (level : Int) :
    lookup (addMacro mc n o b level) n 0 = some ⟨mc.nalloc, n, o, b, 0, level⟩ := by
  rw [lookup_eq_stackOf, stackOf_addMacro_same mc hinv]
  rfl

theorem lookup_addMacro_other0 (mc : rpmMacroContext) (hinv : TableInv mc) (m n : List Char)
    (o : Option (List Char)) (b : List Char) (level : Int) (hmn : n ≠ m) :
    lookup (addMacro mc m o b level) n 0 = lookup mc n 0 := by
  rw [lookup_eq_stackOf, lookup_eq_stackOf, stackOf_addMacro_other mc hinv m n o b level hmn]

/-! ## Loading the macros of a context -/

theorem loadSlot_inv (level : Int) (g : rpmMacroContext) (hg : TableInv g) (s : Slot) :
    TableInv (loadSlot level g s) := by
  cases s with
  | nil => exact hg
  | cons me rest => exact TableInv.addMacro g hg _ _ _ _

theorem loadSlots_inv (level : Int) : ∀ (l : List Slot) (g : rpmMacroContext), TableInv g →
    TableInv (l.foldl (loadSlot level) g) := by
  intro l
  induction l with
  | nil => intro g hg; exact hg
  | cons s l ih => intro g hg; exact ih _ (loadSlot_inv level g hg s)

theorem loadSlots_other (level : Int) (n : List Char) :
    ∀ (l : List Slot) (g : rpmMacroContext), TableInv g →
      (∀ s ∈ l, s ≠ [] → slotName s ≠ n) →
      lookup (l.foldl (loadSlot level) g) n 0 = lookup g n 0 := by
  intro l
  induction l with
  | nil => intro g _ _; rfl
  | cons s l ih =>
    intro g hg h
    rw [List.foldl_cons, ih _ (loadSlot_inv level g hg s) (fun t ht => h t (by simp [ht]))]
    cases s with
    | nil => rfl
    | cons me rest =>
      have := h (me :: rest) (by simp) (List.cons_ne_nil _ _)
      exact lookup_addMacro_other0 g hg me.name n _ _ _ (fun e => this e.symm)

/-- After the slots `l` of a source context are loaded, the visible entry of
each of their names is the one loaded, at the level `level - 1`. -/
theorem loadSlots_mem (level : Int) :
    ∀ (l : List Slot) (g : rpmMacroContext), TableInv g → l.Pairwise DistinctNames →
      ∀ (me : rpmMacroEntry) (rest : Slot), me :: rest ∈ l →
        ∃ e, lookup (l.foldl (loadSlot level) g) me.name 0 = some e ∧ e.name = me.name ∧
          e.opts = me.opts ∧ e.body = me.body ∧ e.level = level - 1 := by
  intro l
  induction l with
  | nil => intro g _ _ me rest h; cases h
  | cons s l ih =>
    intro g hg hp me rest hm
    rw [List.pairwise_cons] at hp
    rw [List.mem_cons] at hm
    rcases hm with hm | hm
    · subst hm
      rw [List.foldl_cons]
      rw [loadSlots_other level me.name l _ (loadSlot_inv level g hg _)
        (fun t ht hne e => hp.1 t ht (List.cons_ne_nil _ _) hne e.symm)]
      exact ⟨_, lookup_addMacro_same g hg _ _ _ _, rfl, rfl, rfl, rfl⟩
    · exact ih _ (loadSlot_inv level g hg s) hp.2 me rest hm

theorem TableInv.distinct (mc : rpmMacroContext) (h : TableInv mc) :
    mc.live.Pairwise DistinctNames := by
  refine h.sorted.imp ?_
  intro a c hac _ _ e
  rw [e] at hac
  exact strcmp_irrefl _ hac

theorem expandThis_literal (env : Env) (fuel : Nat) (mb : MacroBuf) (b : List Char)
    (hd : mb.depth + 1 ≤ max_macro_depth) (hb : '%' ∉ b) :
    expandThis (expandMacro env (fuel + 1)) mb b 0 = (mb, 0, b) := by
  unfold expandThis
  rw [expandMacro_literal env fuel { mb with buf := [] } b hd hb]
  simp

theorem plain_no_percent {b : List Char} (hb : ∀ c ∈ b, isBodyChar c = true) : '%' ∉ b :=
  fun h => (bodyChar_ne (hb _ h)).2.1 rfl

/-- C20, as amended: a definition is stored with the level requested minus
one. `rpmLoadMacros(src, level)` gives the visible entry of every name of
`src` to the global context with the level `level - 1`;
`rpmDefineMacro(ctx, text, level)` stores `level - 1`; `%define` met while
the expansion is at depth `d` stores `d - 1` (0 at the top level); `%global`
stores `RMIL_GLOBAL - 1`. The tables are in shape, the name is legal and the
body is plain text. -/
theorem stored_level (env : Env) (mc src : rpmMacroContext) (hmc : TableInv mc)
    (hsrc : TableInv src) (level : Int) (n b : List Char)
    (hn : ∀ c ∈ n, isNameChar c = true) (hleg : legalName n = true)
    (hb : ∀ c ∈ b, isPlain c = true) (hbne : b ≠ [])
    (rec : Expander) (mb : MacroBuf) (hmb : TableInv mb.mc) (fuel : Nat)
    (hd : mb.depth + 1 ≤ max_macro_depth) :
    (∀ me rest, me :: rest ∈ src.live →
      ∃ e, lookup (rpmLoadMacros mc (some src) level) me.name 0 = some e ∧ e.name = me.name ∧
        e.opts = me.opts ∧ e.body = me.body ∧ e.level = level - 1) ∧
    (∃ e, lookup (rpmDefineMacro env mc (n ++ ' ' :: b) level).1 n 0 = some e ∧
      e.body = b ∧ e.level = level - 1) ∧
    (∃ e, lookup (expandStep env rec mb '%' ("define ".toList ++ n ++ ' ' :: b)).1.mc n 0
        = some e ∧ e.body = b ∧ e.level = mb.depth - 1) ∧
    (∃ e, lookup (expandStep env (expandMacro env (fuel + 1)) mb '%'
        ("global ".toList ++ n ++ ' ' :: b)).1.mc n 0 = some e ∧
      e.body = b ∧ e.level = env.RMIL_GLOBAL - 1) := by
  obtain ⟨hb1, hb2, hb3⟩ := plain_body hb
  have hne : n ≠ [] := by
    intro e; rw [e] at hleg; revert hleg; decide
  refine ⟨?_, ?_, ?_, ?_⟩
  · intro me rest hm
    have hnil : src.macroTable ≠ [] := by
      intro e
      simp [rpmMacroContext.live, e] at hm
    simp only [rpmLoadMacros, hnil, if_false]
    exact loadSlots_mem level _ mc hmc (TableInv.distinct src hsrc) me rest hm
  · have h := doDefine_plain (expandMacro env 17) (initialBuf mc) level [] n [' '] b []
      (by simp) hn hne (by decide) (Or.inl (by decide)) hb1 hb2 hb3 (Or.inl rfl)
    simp only [List.nil_append, List.append_nil, List.singleton_append] at h
    simp only [rpmDefineMacro, h, hleg, hbne, ne_eq, not_false_eq_true, and_self, if_true]
    exact ⟨_, lookup_addMacro_same mc hmc _ _ _ _, rfl, rfl⟩
  · have hp : parseMacroName ("define".toList ++ ' ' :: (n ++ ' ' :: b))
        = some (' ' :: (n ++ ' ' :: b)) :=
      NameShape.parse_append shape_define ' ' _ (by decide) (by decide)
    have hstep := expandStep_define env rec mb _ hp
    have h := doDefine_plain rec mb mb.depth [' '] n [' '] b []
      (by decide) hn hne (by decide) (Or.inl (by decide)) hb1 hb2 hb3 (Or.inl rfl)
    simp only [List.append_nil, List.singleton_append] at h
    rw [h] at hstep
    have e : "define ".toList ++ n ++ ' ' :: b = "define".toList ++ ' ' :: (n ++ ' ' :: b) := by
      simp
    rw [e, hstep]
    simp only [hleg, hbne, ne_eq, not_false_eq_true, and_self, if_true]
    exact ⟨_, lookup_addMacro_same mb.mc hmb _ _ _ _, rfl, rfl⟩
  · have hp : parseMacroName ("global".toList ++ ' ' :: (n ++ ' ' :: b))
        = some (' ' :: (n ++ ' ' :: b)) :=
      NameShape.parse_append shape_global ' ' _ (by decide) (by decide)
    have hstep := expandStep_global env (expandMacro env (fuel + 1)) mb _ hp
    have h := doDefine_head (expandMacro env (fuel + 1)) mb env.RMIL_GLOBAL true [' '] n [' '] b
      (by decide) hn hne (by decide) (by decide) hb2
    have hpb := parseDefineBody_plain b [] hb1 hb3 (Or.inl rfl)
    simp only [List.append_nil] at hpb
    simp only [List.singleton_append] at h
    rw [hpb] at h
    simp only [hleg, Bool.not_true, Bool.false_eq_true, if_false, hbne, if_true,
      expandThis_literal env fuel mb b hd (plain_no_percent hb1), ne_eq, not_true_eq_false] at h
    rw [h] at hstep
    have e : "global ".toList ++ n ++ ' ' :: b = "global".toList ++ ' ' :: (n ++ ' ' :: b) := by
      simp
    rw [e, hstep]
    exact ⟨_, lookup_addMacro_same mb.mc hmb _ _ _ _, rfl, rfl⟩

theorem stored_level_witness :
    TableInv emptyContext ∧
    TableInv (addMacro emptyContext "abc".toList (some "x".toList) "1".toList 0) ∧
    legalName "foo".toList = true ∧
    (∃ e, lookup (rpmLoadMacros emptyContext
        (some (addMacro emptyContext "abc".toList (some "x".toList) "1".toList 0)) 5)
        "abc".toList 0 = some e ∧ e.name = "abc".toList ∧ e.opts = some "x".toList ∧
        e.body = "1".toList ∧ e.level = 5 - 1) ∧
    (∃ e, lookup (rpmDefineMacro quietEnv emptyContext ("foo".toList ++ ' ' :: "bar".toList) 5).1
        "foo".toList 0 = some e ∧ e.body = "bar".toList ∧ e.level = 5 - 1) :=
  ⟨TableInv.empty, TableInv.addMacro _ TableInv.empty _ _ _ _, by decide,
    (stored_level quietEnv emptyContext
      (addMacro emptyContext "abc".toList (some "x".toList) "1".toList 0) TableInv.empty
      (TableInv.addMacro _ TableInv.empty _ _ _ _) 5 "foo".toList "bar".toList (by decide)
      (by decide) (by decide) (by decide) (expandMacro quietEnv 16)
      { initialBuf emptyContext with depth := 1 } TableInv.empty 15 (by decide)).1
      { id := 0, name := "abc".toList, opts := some "x".toList, body := "1".toList, used := 0,
        level := 0 } [] (by decide),
    (stored_level quietEnv emptyContext
      (addMacro emptyContext "abc".toList (some "x".toList) "1".toList 0) TableInv.empty
      (TableInv.addMacro _ TableInv.empty _ _ _ _) 5 "foo".toList "bar".toList (by decide)
      (by decide) (by decide) (by decide) (expandMacro quietEnv 16)
      { initialBuf emptyContext with depth := 1 } TableInv.empty 15 (by decide)).2.1⟩

/-- C20 as stated fails: `rpmDefineMacro` asked for the level 5 stores the
level 4, and `%define` met at depth 1, the top level of an expansion, stores
the level 0. -/
theorem stored_level_counterexample :
    (lookup (rpmDefineMacro quietEnv emptyContext "foo bar".toList 5).1 "foo".toList 0).map
      (fun e => e.level) = some 4 ∧
    (lookup (doExpandMacros quietEnv emptyContext "%define foo bar".toList).1.mc "foo".toList
      0).map (fun e => e.level) = some 0 := by
  decide

/-! ## Numbers -/

theorem strtolDigits_all (base : Nat) :
    ∀ (ds : List Char) (acc : Nat), (∀ c ∈ ds, isDigitOf base c = true) →
      strtolDigits base ds acc
        = (ds.foldl (fun a c => a * base + (digitVal c).getD 0) acc, []) := by
  intro ds
  induction ds with
  | nil => intro acc _; rfl
  | cons c ds ih =>
    intro acc h
    have hc := h c (by simp)
    unfold isDigitOf at hc
    cases hd : digitVal c with
    | none => rw [hd] at hc; cases hc
    | some d =>
      rw [hd] at hc
      simp only [decide_eq_true_eq] at hc
      simp only [strtolDigits, hd, hc, if_true, List.foldl_cons, Option.getD_some]
      exact ih _ (fun a ha => h a (by simp [ha]))

theorem digit_range {base : Nat} {c : Char} (hb : base ≤ 10) (h : isDigitOf base c = true) :
    48 ≤ c.toNat ∧ c.toNat ≤ 57 := by
  unfold isDigitOf digitVal at h
  by_cases h1 : 48 ≤ c.toNat ∧ c.toNat ≤ 57
  · exact h1
  · rw [if_neg h1] at h
    by_cases h2 : 97 ≤ c.toNat ∧ c.toNat ≤ 122
    · rw [if_pos h2] at h
      simp only [decide_eq_true_eq] at h
      omega
    · rw [if_neg h2] at h
      by_cases h3 : 65 ≤ c.toNat ∧ c.toNat ≤ 90
      · rw [if_pos h3] at h
        simp only [decide_eq_true_eq] at h
        omega
      · rw [if_neg h3] at h
        cases h

theorem char_ne_of_toNat {c d : Char} (h : c.toNat ≠ d.toNat) : c ≠ d :=
  fun e => h (by rw [e])

/-- A decimal digit is none of the characters that `rpmExpandNumeric` and
`strtol` give a meaning of their own. -/
theorem digit_plain {c : Char} (h : 48 ≤ c.toNat ∧ c.toNat ≤ 57) :
    isspace c = false ∧ c ≠ '-' ∧ c ≠ '+' ∧ c ≠ '%' ∧ c ≠ 'Y' ∧ c ≠ 'y' ∧ c ≠ 'N' ∧ c ≠ 'n' ∧
      c ≠ 'x' ∧ c ≠ 'X' := by
  have hne : ∀ d : Char, (d.toNat < 48 ∨ 57 < d.toNat) → c ≠ d := by
    intro d hd
    apply char_ne_of_toNat
    omega
  refine ⟨?_, hne _ (by decide), hne _ (by decide), hne _ (by decide), hne _ (by decide),
    hne _ (by decide), hne _ (by decide), hne _ (by decide), hne _ (by decide),
    hne _ (by decide)⟩
  simp only [isspace, Bool.or_eq_false_iff, beq_eq_false_iff_ne, ne_eq]
  exact ⟨⟨⟨⟨⟨hne _ (by decide), hne _ (by decide)⟩, hne _ (by decide)⟩, hne _ (by decide)⟩,
    hne _ (by decide)⟩, hne _ (by decide)⟩

theorem zero_octal : isDigitOf 8 '0' = true := by decide

/-- On a literal of the specification `strtol` reads the whole text and
returns the number it denotes, when that fits a `long`. -/
theorem strtol_literal (s : List Char) (v : Nat) (h : AutoBaseLiteral s v)
    (hv : (v : Int) ≤ LONG_MAX) : strtol s = ((v : Int), []) := by
  rcases h with ⟨x, ds, rfl, hx, hne, hds, rfl⟩ | ⟨ds, rfl, hds, rfl⟩ |
    ⟨d, ds, rfl, hd, hd0, hds, rfl⟩
  · cases ds with
    | nil => exact absurd rfl hne
    | cons c t =>
      have hc := hds c (by simp)
      unfold strtol
      simp only [List.dropWhile, show isspace '0' = false by decide, peek_cons,
        show ¬ (('0' : Char) = '-' ∨ ('0' : Char) = '+') by decide, if_false, List.tail_cons,
        hx, hc, and_self, if_true, true_and]
      rw [strtolDigits_all 16 (c :: t) 0 hds]
      simp only [strtolValue, show (('0' : Char) == '-') = false by decide, Bool.false_eq_true,
        if_false]
      unfold literalValue at hv
      rw [if_neg (by omega)]
      rfl
  · have hpk : ¬ (peek ds = 'x' ∨ peek ds = 'X') := by
      cases ds with
      | nil => decide
      | cons c t =>
        have := digit_plain (digit_range (by decide) (hds c (by simp)))
        simp only [peek_cons]
        exact fun e => e.elim this.2.2.2.2.2.2.2.2.1 this.2.2.2.2.2.2.2.2.2
    have hall : ∀ c ∈ '0' :: ds, isDigitOf 8 c = true := by
      intro c hc
      rcases List.mem_cons.1 hc with e | e
      · rw [e]; exact zero_octal
      · exact hds c e
    unfold strtol
    simp only [List.dropWhile, show isspace '0' = false by decide, peek_cons,
      show ¬ (('0' : Char) = '-' ∨ ('0' : Char) = '+') by decide, if_false, List.tail_cons,
      hpk, false_and, and_false, if_true]
    rw [strtolDigits_all 8 ('0' :: ds) 0 hall]
    simp only [List.length_nil, List.length_cons, strtolValue,
      show (('0' : Char) == '-') = false by decide, Bool.false_eq_true, if_false]
    rw [if_neg (by omega)]
    unfold literalValue at hv
    have e0 : List.foldl (fun a c => a * 8 + (digitVal c).getD 0) 0 ('0' :: ds)
        = List.foldl (fun a c => a * 8 + (digitVal c).getD 0) 0 ds := by
      simp only [List.foldl_cons]
      rfl
    rw [e0, if_neg (by omega)]
    rfl
  · have hr := digit_range (by decide : 10 ≤ 10) hd
    obtain ⟨h1, h2, h3, _⟩ := digit_plain hr
    have hall : ∀ c ∈ d :: ds, isDigitOf 10 c = true := by
      intro c hc
      rcases List.mem_cons.1 hc with e | e
      · rw [e]; exact hd
      · exact hds c e
    unfold strtol
    simp only [List.dropWhile, h1, peek_cons, h2, h3, or_self, if_false, hd0, false_and]
    rw [strtolDigits_all 10 (d :: ds) 0 hall]
    simp only [List.length_nil, List.length_cons, strtolValue, beq_iff_eq, h2, if_false]
    rw [if_neg (by omega)]
    unfold literalValue at hv
    rw [if_neg (by omega)]
    rfl

theorem literal_first (s : List Char) (v : Nat) (h : AutoBaseLiteral s v) :
    48 ≤ (peek s).toNat ∧ (peek s).toNat ≤ 57 := by
  rcases h with ⟨x, ds, rfl, _⟩ | ⟨ds, rfl, _⟩ | ⟨d, ds, rfl, hd, _⟩
  · exact (by decide : 48 ≤ ('0' : Char).toNat ∧ ('0' : Char).toNat ≤ 57)
  · exact (by decide : 48 ≤ ('0' : Char).toNat ∧ ('0' : Char).toNat ≤ 57)
  · exact digit_range (by decide : 10 ≤ 10) hd

/-- C19. With `val` the expansion of `expr`: `rpmExpandNumeric` returns 0
when `val` is empty or begins with `%`, 1 when it begins with `Y` or `y`, 0
when it begins with `N` or `n`; when `val` as a whole is an integer literal
with automatic base that fits an `int`, it returns the number denoted; and
when `val` begins with none of `Y`, `y` and `strtol` leaves a character
unread, it returns 0. -/
theorem expand_numeric (env : Env) (glob : rpmMacroContext) (expr : List Char) :
    ((rpmExpand env glob [expr]).1 = [] ∨ peek (rpmExpand env glob [expr]).1 = '%' →
      rpmExpandNumeric env glob (some expr) = 0) ∧
    (peek (rpmExpand env glob [expr]).1 = 'Y' ∨ peek (rpmExpand env glob [expr]).1 = 'y' →
      rpmExpandNumeric env glob (some expr) = 1) ∧
    (peek (rpmExpand env glob [expr]).1 = 'N' ∨ peek (rpmExpand env glob [expr]).1 = 'n' →
      rpmExpandNumeric env glob (some expr) = 0) ∧
    (∀ v : Nat, AutoBaseLiteral (rpmExpand env glob [expr]).1 v → (v : Int) ≤ 2 ^ 31 - 1 →
      rpmExpandNumeric env glob (some expr) = v) ∧
    (peek (rpmExpand env glob [expr]).1 ≠ 'Y' → peek (rpmExpand env glob [expr]).1 ≠ 'y' →
      (strtol (rpmExpand env glob [expr]).1).2 ≠ [] →
      rpmExpandNumeric env glob (some expr) = 0) := by
  generalize hval : (rpmExpand env glob [expr]).1 = val
  have hdef : rpmExpandNumeric env glob (some expr)
      = if ¬ (peek val ≠ '%') then 0
        else if peek val = 'Y' ∨ peek val = 'y' then 1
        else if peek val = 'N' ∨ peek val = 'n' then 0
        else if ¬ ((strtol val).2 = []) then 0 else longToInt (strtol val).1 := by
    simp only [rpmExpandNumeric, hval]
  rw [hdef]
  refine ⟨?_, ?_, ?_, ?_, ?_⟩
  · rintro (h | h)
    · subst h
      rw [if_neg (by decide), if_neg (by decide), if_neg (by decide)]
      decide
    · rw [if_pos (by simp [h])]
  · intro h
    have hp : peek val ≠ '%' := by
      rcases h with h | h <;> (rw [h]; decide)
    rw [if_neg (by simp [hp]), if_pos h]
  · intro h
    have hp : peek val ≠ '%' := by
      rcases h with h | h <;> (rw [h]; decide)
    have hy : ¬ (peek val = 'Y' ∨ peek val = 'y') := by
      rcases h with h | h <;> (rw [h]; decide)
    rw [if_neg (by simp [hp]), if_neg hy, if_pos h]
  · intro v hlit hv
    obtain ⟨_, _, _, h4, h5, h6, h7, h8, _⟩ := digit_plain (literal_first val v hlit)
    have hs := strtol_literal val v hlit (by simp only [LONG_MAX]; omega)
    rw [if_neg (by simp [h4]), if_neg (by simp [h5, h6]), if_neg (by simp [h7, h8]), hs,
      if_neg (by simp)]
    simp only [longToInt]
    omega
  · intro hY hy hrest
    by_cases hp : peek val = '%'
    · rw [if_pos (by simp [hp])]
    · rw [if_neg (by simp [hp]), if_neg (by simp [hY, hy])]
      by_cases hn : peek val = 'N' ∨ peek val = 'n'
      · rw [if_pos hn]
      · rw [if_neg hn, if_pos hrest]

theorem expand_numeric_witness :
    AutoBaseLiteral (rpmExpand quietEnv (addMacro emptyContext "num".toList none "0x2a".toList 0)
      ["%num".toList]).1 42 ∧
    rpmExpandNumeric quietEnv (addMacro emptyContext "num".toList none "0x2a".toList 0)
      (some "%num".toList) = 42 :=
  ⟨Or.inl ⟨'x', "2a".toList, by decide, Or.inl rfl, by decide, by decide, by decide⟩,
    (expand_numeric quietEnv (addMacro emptyContext "num".toList none "0x2a".toList 0)
      "%num".toList).2.2.2.1 42
      (Or.inl ⟨'x', "2a".toList, by decide, Or.inl rfl, by decide, by decide, by decide⟩)
      (by decide)⟩

/-! ## The recursion ceiling -/

/-- An expansion entered at the ceiling fails at once, with tracing forced on. -/
theorem expandMacro_ceiling (env : Env) (fuel : Nat) (mb : MacroBuf) (src : List Char)
    (slen : Nat) (h : max_macro_depth < mb.depth + 1) :
    expandMacro env (fuel + 1) mb src slen = ({ mb with expand_trace := 1 }, 1) := by
  rw [expandMacro_succ, if_pos h]

/-- The failure of the body of a macro referenced as `%{n}` is the failure of
the expansion the reference stands in: the text after the reference is not
expanded and the value is handed up. -/
theorem expandMacro_body_failure (env : Env) (fuel : Nat) (mb : MacroBuf) (p n q : List Char)
    (me : rpmMacroEntry) (hp : '%' ∉ p) (hn : parseMacroName n = some [])
    (hb : isBuiltinName env n = false) (hme : lookup mb.mc n n.length = some me)
    (ho : me.opts = none) (hbody : me.body ≠ []) (hd : mb.depth + 1 ≤ max_macro_depth)
    (hfail : (expandMacro env fuel
      { mbAppendStr { mb with depth := mb.depth + 1 } p with
        mc := if peek n = '-' then markUsed mb.mc me.id else mb.mc } me.body 0).2 ≠ 0) :
    (expandMacro env (fuel + 1) mb (p ++ '%' :: '{' :: (n ++ '}' :: q)) 0).2
      = (expandMacro env fuel
          { mbAppendStr { mb with depth := mb.depth + 1 } p with
            mc := if peek n = '-' then markUsed mb.mc me.id else mb.mc } me.body 0).2 := by
  have hs := parseMacroName_shape hn
  have hstep := expandStep_braced env (expandMacro env fuel)
    (mbAppendStr { mb with depth := mb.depth + 1 } p) n q me hs hb hme ho
  rw [if_neg hbody] at hstep
  have hrc := hstep.2.1
  rw [expandMacro_succ, if_neg (by omega)]
  simp only [if_true, List.take_length]
  have hlen : (p ++ '%' :: '{' :: (n ++ '}' :: q)).length + 1
      = p.length + ((('{' :: (n ++ '}' :: q)).length + 1) + 1) := by
    simp only [List.length_append, List.length_cons]; omega
  rw [hlen, expandLoop_literal env (expandMacro env fuel) _ _ p _ hp, expandLoop]
  have hne : (expandStep env (expandMacro env fuel)
      (mbAppendStr { mb with depth := mb.depth + 1 } p) '%' ('{' :: (n ++ '}' :: q))).2.1 ≠ 0 := by
    rw [hrc]; exact hfail
  simp only [hne, ne_eq, not_false_eq_true, if_true]
  exact hrc

/-- C18, as amended: the failure of the depth check is terminal for every
expansion that reaches it through the bodies of macros referenced in the
text. An expansion entered at the ceiling returns the failure status at
once, for every table and source; and for a reference `%{n}` to a defined
macro (without options, at any depth and after any text without `%`), a
failure of the expansion of its body is returned by the expansion the
reference stands in. -/
theorem depth_failure_terminal (env : Env) (fuel : Nat) (mb : MacroBuf) :
    (∀ src slen, max_macro_depth < mb.depth + 1 →
      expandMacro env (fuel + 1) mb src slen = ({ mb with expand_trace := 1 }, 1)) ∧
    (∀ (p n q : List Char) (me : rpmMacroEntry), '%' ∉ p → parseMacroName n = some [] →
      isBuiltinName env n = false → lookup mb.mc n n.length = some me → me.opts = none →
      me.body ≠ [] → mb.depth + 1 ≤ max_macro_depth →
      (expandMacro env fuel
        { mbAppendStr { mb with depth := mb.depth + 1 } p with
          mc := if peek n = '-' then markUsed mb.mc me.id else mb.mc } me.body 0).2 ≠ 0 →
      (expandMacro env (fuel + 1) mb (p ++ '%' :: '{' :: (n ++ '}' :: q)) 0).2
        = (expandMacro env fuel
            { mbAppendStr { mb with depth := mb.depth + 1 } p with
              mc := if peek n = '-' then markUsed mb.mc me.id else mb.mc } me.body 0).2) :=
  ⟨fun src slen h => expandMacro_ceiling env fuel mb src slen h,
    fun p n q me hp hn hb hme ho hbody hd hfail =>
      expandMacro_body_failure env fuel mb p n q me hp hn hb hme ho hbody hd hfail⟩

set_option maxRecDepth 1000000 in
theorem depth_failure_terminal_witness :
    (expandMacro quietEnv 16
      { mbAppendStr { initialBuf (addMacro emptyContext "foo".toList none "%foo".toList 0) with
          depth := 1 } "ab".toList with
        mc := addMacro emptyContext "foo".toList none "%foo".toList 0 } "%foo".toList 0).2 = 1 ∧
    (doExpandMacros quietEnv (addMacro emptyContext "foo".toList none "%foo".toList 0)
      ("ab".toList ++ '%' :: '{' :: ("foo".toList ++ '}' :: "cd".toList))).2 = 1 :=
  ⟨by decide, by
    have h := (depth_failure_terminal quietEnv 16
      (initialBuf (addMacro emptyContext "foo".toList none "%foo".toList 0))).2
      "ab".toList "foo".toList "cd".toList
      { id := 0, name := "foo".toList, opts := none, body := "%foo".toList, used := 0, level := 0 }
      (by decide) (by decide) (by decide) (by decide) rfl (by decide) (by decide) (by decide)
    exact h.trans (by decide)⟩

/-- C18 as stated fails: with `foo` defined as `%foo` the depth check fails
inside the argument of `%{expand:...}`, and the expansion returns success. -/
theorem depth_failure_counterexample :
    (doExpandMacros quietEnv (addMacro emptyContext "foo".toList none "%foo".toList 0)
      ('%' :: '{' :: ("expand:%foo".toList ++ ['}']))).2 = 0 ∧
    (expandMacro quietEnv 1
      { initialBuf (addMacro emptyContext "foo".toList none "%foo".toList 0) with depth := 16 }
      "%foo".toList 0).2 = 1 := by
  decide

/-! ## The example of a call with an option -/

set_option maxRecDepth 1000000 in
/-- C12, as amended: with `greet` defined with the option spec `n:` (the
option `-n` takes an argument) and the body `hello %{-n*} world`, expanding
`%greet -n there` followed by a newline succeeds with the output
`hello there world`, with and without POSIXLY_CORRECT: while the body is
expanded `-n*` is bound to the argument `there` of the option and `-n` to
`-n there`, and the newline that ends the call is consumed, text after it
following the output at once. -/
theorem greet_call :
    doExpandMacros quietEnv (greetTable "n:".toList) "%greet -n there\n".toList
      = ({ initialBuf (doExpandMacros quietEnv (greetTable "n:".toList)
            "%greet -n there\n".toList).1.mc with buf := "hello there world".toList }, 0) ∧
    (doExpandMacros { quietEnv with posixlyCorrect := true } (greetTable "n:".toList)
      "%greet -n there\n".toList).1.buf = "hello there world".toList ∧
    (lookup (grabArgs quietEnv { initialBuf (greetTable "n:".toList) with depth := 1 }
        { id := 0, name := "greet".toList, opts := some "n:".toList, body := [], used := 0,
          level := 0 }
        " -n there\n".toList "\n".toList).1.mc "-n*".toList 0).map (fun e => e.body)
      = some "there".toList ∧
    (lookup (grabArgs quietEnv { initialBuf (greetTable "n:".toList) with depth := 1 }
        { id := 0, name := "greet".toList, opts := some "n:".toList, body := [], used := 0,
          level := 0 }
        " -n there\n".toList "\n".toList).1.mc "-n".toList 0).map (fun e => e.body)
      = some "-n there".toList ∧
    (doExpandMacros quietEnv (greetTable "n:".toList) "%greet -n there\nxx".toList).1.buf
      = "hello there worldxx".toList := by
  decide

set_option maxRecDepth 1000000 in
/-- C12 as stated fails: with the option spec `n` the option `-n` takes no
argument, `there` is an argument of the call, `-n*` is not bound, and the
output is `hello  world`. -/
theorem greet_call_counterexample :
    (doExpandMacros quietEnv (greetTable "n".toList) "%greet -n there\n".toList).1.buf
      = "hello  world".toList ∧
    (doExpandMacros quietEnv (greetTable "n".toList) "%greet -n there\n".toList).1.buf
      ≠ "hello there world".toList := by
  decide

/-! ## Calls with arguments -/

/-- A braced call `%{name args}`: the arguments start at the blank after the
name and stop at the closing brace. -/
theorem parseRef_call {n : List Char} (h : NameShape n) (x : Char) (hx : x = ' ' ∨ x = '\t')
    (a q : List Char) (ha : ∀ c ∈ a, c ≠ '\\' ∧ c ≠ '{' ∧ c ≠ '}') :
    parseRef ('{' :: (n ++ x :: (a ++ '}' :: q)))
      = .ref { f := n ++ x :: (a ++ '}' :: q), fe := x :: (a ++ '}' :: q), g := none, ge := [],
               se := q, lastc := some ('}' :: q), negate := false, chkexist := 0 } := by
  obtain ⟨hpk, hok⟩ := h.peek_ok (x :: (a ++ '}' :: q))
  obtain ⟨h1, h2, h3, h4, h5, h6, h7, h8, h9, h10⟩ := nameCharOK_ne hok
  have hxn : x ≠ '\\' ∧ x ≠ '}' ∧ x ≠ '{' ∧ x ≠ ':' ∧ isNameChar x = false ∧ x ≠ '*' := by
    rcases hx with e | e <;> (subst e; decide)
  have hassoc : n ++ x :: (a ++ '}' :: q) = (n ++ x :: a) ++ '}' :: q := by simp
  have hm : matchchar ('{' :: (n ++ x :: (a ++ '}' :: q))) '{' '}' = .found ('}' :: q) := by
    rw [hassoc]
    refine matchchar_braced '{' '}' (by decide) (by decide) (by decide) (n ++ x :: a) q ?_
    intro c hc
    rw [List.mem_append, List.mem_cons] at hc
    rcases hc with hc | hc | hc
    · obtain ⟨_, _, a3, a4, _, _, a7, _⟩ := nameCharOK_ne (h.chars c hc)
      exact ⟨a7, a4, a3⟩
    · rw [hc]; exact ⟨hxn.1, hxn.2.1, hxn.2.2.1⟩
    · exact ⟨(ha c hc).1, (ha c hc).2.2, (ha c hc).2.1⟩
  have hfl : parseMacroFlags (n ++ x :: (a ++ '}' :: q)) false 0
      = (n ++ x :: (a ++ '}' :: q), false, 0) :=
    parseMacroFlags_stop _ false 0 (by rw [hpk]; exact h5) (by rw [hpk]; exact h6)
  have hpn := h.parse_append x (a ++ '}' :: q) hxn.2.2.2.2.1 hxn.2.2.2.2.2
  unfold parseRef
  simp only [peek_cons, hm, List.tail_cons, hfl, hpn]
  rcases hx with e | e <;> (subst e; simp)

theorem freeArgs_buf (mb : MacroBuf) : (freeArgs mb).buf = mb.buf := by
  unfold freeArgs
  simp only []
  split <;> rfl

/-- The expansion of the body of a macro with options, called with
arguments: the arguments are bound, the body is expanded in the state that
`grabArgs` leaves, and the scan goes on where `grabArgs` says. -/
theorem expandBody_args (env : Env) (rec : Expander) (mb : MacroBuf) (r : MacroRef)
    (me : rpmMacroEntry) (lastc : List Char) (ho : me.opts.isSome = true)
    (hl : r.lastc = some lastc) (hbody : me.body ≠ []) :
    (expandBody env rec mb r me).2.1 = (rec (grabArgs env mb me r.fe lastc).1 me.body 0).2 ∧
    (expandBody env rec mb r me).1.buf
      = (rec (grabArgs env mb me r.fe lastc).1 me.body 0).1.buf ∧
    (expandBody env rec mb r me).2.2 = (grabArgs env mb me r.fe lastc).2 := by
  unfold expandBody
  simp only [ho, if_true, hl, hbody, ne_eq, not_false_eq_true, freeArgs_buf]
  refine ⟨body_rc _ _, ?_, trivial⟩
  by_cases h1 : isLive (rec (grabArgs env mb me r.fe lastc).1 me.body 0).1.mc me.id = true
  · by_cases h2 : (rec (grabArgs env mb me r.fe lastc).1 me.body 0).2 = 0
    · simp [h1, h2]
    · simp [h1, h2]
  · simp [h1]

/-- The turn of the loop at a braced call `%{name args}` of a defined macro
that is not built in and not an option name. -/
theorem expandStep_call (env : Env) (rec : Expander) (mb : MacroBuf) (n : List Char) (x : Char)
    (a q : List Char) (me : rpmMacroEntry) (hs : NameShape n) (hx : x = ' ' ∨ x = '\t')
    (ha : ∀ c ∈ a, c ≠ '\\' ∧ c ≠ '{' ∧ c ≠ '}') (hb : isBuiltinName env n = false)
    (hdash : peek n ≠ '-') (hme : lookup mb.mc n n.length = some me) :
    expandStep env rec mb '%' ('{' :: (n ++ x :: (a ++ '}' :: q)))
      = expandBody env rec mb
          { f := n ++ x :: (a ++ '}' :: q), fe := x :: (a ++ '}' :: q), g := none, ge := [],
            se := q, lastc := some ('}' :: q), negate := false, chkexist := 0 } me := by
  obtain ⟨hpk, _⟩ := hs.peek_ok (x :: (a ++ '}' :: q))
  have hlen : (n ++ x :: (a ++ '}' :: q)).length - (x :: (a ++ '}' :: q)).length = n.length := by
    simp
  have hnb : isBuiltin env (n ++ x :: (a ++ '}' :: q)) n.length = false := by
    rw [isBuiltin_append]; exact hb
  have hlk : lookup mb.mc (n ++ x :: (a ++ '}' :: q)) n.length = some me := by
    rw [lookup_append _ _ _ hs.ne_nil]; exact hme
  unfold expandStep
  rw [if_neg (by simp), if_neg (by simp), if_neg (by simp [peek]), parseRef_call hs x hx a q ha]
  simp only []
  rw [expandRef_user env rec mb _ _ (by simp only [MacroRef.fn, hlen]; exact hnb)]
  unfold expandDefined
  simp only [MacroRef.fn, hlen, hlk, hpk, hdash, if_false, ne_eq, not_true_eq_false]

theorem call_region (x : Char) (a q : List Char) :
    (x :: (a ++ '}' :: q)).take ((x :: (a ++ '}' :: q)).length - ('}' :: q).length) = x :: a := by
  have : (x :: (a ++ '}' :: q)).length - ('}' :: q).length = (x :: a).length := by
    simp only [List.length_cons, List.length_append]; omega
  rw [this, show x :: (a ++ '}' :: q) = (x :: a) ++ '}' :: q by simp, List.take_left]

theorem grabArgs_buf (env : Env) (mb : MacroBuf) (me : rpmMacroEntry) (se lastc : List Char) :
    (grabArgs env mb me se lastc).1.buf = mb.buf ∧
      (grabArgs env mb me se lastc).1.depth = mb.depth := by
  unfold grabArgs
  simp only []
  split <;> exact ⟨rfl, rfl⟩

/-- When the option loop of `grabArgs` stops at an option that `getopt`
reports unknown or without its argument, `grabArgs` returns with the macros
bound so far: `#`, the numbered arguments and `*` are not bound. -/
theorem grabArgs_abort (env : Env) (mb : MacroBuf) (me : rpmMacroEntry) (x : Char)
    (a q : List Char)
    (hfail : (grabOpts (me.opts.getD []) mb.depth
      (getopt env.posixlyCorrect (argvSplit (x :: a) [' ', '\t']) (me.opts.getD [])).events
      (addMacro (addMacro mb.mc ['0'] none me.name mb.depth) ['*', '*'] none
        (argvJoin (argvSplit (x :: a) [' ', '\t']) [' ']) mb.depth)).2 = false) :
    grabArgs env mb me (x :: (a ++ '}' :: q)) ('}' :: q)
      = ({ mb with mc := (grabOpts (me.opts.getD []) mb.depth
            (getopt env.posixlyCorrect (argvSplit (x :: a) [' ', '\t'])
              (me.opts.getD [])).events
            (addMacro (addMacro mb.mc ['0'] none me.name mb.depth) ['*', '*'] none
              (argvJoin (argvSplit (x :: a) [' ', '\t']) [' ']) mb.depth)).1 }, q) := by
  unfold grabArgs
  simp only [call_region, hfail, Bool.not_false, if_true, ne_eq, List.cons_ne_nil,
    not_false_eq_true, List.tail_cons]

/-- The expansion of a source whose first turn succeeds, from the state that
turn leaves. -/
theorem doExpandMacros_cons (env : Env) (mc : rpmMacroContext) (c : Char) (s s1 : List Char)
    (mb1 : MacroBuf)
    (h : expandStep env (expandMacro env 16) { initialBuf mc with depth := 1 } c s
      = (mb1, 0, s1)) :
    doExpandMacros env mc (c :: s)
      = ({ (expandLoop env (expandMacro env 16) (s1.length + 1) mb1 s1).1 with
           depth := (expandLoop env (expandMacro env 16) (s1.length + 1) mb1 s1).1.depth - 1 },
         (expandLoop env (expandMacro env 16) (s1.length + 1) mb1 s1).2) := by
  have hlen : s1.length ≤ s.length := by
    have := expandStep_length env (expandMacro env 16) { initialBuf mc with depth := 1 } c s
    rw [h] at this
    exact this
  rw [doExpandMacros_eq, show (c :: s).length + 1 = (s.length + 1) + 1 from rfl, expandLoop, h]
  simp only [ne_eq, not_true_eq_false, if_false]
  rw [expandLoop_fuel env _ (s.length + 1) (s1.length + 1) mb1 s1 (by omega) (by omega)]

theorem expandLoop_literal_all (env : Env) (rec : Expander) (q : List Char) (mb : MacroBuf)
    (hq : '%' ∉ q) : expandLoop env rec (q.length + 1) mb q = (mbAppendStr mb q, 0) := by
  have := expandLoop_literal env rec [] 1 q mb hq
  simp only [List.append_nil] at this
  rw [this, expandLoop_nil]

/-- C17, as amended: for a call `%{n args}` of a macro with options whose
option loop stops at an option that `getopt` reports unknown or without its
argument, the binding of the arguments is given up there (`#`, the numbered
arguments and `*` are not bound), yet the body of the macro is substituted,
and the text after the call is expanded: with a body and surrounding text
without `%` the output is the text before, the body, the text after, and the
call succeeds. -/
theorem unknown_option_call (env : Env) (mc : rpmMacroContext) (p n : List Char) (x : Char)
    (a q : List Char) (me : rpmMacroEntry) (hp : '%' ∉ p) (hq : '%' ∉ q)
    (hn : parseMacroName n = some []) (hb : isBuiltinName env n = false)
    (hdash : peek n ≠ '-') (hx : x = ' ' ∨ x = '\t')
    (ha : ∀ c ∈ a, c ≠ '\\' ∧ c ≠ '{' ∧ c ≠ '}')
    (hme : lookup mc n n.length = some me) (ho : me.opts.isSome = true)
    (hbody : '%' ∉ me.body) (hbne : me.body ≠ [])
    (hfail : (grabOpts (me.opts.getD []) 1
      (getopt env.posixlyCorrect (argvSplit (x :: a) [' ', '\t']) (me.opts.getD [])).events
      (addMacro (addMacro mc ['0'] none me.name 1) ['*', '*'] none
        (argvJoin (argvSplit (x :: a) [' ', '\t']) [' ']) 1)).2 = false) :
    (grabArgs env { initialBuf mc with buf := p, depth := 1 } me (x :: (a ++ '}' :: q))
        ('}' :: q)).1.mc
      = (grabOpts (me.opts.getD []) 1
          (getopt env.posixlyCorrect (argvSplit (x :: a) [' ', '\t']) (me.opts.getD [])).events
          (addMacro (addMacro mc ['0'] none me.name 1) ['*', '*'] none
            (argvJoin (argvSplit (x :: a) [' ', '\t']) [' ']) 1)).1 ∧
    (doExpandMacros env mc (p ++ '%' :: '{' :: (n ++ x :: (a ++ '}' :: q)))).2 = 0 ∧
    (doExpandMacros env mc (p ++ '%' :: '{' :: (n ++ x :: (a ++ '}' :: q)))).1.buf
      = p ++ me.body ++ q := by
  have hs := parseMacroName_shape hn
  refine ⟨?_, ?_⟩
  · rw [grabArgs_abort env { initialBuf mc with buf := p, depth := 1 } me x a q hfail]
    rfl
  · have hstep := expandStep_call env (expandMacro env 16) { initialBuf mc with depth := 1 }
      n x a q me hs hx ha hb hdash hme
    obtain ⟨h1, h2, h3⟩ := expandBody_args env (expandMacro env 16)
      { initialBuf mc with depth := 1 }
      { f := n ++ x :: (a ++ '}' :: q), fe := x :: (a ++ '}' :: q), g := none, ge := [],
        se := q, lastc := some ('}' :: q), negate := false, chkexist := 0 } me ('}' :: q)
      ho rfl hbne
    rw [← hstep] at h1 h2 h3
    obtain ⟨hgb, hgd⟩ := grabArgs_buf env { initialBuf mc with depth := 1 } me
      (x :: (a ++ '}' :: q)) ('}' :: q)
    have hlit := expandMacro_literal env 15
      (grabArgs env { initialBuf mc with depth := 1 } me (x :: (a ++ '}' :: q)) ('}' :: q)).1
      me.body (by rw [hgd]; simp [max_macro_depth]) hbody
    rw [show (15 : Nat) + 1 = 16 from rfl] at hlit
    simp only [hlit, hgb] at h1 h2
    have hnext : (grabArgs env { initialBuf mc with depth := 1 } me (x :: (a ++ '}' :: q))
        ('}' :: q)).2 = q := by
      unfold grabArgs
      simp only []
      split <;> simp
    rw [hnext] at h3
    have hfull := doExpandMacros_cons env mc '%' ('{' :: (n ++ x :: (a ++ '}' :: q))) q
      (expandStep env (expandMacro env 16) { initialBuf mc with depth := 1 } '%'
        ('{' :: (n ++ x :: (a ++ '}' :: q)))).1
      (by
        refine Prod.ext rfl (Prod.ext ?_ ?_)
        · exact h1
        · exact h3)
    rw [expandLoop_literal_all env _ q _ hq] at hfull
    rw [doExpandMacros_literal_lead env mc p _ hp, hfull]
    simp only [initialBuf, List.nil_append] at h2
    simp only [MacroBuf.pre, mbAppendStr, initialBuf, h2, List.append_assoc, and_self]

set_option maxRecDepth 1000000 in
theorem unknown_option_call_witness :
    lookup (addMacro emptyContext "ppp".toList (some "a".toList) "BODY".toList 0) "ppp".toList 3
      = some { id := 0, name := "ppp".toList, opts := some "a".toList, body := "BODY".toList,
               used := 0, level := 0 } ∧
    (getopt quietEnv.posixlyCorrect (argvSplit " -x".toList [' ', '\t']) "a".toList).events
      = [('?', none)] ∧
    (doExpandMacros quietEnv (addMacro emptyContext "ppp".toList (some "a".toList)
      "BODY".toList 0)
      ("<".toList ++ '%' :: '{' :: ("ppp".toList ++ ' ' :: ("-x".toList ++ '}' :: ">".toList)))
      ).1.buf = "<".toList ++ "BODY".toList ++ ">".toList :=
  ⟨by decide, by decide,
    (unknown_option_call quietEnv
      (addMacro emptyContext "ppp".toList (some "a".toList) "BODY".toList 0)
      "<".toList "ppp".toList ' ' "-x".toList ">".toList
      { id := 0, name := "ppp".toList, opts := some "a".toList, body := "BODY".toList,
        used := 0, level := 0 }
      (by decide) (by decide) (by decide) (by decide) (by decide) (Or.inl rfl) (by decide)
      (by decide) rfl (by decide) (by decide) (by decide)).2.2⟩

set_option maxRecDepth 1000000 in
/-- C17 as stated fails: `ppp` declares the option `a` only, the call
`%{ppp -x}` has the option `-x`, and the body of `ppp` is substituted: the
call appends `BODY` to the output. -/
theorem unknown_option_counterexample :
    (getopt quietEnv.posixlyCorrect (argvSplit " -x".toList [' ', '\t']) "a".toList).events
      = [('?', none)] ∧
    (doExpandMacros quietEnv (addMacro emptyContext "ppp".toList (some "a".toList)
      "BODY".toList 0)
      ('%' :: '{' :: ("ppp -x".toList ++ ['}']))).1.buf = "BODY".toList := by
  decide

/-! ## Decimal numerals -/

theorem digitChar_val : ∀ m : Nat, m < 10 → (Nat.digitChar m).toNat - 48 = m := by
  decide

theorem decVal_append (xs : List Char) (c : Char) :
    (xs ++ [c]).foldl (fun a d => a * 10 + (d.toNat - 48)) 0
      = xs.foldl (fun a d => a * 10 + (d.toNat - 48)) 0 * 10 + (c.toNat - 48) := by
  simp [List.foldl_append]

theorem toDigitsCore_val : ∀ (fuel n : Nat) (ds : List Char), n < fuel →
    ∃ xs, Nat.toDigitsCore 10 fuel n ds = xs ++ ds ∧
      xs.foldl (fun a d => a * 10 + (d.toNat - 48)) 0 = n := by
  intro fuel
  induction fuel with
  | zero => intro n ds h; omega
  | succ f ih =>
    intro n ds h
    simp only [Nat.toDigitsCore]
    by_cases h0 : n / 10 = 0
    · rw [if_pos h0]
      refine ⟨[Nat.digitChar (n % 10)], rfl, ?_⟩
      simp only [List.foldl_cons, List.foldl_nil, Nat.zero_mul, Nat.zero_add]
      rw [digitChar_val _ (Nat.mod_lt _ (by decide))]
      omega
    · rw [if_neg h0]
      obtain ⟨xs, hx, hv⟩ := ih (n / 10) (Nat.digitChar (n % 10) :: ds) (by omega)
      refine ⟨xs ++ [Nat.digitChar (n % 10)], by rw [hx]; simp, ?_⟩
      rw [decVal_append, hv, digitChar_val _ (Nat.mod_lt _ (by decide))]
      omega

theorem decimal_val (n : Nat) :
    (decimal n).foldl (fun a d => a * 10 + (d.toNat - 48)) 0 = n := by
  obtain ⟨xs, hx, hv⟩ := toDigitsCore_val (n + 1) n [] (by omega)
  unfold decimal Nat.toDigits
  rw [hx, List.append_nil]
  exact hv

theorem decimal_inj {i j : Nat} (h : decimal i = decimal j) : i = j := by
  have := congrArg (fun l => l.foldl (fun a d => a * 10 + (d.toNat - 48)) 0) h
  simp only [decimal_val] at this
  exact this

/-- The numeral of a positive number is none of the names `0`, `#`, `*`, `**`. -/
theorem decimal_ne_special {i : Nat} (hi : 0 < i) :
    decimal i ≠ ['0'] ∧ decimal i ≠ ['#'] ∧ decimal i ≠ ['*'] ∧ decimal i ≠ ['*', '*'] := by
  have key : ∀ l : List Char, l.foldl (fun a d => a * 10 + (d.toNat - 48)) 0 = 0 →
      decimal i ≠ l := by
    intro l hl e
    have := decimal_val i
    rw [e, hl] at this
    omega
  exact ⟨key _ (by decide), key _ (by decide), key _ (by decide), key _ (by decide)⟩

/-! ## The macros of the arguments -/

theorem bindAll_cons (d : Int) (b : List Char × List Char) (bs : List (List Char × List Char))
    (mc : rpmMacroContext) :
    bindAll d (b :: bs) mc = bindAll d bs (addMacro mc b.1 none b.2 d) := rfl

theorem bindAll_append (d : Int) (bs cs : List (List Char × List Char)) (mc : rpmMacroContext) :
    bindAll d (bs ++ cs) mc = bindAll d cs (bindAll d bs mc) := by
  simp [bindAll, List.foldl_append]

theorem bindAll_inv (d : Int) : ∀ (bs : List (List Char × List Char)) (mc : rpmMacroContext),
    TableInv mc → TableInv (bindAll d bs mc) := by
  intro bs
  induction bs with
  | nil => intro mc h; exact h
  | cons b bs ih => intro mc h; exact ih _ (TableInv.addMacro mc h _ _ _ _)

theorem bindAll_other (d : Int) (m : List Char) :
    ∀ (bs : List (List Char × List Char)) (mc : rpmMacroContext), TableInv mc →
      m ∉ bs.map Prod.fst → stackOf (bindAll d bs mc) m = stackOf mc m := by
  intro bs
  induction bs with
  | nil => intro mc _ _; rfl
  | cons b bs ih =>
    intro mc h hm
    simp only [List.map_cons, List.mem_cons, not_or] at hm
    rw [bindAll_cons, ih _ (TableInv.addMacro mc h _ _ _ _) hm.2]
    exact stackOf_addMacro_other mc h b.1 m none b.2 d hm.1

/-- After the macros `bs`, of distinct names, are bound, the stack of each
of the names is the new entry on the stack of before. -/
theorem bindAll_mem (d : Int) (m body : List Char) :
    ∀ (bs : List (List Char × List Char)) (mc : rpmMacroContext), TableInv mc →
      (bs.map Prod.fst).Nodup → (m, body) ∈ bs →
      ∃ e, stackOf (bindAll d bs mc) m = e :: stackOf mc m ∧ e.name = m ∧ e.opts = none ∧
        e.body = body ∧ e.used = 0 ∧ e.level = d := by
  intro bs
  induction bs with
  | nil => intro mc _ _ h; cases h
  | cons b bs ih =>
    intro mc h hnd hm
    simp only [List.map_cons, List.nodup_cons] at hnd
    rw [bindAll_cons]
    rcases List.mem_cons.1 hm with e | e
    · subst e
      rw [bindAll_other d m bs _ (TableInv.addMacro mc h _ _ _ _) hnd.1,
        stackOf_addMacro_same mc h]
      exact ⟨_, rfl, rfl, rfl, rfl, rfl, rfl⟩
    · have hne : m ≠ b.1 := by
        intro e'
        exact hnd.1 (by rw [← e']; exact List.mem_map_of_mem Prod.fst e)
      obtain ⟨x, hx, hrest⟩ := ih _ (TableInv.addMacro mc h _ _ _ _) hnd.2 e
      refine ⟨x, ?_, hrest⟩
      rw [hx, stackOf_addMacro_other mc h b.1 m none b.2 d hne]

theorem grabArgv_eq (d : Int) : ∀ (av : List (List Char)) (i : Nat) (mc : rpmMacroContext),
    grabArgv d av i mc = bindAll d (numbered av i) mc := by
  intro av
  induction av with
  | nil => intro i mc; rfl
  | cons a as ih => intro i mc; simp only [grabArgv, numbered, bindAll_cons, ih]

theorem numbered_names : ∀ (av : List (List Char)) (i : Nat) (m : List Char),
    m ∈ (numbered av i).map Prod.fst ↔ ∃ j, j < av.length ∧ m = decimal (i + j) := by
  intro av
  induction av with
  | nil => intro i m; simp [numbered]
  | cons a as ih =>
    intro i m
    simp only [numbered, List.map_cons, List.mem_cons, ih, List.length_cons]
    constructor
    · rintro (h | ⟨j, hj, h⟩)
      · exact ⟨0, by omega, by simpa using h⟩
      · exact ⟨j + 1, by omega, by rw [h]; congr 1; omega⟩
    · rintro ⟨j, hj, h⟩
      cases j with
      | zero => left; simpa using h
      | succ j => right; exact ⟨j, by omega, by rw [h]; congr 1; omega⟩

theorem numbered_nodup : ∀ (av : List (List Char)) (i : Nat),
    ((numbered av i).map Prod.fst).Nodup := by
  intro av
  induction av with
  | nil => intro i; simp [numbered]
  | cons a as ih =>
    intro i
    simp only [numbered, List.map_cons, List.nodup_cons]
    refine ⟨?_, ih (i + 1)⟩
    intro h
    obtain ⟨j, _, hj⟩ := (numbered_names as (i + 1) _).1 h
    have := decimal_inj hj
    omega

theorem numbered_mem : ∀ (av : List (List Char)) (i j : Nat) (hj : j < av.length),
    (decimal (i + j), av.get ⟨j, hj⟩) ∈ numbered av i := by
  intro av
  induction av with
  | nil => intro i j hj; simp at hj
  | cons a as ih =>
    intro i j hj
    cases j with
    | zero => simp [numbered]
    | succ j =>
      simp only [numbered, List.mem_cons]
      right
      have := ih (i + 1) j (by simpa using hj)
      rw [show i + 1 + j = i + (j + 1) by omega] at this
      exact this

/-- The names that a call with arguments binds are distinct. -/
theorem argBindings_nodup (name : List Char) (av : List (List Char)) :
    ((argBindings name av).map Prod.fst).Nodup := by
  have hnum : ∀ m, m ∈ (numbered av 1).map Prod.fst →
      m ≠ ['0'] ∧ m ≠ ['#'] ∧ m ≠ ['*'] ∧ m ≠ ['*', '*'] := by
    intro m hm
    obtain ⟨j, _, hj⟩ := (numbered_names av 1 m).1 hm
    rw [hj]
    exact decimal_ne_special (by omega)
  simp only [argBindings, List.map_append, List.map_cons, List.map_nil, List.cons_append,
    List.nil_append, List.nodup_cons, List.mem_cons, List.mem_append, List.mem_singleton,
    not_or]
  refine ⟨⟨by decide, by decide, fun h => (hnum _ h).1 rfl, by decide⟩,
    ⟨by decide, fun h => (hnum _ h).2.2.2 rfl, by decide⟩,
    ⟨fun h => (hnum _ h).2.1 rfl, by decide⟩, ?_⟩
  rw [List.nodup_append]
  refine ⟨numbered_nodup av 1, List.nodup_singleton _, ?_⟩
  intro m hm hs
  rw [List.mem_singleton] at hs
  exact (hnum m hm).2.2.1 hs

theorem noArgBindings_nodup (name : List Char) :
    ((noArgBindings name).map Prod.fst).Nodup := by
  simp only [noArgBindings, List.map_cons, List.map_nil]
  decide

theorem getoptFrom_permute (opts : List Char) :
    ∀ (fuel : Nat) (av skipped : List (List Char)), (∀ a ∈ av, peek a ≠ '-') →
      getoptFrom opts .PERMUTE fuel [] av skipped = { events := [], rest := skipped ++ av } := by
  intro fuel
  induction fuel with
  | zero => intro av skipped _; rfl
  | succ f ih =>
    intro av skipped h
    cases av with
    | nil => simp [getoptFrom]
    | cons a args =>
      have ha := h a (by simp)
      have hne : a ≠ ['-', '-'] := by
        intro e; rw [e] at ha; exact ha rfl
      simp only [getoptFrom, hne, if_false, ne_eq, ha, not_false_eq_true, true_or, if_true]
      rw [ih args (skipped ++ [a]) (fun b hb => h b (by simp [hb]))]
      simp

theorem getoptFrom_require (opts : List Char) (fuel : Nat) (av : List (List Char))
    (h : ∀ a ∈ av, peek a ≠ '-') :
    getoptFrom opts .REQUIRE_ORDER fuel [] av [] = { events := [], rest := av } := by
  cases fuel with
  | zero => rfl
  | succ f =>
    cases av with
    | nil => rfl
    | cons a args =>
      have ha := h a (by simp)
      have hne : a ≠ ['-', '-'] := by
        intro e; rw [e] at ha; exact ha rfl
      simp only [getoptFrom, hne, if_false, ne_eq, ha, not_false_eq_true, true_or, if_true]

/-- With an option spec that declares nothing and arguments none of which
begins with `-`, `getopt` finds no option and leaves the arguments as they
are. -/
theorem getopt_plain (posix : Bool) (av : List (List Char)) (h : ∀ a ∈ av, peek a ≠ '-') :
    getopt posix av [] = { events := [], rest := av } := by
  unfold getopt
  simp only [show peek ([] : List Char) ≠ '-' by decide, show peek ([] : List Char) ≠ '+' by decide,
    if_false, false_or]
  cases posix
  · simp only [Bool.false_eq_true, if_false]
    rw [getoptFrom_permute [] _ av [] h]
    rfl
  · simp only [if_true]
    exact getoptFrom_require [] _ av h

/-- A call with arguments of a macro whose option spec declares nothing,
none of the arguments beginning with `-`: `grabArgs` binds the macros of
`argBindings`. -/
theorem grabArgs_plain (env : Env) (mb : MacroBuf) (me : rpmMacroEntry) (x : Char)
    (a q : List Char) (ho : me.opts = some [])
    (hav : ∀ t ∈ argvSplit (x :: a) [' ', '\t'], peek t ≠ '-') :
    grabArgs env mb me (x :: (a ++ '}' :: q)) ('}' :: q)
      = ({ mb with
           mc := bindAll mb.depth (argBindings me.name (argvSplit (x :: a) [' ', '\t'])) mb.mc },
         q) := by
  unfold grabArgs
  simp only [call_region, ho, Option.getD_some, getopt_plain env.posixlyCorrect _ hav, grabOpts,
    Bool.not_true, Bool.false_eq_true, if_false, ne_eq, List.cons_ne_nil, not_false_eq_true,
    if_true, List.tail_cons, grabArgv_eq]
  simp only [argBindings, bindAll_append, bindAll_cons]
  rfl

theorem lookup_name (mc : rpmMacroContext) (n : List Char) (me : rpmMacroEntry) (hne : n ≠ [])
    (h : lookup mc n n.length = some me) : me.name = n := by
  obtain ⟨i, rest, hf, hs⟩ := lookup_some mc n n.length me h
  obtain ⟨_, e, rest', hs', hname⟩ := findEntry_some mc n n.length i hf
  rw [hs] at hs'
  injection hs' with h1 _
  rw [h1, hname, if_pos (List.length_pos.2 hne), List.take_length]

/-- The body of a bound macro, read through `lookup`. -/
theorem bindAll_lookup (d : Int) (m body : List Char) (bs : List (List Char × List Char))
    (mc : rpmMacroContext) (h : TableInv mc) (hnd : (bs.map Prod.fst).Nodup)
    (hm : (m, body) ∈ bs) :
    ∃ e, lookup (bindAll d bs mc) m 0 = some e ∧ e.body = body ∧ e.level = d := by
  obtain ⟨e, he, _, _, hb, _, hl⟩ := bindAll_mem d m body bs mc h hnd hm
  refine ⟨e, ?_, hb, hl⟩
  rw [lookup_eq_stackOf, he]
  rfl

/-- The turn of the loop at a braced reference `%{name}` to a defined macro
that is not built in and not an option name. -/
theorem expandStep_braced_body (env : Env) (rec : Expander) (mb : MacroBuf) (n q : List Char)
    (me : rpmMacroEntry) (hs : NameShape n) (hb : isBuiltinName env n = false)
    (hdash : peek n ≠ '-') (hme : lookup mb.mc n n.length = some me) :
    expandStep env rec mb '%' ('{' :: (n ++ '}' :: q))
      = expandBody env rec mb
          { f := n ++ '}' :: q, fe := '}' :: q, g := none, ge := [], se := q, lastc := none,
            negate := false, chkexist := 0 } me := by
  obtain ⟨hpk, _⟩ := hs.peek_ok ('}' :: q)
  have hlen : (n ++ '}' :: q).length - ('}' :: q).length = n.length := by simp
  have hnb : isBuiltin env (n ++ '}' :: q) n.length = false := by
    rw [isBuiltin_append]; exact hb
  have hlk : lookup mb.mc (n ++ '}' :: q) n.length = some me := by
    rw [lookup_append _ _ _ hs.ne_nil]; exact hme
  unfold expandStep
  rw [if_neg (by simp), if_neg (by simp), if_neg (by simp [peek]), parseRef_braced hs q]
  simp only []
  rw [expandRef_user env rec mb _ _ (by simp only [MacroRef.fn, hlen]; exact hnb)]
  unfold expandDefined
  simp only [MacroRef.fn, hlen, hlk, hpk, hdash, if_false, ne_eq, not_true_eq_false]

/-- The expansion of the body of a macro with options, called without an
argument region. -/
theorem expandBody_noargs (env : Env) (rec : Expander) (mb : MacroBuf) (r : MacroRef)
    (me : rpmMacroEntry) (ho : me.opts.isSome = true) (hl : r.lastc = none)
    (hbody : me.body ≠ []) :
    (expandBody env rec mb r me).2.1
      = (rec { mb with mc := bindAll mb.depth (noArgBindings me.name) mb.mc } me.body 0).2 ∧
    (expandBody env rec mb r me).1.buf
      = (rec { mb with mc := bindAll mb.depth (noArgBindings me.name) mb.mc } me.body 0).1.buf ∧
    (expandBody env rec mb r me).2.2 = r.se := by
  have hbind : bindAll mb.depth (noArgBindings me.name) mb.mc
      = addMacro (addMacro (addMacro (addMacro mb.mc ['*', '*'] none [] mb.depth) ['*'] none []
          mb.depth) ['#'] none ['0'] mb.depth) ['0'] none me.name mb.depth := rfl
  rw [hbind]
  unfold expandBody
  simp only [ho, if_true, hl, hbody, ne_eq, not_false_eq_true, freeArgs_buf]
  refine ⟨body_rc _ _, ?_, trivial⟩
  split
  · rfl
  · split <;> rfl

theorem bindAll_body (d : Int) (m body : List Char) (bs : List (List Char × List Char))
    (mc : rpmMacroContext) (h : TableInv mc) (hnd : (bs.map Prod.fst).Nodup)
    (hm : (m, body) ∈ bs) :
    (lookup (bindAll d bs mc) m 0).map (fun e => e.body) = some body := by
  obtain ⟨e, he, hb, _⟩ := bindAll_lookup d m body bs mc h hnd hm
  rw [he, Option.map_some', hb]

/-- C11. For a macro `n` whose option spec declares nothing and a braced call
`%{n a1 ... ak}` with arguments separated by spaces and tabs, none of them
beginning with `-`: the body of the macro is expanded (by the recursive call
`rec`, whatever it is) in a table `T` in which `0` is bound to `n`, `#` to
the decimal numeral of `k`, `*` and `**` to the arguments joined by single
spaces, and the numeral of `i + 1` to the argument number `i` counted from 0.
For a call `%{n}` without an argument region of a macro with options, the
table binds `#` to `0`, `*` and `**` to the empty string and `0` to `n`. -/
theorem call_bindings (env : Env) (rec : Expander) (mb : MacroBuf) (n : List Char) (x : Char)
    (a q : List Char) (me : rpmMacroEntry) (hT : TableInv mb.mc)
    (hn : parseMacroName n = some []) (hb : isBuiltinName env n = false)
    (hdash : peek n ≠ '-') (hx : x = ' ' ∨ x = '\t')
    (ha : ∀ c ∈ a, c ≠ '\\' ∧ c ≠ '{' ∧ c ≠ '}')
    (hme : lookup mb.mc n n.length = some me) (hbody : me.body ≠ [])
    (ho : me.opts.isSome = true) :
    (me.opts = some [] → (∀ t ∈ argvSplit (x :: a) [' ', '\t'], peek t ≠ '-') →
      ∃ T : rpmMacroContext,
        (expandStep env rec mb '%' ('{' :: (n ++ x :: (a ++ '}' :: q)))).2.1
          = (rec { mb with mc := T } me.body 0).2 ∧
        (expandStep env rec mb '%' ('{' :: (n ++ x :: (a ++ '}' :: q)))).1.buf
          = (rec { mb with mc := T } me.body 0).1.buf ∧
        (expandStep env rec mb '%' ('{' :: (n ++ x :: (a ++ '}' :: q)))).2.2 = q ∧
        (lookup T ['0'] 0).map (fun e => e.body) = some n ∧
        (lookup T ['#'] 0).map (fun e => e.body)
          = some (decimal (argvSplit (x :: a) [' ', '\t']).length) ∧
        (lookup T ['*'] 0).map (fun e => e.body)
          = some (argvJoin (argvSplit (x :: a) [' ', '\t']) [' ']) ∧
        (lookup T ['*', '*'] 0).map (fun e => e.body)
          = some (argvJoin (argvSplit (x :: a) [' ', '\t']) [' ']) ∧
        ∀ (i : Nat) (hi : i < (argvSplit (x :: a) [' ', '\t']).length),
          (lookup T (decimal (i + 1)) 0).map (fun e => e.body)
            = some ((argvSplit (x :: a) [' ', '\t']).get ⟨i, hi⟩)) ∧
    (∃ T : rpmMacroContext,
      (expandStep env rec mb '%' ('{' :: (n ++ '}' :: q))).2.1
        = (rec { mb with mc := T } me.body 0).2 ∧
      (expandStep env rec mb '%' ('{' :: (n ++ '}' :: q))).1.buf
        = (rec { mb with mc := T } me.body 0).1.buf ∧
      (expandStep env rec mb '%' ('{' :: (n ++ '}' :: q))).2.2 = q ∧
      (lookup T ['0'] 0).map (fun e => e.body) = some n ∧
      (lookup T ['#'] 0).map (fun e => e.body) = some ['0'] ∧
      (lookup T ['*'] 0).map (fun e => e.body) = some [] ∧
      (lookup T ['*', '*'] 0).map (fun e => e.body) = some []) := by
  have hs := parseMacroName_shape hn
  have hname := lookup_name mb.mc n me hs.ne_nil hme
  constructor
  · intro ho0 hav
    have hstep := expandStep_call env rec mb n x a q me hs hx ha hb hdash hme
    obtain ⟨h1, h2, h3⟩ := expandBody_args env rec mb
      { f := n ++ x :: (a ++ '}' :: q), fe := x :: (a ++ '}' :: q), g := none, ge := [],
        se := q, lastc := some ('}' :: q), negate := false, chkexist := 0 } me ('}' :: q)
      ho rfl hbody
    rw [← hstep] at h1 h2 h3
    have hg := grabArgs_plain env mb me x a q ho0 hav
    simp only [hg] at h1 h2 h3
    have hnd := argBindings_nodup me.name (argvSplit (x :: a) [' ', '\t'])
    refine ⟨_, h1, h2, h3, ?_, ?_, ?_, ?_, ?_⟩
    · rw [← hname]
      exact bindAll_body _ _ _ _ _ hT hnd (by simp [argBindings])
    · exact bindAll_body _ _ _ _ _ hT hnd (by simp [argBindings])
    · exact bindAll_body _ _ _ _ _ hT hnd (by simp [argBindings])
    · exact bindAll_body _ _ _ _ _ hT hnd (by simp [argBindings])
    · intro i hi
      refine bindAll_body _ _ _ _ _ hT hnd ?_
      simp only [argBindings, List.cons_append, List.nil_append, List.mem_cons, List.mem_append]
      right; right; right; left
      have := numbered_mem (argvSplit (x :: a) [' ', '\t']) 1 i hi
      rw [show 1 + i = i + 1 by omega] at this
      exact this
  · have hstep := expandStep_braced_body env rec mb n q me hs hb hdash hme
    obtain ⟨h1, h2, h3⟩ := expandBody_noargs env rec mb
      { f := n ++ '}' :: q, fe := '}' :: q, g := none, ge := [], se := q, lastc := none,
        negate := false, chkexist := 0 } me ho rfl hbody
    rw [← hstep] at h1 h2 h3
    have hnd := noArgBindings_nodup me.name
    refine ⟨_, h1, h2, h3, ?_, ?_, ?_, ?_⟩
    · rw [← hname]
      exact bindAll_body _ _ _ _ _ hT hnd (by simp [noArgBindings])
    · exact bindAll_body _ _ _ _ _ hT hnd (by simp [noArgBindings])
    · exact bindAll_body _ _ _ _ _ hT hnd (by simp [noArgBindings])
    · exact bindAll_body _ _ _ _ _ hT hnd (by simp [noArgBindings])

set_option maxRecDepth 1000000 in
theorem call_bindings_witness :
    TableInv (addMacro emptyContext "mmm".toList (some []) "%0|%#|%*|%1|%2".toList 0) ∧
    (∃ T : rpmMacroContext,
      (lookup T ['#'] 0).map (fun e => e.body) = some "2".toList ∧
      (lookup T ['*'] 0).map (fun e => e.body) = some "aa bb".toList ∧
      (lookup T "2".toList 0).map (fun e => e.body) = some "bb".toList) ∧
    (doExpandMacros quietEnv
      (addMacro emptyContext "mmm".toList (some []) "%0|%#|%*|%1|%2".toList 0)
      ('%' :: '{' :: ("mmm".toList ++ ' ' :: ("aa bb".toList ++ '}' :: [])))).1.buf
      = "mmm|2|aa bb|aa|bb".toList :=
  ⟨TableInv.addMacro _ TableInv.empty _ _ _ _, by
    obtain ⟨T, _, _, _, _, h2, h3, _, h5⟩ := (call_bindings quietEnv (expandMacro quietEnv 16)
      { initialBuf (addMacro emptyContext "mmm".toList (some []) "%0|%#|%*|%1|%2".toList 0) with
        depth := 1 }
      "mmm".toList ' ' "aa bb".toList []
      { id := 0, name := "mmm".toList, opts := some [], body := "%0|%#|%*|%1|%2".toList,
        used := 0, level := 0 }
      (TableInv.addMacro _ TableInv.empty _ _ _ _) (by decide) (by decide) (by decide)
      (Or.inl rfl) (by decide) (by decide) (by decide) rfl).1 rfl (by decide)
    exact ⟨T, h2.trans (by decide), h3.trans (by decide),
      (h5 1 (by decide)).trans (by decide)⟩,
    by decide⟩

/-! ## Freeing the arguments -/

theorem freeArgsSlot_names (d : Int) (s : Slot) (hn : ∀ e ∈ s, e.name = slotName s) :
    (∀ e ∈ freeArgsSlot d s, e.name = slotName s) ∧
      (freeArgsSlot d s ≠ [] → slotName (freeArgsSlot d s) = slotName s) := by
  cases s with
  | nil => exact ⟨fun e he => (by cases he), fun h => absurd rfl h⟩
  | cons me rest =>
    by_cases hl : me.level < d
    · have e : freeArgsSlot d (me :: rest) = me :: rest := by simp [freeArgsSlot, hl]
      rw [e]
      exact ⟨hn, fun _ => rfl⟩
    · have e : freeArgsSlot d (me :: rest) = rest := by simp [freeArgsSlot, hl, popMacro]
      rw [e]
      refine ⟨fun e he => hn e (List.mem_cons_of_mem _ he), ?_⟩
      intro hne
      cases rest with
      | nil => exact absurd rfl hne
      | cons e2 r2 => exact hn e2 (by simp)

theorem count_deleted_zero (f : Slot → Slot) : ∀ l : List Slot,
    ((l.zip (l.map f)).filter (fun p => !p.1.isEmpty && p.2.isEmpty)).length = 0 ↔
      ∀ s ∈ l, s ≠ [] → f s ≠ [] := by
  intro l
  induction l with
  | nil => simp
  | cons a t ih =>
    simp only [List.map_cons, List.zip_cons_cons, List.filter_cons, List.mem_cons,
      forall_eq_or_imp]
    by_cases hp : (!a.isEmpty && (f a).isEmpty) = true
    · simp only [hp, if_true, List.length_cons]
      constructor
      · intro h; omega
      · intro h
        simp only [Bool.and_eq_true, Bool.not_eq_true', List.isEmpty_eq_true] at hp
        have ha : a ≠ [] := by
          intro e; rw [e] at hp; simp at hp
        exact absurd hp.2 (h.1 ha)
    · simp only [hp, Bool.false_eq_true, if_false, ih]
      constructor
      · intro h
        refine ⟨?_, h⟩
        intro ha hfa
        apply hp
        simp only [Bool.and_eq_true, Bool.not_eq_true', List.isEmpty_eq_true]
        refine ⟨?_, hfa⟩
        cases a with
        | nil => exact absurd rfl ha
        | cons e r => rfl
      · intro h; exact h.2

/-- The table after `freeArgs` is in shape, and the slots in use are the slots
of before, freed, that are not empty. -/
theorem freeArgs_spec (mb : MacroBuf) (hinv : TableInv mb.mc) :
    TableInv (freeArgs mb).mc ∧
      ∀ x, x ∈ (freeArgs mb).mc.live ↔
        (x ∈ mb.mc.live.map (freeArgsSlot mb.depth) ∧ x ≠ []) := by
  by_cases ht : mb.mc.macroTable = []
  · have hl : mb.mc.live = [] := by simp [rpmMacroContext.live, ht]
    have hf : freeArgs mb = mb := by simp [freeArgs, ht]
    rw [hf, hl]
    exact ⟨hinv, by simp⟩
  · have hlen := live_length mb.mc hinv.le
    have hflen : (mb.mc.live.map (freeArgsSlot mb.depth)).length = mb.mc.firstFree := by
      rw [List.length_map, hlen]
    have hlive1 : rpmMacroContext.live
        { mb.mc with macroTable := mb.mc.live.map (freeArgsSlot mb.depth)
            ++ mb.mc.macroTable.drop mb.mc.firstFree }
        = mb.mc.live.map (freeArgsSlot mb.depth) := by
      show List.take mb.mc.firstFree (mb.mc.live.map (freeArgsSlot mb.depth)
        ++ mb.mc.macroTable.drop mb.mc.firstFree) = _
      rw [List.take_append_of_le_length (Nat.le_of_eq hflen.symm)]
      exact List.take_of_length_le (Nat.le_of_eq hflen)
    have hpre : PreInv
        { mb.mc with macroTable := mb.mc.live.map (freeArgsSlot mb.depth)
            ++ mb.mc.macroTable.drop mb.mc.firstFree } := by
      refine ⟨?_, ?_, ?_, ?_⟩
      · simp only [List.length_append, hflen]; omega
      · simp only []
        rw [List.drop_append_of_le_length (by rw [hflen]),
          List.drop_of_length_le (by rw [hflen]), List.nil_append]
        exact hinv.free
      · rw [hlive1, List.pairwise_map]
        refine List.Pairwise.imp_of_mem ?_ hinv.sorted
        intro a b ha hb hab hne1 hne2 e
        rw [(freeArgsSlot_names mb.depth a (hinv.names a ha)).2 hne1,
          (freeArgsSlot_names mb.depth b (hinv.names b hb)).2 hne2] at e
        rw [e] at hab
        exact strcmp_irrefl _ hab
      · rw [hlive1]
        intro s hs e he
        obtain ⟨s0, hs0, rfl⟩ := List.mem_map.1 hs
        have hn := freeArgsSlot_names mb.depth s0 (hinv.names s0 hs0)
        have hne : freeArgsSlot mb.depth s0 ≠ [] := by
          intro e0; rw [e0] at he; cases he
        rw [hn.2 hne]
        exact hn.1 e he
    by_cases hdel : ((mb.mc.live.zip (mb.mc.live.map (freeArgsSlot mb.depth))).filter
        (fun p => !p.1.isEmpty && p.2.isEmpty)).length = 0
    · have hf : (freeArgs mb).mc
          = { mb.mc with macroTable := mb.mc.live.map (freeArgsSlot mb.depth)
                ++ mb.mc.macroTable.drop mb.mc.firstFree } := by
        simp only [freeArgs, ht, if_false]
        simp only [rpmMacroContext.live] at hdel
        simp only [hdel, ne_eq, not_true_eq_false, if_false]
        rfl
      have hall := (count_deleted_zero (freeArgsSlot mb.depth) mb.mc.live).1 hdel
      have hne : ∀ x ∈ mb.mc.live.map (freeArgsSlot mb.depth), x ≠ [] := by
        intro x hx
        obtain ⟨s0, hs0, rfl⟩ := List.mem_map.1 hx
        exact hall s0 hs0 (hinv.used s0 hs0)
      rw [hf]
      refine ⟨⟨hpre.le, ?_, hpre.free, ?_, hpre.names⟩, ?_⟩
      · rw [hlive1]; exact hne
      · rw [hlive1, List.pairwise_map]
        refine List.Pairwise.imp_of_mem ?_ hinv.sorted
        intro a b ha hb hab
        rw [(freeArgsSlot_names mb.depth a (hinv.names a ha)).2
            (hne _ (List.mem_map_of_mem _ ha)),
          (freeArgsSlot_names mb.depth b (hinv.names b hb)).2
            (hne _ (List.mem_map_of_mem _ hb))]
        exact hab
      · intro x
        rw [hlive1]
        exact ⟨fun h => ⟨h, hne x h⟩, fun h => h.1⟩
    · have hf : (freeArgs mb).mc
          = sortMacroTable { mb.mc with macroTable := mb.mc.live.map (freeArgsSlot mb.depth)
                ++ mb.mc.macroTable.drop mb.mc.firstFree } := by
        simp only [freeArgs, ht, if_false]
        simp only [rpmMacroContext.live] at hdel
        simp only [hdel, ne_eq, not_false_eq_true, if_true]
        rfl
      have hspec := sortMacroTable_spec _ hpre
      rw [← hf, hlive1] at hspec
      exact hspec

/-- After `freeArgs` the stack of a name is its stack of before, freed. -/
theorem stackOf_freeArgs (mb : MacroBuf) (hinv : TableInv mb.mc) (m : List Char) :
    stackOf (freeArgs mb).mc m = freeArgsSlot mb.depth (stackOf mb.mc m) := by
  obtain ⟨hinv1, hmem⟩ := freeArgs_spec mb hinv
  by_cases hex : ∃ s ∈ mb.mc.live, slotName s = m
  · obtain ⟨s, hs, hn⟩ := hex
    have hnames := freeArgsSlot_names mb.depth s (hinv.names s hs)
    rw [← hn, stackOf_mem mb.mc hinv s hs]
    by_cases hne : freeArgsSlot mb.depth s = []
    · rw [hne]
      refine stackOf_not_mem _ _ ?_ hinv1.le
      intro x hx hxne e
      obtain ⟨hx1, _⟩ := (hmem x).1 hx
      obtain ⟨t, ht, rfl⟩ := List.mem_map.1 hx1
      rw [(freeArgsSlot_names mb.depth t (hinv.names t ht)).2 hxne] at e
      have := TableInv.unique mb.mc hinv t s ht hs e
      rw [this] at hxne
      exact hxne hne
    · have hin : freeArgsSlot mb.depth s ∈ (freeArgs mb).mc.live :=
        (hmem _).2 ⟨List.mem_map_of_mem _ hs, hne⟩
      have := stackOf_mem _ hinv1 _ hin
      rw [hnames.2 hne] at this
      exact this
  · rw [stackOf_not_mem mb.mc m (fun s hs _ e => hex ⟨s, hs, e⟩) hinv.le]
    refine stackOf_not_mem _ _ ?_ hinv1.le
    intro x hx hxne e
    obtain ⟨hx1, _⟩ := (hmem x).1 hx
    obtain ⟨t, ht, rfl⟩ := List.mem_map.1 hx1
    rw [(freeArgsSlot_names mb.depth t (hinv.names t ht)).2 hxne] at e
    exact hex ⟨t, ht, e⟩

theorem stackOf_markUsed (mc : rpmMacroContext) (id : Nat) (m : List Char) :
    stackOf (markUsed mc id) m
      = (stackOf mc m).map (fun e => if e.id = id then { e with used := e.used + 1 } else e) := by
  unfold stackOf
  rw [findEntry_markUsed]
  cases findEntry mc m 0 with
  | none => rfl
  | some i => exact markUsed_getD mc id i

theorem bump_name (id : Nat) (e : rpmMacroEntry) :
    (if e.id = id then { e with used := e.used + 1 } else e).name = e.name ∧
    (if e.id = id then { e with used := e.used + 1 } else e).level = e.level := by
  split <;> exact ⟨rfl, rfl⟩

theorem slotName_bump (id : Nat) (s : Slot) :
    slotName (s.map (fun e => if e.id = id then { e with used := e.used + 1 } else e))
      = slotName s := by
  cases s with
  | nil => rfl
  | cons e t => exact (bump_name id e).1

/-- Counting a use keeps the table in shape. -/
theorem TableInv.markUsed (mc : rpmMacroContext) (h : TableInv mc) (id : Nat) :
    TableInv (RpmMacro.markUsed mc id) := by
  have hlive : (RpmMacro.markUsed mc id).live
      = mc.live.map (fun s => s.map
          (fun e => if e.id = id then { e with used := e.used + 1 } else e)) := by
    simp only [rpmMacroContext.live, RpmMacro.markUsed, List.map_take]
  refine ⟨?_, ?_, ?_, ?_, ?_⟩
  · simp only [RpmMacro.markUsed, List.length_map]; exact h.le
  · rw [hlive]
    intro s hs
    obtain ⟨s0, hs0, rfl⟩ := List.mem_map.1 hs
    have := h.used s0 hs0
    cases s0 with
    | nil => exact absurd rfl this
    | cons e t => simp
  · simp only [RpmMacro.markUsed, ← List.map_drop]
    intro s hs
    obtain ⟨s0, hs0, rfl⟩ := List.mem_map.1 hs
    rw [h.free s0 hs0]
    rfl
  · rw [hlive, List.pairwise_map]
    refine h.sorted.imp ?_
    intro a b hab
    rw [slotName_bump, slotName_bump]
    exact hab
  · rw [hlive]
    intro s hs e he
    obtain ⟨s0, hs0, rfl⟩ := List.mem_map.1 hs
    obtain ⟨e0, he0, rfl⟩ := List.mem_map.1 he
    rw [slotName_bump, (bump_name id e0).1]
    exact h.names s0 hs0 e0 he0

theorem stackOf_cases (mc : rpmMacroContext) (h : TableInv mc) (m : List Char) :
    stackOf mc m = [] ∨ stackOf mc m ∈ mc.live := by
  unfold stackOf
  cases hf : findEntry mc m 0 with
  | none => exact Or.inl rfl
  | some i =>
    right
    obtain ⟨hi, _⟩ := findEntry_some mc m 0 i hf
    exact getD_mem_live mc h.le i hi

theorem isLive_of_stackOf (mc : rpmMacroContext) (m : List Char) (e : rpmMacroEntry)
    (he : e ∈ stackOf mc m) : isLive mc e.id = true := by
  unfold stackOf at he
  cases hf : findEntry mc m 0 with
  | none => rw [hf] at he; cases he
  | some i =>
    rw [hf] at he
    simp only [] at he
    have hne : mc.macroTable.getD i [] ≠ [] := by
      intro e0; rw [e0] at he; cases he
    have hlt := getD_lt_of_ne _ _ hne
    rw [List.getD_eq_getElem _ _ hlt] at he
    unfold isLive
    rw [List.any_eq_true]
    refine ⟨_, List.getElem_mem hlt, ?_⟩
    rw [List.any_eq_true]
    exact ⟨e, he, by simp⟩

/-! ## A call leaves the table as it was -/

theorem freeArgsSlot_pop (d : Int) (e : rpmMacroEntry) (t : Slot) (h : e.level = d) :
    freeArgsSlot d (e :: t) = t := by
  simp [freeArgsSlot, h, popMacro]

theorem freeArgsSlot_keep (d : Int) (e : rpmMacroEntry) (t : Slot) (h : e.level < d) :
    freeArgsSlot d (e :: t) = e :: t := by
  simp [freeArgsSlot, h]

/-- The macros bound for a call at the depth `d` are all freed again when
every visible entry of before has a level below `d`: each name has the stack
of before, the use count apart. -/
theorem stackOf_restore (d : Int) (mc : rpmMacroContext) (hT : TableInv mc)
    (hlev : ∀ s ∈ mc.live, ∀ e, s.head? = some e → e.level < d)
    (bs : List (List Char × List Char)) (hnd : (bs.map Prod.fst).Nodup) (id : Nat)
    (mbx : MacroBuf) (hmc : mbx.mc = markUsed (bindAll d bs mc) id) (hd : mbx.depth = d)
    (m : List Char) :
    stackOf (freeArgs mbx).mc m
      = (stackOf mc m).map (fun e => if e.id = id then { e with used := e.used + 1 } else e) := by
  have hinv : TableInv mbx.mc := by
    rw [hmc]; exact TableInv.markUsed _ (bindAll_inv d bs mc hT) id
  rw [stackOf_freeArgs mbx hinv, hmc, hd, stackOf_markUsed]
  by_cases hm : m ∈ bs.map Prod.fst
  · obtain ⟨⟨m', body⟩, hb, hb1⟩ := List.mem_map.1 hm
    simp only [] at hb1
    subst hb1
    obtain ⟨e, he, _, _, _, _, hl⟩ := bindAll_mem d m' body bs mc hT hnd hb
    rw [he, List.map_cons]
    exact freeArgsSlot_pop d _ _ (by rw [(bump_name id e).2, hl])
  · rw [bindAll_other d m bs mc hT hm]
    rcases stackOf_cases mc hT m with h0 | h0
    · rw [h0]; rfl
    · cases hs : stackOf mc m with
      | nil => rfl
      | cons e t =>
        have := hlev _ h0 e (by rw [hs]; rfl)
        rw [List.map_cons]
        exact freeArgsSlot_keep d _ _ (by rw [(bump_name id e).2]; exact this)

/-- The expansion of the body of a macro with options when the body is plain
text: the body is written, the use is counted, the arguments are freed. -/
theorem expandBody_literal (env : Env) (fuel : Nat) (mb : MacroBuf) (r : MacroRef)
    (me : rpmMacroEntry) (ho : me.opts.isSome = true) (hbody : me.body ≠ [])
    (hpc : '%' ∉ me.body) (A : MacroBuf) (next : List Char)
    (hA : (match r.lastc with
      | some lastc => grabArgs env mb me r.fe lastc
      | none => ({ mb with mc := bindAll mb.depth (noArgBindings me.name) mb.mc }, r.se))
      = (A, next))
    (hd : A.depth + 1 ≤ max_macro_depth) (hlive : isLive A.mc me.id = true) :
    expandBody env (expandMacro env (fuel + 1)) mb r me
      = (freeArgs { A with buf := A.buf ++ me.body, mc := markUsed A.mc me.id }, 0, next) := by
  have hfin : ∀ B : MacroBuf × List Char, B = (A, next) →
      (freeArgs
        (if ¬ isLive (expandMacro env (fuel + 1) B.1 me.body 0).1.mc me.id then
          (({ (expandMacro env (fuel + 1) B.1 me.body 0).1 with fault := true } : MacroBuf),
            (expandMacro env (fuel + 1) B.1 me.body 0).2)
        else if (expandMacro env (fuel + 1) B.1 me.body 0).2 = 0 then
          ({ (expandMacro env (fuel + 1) B.1 me.body 0).1 with
             mc := markUsed (expandMacro env (fuel + 1) B.1 me.body 0).1.mc me.id },
            (expandMacro env (fuel + 1) B.1 me.body 0).2)
        else expandMacro env (fuel + 1) B.1 me.body 0).1,
       (if ¬ isLive (expandMacro env (fuel + 1) B.1 me.body 0).1.mc me.id then
          (({ (expandMacro env (fuel + 1) B.1 me.body 0).1 with fault := true } : MacroBuf),
            (expandMacro env (fuel + 1) B.1 me.body 0).2)
        else if (expandMacro env (fuel + 1) B.1 me.body 0).2 = 0 then
          ({ (expandMacro env (fuel + 1) B.1 me.body 0).1 with
             mc := markUsed (expandMacro env (fuel + 1) B.1 me.body 0).1.mc me.id },
            (expandMacro env (fuel + 1) B.1 me.body 0).2)
        else expandMacro env (fuel + 1) B.1 me.body 0).2, B.2)
      = (freeArgs { A with buf := A.buf ++ me.body, mc := markUsed A.mc me.id }, 0, next) := by
    intro B hB
    subst hB
    simp only [expandMacro_literal env fuel A me.body hd hpc, hlive, not_true_eq_false, if_false,
      if_true]
  unfold expandBody
  simp only [ho, if_true, hbody, ne_eq, not_false_eq_true]
  cases hl : r.lastc with
  | some lastc =>
    rw [hl] at hA
    exact hfin _ hA
  | none =>
    rw [hl] at hA
    exact hfin _ hA

theorem mem_stackOf_of_lookup (mc : rpmMacroContext) (n : List Char) (me : rpmMacroEntry)
    (h : lookup mc n n.length = some me) : me ∈ stackOf mc n := by
  rw [lookup_len, lookup_eq_stackOf] at h
  cases hs : stackOf mc n with
  | nil => rw [hs] at h; cases h
  | cons e t =>
    rw [hs] at h
    simp only [List.head?_cons, Option.some.injEq] at h
    rw [h]; simp

theorem isLive_bindAll (d : Int) (bs : List (List Char × List Char)) (mc : rpmMacroContext)
    (hT : TableInv mc) (hnd : (bs.map Prod.fst).Nodup) (n : List Char) (me : rpmMacroEntry)
    (h : lookup mc n n.length = some me) : isLive (bindAll d bs mc) me.id = true := by
  have hm := mem_stackOf_of_lookup mc n me h
  refine isLive_of_stackOf _ n me ?_
  by_cases hn : n ∈ bs.map Prod.fst
  · obtain ⟨⟨m', body⟩, hb, hb1⟩ := List.mem_map.1 hn
    simp only [] at hb1
    subst hb1
    obtain ⟨e, he, _⟩ := bindAll_mem d m' body bs mc hT hnd hb
    rw [he]
    exact List.mem_cons_of_mem _ hm
  · rw [bindAll_other d n bs mc hT hn]
    exact hm

/-- The end of an expansion whose first turn is a call that binds the macros
`bs`, writes the plain body and frees the arguments, the text `q` after the
call being plain too. -/
theorem call_finish (env : Env) (mc : rpmMacroContext) (hT : TableInv mc)
    (hlev : ∀ s ∈ mc.live, ∀ e, s.head? = some e → e.level < 1)
    (p s q body : List Char) (hp : '%' ∉ p) (hq : '%' ∉ q)
    (bs : List (List Char × List Char)) (hnd : (bs.map Prod.fst).Nodup) (id : Nat)
    (hstep : expandStep env (expandMacro env 16) { initialBuf mc with depth := 1 } '%' s
      = (freeArgs { initialBuf mc with
            buf := body, depth := 1, mc := markUsed (bindAll 1 bs mc) id }, 0, q)) :
    (doExpandMacros env mc (p ++ '%' :: s)).2 = 0 ∧
    (doExpandMacros env mc (p ++ '%' :: s)).1.buf = p ++ body ++ q ∧
    ∀ m, stackOf (doExpandMacros env mc (p ++ '%' :: s)).1.mc m
      = (stackOf mc m).map (fun e => if e.id = id then { e with used := e.used + 1 } else e) := by
  have hfull := doExpandMacros_cons env mc '%' s q _ hstep
  rw [expandLoop_literal_all env _ q _ hq] at hfull
  rw [doExpandMacros_literal_lead env mc p _ hp, hfull]
  refine ⟨rfl, ?_, ?_⟩
  · simp only [MacroBuf.pre, mbAppendStr, freeArgs_buf, List.append_assoc]
  · intro m
    exact stackOf_restore 1 mc hT hlev bs hnd id _ rfl rfl m

theorem bindAll_nil (d : Int) (mc : rpmMacroContext) : bindAll d [] mc = mc := rfl

theorem grabOpts_eq (opts : List Char) (d : Int) :
    ∀ (evs : List (Char × Option (List Char))) (mc : rpmMacroContext),
      grabOpts opts d evs mc = (bindAll d (optBindings opts evs) mc, optsKnown opts evs) := by
  intro evs
  induction evs with
  | nil => intro mc; rfl
  | cons ev evs ih =>
    intro mc
    obtain ⟨c, optarg⟩ := ev
    by_cases h : c = '?' ∨ strchr opts c = none
    · simp only [grabOpts, optBindings, optsKnown, h, if_true]; rfl
    · cases optarg with
      | none => simp only [grabOpts, optBindings, optsKnown, h, if_false, ih, bindAll_cons]
      | some a => simp only [grabOpts, optBindings, optsKnown, h, if_false, ih, bindAll_cons]

/-- The table that `grabArgs` leaves, for every macro and every argument
region: the macros of `callBindings` are bound, one after the other. -/
theorem grabArgs_bindings (env : Env) (mb : MacroBuf) (me : rpmMacroEntry) (x : Char)
    (a q : List Char) :
    grabArgs env mb me (x :: (a ++ '}' :: q)) ('}' :: q)
      = ({ mb with
           mc := bindAll mb.depth (callBindings env.posixlyCorrect me.name (me.opts.getD [])
             (argvSplit (x :: a) [' ', '\t'])) mb.mc },
         q) := by
  unfold grabArgs
  simp only [call_region, grabOpts_eq, ne_eq, List.cons_ne_nil, not_false_eq_true,
    if_true, List.tail_cons, grabArgv_eq, callBindings, bindAll_append, bindAll_cons]
  cases hk : optsKnown (me.opts.getD [])
      (getopt env.posixlyCorrect (argvSplit (x :: a) [' ', '\t']) (me.opts.getD [])).events
  · simp only [Bool.not_false, if_true, Bool.false_eq_true, if_false, bindAll_nil]
  · simp only [Bool.not_true, Bool.false_eq_true, if_false, if_true, bindAll_append,
      bindAll_cons, bindAll_nil]

theorem digitChar_ne_dash : ∀ m : Nat, m < 10 → Nat.digitChar m ≠ '-' := by
  decide

theorem toDigitsCore_no_dash : ∀ (fuel n : Nat) (ds : List Char), (∀ c ∈ ds, c ≠ '-') →
    ∀ c ∈ Nat.toDigitsCore 10 fuel n ds, c ≠ '-' := by
  intro fuel
  induction fuel with
  | zero => intro n ds h; simpa [Nat.toDigitsCore] using h
  | succ k ih =>
    intro n ds h
    have hcons : ∀ c ∈ Nat.digitChar (n % 10) :: ds, c ≠ '-' := by
      intro c hc
      rcases List.mem_cons.1 hc with rfl | hc
      · exact digitChar_ne_dash _ (Nat.mod_lt _ (by decide))
      · exact h c hc
    simp only [Nat.toDigitsCore]
    split
    · exact hcons
    · exact ih _ _ hcons

theorem decimal_no_dash (n : Nat) : ∀ c ∈ decimal n, c ≠ '-' :=
  toDigitsCore_no_dash _ _ [] (by simp)

/-- The names of the option macros: `-c` or `-c*` for a value `c` of getopt. -/
theorem optBindings_names (opts : List Char) :
    ∀ (evs : List (Char × Option (List Char))) (m : List Char),
      m ∈ (optBindings opts evs).map Prod.fst →
        ∃ c ∈ evs.map Prod.fst, m = ['-', c] ∨ m = ['-', c, '*'] := by
  intro evs
  induction evs with
  | nil => intro m hm; simp [optBindings] at hm
  | cons ev evs ih =>
    intro m hm
    obtain ⟨c, optarg⟩ := ev
    by_cases h : c = '?' ∨ strchr opts c = none
    · simp [optBindings, h] at hm
    · cases optarg with
      | none =>
        simp only [optBindings, h, if_false, List.map_cons, List.mem_cons] at hm
        rcases hm with rfl | hm
        · exact ⟨c, by simp, Or.inl rfl⟩
        · obtain ⟨c1, hc1, h1⟩ := ih m hm
          exact ⟨c1, List.mem_cons_of_mem _ hc1, h1⟩
      | some a =>
        simp only [optBindings, h, if_false, List.map_cons, List.mem_cons] at hm
        rcases hm with rfl | rfl | hm
        · exact ⟨c, by simp, Or.inl rfl⟩
        · exact ⟨c, by simp, Or.inr rfl⟩
        · obtain ⟨c1, hc1, h1⟩ := ih m hm
          exact ⟨c1, List.mem_cons_of_mem _ hc1, h1⟩

theorem optBindings_nodup (opts : List Char) :
    ∀ (evs : List (Char × Option (List Char))), (evs.map Prod.fst).Nodup →
      ((optBindings opts evs).map Prod.fst).Nodup := by
  intro evs
  induction evs with
  | nil => intro _; simp [optBindings]
  | cons ev evs ih =>
    intro hnd
    obtain ⟨c, optarg⟩ := ev
    simp only [List.map_cons, List.nodup_cons] at hnd
    have hfresh : ∀ m, m ∈ (optBindings opts evs).map Prod.fst →
        m ≠ ['-', c] ∧ m ≠ ['-', c, '*'] := by
      intro m hm
      obtain ⟨c1, hc1, h1⟩ := optBindings_names opts evs m hm
      have hne : c1 ≠ c := fun e => hnd.1 (e ▸ hc1)
      rcases h1 with rfl | rfl
      · refine ⟨fun e => hne ?_, fun e => ?_⟩
        · injection e with _ e; injection e
        · injection e with _ e; injection e with _ e; cases e
      · refine ⟨fun e => ?_, fun e => hne ?_⟩
        · injection e with _ e; injection e with _ e; cases e
        · injection e with _ e; injection e
    by_cases h : c = '?' ∨ strchr opts c = none
    · simp [optBindings, h]
    · cases optarg with
      | none =>
        simp only [optBindings, h, if_false, List.map_cons, List.nodup_cons]
        exact ⟨fun hm => (hfresh _ hm).1 rfl, ih hnd.2⟩
      | some a =>
        simp only [optBindings, h, if_false, List.map_cons, List.nodup_cons, List.mem_cons,
          not_or]
        exact ⟨⟨by simp, fun hm => (hfresh _ hm).1 rfl⟩,
          fun hm => (hfresh _ hm).2 rfl, ih hnd.2⟩

theorem optName_ne (opts : List Char) (evs : List (Char × Option (List Char))) (m : List Char)
    (hm : m ∈ (optBindings opts evs).map Prod.fst) :
    m ≠ ['0'] ∧ m ≠ ['#'] ∧ m ≠ ['*'] ∧ m ≠ ['*', '*'] ∧ ∀ j, m ≠ decimal j := by
  obtain ⟨c, _, h⟩ := optBindings_names opts evs m hm
  have hd : ∀ j, m ≠ decimal j := by
    intro j e
    have := decimal_no_dash j '-' (e ▸ (by rcases h with rfl | rfl <;> simp))
    exact this rfl
  refine ⟨?_, ?_, ?_, ?_, hd⟩ <;> rcases h with rfl | rfl <;> intro e <;>
    injection e with e1 e2 <;> cases e1

/-- The macros that a call binds have different names when no option is
given twice. -/
theorem callBindings_nodup (posix : Bool) (name opts : List Char) (av : List (List Char))
    (h : ((getopt posix av opts).events.map Prod.fst).Nodup) :
    ((callBindings posix name opts av).map Prod.fst).Nodup := by
  have hopt := optBindings_nodup opts _ h
  have ho := optName_ne opts (getopt posix av opts).events
  have hnum : ∀ m, m ∈ (numbered (getopt posix av opts).rest 1).map Prod.fst →
      m ≠ ['0'] ∧ m ≠ ['#'] ∧ m ≠ ['*'] ∧ m ≠ ['*', '*'] ∧ ∃ j, m = decimal j := by
    intro m hm
    obtain ⟨j, _, hj⟩ := (numbered_names _ 1 m).1 hm
    rw [hj]
    obtain ⟨h1, h2, h3, h4⟩ := @decimal_ne_special (1 + j) (by omega)
    exact ⟨h1, h2, h3, h4, _, rfl⟩
  have htail : (([(['#'], decimal (getopt posix av opts).rest.length)] ++
      (numbered (getopt posix av opts).rest 1 ++
        [(['*'], argvJoin (getopt posix av opts).rest [' '])])).map Prod.fst).Nodup := by
    simp only [List.map_append, List.map_cons, List.map_nil, List.cons_append,
      List.nil_append, List.nodup_cons, List.mem_append, List.mem_singleton, not_or]
    refine ⟨⟨fun hm => (hnum _ hm).2.1 rfl, by decide⟩, ?_⟩
    rw [List.nodup_append]
    refine ⟨numbered_nodup _ 1, List.nodup_singleton _, ?_⟩
    intro m hm hs
    rw [List.mem_singleton] at hs
    exact (hnum m hm).2.2.1 hs
  have htmem : ∀ m, m ∈ (([(['#'], decimal (getopt posix av opts).rest.length)] ++
      (numbered (getopt posix av opts).rest 1 ++
        [(['*'], argvJoin (getopt posix av opts).rest [' '])])).map Prod.fst) →
      m ≠ ['0'] ∧ m ≠ ['*', '*'] ∧ (m = ['#'] ∨ m = ['*'] ∨ ∃ j, m = decimal j) := by
    intro m hm
    simp only [List.map_append, List.map_cons, List.map_nil, List.cons_append,
      List.nil_append, List.mem_cons, List.mem_append, List.mem_singleton,
      List.not_mem_nil, or_false] at hm
    rcases hm with rfl | hm | rfl
    · exact ⟨by decide, by decide, Or.inl rfl⟩
    · obtain ⟨h1, _, _, h4, h5⟩ := hnum m hm
      exact ⟨h1, h4, Or.inr (Or.inr h5)⟩
    · exact ⟨by decide, by decide, Or.inr (Or.inl rfl)⟩
  unfold callBindings
  rw [List.map_append, List.nodup_append]
  refine ⟨?_, ?_, ?_⟩
  · simp only [List.map_cons, List.map_nil]
    decide
  · rw [List.map_append, List.nodup_append]
    refine ⟨hopt, ?_, ?_⟩
    · split
      · exact htail
      · exact List.nodup_nil
    · intro m hm hs
      obtain ⟨_, o2, o3, _, o5⟩ := ho m hm
      split at hs
      · rcases (htmem m hs).2.2 with e | e | ⟨j, e⟩
        · exact o2 e
        · exact o3 e
        · exact o5 j e
      · simp at hs
  · intro m hm hs
    rw [List.map_append, List.mem_append] at hs
    simp only [List.map_cons, List.map_nil, List.mem_cons, List.mem_singleton,
      List.not_mem_nil, or_false] at hm
    rcases hs with hs | hs
    · obtain ⟨o1, _, _, o4, _⟩ := ho m hs
      rcases hm with e | e
      · exact o1 e
      · exact o4 e
    · split at hs
      · obtain ⟨t1, t2, _⟩ := htmem m hs
        rcases hm with e | e
        · exact t1 e
        · exact t2 e
      · simp at hs

/-! ## The expander keeps the table in shape and the depth counter -/

theorem expandThis_keeps (rec : Expander) (hrec : Keeps rec) (mb : MacroBuf) (src : List Char)
    (slen : Nat) (h : TableInv mb.mc) :
    TableInv (expandThis rec mb src slen).1.mc ∧ (expandThis rec mb src slen).1.depth = mb.depth :=
  ⟨(hrec { mb with buf := [] } src slen h).1, rfl⟩

theorem doShellEscape_keeps (env : Env) (rec : Expander) (hrec : Keeps rec) (mb : MacroBuf)
    (cmd : List Char) (clen : Nat) (h : TableInv mb.mc) :
    TableInv (doShellEscape env rec mb cmd clen).1.mc ∧
      (doShellEscape env rec mb cmd clen).1.depth = mb.depth := by
  have ht := expandThis_keeps rec hrec mb cmd clen h
  unfold doShellEscape
  simp only []
  split
  · exact ht
  · split
    · exact ht
    · exact ht

theorem doDefine_keeps (rec : Expander) (hrec : Keeps rec) (mb : MacroBuf) (se : List Char)
    (level : Int) (eb : Bool) (h : TableInv mb.mc) :
    TableInv (doDefine rec mb se level eb).1.mc ∧ (doDefine rec mb se level eb).1.depth = mb.depth := by
  unfold doDefine
  simp only []
  split
  · exact ⟨h, rfl⟩
  · split
    · exact ⟨h, rfl⟩
    · exact ⟨h, rfl⟩
    · rename_i b s1 _
      split
      · exact ⟨h, rfl⟩
      · split
        · exact ⟨h, rfl⟩
        · split
          · have ht := expandThis_keeps rec hrec mb b 0 h
            split
            · exact ht
            · exact ⟨TableInv.addMacro _ ht.1 _ _ _ _, ht.2⟩
          · exact ⟨TableInv.addMacro _ h _ _ _ _, rfl⟩

theorem doOutput_keeps (rec : Expander) (hrec : Keeps rec) (mb : MacroBuf) (msg : List Char)
    (n : Nat) (h : TableInv mb.mc) :
    TableInv (doOutput rec mb msg n).mc ∧ (doOutput rec mb msg n).depth = mb.depth :=
  expandThis_keeps rec hrec mb msg n h

theorem doFoo_keeps (env : Env) (rec : Expander) (hrec : Keeps rec) (mb : MacroBuf)
    (negate : Bool) (f : List Char) (fn : Nat) (g : Option (List Char)) (gn : Nat)
    (h : TableInv mb.mc) :
    TableInv (doFoo env rec mb negate f fn g gn).mc ∧
      (doFoo env rec mb negate f fn g gn).depth = mb.depth := by
  unfold doFoo
  cases g with
  | none =>
    simp only []
    split
    · exact hrec mb _ 0 h
    · exact ⟨h, rfl⟩
  | some g =>
    have ht := expandThis_keeps rec hrec mb g gn h
    simp only []
    split
    · rename_i b _
      have := hrec (expandThis rec mb g gn).1 b 0 ht.1
      exact ⟨this.1, this.2.trans ht.2⟩
    · exact ht

theorem grabArgs_keeps (env : Env) (mb : MacroBuf) (me : rpmMacroEntry) (se lastc : List Char)
    (h : TableInv mb.mc) :
    TableInv (grabArgs env mb me se lastc).1.mc ∧ (grabArgs env mb me se lastc).1.depth = mb.depth := by
  unfold grabArgs
  simp only [grabOpts_eq, grabArgv_eq]
  have h1 := bindAll_inv mb.depth
    (optBindings (me.opts.getD [])
      (getopt env.posixlyCorrect
        (argvSplit (se.take (se.length - lastc.length)) [' ', '\t']) (me.opts.getD [])).events)
    _ (TableInv.addMacro _ (TableInv.addMacro _ h ['0'] none me.name mb.depth) ['*', '*'] none
      (argvJoin (argvSplit (se.take (se.length - lastc.length)) [' ', '\t']) [' ']) mb.depth)
  split
  · exact ⟨h1, rfl⟩
  · exact ⟨TableInv.addMacro _ (bindAll_inv _ _ _ (TableInv.addMacro _ h1 _ _ _ _)) _ _ _ _, rfl⟩

theorem freeArgs_depth (mb : MacroBuf) : (freeArgs mb).depth = mb.depth := by
  unfold freeArgs
  simp only []
  split <;> rfl

theorem freeArgs_keeps (mb : MacroBuf) (h : TableInv mb.mc) :
    TableInv (freeArgs mb).mc ∧ (freeArgs mb).depth = mb.depth :=
  ⟨(freeArgs_spec mb h).1, freeArgs_depth mb⟩

theorem expandCond_keeps (rec : Expander) (hrec : Keeps rec) (mb : MacroBuf) (r : MacroRef)
    (me : Option rpmMacroEntry) (h : TableInv mb.mc) :
    TableInv (expandCond rec mb r me).1.mc ∧ (expandCond rec mb r me).1.depth = mb.depth := by
  unfold expandCond
  split
  · exact ⟨h, rfl⟩
  · split
    · exact hrec mb _ _ h
    · split
      · split
        · exact hrec mb _ _ h
        · exact ⟨h, rfl⟩
      · exact ⟨h, rfl⟩

/-- The stage of `expandBody` after the arguments are set up: the body is
expanded from the state `a` and the entry is marked. -/
theorem bodyStage_keeps (rec : Expander) (hrec : Keeps rec) (me : rpmMacroEntry) (a : MacroBuf)
    (h : TableInv a.mc) :
    TableInv (if me.body ≠ [] then
        (if ¬ isLive (rec a me.body 0).1.mc me.id = true then
          ({ (rec a me.body 0).1 with fault := true }, (rec a me.body 0).2)
        else if (rec a me.body 0).2 = 0 then
          ({ (rec a me.body 0).1 with mc := markUsed (rec a me.body 0).1.mc me.id },
            (rec a me.body 0).2)
        else rec a me.body 0)
      else (a, (0 : Int))).1.mc ∧
    (if me.body ≠ [] then
        (if ¬ isLive (rec a me.body 0).1.mc me.id = true then
          ({ (rec a me.body 0).1 with fault := true }, (rec a me.body 0).2)
        else if (rec a me.body 0).2 = 0 then
          ({ (rec a me.body 0).1 with mc := markUsed (rec a me.body 0).1.mc me.id },
            (rec a me.body 0).2)
        else rec a me.body 0)
      else (a, (0 : Int))).1.depth = a.depth := by
  have hx := hrec a me.body 0 h
  by_cases hb : me.body ≠ []
  · simp only [if_pos hb]
    by_cases hl : ¬ isLive (rec a me.body 0).1.mc me.id = true
    · simp only [if_pos hl]; exact hx
    · simp only [if_neg hl]
      by_cases h0 : (rec a me.body 0).2 = 0
      · simp only [if_pos h0]; exact ⟨TableInv.markUsed _ hx.1 _, hx.2⟩
      · simp only [if_neg h0]; exact hx
  · simp only [if_neg hb]; exact ⟨h, by first | trivial | rfl⟩

theorem expandBody_keeps (env : Env) (rec : Expander) (hrec : Keeps rec) (mb : MacroBuf)
    (r : MacroRef) (me : rpmMacroEntry) (h : TableInv mb.mc) :
    TableInv (expandBody env rec mb r me).1.mc ∧ (expandBody env rec mb r me).1.depth = mb.depth := by
  unfold expandBody
  cases ho : me.opts.isSome
  · simp only [Bool.false_eq_true, if_false]
    exact bodyStage_keeps rec hrec me mb h
  · simp only [if_true]
    cases hl : r.lastc with
    | none =>
      simp only []
      have ha : TableInv (addMacro (addMacro (addMacro (addMacro mb.mc ['*', '*'] none []
          mb.depth) ['*'] none [] mb.depth) ['#'] none ['0'] mb.depth) ['0'] none me.name
          mb.depth) :=
        TableInv.addMacro _ (TableInv.addMacro _ (TableInv.addMacro _
          (TableInv.addMacro _ h _ _ _ _) _ _ _ _) _ _ _ _) _ _ _ _
      have hs := bodyStage_keeps rec hrec me
        { mb with
          mc := addMacro (addMacro (addMacro (addMacro mb.mc ['*', '*'] none []
            mb.depth) ['*'] none [] mb.depth) ['#'] none ['0'] mb.depth) ['0'] none me.name
            mb.depth } ha
      exact ⟨(freeArgs_keeps _ hs.1).1, (freeArgs_depth _).trans hs.2⟩
    | some lastc =>
      simp only []
      have ha := grabArgs_keeps env mb me r.fe lastc h
      have hs := bodyStage_keeps rec hrec me (grabArgs env mb me r.fe lastc).1 ha.1
      exact ⟨(freeArgs_keeps _ hs.1).1, ((freeArgs_depth _).trans hs.2).trans ha.2⟩

theorem expandDefined_keeps (env : Env) (rec : Expander) (hrec : Keeps rec) (mb : MacroBuf)
    (s : List Char) (r : MacroRef) (h : TableInv mb.mc) :
    TableInv (expandDefined env rec mb s r).1.mc ∧
      (expandDefined env rec mb s r).1.depth = mb.depth := by
  unfold expandDefined
  simp only []
  by_cases h9 : peek r.f = '-'
  · simp only [h9, if_true]
    cases lookup mb.mc r.f r.fn with
    | none => exact expandCond_keeps rec hrec mb r _ h
    | some e => exact expandCond_keeps rec hrec _ r _ (TableInv.markUsed _ h _)
  simp only [h9, if_false]
  by_cases h10 : r.chkexist ≠ 0
  · simp only [h10, if_true, ne_eq, not_false_eq_true]
    exact expandCond_keeps rec hrec mb r _ h
  simp only [h10, if_false]
  cases lookup mb.mc r.f r.fn with
  | none => exact ⟨h, rfl⟩
  | some e => exact expandBody_keeps env rec hrec mb r e h

theorem expandRef_keeps (env : Env) (rec : Expander) (hrec : Keeps rec) (mb : MacroBuf)
    (s : List Char) (r : MacroRef) (h : TableInv mb.mc) :
    TableInv (expandRef env rec mb s r).1.mc ∧ (expandRef env rec mb s r).1.depth = mb.depth := by
  unfold expandRef
  by_cases h1 : STREQ "global" r.f r.fn = true
  · simp only [h1, if_true]; exact doDefine_keeps rec hrec mb _ _ _ h
  simp only [h1, Bool.false_eq_true, if_false]
  by_cases h2 : STREQ "define" r.f r.fn = true
  · simp only [h2, if_true]; exact doDefine_keeps rec hrec mb _ _ _ h
  simp only [h2, Bool.false_eq_true, if_false]
  by_cases h3 : STREQ "undefine" r.f r.fn = true
  · simp only [h3, if_true]
    refine ⟨?_, by first | trivial | rfl⟩
    unfold doUndefine
    simp only []
    split
    · exact h
    · exact TableInv.delMacro _ h _
  simp only [h3, Bool.false_eq_true, if_false]
  by_cases h4 : (STREQ "echo" r.f r.fn || STREQ "warn" r.f r.fn || STREQ "error" r.f r.fn) = true
  · simp only [h4, if_true]
    by_cases h4a : r.g.isSome = true ∧ r.gn > 0
    · simp only [h4a, and_self, if_true]; exact doOutput_keeps rec hrec mb _ _ h
    · simp only [h4a, if_false]; exact doOutput_keeps rec hrec mb _ _ h
  simp only [h4, Bool.false_eq_true, if_false]
  by_cases h5 : STREQ "trace" r.f r.fn = true
  · simp only [h5, if_true]; exact ⟨h, by first | trivial | rfl⟩
  simp only [h5, Bool.false_eq_true, if_false]
  by_cases h6 : STREQ "dump" r.f r.fn = true
  · simp only [h6, if_true]; exact ⟨h, by first | trivial | rfl⟩
  simp only [h6, Bool.false_eq_true, if_false]
  by_cases h7 : env.rpmluaRunScript.isSome = true ∧ STREQ "lua" r.f r.fn = true
  · simp only [h7, and_self, if_true]
    cases hl : env.rpmluaRunScript with
    | none => exact ⟨h, rfl⟩
    | some run =>
      simp only []
      by_cases h7a : s.length < r.se.length + 6
      · simp only [h7a, if_true]; exact ⟨h, by first | trivial | rfl⟩
      · simp only [h7a, if_false]; exact ⟨h, rfl⟩
  simp only [h7, if_false]
  by_cases h8 : isFoo r.f r.fn = true
  · simp only [h8, if_true]; exact doFoo_keeps env rec hrec mb _ _ _ _ _ h
  simp only [h8, Bool.false_eq_true, if_false]
  exact expandDefined_keeps env rec hrec mb s r h

theorem expandStep_keeps (env : Env) (rec : Expander) (hrec : Keeps rec) (mb : MacroBuf)
    (c : Char) (s : List Char) (h : TableInv mb.mc) :
    TableInv (expandStep env rec mb c s).1.mc ∧ (expandStep env rec mb c s).1.depth = mb.depth := by
  unfold expandStep
  split
  · exact ⟨h, rfl⟩
  · split
    · exact ⟨h, rfl⟩
    · split
      · exact ⟨h, rfl⟩
      · split
        · exact ⟨h, rfl⟩
        · exact ⟨h, rfl⟩
        · exact ⟨h, rfl⟩
        · exact doShellEscape_keeps env rec hrec mb _ _ h
        · exact expandRef_keeps env rec hrec mb s _ h

theorem expandLoop_keeps (env : Env) (rec : Expander) (hrec : Keeps rec) :
    ∀ (fuel : Nat) (mb : MacroBuf) (s : List Char), TableInv mb.mc →
      TableInv (expandLoop env rec fuel mb s).1.mc ∧
        (expandLoop env rec fuel mb s).1.depth = mb.depth := by
  intro fuel
  induction fuel with
  | zero =>
    intro mb s h
    cases s <;> exact ⟨h, rfl⟩
  | succ n ih =>
    intro mb s h
    cases s with
    | nil => exact ⟨h, rfl⟩
    | cons c s =>
      have hs := expandStep_keeps env rec hrec mb c s h
      simp only [expandLoop]
      split
      · exact hs
      · have := ih (expandStep env rec mb c s).1 (expandStep env rec mb c s).2.2 hs.1
        exact ⟨this.1, this.2.trans hs.2⟩

/-- The expander keeps the table in shape, and the depth counter on return is
what it was on entry. -/
theorem expandMacro_keeps (env : Env) : ∀ fuel : Nat, Keeps (expandMacro env fuel) := by
  intro fuel
  induction fuel with
  | zero => intro mb src slen h; exact ⟨h, rfl⟩
  | succ n ih =>
    intro mb src slen h
    simp only [expandMacro]
    split
    · exact ⟨h, rfl⟩
    · have hl := expandLoop_keeps env (expandMacro env n) ih
        ((src.take (if slen = 0 then src.length else slen)).length + 1)
        { mb with depth := mb.depth + 1 } (src.take (if slen = 0 then src.length else slen)) h
      refine ⟨hl.1, ?_⟩
      show _ - 1 = _
      rw [hl.2]
      show mb.depth + 1 - 1 = mb.depth
      omega

theorem defOf_bump (id : Nat) (e : rpmMacroEntry) :
    defOf (if e.id = id then { e with used := e.used + 1 } else e) = defOf e := by
  split <;> rfl

theorem map_defOf_bump (id : Nat) (s : Slot) :
    (s.map (fun e => if e.id = id then { e with used := e.used + 1 } else e)).map defOf
      = s.map defOf := by
  rw [List.map_map]
  exact List.map_congr_left (fun e _ => defOf_bump id e)

theorem freeArgsSlot_defs (d : Int) (s t : Slot) (h : s.map defOf = t.map defOf) :
    (freeArgsSlot d s).map defOf = (freeArgsSlot d t).map defOf := by
  cases s with
  | nil =>
    cases t with
    | nil => rfl
    | cons e t => cases h
  | cons e s =>
    cases t with
    | nil => cases h
    | cons e1 t =>
      simp only [List.map_cons, List.cons.injEq] at h
      have hl : e.level = e1.level := congrArg (fun x => x.2.2.2) h.1
      simp only [freeArgsSlot, popMacro, hl]
      split
      · simp only [List.map_cons, h.1, h.2]
      · simpa using h.2

theorem SameDefs.refl (mc : rpmMacroContext) : SameDefs mc mc := fun _ => rfl

theorem SameDefs.trans {a b c : rpmMacroContext} (h1 : SameDefs a b) (h2 : SameDefs b c) :
    SameDefs a c := fun m => (h2 m).trans (h1 m)

theorem sameDefs_markUsed (mc : rpmMacroContext) (id : Nat) : SameDefs mc (markUsed mc id) := by
  intro m
  rw [stackOf_markUsed, map_defOf_bump]

/-- The stage of `expandBody` after the arguments are set up, when there is a
body: the table is the one the expansion of the body leaves, but for a use
count. -/
theorem bodyStage_table (rec : Expander) (me : rpmMacroEntry) (a : MacroBuf)
    (hb : me.body ≠ []) :
    SameDefs (rec a me.body 0).1.mc (if me.body ≠ [] then
        (if ¬ isLive (rec a me.body 0).1.mc me.id = true then
          ({ (rec a me.body 0).1 with fault := true }, (rec a me.body 0).2)
        else if (rec a me.body 0).2 = 0 then
          ({ (rec a me.body 0).1 with mc := markUsed (rec a me.body 0).1.mc me.id },
            (rec a me.body 0).2)
        else rec a me.body 0)
      else (a, (0 : Int))).1.mc ∧
    (if me.body ≠ [] then
        (if ¬ isLive (rec a me.body 0).1.mc me.id = true then
          ({ (rec a me.body 0).1 with fault := true }, (rec a me.body 0).2)
        else if (rec a me.body 0).2 = 0 then
          ({ (rec a me.body 0).1 with mc := markUsed (rec a me.body 0).1.mc me.id },
            (rec a me.body 0).2)
        else rec a me.body 0)
      else (a, (0 : Int))).2 = (rec a me.body 0).2 := by
  simp only [if_pos hb]
  by_cases hl : ¬ isLive (rec a me.body 0).1.mc me.id = true
  · simp only [if_pos hl]; exact ⟨SameDefs.refl _, by first | trivial | rfl⟩
  · simp only [if_neg hl]
    by_cases h0 : (rec a me.body 0).2 = 0
    · simp only [if_pos h0]; exact ⟨sameDefs_markUsed _ _, by first | trivial | rfl⟩
    · simp only [if_neg h0]; exact ⟨SameDefs.refl _, by first | trivial | rfl⟩

/-- The table after `freeArgs` holds, under every name, what the turn of the
loop of `freeArgs` leaves of the definitions under that name. -/
theorem freeArgs_defs (mb : MacroBuf) (h : TableInv mb.mc) (mc0 : rpmMacroContext)
    (hs : SameDefs mc0 mb.mc) (m : List Char) :
    (stackOf (freeArgs mb).mc m).map defOf
      = (freeArgsSlot mb.depth (stackOf mc0 m)).map defOf := by
  rw [stackOf_freeArgs mb h]
  exact freeArgsSlot_defs _ _ _ (hs m)

/-- The table after the substitution of a macro with options called with an
argument region: the expansion of the body, then `freeArgs`. -/
theorem expandBody_call_args (env : Env) (rec : Expander) (hrec : Keeps rec) (mb : MacroBuf)
    (r : MacroRef) (me : rpmMacroEntry) (ho : me.opts.isSome = true) (hbody : me.body ≠ [])
    (hT : TableInv mb.mc) (lastc : List Char) (hl : r.lastc = some lastc) :
    (∀ m, (stackOf (expandBody env rec mb r me).1.mc m).map defOf
      = (freeArgsSlot mb.depth
          (stackOf (rec (grabArgs env mb me r.fe lastc).1 me.body 0).1.mc m)).map defOf) ∧
    (expandBody env rec mb r me).2.1 = (rec (grabArgs env mb me r.fe lastc).1 me.body 0).2 ∧
    (expandBody env rec mb r me).2.2 = (grabArgs env mb me r.fe lastc).2 := by
  have ha := grabArgs_keeps env mb me r.fe lastc hT
  have hst := bodyStage_table rec me (grabArgs env mb me r.fe lastc).1 hbody
  have hk := bodyStage_keeps rec hrec me (grabArgs env mb me r.fe lastc).1 ha.1
  unfold expandBody
  simp only [ho, if_true, hl]
  refine ⟨fun m => ?_, hst.2, by first | trivial | rfl⟩
  have := freeArgs_defs _ hk.1 _ hst.1 m
  rw [hk.2, ha.2] at this
  exact this

/-- The table after the substitution of a macro with options called without
an argument region. -/
theorem expandBody_call_noargs (env : Env) (rec : Expander) (hrec : Keeps rec) (mb : MacroBuf)
    (r : MacroRef) (me : rpmMacroEntry) (ho : me.opts.isSome = true) (hbody : me.body ≠ [])
    (hT : TableInv mb.mc) (hl : r.lastc = none) :
    (∀ m, (stackOf (expandBody env rec mb r me).1.mc m).map defOf
      = (freeArgsSlot mb.depth
          (stackOf (rec { mb with mc := bindAll mb.depth (noArgBindings me.name) mb.mc }
            me.body 0).1.mc m)).map defOf) ∧
    (expandBody env rec mb r me).2.1
      = (rec { mb with mc := bindAll mb.depth (noArgBindings me.name) mb.mc } me.body 0).2 ∧
    (expandBody env rec mb r me).2.2 = r.se := by
  have hTA : TableInv (bindAll mb.depth (noArgBindings me.name) mb.mc) := bindAll_inv _ _ _ hT
  have hst := bodyStage_table rec me
    { mb with mc := bindAll mb.depth (noArgBindings me.name) mb.mc } hbody
  have hk := bodyStage_keeps rec hrec me
    { mb with mc := bindAll mb.depth (noArgBindings me.name) mb.mc } hTA
  unfold expandBody
  simp only [ho, if_true, hl]
  refine ⟨fun m => ?_, hst.2, by first | trivial | rfl⟩
  have := freeArgs_defs _ hk.1 _ hst.1 m
  rw [hk.2] at this
  exact this

/-- Where the arguments are freed at the depth `d`, a table that holds the
definitions of `mc` and the bindings `bs` is left with those of `mc`. -/
theorem restore_defs (d : Int) (mc : rpmMacroContext) (hT : TableInv mc)
    (hlev : ∀ s ∈ mc.live, ∀ e, s.head? = some e → e.level < d)
    (bs : List (List Char × List Char)) (hnd : (bs.map Prod.fst).Nodup)
    (X : rpmMacroContext) (hX : SameDefs (bindAll d bs mc) X) (m : List Char) :
    (freeArgsSlot d (stackOf X m)).map defOf = (stackOf mc m).map defOf := by
  rw [freeArgsSlot_defs d _ _ (hX m)]
  have h := stackOf_restore d mc hT hlev bs hnd 0
    { initialBuf (markUsed (bindAll d bs mc) 0) with depth := d } rfl rfl m
  rw [stackOf_freeArgs _ (TableInv.markUsed _ (bindAll_inv d bs mc hT) 0)] at h
  have h2 := congrArg (List.map defOf) h
  rw [map_defOf_bump] at h2
  rw [← h2]
  exact freeArgsSlot_defs d _ _ ((sameDefs_markUsed _ 0 m).symm)

/-- The table and the value returned when the source is plain text around
one reference, from what the turn of the loop at the reference gives. -/
theorem doExpandMacros_around (env : Env) (mc : rpmMacroContext) (p s q : List Char)
    (hp : '%' ∉ p) (hq : '%' ∉ q) (mb1 : MacroBuf) (rc : Int)
    (hstep : expandStep env (expandMacro env 16) { initialBuf mc with depth := 1 } '%' s
      = (mb1, rc, q)) :
    (doExpandMacros env mc (p ++ '%' :: s)).1.mc = mb1.mc ∧
    (doExpandMacros env mc (p ++ '%' :: s)).2 = rc := by
  rw [doExpandMacros_literal_lead env mc p _ hp]
  by_cases h0 : rc = 0
  · subst h0
    rw [doExpandMacros_cons env mc '%' s q mb1 hstep, expandLoop_literal_all env _ q _ hq]
    exact ⟨rfl, rfl⟩
  · rw [doExpandMacros_fail env mc '%' s q mb1 rc h0 hstep]
    exact ⟨rfl, rfl⟩

/-! ## The depth counter -/

theorem doShellEscape_depth (env : Env) (rec : Expander) (mb : MacroBuf)
    (cmd : List Char) (clen : Nat) :
    (doShellEscape env rec mb cmd clen).1.depth = mb.depth := by
  unfold doShellEscape
  simp only []
  split
  · rfl
  · split
    · rfl
    · rfl

theorem doDefine_depth (rec : Expander) (mb : MacroBuf) (se : List Char)
    (level : Int) (eb : Bool) :
    (doDefine rec mb se level eb).1.depth = mb.depth := by
  unfold doDefine
  simp only []
  split
  · rfl
  · split
    · rfl
    · rfl
    · split
      · rfl
      · split
        · rfl
        · split
          · split
            · rfl
            · rfl
          · rfl

theorem doFoo_depth (env : Env) (rec : Expander) (hrec : KeepsDepth rec) (mb : MacroBuf)
    (negate : Bool) (f : List Char) (fn : Nat) (g : Option (List Char)) (gn : Nat) :
    (doFoo env rec mb negate f fn g gn).depth = mb.depth := by
  unfold doFoo
  cases g with
  | none =>
    simp only []
    split
    · exact hrec mb _ 0
    · rfl
  | some g =>
    simp only []
    split
    · rename_i b _
      exact hrec (expandThis rec mb g gn).1 b 0
    · rfl

theorem grabArgs_depth (env : Env) (mb : MacroBuf) (me : rpmMacroEntry) (se lastc : List Char) :
    (grabArgs env mb me se lastc).1.depth = mb.depth := by
  unfold grabArgs
  simp only []
  split <;> rfl

theorem expandCond_depth (rec : Expander) (hrec : KeepsDepth rec) (mb : MacroBuf) (r : MacroRef)
    (me : Option rpmMacroEntry) : (expandCond rec mb r me).1.depth = mb.depth := by
  unfold expandCond
  split
  · rfl
  · split
    · exact hrec mb _ _
    · split
      · split
        · exact hrec mb _ _
        · rfl
      · rfl

theorem bodyStage_depth (rec : Expander) (hrec : KeepsDepth rec) (me : rpmMacroEntry)
    (a : MacroBuf) :
    (if me.body ≠ [] then
        (if ¬ isLive (rec a me.body 0).1.mc me.id = true then
          ({ (rec a me.body 0).1 with fault := true }, (rec a me.body 0).2)
        else if (rec a me.body 0).2 = 0 then
          ({ (rec a me.body 0).1 with mc := markUsed (rec a me.body 0).1.mc me.id },
            (rec a me.body 0).2)
        else rec a me.body 0)
      else (a, (0 : Int))).1.depth = a.depth := by
  have hx := hrec a me.body 0
  by_cases hb : me.body ≠ []
  · simp only [if_pos hb]
    by_cases hl : ¬ isLive (rec a me.body 0).1.mc me.id = true
    · simp only [if_pos hl]; exact hx
    · simp only [if_neg hl]
      by_cases h0 : (rec a me.body 0).2 = 0
      · simp only [if_pos h0]; exact hx
      · simp only [if_neg h0]; exact hx
  · simp only [if_neg hb]

theorem expandBody_depth (env : Env) (rec : Expander) (hrec : KeepsDepth rec) (mb : MacroBuf)
    (r : MacroRef) (me : rpmMacroEntry) : (expandBody env rec mb r me).1.depth = mb.depth := by
  unfold expandBody
  cases ho : me.opts.isSome
  · simp only [Bool.false_eq_true, if_false]
    exact bodyStage_depth rec hrec me mb
  · simp only [if_true]
    cases hl : r.lastc with
    | none =>
      simp only []
      exact (freeArgs_depth _).trans (bodyStage_depth rec hrec me
        { mb with
          mc := addMacro (addMacro (addMacro (addMacro mb.mc ['*', '*'] none []
            mb.depth) ['*'] none [] mb.depth) ['#'] none ['0'] mb.depth) ['0'] none me.name
            mb.depth })
    | some lastc =>
      simp only []
      exact ((freeArgs_depth _).trans
        (bodyStage_depth rec hrec me (grabArgs env mb me r.fe lastc).1)).trans
        (grabArgs_depth env mb me r.fe lastc)

theorem expandDefined_depth (env : Env) (rec : Expander) (hrec : KeepsDepth rec) (mb : MacroBuf)
    (s : List Char) (r : MacroRef) : (expandDefined env rec mb s r).1.depth = mb.depth := by
  unfold expandDefined
  simp only []
  by_cases h9 : peek r.f = '-'
  · simp only [h9, if_true]
    cases lookup mb.mc r.f r.fn with
    | none => exact expandCond_depth rec hrec mb r _
    | some e => exact expandCond_depth rec hrec _ r _
  simp only [h9, if_false]
  by_cases h10 : r.chkexist ≠ 0
  · simp only [h10, if_true, ne_eq, not_false_eq_true]
    exact expandCond_depth rec hrec mb r _
  simp only [h10, if_false]
  cases lookup mb.mc r.f r.fn with
  | none => rfl
  | some e => exact expandBody_depth env rec hrec mb r e

theorem expandRef_depth (env : Env) (rec : Expander) (hrec : KeepsDepth rec) (mb : MacroBuf)
    (s : List Char) (r : MacroRef) : (expandRef env rec mb s r).1.depth = mb.depth := by
  unfold expandRef
  by_cases h1 : STREQ "global" r.f r.fn = true
  · simp only [h1, if_true]; exact doDefine_depth rec mb _ _ _
  simp only [h1, Bool.false_eq_true, if_false]
  by_cases h2 : STREQ "define" r.f r.fn = true
  · simp only [h2, if_true]; exact doDefine_depth rec mb _ _ _
  simp only [h2, Bool.false_eq_true, if_false]
  by_cases h3 : STREQ "undefine" r.f r.fn = true
  · simp only [h3, if_true]
  simp only [h3, Bool.false_eq_true, if_false]
  by_cases h4 : (STREQ "echo" r.f r.fn || STREQ "warn" r.f r.fn || STREQ "error" r.f r.fn) = true
  · simp only [h4, if_true]
    by_cases h4a : r.g.isSome = true ∧ r.gn > 0
    · simp only [h4a, and_self, if_true]; rfl
    · simp only [h4a, if_false]; rfl
  simp only [h4, Bool.false_eq_true, if_false]
  by_cases h5 : STREQ "trace" r.f r.fn = true
  · simp only [h5, if_true]
  simp only [h5, Bool.false_eq_true, if_false]
  by_cases h6 : STREQ "dump" r.f r.fn = true
  · simp only [h6, if_true]
  simp only [h6, Bool.false_eq_true, if_false]
  by_cases h7 : env.rpmluaRunScript.isSome = true ∧ STREQ "lua" r.f r.fn = true
  · simp only [h7, and_self, if_true]
    cases hl : env.rpmluaRunScript with
    | none => rfl
    | some run =>
      simp only []
      by_cases h7a : s.length < r.se.length + 6
      · simp only [h7a, if_true]
      · simp only [h7a, if_false]; rfl
  simp only [h7, if_false]
  by_cases h8 : isFoo r.f r.fn = true
  · simp only [h8, if_true]; exact doFoo_depth env rec hrec mb _ _ _ _ _
  simp only [h8, Bool.false_eq_true, if_false]
  exact expandDefined_depth env rec hrec mb s r

theorem expandStep_depth (env : Env) (rec : Expander) (hrec : KeepsDepth rec) (mb : MacroBuf)
    (c : Char) (s : List Char) : (expandStep env rec mb c s).1.depth = mb.depth := by
  unfold expandStep
  split
  · rfl
  · split
    · rfl
    · split
      · rfl
      · split
        · rfl
        · rfl
        · rfl
        · exact doShellEscape_depth env rec mb _ _
        · exact expandRef_depth env rec hrec mb s _

theorem expandLoop_depth (env : Env) (rec : Expander) (hrec : KeepsDepth rec) :
    ∀ (fuel : Nat) (mb : MacroBuf) (s : List Char),
      (expandLoop env rec fuel mb s).1.depth = mb.depth := by
  intro fuel
  induction fuel with
  | zero =>
    intro mb s
    cases s <;> rfl
  | succ n ih =>
    intro mb s
    cases s with
    | nil => rfl
    | cons c s =>
      have hs := expandStep_depth env rec hrec mb c s
      simp only [expandLoop]
      split
      · exact hs
      · exact (ih (expandStep env rec mb c s).1 (expandStep env rec mb c s).2.2).trans hs

/-- The depth counter on return from the expander is what it was on entry. -/
theorem expandMacro_depth (env : Env) : ∀ fuel : Nat, KeepsDepth (expandMacro env fuel) := by
  intro fuel
  induction fuel with
  | zero => intro mb src slen; rfl
  | succ n ih =>
    intro mb src slen
    simp only [expandMacro]
    split
    · rfl
    · have hl := expandLoop_depth env (expandMacro env n) ih
        ((src.take (if slen = 0 then src.length else slen)).length + 1)
        { mb with depth := mb.depth + 1 } (src.take (if slen = 0 then src.length else slen))
      show _ - 1 = _
      rw [hl]
      show mb.depth + 1 - 1 = mb.depth
      omega

/-- C21. For every call of the expander, whatever it returns (also when the
fuel of the model runs out), the depth counter on return equals its value on
entry; and a call entered when the depth equals the ceiling, which is 16,
returns the failure status 1 and leaves the output buffer as it was. -/
theorem depth_restored (env : Env) (fuel : Nat) (mb : MacroBuf) (src : List Char) (slen : Nat) :
    (expandMacro env fuel mb src slen).1.depth = mb.depth ∧
    max_macro_depth = 16 ∧
    (mb.depth = max_macro_depth →
      (expandMacro env (fuel + 1) mb src slen).2 = 1 ∧
      (expandMacro env (fuel + 1) mb src slen).1.buf = mb.buf) := by
  refine ⟨expandMacro_depth env fuel mb src slen, rfl, fun h => ?_⟩
  rw [expandMacro_ceiling env fuel mb src slen (by rw [h]; decide)]
  exact ⟨rfl, rfl⟩

theorem depth_restored_witness :
    ({ initialBuf emptyContext with depth := 16 } : MacroBuf).depth = max_macro_depth ∧
    (expandMacro quietEnv 17 { initialBuf emptyContext with depth := 16 } "abc".toList 0).2 = 1 ∧
    (expandMacro quietEnv 17 { initialBuf emptyContext with depth := 16 } "abc".toList 0).1.buf
      = [] :=
  ⟨rfl, (depth_restored quietEnv 16 { initialBuf emptyContext with depth := 16 }
    "abc".toList 0).2.2 rfl⟩

/-! ## The primitives of `doFoo` -/

/-- A reference to one of the primitives of `doFoo` is handed to `doFoo`. -/
theorem expandRef_foo (env : Env) (rec : Expander) (mb : MacroBuf) (s : List Char)
    (r : MacroRef)
    (hpre : (STREQ "global" r.f r.fn || STREQ "define" r.f r.fn || STREQ "undefine" r.f r.fn ||
      STREQ "echo" r.f r.fn || STREQ "warn" r.f r.fn || STREQ "error" r.f r.fn ||
      STREQ "trace" r.f r.fn || STREQ "dump" r.f r.fn || STREQ "lua" r.f r.fn) = false)
    (hfoo : isFoo r.f r.fn = true) :
    expandRef env rec mb s r = (doFoo env rec mb r.negate r.f r.fn r.g r.gn, 0, r.se) := by
  simp only [Bool.or_eq_false_iff] at hpre
  obtain ⟨⟨⟨⟨⟨⟨⟨⟨h1, h2⟩, h3⟩, h4⟩, h5⟩, h6⟩, h7⟩, h8⟩, h9⟩ := hpre
  unfold expandRef
  simp only [h1, h2, h3, h4, h5, h6, h7, h8, h9, hfoo, Bool.false_eq_true, if_false,
    Bool.or_self, and_false, if_true]

/-- The argument of a primitive is expanded into a buffer of its own: for an
argument without `%` the text expanded is the argument. -/
theorem expandThis_plain (env : Env) (fuel : Nat) (mb : MacroBuf) (a rest : List Char)
    (hne : a ≠ []) (ha : '%' ∉ a) (hd : mb.depth + 1 ≤ max_macro_depth) :
    expandThis (expandMacro env (fuel + 1)) mb (a ++ rest) a.length = (mb, 0, a) := by
  have hlen : a.length ≠ 0 := fun h => hne (List.length_eq_zero.1 h)
  have ht : (a ++ rest).take (if a.length = 0 then (a ++ rest).length else a.length) = a := by
    rw [if_neg hlen, List.take_left']
    rfl
  unfold expandThis
  simp only []
  rw [expandMacro_literal_take env fuel { mb with buf := [] } (a ++ rest) a.length hd
    (by rw [ht]; exact ha), ht]
  rfl

/-- What `doFoo` does with an argument without `%`: the string that the
primitive computes from it is expanded into the buffer. -/
theorem doFoo_plain (env : Env) (fuel : Nat) (mb : MacroBuf) (negate : Bool) (f : List Char)
    (fn : Nat) (a rest : List Char) (hne : a ≠ []) (ha : '%' ∉ a)
    (hd : mb.depth + 1 ≤ max_macro_depth) :
    doFoo env (expandMacro env (fuel + 1)) mb negate f fn (some (a ++ rest)) a.length
      = (match fooResult env negate f fn a with
          | some b => (expandMacro env (fuel + 1) mb b 0).1
          | none => mb) := by
  unfold doFoo
  simp only [expandThis_plain env fuel mb a rest hne ha hd] <;>
    cases fooResult env negate f fn a <;> rfl

theorem strrchr_none (c : Char) : ∀ s : List Char, c ∉ s → strrchr s c = none := by
  intro s
  induction s with
  | nil => intro _; rfl
  | cons d s ih =>
    intro h
    simp only [List.mem_cons, not_or] at h
    simp only [strrchr, ih h.2, if_neg (Ne.symm h.1)]

theorem strrchr_last (c : Char) (b : List Char) (hb : c ∉ b) :
    ∀ a : List Char, strrchr (a ++ c :: b) c = some (c :: b) := by
  intro a
  induction a with
  | nil => simp only [List.nil_append, strrchr, strrchr_none c b hb, if_true]
  | cons d a ih => rw [List.cons_append, strrchr, ih]

/-- The turn of the loop at a braced reference `%{n:a}` to a primitive of
`doFoo`. -/
theorem expandStep_foo (env : Env) (rec : Expander) (mb : MacroBuf) (n a q : List Char)
    (hs : NameShape n)
    (hpre : (STREQ "global" n n.length || STREQ "define" n n.length ||
      STREQ "undefine" n n.length || STREQ "echo" n n.length || STREQ "warn" n n.length ||
      STREQ "error" n n.length || STREQ "trace" n n.length || STREQ "dump" n n.length ||
      STREQ "lua" n n.length) = false)
    (hfoo : isFoo n n.length = true)
    (ha : ∀ c ∈ a, c ≠ '\\' ∧ c ≠ '{' ∧ c ≠ '}') :
    expandStep env rec mb '%' ('{' :: (n ++ ':' :: (a ++ '}' :: q)))
      = (doFoo env rec mb false (n ++ ':' :: (a ++ '}' :: q)) n.length
          (some (a ++ '}' :: q)) a.length, 0, q) := by
  have hp := parseRef_cond hs [] a q (by simp) ha
  simp only [List.nil_append, List.count_nil, Nat.zero_mod, zero_ne_one, decide_False,
    Nat.cast_zero] at hp
  have hfn : (n ++ ':' :: (a ++ '}' :: q)).length - (':' :: (a ++ '}' :: q)).length
      = n.length := by simp
  have hgn : (a ++ '}' :: q).length - ('}' :: q).length = a.length := by simp
  unfold expandStep
  rw [if_neg (by simp), if_neg (by simp), if_neg (by simp [peek]), hp]
  simp only []
  rw [expandRef_foo env rec mb _ _
    (by simp only [MacroRef.fn, hfn, STREQ_append]; exact hpre)
    (by simp only [MacroRef.fn, hfn, isFoo_append]; exact hfoo)]
  simp only [MacroRef.fn, MacroRef.gn, hfn, hgn]

/-- The expansion of a source that is plain text around one reference
`%{n:a}` to a primitive of `doFoo`, with a plain argument: the string that the
primitive computes stands in the place of the reference. -/
theorem expand_foo (env : Env) (mc : rpmMacroContext) (p n a q : List Char)
    (hp : '%' ∉ p) (hq : '%' ∉ q) (hs : NameShape n)
    (hpre : (STREQ "global" n n.length || STREQ "define" n n.length ||
      STREQ "undefine" n n.length || STREQ "echo" n n.length || STREQ "warn" n n.length ||
      STREQ "error" n n.length || STREQ "trace" n n.length || STREQ "dump" n n.length ||
      STREQ "lua" n n.length) = false)
    (hfoo : isFoo n n.length = true) (hne : a ≠ [])
    (ha : ∀ c ∈ a, c ≠ '%' ∧ c ≠ '\\' ∧ c ≠ '{' ∧ c ≠ '}')
    (res : Option (List Char))
    (hres : fooResult env false (n ++ ':' :: (a ++ '}' :: q)) n.length a = res)
    (hout : '%' ∉ res.getD []) :
    doExpandMacros env mc (p ++ '%' :: '{' :: (n ++ ':' :: (a ++ '}' :: q)))
      = ({ initialBuf mc with buf := p ++ res.getD [] ++ q }, 0) := by
  have hpc : '%' ∉ a := fun h => (ha '%' h).1 rfl
  have hstep := expandStep_foo env (expandMacro env 16) { initialBuf mc with depth := 1 }
    n a q hs hpre hfoo (fun c hc => (ha c hc).2)
  rw [doFoo_plain env 15 _ false _ _ a _ hne hpc
    (show (1 : Int) + 1 ≤ max_macro_depth by decide), hres] at hstep
  have hstep2 : expandStep env (expandMacro env 16) { initialBuf mc with depth := 1 } '%'
      ('{' :: (n ++ ':' :: (a ++ '}' :: q)))
      = ({ initialBuf mc with depth := 1, buf := res.getD [] }, 0, q) := by
    rw [hstep]
    cases res with
    | none => rfl
    | some b =>
      simp only [Option.getD_some] at hout ⊢
      show ((expandMacro env (15 + 1) { initialBuf mc with depth := 1 } b 0).1, (0 : Int), q) = _
      rw [expandMacro_literal env 15 _ b (show (1 : Int) + 1 ≤ max_macro_depth by decide) hout]
      rfl
  rw [doExpandMacros_literal_lead env mc p _ hp, doExpandMacros_cons env mc '%' _ q _ hstep2,
    expandLoop_literal_all env _ q _ hq]
  simp [MacroBuf.pre, mbAppendStr, initialBuf]

theorem fooResult_basename (env : Env) (rest buf : List Char) (r : Option (List Char))
    (h : strrchr buf '/' = r) :
    fooResult env false ("basename".toList ++ rest) "basename".toList.length buf
      = some ((r.map List.tail).getD buf) := by
  unfold fooResult
  rw [STREQ_append, if_pos (by decide), h]
  cases r <;> rfl

theorem fooResult_dirname (env : Env) (rest buf : List Char) (r : Option (List Char))
    (h : strrchr buf '/' = r) :
    fooResult env false ("dirname".toList ++ rest) "dirname".toList.length buf
      = some ((r.map (fun b => buf.take (buf.length - b.length))).getD buf) := by
  unfold fooResult
  rw [STREQ_append, if_neg (by decide), STREQ_append, if_pos (by decide), h]
  cases r <;> rfl

theorem fooResult_suffix (env : Env) (rest buf : List Char) (r : Option (List Char))
    (h : strrchr buf '.' = r) :
    fooResult env false ("suffix".toList ++ rest) "suffix".toList.length buf
      = r.map List.tail := by
  unfold fooResult
  rw [STREQ_append, if_neg (by decide), STREQ_append, if_neg (by decide), STREQ_append,
    if_pos (by decide), h]
  cases r <;> rfl

/-- C22. For every non-empty argument `s` free of `%`, backslash and braces,
in a source that is plain text but for the reference: `%{basename:s}` expands
to the part of `s` after its last `/`, or to `s` itself when `s` has no `/`;
`%{dirname:s}` to the part of `s` before its last `/`, or to `s` itself when
there is none; `%{suffix:s}` to the part of `s` after its last `.`, or to
nothing when there is none. The expansion succeeds and the table is left as
it was. -/
theorem path_operators (env : Env) (mc : rpmMacroContext) (p s q : List Char)
    (hp : '%' ∉ p) (hq : '%' ∉ q) (hne : s ≠ [])
    (hs : ∀ c ∈ s, c ≠ '%' ∧ c ≠ '\\' ∧ c ≠ '{' ∧ c ≠ '}') :
    (∀ a b, s = a ++ '/' :: b → '/' ∉ b →
      doExpandMacros env mc (p ++ '%' :: '{' :: ("basename".toList ++ ':' :: (s ++ '}' :: q)))
        = ({ initialBuf mc with buf := p ++ b ++ q }, 0) ∧
      doExpandMacros env mc (p ++ '%' :: '{' :: ("dirname".toList ++ ':' :: (s ++ '}' :: q)))
        = ({ initialBuf mc with buf := p ++ a ++ q }, 0)) ∧
    ('/' ∉ s →
      doExpandMacros env mc (p ++ '%' :: '{' :: ("basename".toList ++ ':' :: (s ++ '}' :: q)))
        = ({ initialBuf mc with buf := p ++ s ++ q }, 0) ∧
      doExpandMacros env mc (p ++ '%' :: '{' :: ("dirname".toList ++ ':' :: (s ++ '}' :: q)))
        = ({ initialBuf mc with buf := p ++ s ++ q }, 0)) ∧
    (∀ a b, s = a ++ '.' :: b → '.' ∉ b →
      doExpandMacros env mc (p ++ '%' :: '{' :: ("suffix".toList ++ ':' :: (s ++ '}' :: q)))
        = ({ initialBuf mc with buf := p ++ b ++ q }, 0)) ∧
    ('.' ∉ s →
      doExpandMacros env mc (p ++ '%' :: '{' :: ("suffix".toList ++ ':' :: (s ++ '}' :: q)))
        = ({ initialBuf mc with buf := p ++ q }, 0)) := by
  have hpc : '%' ∉ s := fun h => (hs '%' h).1 rfl
  have hB := fun res h1 h2 => expand_foo env mc p "basename".toList s q hp hq
    (parseMacroName_shape (by decide)) (by decide) (by decide) hne hs res h1 h2
  have hD := fun res h1 h2 => expand_foo env mc p "dirname".toList s q hp hq
    (parseMacroName_shape (by decide)) (by decide) (by decide) hne hs res h1 h2
  have hS := fun res h1 h2 => expand_foo env mc p "suffix".toList s q hp hq
    (parseMacroName_shape (by decide)) (by decide) (by decide) hne hs res h1 h2
  refine ⟨?_, ?_, ?_, ?_⟩
  · intro a b hab hb
    have hpa : '%' ∉ a := fun h => hpc (by rw [hab]; simp [h])
    have hpb : '%' ∉ b := fun h => hpc (by rw [hab]; simp [h])
    constructor
    · exact hB (some b)
        (by rw [fooResult_basename _ _ _ _ (hab ▸ strrchr_last '/' b hb a)]; rfl) hpb
    · refine hD (some a) ?_ hpa
      rw [fooResult_dirname _ _ _ _ (hab ▸ strrchr_last '/' b hb a), hab]
      simp
  · intro h
    constructor
    · exact hB (some s) (by rw [fooResult_basename _ _ _ _ (strrchr_none '/' s h)]; rfl) hpc
    · exact hD (some s) (by rw [fooResult_dirname _ _ _ _ (strrchr_none '/' s h)]; rfl) hpc
  · intro a b hab hb
    have hpb : '%' ∉ b := fun h => hpc (by rw [hab]; simp [h])
    exact hS (some b)
      (by rw [fooResult_suffix _ _ _ _ (hab ▸ strrchr_last '.' b hb a)]; rfl) hpb
  · intro h
    have := hS none (by rw [fooResult_suffix _ _ _ _ (strrchr_none '.' s h)]; rfl) (by simp)
    simpa using this

set_option maxRecDepth 1000000 in
theorem path_operators_witness :
    doExpandMacros quietEnv emptyContext
        ("<".toList ++ '%' :: '{' :: ("basename".toList ++ ':' :: ("a/b/c".toList ++ '}' :: ">".toList)))
      = ({ initialBuf emptyContext with buf := "<c>".toList }, 0) ∧
    doExpandMacros quietEnv emptyContext
        ("<".toList ++ '%' :: '{' :: ("dirname".toList ++ ':' :: ("a/b/c".toList ++ '}' :: ">".toList)))
      = ({ initialBuf emptyContext with buf := "<a/b>".toList }, 0) ∧
    doExpandMacros quietEnv emptyContext
        ("<".toList ++ '%' :: '{' :: ("suffix".toList ++ ':' :: ("abc".toList ++ '}' :: ">".toList)))
      = ({ initialBuf emptyContext with buf := "<>".toList }, 0) :=
  ⟨((path_operators quietEnv emptyContext "<".toList "a/b/c".toList ">".toList (by decide)
      (by decide) (by decide) (by decide)).1 "a/b".toList "c".toList rfl (by decide)).1,
    ((path_operators quietEnv emptyContext "<".toList "a/b/c".toList ">".toList (by decide)
      (by decide) (by decide) (by decide)).1 "a/b".toList "c".toList rfl (by decide)).2,
    (path_operators quietEnv emptyContext "<".toList "abc".toList ">".toList (by decide)
      (by decide) (by decide) (by decide)).2.2.2 (by decide)⟩

/-- C23. For a legal name `n` and a text after it of which the body parser
takes the body `b` (not empty), the text after the definition being plain:
`%define n b` stores the unexpanded text `b`; and when the expansion of `b`
in the current table succeeds, `%global n b` installs an entry for `n` whose
stored body is the output of that expansion, made once when the definition is
executed. So, with `aaa` redefined after `%global ggg %aaa` and
`%define ddd %aaa`, `%ggg` yields the old value and `%ddd` the new one. -/
theorem global_expands_once (env : Env) (mc : rpmMacroContext) (bl n bl2 u b s1 : List Char)
    (hT : TableInv mc) (hbl : ∀ c ∈ bl, isblank c = true) (hblne : bl ≠ [])
    (hn : ∀ c ∈ n, isNameChar c = true) (hleg : legalName n = true)
    (hbl2 : ∀ c ∈ bl2, isblank c = true) (hsep : bl2 ≠ []) (hu : StopsAt isblank u)
    (hbody : parseDefineBody u = .ok b s1) (hb : b ≠ [])
    (hq : '%' ∉ s1.dropWhile iseol) :
    ((doExpandMacros env mc ('%' :: ("define".toList ++ (bl ++ (n ++ (bl2 ++ u)))))).2 = 0 ∧
      (lookup (doExpandMacros env mc
        ('%' :: ("define".toList ++ (bl ++ (n ++ (bl2 ++ u)))))).1.mc n 0).map
          (fun e => e.body) = some b) ∧
    ((expandMacro env 16 { initialBuf mc with depth := 1 } b 0).2 = 0 →
      (doExpandMacros env mc ('%' :: ("global".toList ++ (bl ++ (n ++ (bl2 ++ u)))))).2 = 0 ∧
      (lookup (doExpandMacros env mc
        ('%' :: ("global".toList ++ (bl ++ (n ++ (bl2 ++ u)))))).1.mc n 0).map
          (fun e => e.body)
        = some (expandMacro env 16 { initialBuf mc with depth := 1 } b 0).1.buf) ∧
    (doExpandMacros quietEnv emptyContext
      ("%define aaa one\n%global ggg %aaa\n%define ddd %aaa\n".toList ++
        "%define aaa two\n%ggg %ddd".toList)).1.buf = "one two".toList := by
  have hne : n ≠ [] := by
    intro e; rw [e] at hleg; revert hleg; decide
  obtain ⟨x, t, hx, hx1, hx2⟩ := blank_stop hbl hblne (n ++ (bl2 ++ u))
  have hnl : (!legalName n) = false := by rw [hleg]; rfl
  refine ⟨?_, ?_, by decide⟩
  · have hp : parseMacroName ("define".toList ++ (bl ++ (n ++ (bl2 ++ u))))
        = some (bl ++ (n ++ (bl2 ++ u))) := by
      rw [hx]; exact NameShape.parse_append shape_define x t hx1 hx2
    have hstep := expandStep_define env (expandMacro env 16)
      { initialBuf mc with depth := 1 } _ hp
    rw [doDefine_head _ _ _ _ bl n bl2 u hbl hn hne hbl2 hsep hu, hbody] at hstep
    simp only [hnl, hb, Bool.false_eq_true, if_false] at hstep
    obtain ⟨g1, g2⟩ := doExpandMacros_around env mc [] _ _ (by simp) hq _ _ hstep
    simp only [List.nil_append] at g1 g2
    rw [g1, g2]
    refine ⟨rfl, ?_⟩
    show (lookup (addMacro mc n none b (1 - 1)) n 0).map _ = _
    rw [lookup_addMacro_same mc hT]
    rfl
  · intro hrc
    have hp : parseMacroName ("global".toList ++ (bl ++ (n ++ (bl2 ++ u))))
        = some (bl ++ (n ++ (bl2 ++ u))) := by
      rw [hx]; exact NameShape.parse_append shape_global x t hx1 hx2
    have hstep := expandStep_global env (expandMacro env 16)
      { initialBuf mc with depth := 1 } _ hp
    rw [doDefine_head _ _ _ _ bl n bl2 u hbl hn hne hbl2 hsep hu, hbody] at hstep
    have hthis : (expandThis (expandMacro env 16) { initialBuf mc with depth := 1 } b 0).2.1
        = 0 := hrc
    simp only [hnl, hb, Bool.false_eq_true, if_false, if_true, hthis, ne_eq,
      not_true_eq_false] at hstep
    obtain ⟨g1, g2⟩ := doExpandMacros_around env mc [] _ _ (by simp) hq _ _ hstep
    simp only [List.nil_append] at g1 g2
    rw [g1, g2]
    refine ⟨rfl, ?_⟩
    have hk := (expandMacro_keeps env 16 { initialBuf mc with depth := 1 } b 0 hT).1
    show (lookup (addMacro (expandMacro env 16 { initialBuf mc with depth := 1 } b 0).1.mc
      n none (expandMacro env 16 { initialBuf mc with depth := 1 } b 0).1.buf
      (env.RMIL_GLOBAL - 1)) n 0).map _ = _
    rw [lookup_addMacro_same _ hk]
    rfl

set_option maxRecDepth 1000000 in
theorem global_expands_once_witness :
    parseDefineBody "%aaa".toList = .ok "%aaa".toList [] ∧
    (lookup (doExpandMacros quietEnv (addMacro emptyContext "aaa".toList none "one".toList 0)
      ('%' :: ("define".toList ++ (" ".toList ++ ("ddd".toList ++ (" ".toList ++
        "%aaa".toList)))))).1.mc "ddd".toList 0).map (fun e => e.body) = some "%aaa".toList ∧
    (lookup (doExpandMacros quietEnv (addMacro emptyContext "aaa".toList none "one".toList 0)
      ('%' :: ("global".toList ++ (" ".toList ++ ("ggg".toList ++ (" ".toList ++
        "%aaa".toList)))))).1.mc "ggg".toList 0).map (fun e => e.body) = some "one".toList :=
  ⟨by decide,
    (global_expands_once quietEnv (addMacro emptyContext "aaa".toList none "one".toList 0)
      " ".toList "ddd".toList " ".toList "%aaa".toList "%aaa".toList []
      (TableInv.addMacro _ TableInv.empty _ _ _ _) (by decide) (by decide) (by decide)
      (by decide) (by decide) (by decide) (Or.inr (by decide)) (by decide) (by decide)
      (by decide)).1.2,
    (((global_expands_once quietEnv (addMacro emptyContext "aaa".toList none "one".toList 0)
      " ".toList "ggg".toList " ".toList "%aaa".toList "%aaa".toList []
      (TableInv.addMacro _ TableInv.empty _ _ _ _) (by decide) (by decide) (by decide)
      (by decide) (by decide) (by decide) (Or.inr (by decide)) (by decide) (by decide)
      (by decide)).2.1 (by decide)).2).trans (by decide)⟩

/-! ## Braced references to names that are not defined -/

/-- A reference without flags to a name that is neither built in nor defined
and is not an option name: the `%` is copied and the scan goes on right after
it. -/
theorem expandRef_absent (env : Env) (rec : Expander) (mb : MacroBuf) (s : List Char)
    (r : MacroRef) (hb : isBuiltin env r.f r.fn = false) (hdash : peek r.f ≠ '-')
    (hchk : r.chkexist = 0) (hl : lookup mb.mc r.f r.fn = none) :
    expandRef env rec mb s r = (mbAppend mb '%', 0, s) := by
  rw [expandRef_user env rec mb s r hb]
  unfold expandDefined
  simp only [hl, hdash, hchk, if_false, ne_eq, not_true_eq_false]

/-- The turn of the loop at a braced reference, in one of the forms `%{n}`,
`%{n:alt}` and `%{n args}`, to a name that is neither built in nor defined:
the `%` is copied and the scan goes on at the opening brace. -/
theorem expandStep_absent (env : Env) (rec : Expander) (mb : MacroBuf) (n t q : List Char)
    (hs : NameShape n) (hb : isBuiltinName env n = false) (hdash : peek n ≠ '-')
    (hl : lookup mb.mc n n.length = none)
    (hform : t = [] ∨ peek t = ':' ∨ peek t = ' ' ∨ peek t = '\t')
    (ht : ∀ c ∈ t, c ≠ '\\' ∧ c ≠ '{' ∧ c ≠ '}') :
    expandStep env rec mb '%' ('{' :: (n ++ (t ++ '}' :: q)))
      = (mbAppend mb '%', 0, '{' :: (n ++ (t ++ '}' :: q))) := by
  have hne := hs.ne_nil
  have key : ∀ (tl : List Char) (r : MacroRef),
      parseRef ('{' :: (n ++ tl)) = .ref r → r.f = n ++ tl → r.fn = n.length →
      r.chkexist = 0 →
      expandStep env rec mb '%' ('{' :: (n ++ tl)) = (mbAppend mb '%', 0, '{' :: (n ++ tl)) := by
    intro tl r hp hf hfn hchk
    unfold expandStep
    rw [if_neg (by simp), if_neg (by simp), if_neg (by simp [peek]), hp]
    simp only []
    refine expandRef_absent env rec mb _ r ?_ ?_ hchk ?_
    · rw [hf, hfn, isBuiltin_append]; exact hb
    · rw [hf, (hs.peek_ok tl).1]; exact hdash
    · rw [hf, hfn, lookup_append _ _ _ hne]; exact hl
  cases t with
  | nil =>
    exact key _ _ (parseRef_braced hs q) rfl (by simp [MacroRef.fn]) rfl
  | cons x a =>
    have ha : ∀ c ∈ a, c ≠ '\\' ∧ c ≠ '{' ∧ c ≠ '}' := fun c hc => ht c (by simp [hc])
    simp only [peek_cons] at hform
    rcases hform with h | h | h | h
    · cases h
    · subst h
      have hp := parseRef_cond hs [] a q (by simp) ha
      simp only [List.nil_append, List.count_nil, Nat.zero_mod, zero_ne_one, decide_False,
        Nat.cast_zero] at hp
      exact key _ _ hp rfl (by simp [MacroRef.fn]) rfl
    · subst h
      exact key _ _ (parseRef_call hs ' ' (Or.inl rfl) a q ha) rfl (by simp [MacroRef.fn]) rfl
    · subst h
      exact key _ _ (parseRef_call hs '\t' (Or.inr rfl) a q ha) rfl (by simp [MacroRef.fn]) rfl

/-- C24 (amended). For a braced reference, in one of the forms `%{n}`,
`%{n:alt}` and `%{n args}`, to a valid name that is not built in, does not
begin with `-` and is absent from the table: the `%` alone is appended and
the scan resumes right after it, at the opening brace. So, when the text
between the braces has no `%`, the whole text from `%{` through the matching
`}` is appended unchanged, and the text after that `}` is expanded as
usual. -/
theorem absent_braced_reference (env : Env) (mc : rpmMacroContext) (p n t q : List Char)
    (hp : '%' ∉ p) (hn : parseMacroName n = some []) (hb : isBuiltinName env n = false)
    (hdash : peek n ≠ '-') (hl : lookup mc n n.length = none)
    (hform : t = [] ∨ peek t = ':' ∨ peek t = ' ' ∨ peek t = '\t')
    (ht : ∀ c ∈ t, c ≠ '\\' ∧ c ≠ '{' ∧ c ≠ '}') :
    expandStep env (expandMacro env 16) { initialBuf mc with depth := 1 } '%'
        ('{' :: (n ++ (t ++ '}' :: q)))
      = (mbAppend { initialBuf mc with depth := 1 } '%', 0, '{' :: (n ++ (t ++ '}' :: q))) ∧
    ('%' ∉ t →
      doExpandMacros env mc (p ++ '%' :: '{' :: (n ++ (t ++ '}' :: q)))
        = ((doExpandMacros env mc q).1.pre (p ++ '%' :: '{' :: (n ++ (t ++ ['}']))),
           (doExpandMacros env mc q).2)) := by
  have hs := parseMacroName_shape hn
  have hstep := expandStep_absent env (expandMacro env 16) { initialBuf mc with depth := 1 }
    n t q hs hb hdash hl hform ht
  refine ⟨hstep, fun hpt => ?_⟩
  have hpn : '%' ∉ n := fun hm => (nameCharOK_ne (hs.chars _ hm)).1 rfl
  have hlit : '%' ∉ '{' :: (n ++ (t ++ ['}'])) := by
    simp only [List.mem_cons, List.mem_append, List.mem_singleton, not_or]
    exact ⟨by decide, hpn, hpt, by decide, List.not_mem_nil _⟩
  have e : '{' :: (n ++ (t ++ '}' :: q)) = ('{' :: (n ++ (t ++ ['}']))) ++ q := by simp
  have h1 := doExpandMacros_after env mc mc '%' _ ('{' :: (n ++ (t ++ '}' :: q))) ['%']
    (by rw [hstep]; rfl)
  rw [doExpandMacros_literal_lead env mc p _ hp, h1, e,
    doExpandMacros_literal_lead env mc _ q hlit]
  simp [MacroBuf.pre]

set_option maxRecDepth 1000000 in
theorem absent_braced_reference_witness :
    lookup emptyContext "nosuch".toList "nosuch".toList.length = none ∧
    (doExpandMacros quietEnv emptyContext
      ("a".toList ++ '%' :: '{' :: ("nosuch".toList ++ (":alt".toList ++ '}' :: "z".toList)))).1.buf
      = "a".toList ++ '%' :: '{' :: ("nosuch".toList ++ (":alt".toList ++ '}' :: "z".toList)) :=
  ⟨by decide,
    (congrArg (fun x => x.1.buf)
      ((absent_braced_reference quietEnv emptyContext "a".toList "nosuch".toList ":alt".toList
        "z".toList (by decide) (by decide) (by decide) (by decide) (by decide)
        (Or.inr (Or.inl (by decide))) (by decide)).2 (by decide))).trans (by decide)⟩

set_option maxRecDepth 1000000 in
/-- C24 as stated fails: `nosuch` is a valid name that the empty table does
not define, and the reference `%{nosuch:%%}` is not appended unchanged: the
text between the braces is expanded, which makes one `%` of the two. -/
theorem absent_braced_counterexample :
    parseMacroName "nosuch".toList = some [] ∧
    lookup emptyContext "nosuch".toList "nosuch".toList.length = none ∧
    (doExpandMacros quietEnv emptyContext ('%' :: '{' :: ("nosuch:%%".toList ++ ['}']))).1.buf
      = '%' :: '{' :: ("nosuch:%".toList ++ ['}']) ∧
    (doExpandMacros quietEnv emptyContext ('%' :: '{' :: ("nosuch:%%".toList ++ ['}']))).1.buf
      ≠ '%' :: '{' :: ("nosuch:%%".toList ++ ['}']) := by
  decide

/-- A braced reference with flags, `%{flags name}`. -/
theorem parseRef_flagged {n : List Char} (h : NameShape n) (fl q : List Char)
    (hfl : ∀ c ∈ fl, c = '!' ∨ c = '?') :
    parseRef ('{' :: (fl ++ (n ++ '}' :: q)))
      = .ref { f := n ++ '}' :: q, fe := '}' :: q, g := none, ge := [], se := q,
               lastc := none, negate := decide (fl.count '!' % 2 = 1),
               chkexist := (fl.count '?' : Nat) } := by
  obtain ⟨hpk, hok⟩ := h.peek_ok ('}' :: q)
  obtain ⟨h1, h2, h3, h4, h5, h6, h7, h8, h9, h10⟩ := nameCharOK_ne hok
  have e : fl ++ (n ++ '}' :: q) = (fl ++ n) ++ '}' :: q := by simp
  have hm : matchchar ('{' :: ((fl ++ n) ++ '}' :: q)) '{' '}' = .found ('}' :: q) :=
    matchchar_braced '{' '}' (by decide) (by decide) (by decide) _ q (fun c hc => by
      simp only [List.mem_append] at hc
      rcases hc with hc | hc
      · rcases hfl c hc with e | e <;> subst e <;> decide
      · obtain ⟨_, _, a3, a4, _, _, a7, _⟩ := nameCharOK_ne (h.chars c hc)
        exact ⟨a7, a4, a3⟩)
  have hflags := parseMacroFlags_flags (n ++ '}' :: q)
    (by rw [hpk]; exact h5) (by rw [hpk]; exact h6) fl false 0 hfl
  have hpn : parseMacroName (n ++ '}' :: q) = some ('}' :: q) :=
    h.parse_append '}' q (by decide) (by decide)
  rw [← e] at hm
  unfold parseRef
  simp only [peek_cons, hm, List.tail_cons, hflags, hpn]
  simp

/-! ## The use counter -/

/-- The turn of the loop at a braced reference with flags, `%{flags n}`, to
a name that is not built in: the lookup and what follows it. -/
theorem expandStep_flagged (env : Env) (rec : Expander) (mb : MacroBuf) (fl n q : List Char)
    (hs : NameShape n) (hb : isBuiltinName env n = false)
    (hfl : ∀ c ∈ fl, c = '!' ∨ c = '?') :
    expandStep env rec mb '%' ('{' :: (fl ++ (n ++ '}' :: q)))
      = expandDefined env rec mb ('{' :: (fl ++ (n ++ '}' :: q)))
          { f := n ++ '}' :: q, fe := '}' :: q, g := none, ge := [], se := q,
            lastc := none, negate := decide (fl.count '!' % 2 = 1),
            chkexist := (fl.count '?' : Nat) } := by
  have hlen : (n ++ '}' :: q).length - ('}' :: q).length = n.length := by simp
  have hnb : isBuiltin env (n ++ '}' :: q) n.length = false := by
    rw [isBuiltin_append]; exact hb
  unfold expandStep
  rw [if_neg (by simp), if_neg (by simp), if_neg (by simp [peek]), parseRef_flagged hs fl q hfl]
  simp only []
  rw [expandRef_user env rec mb _ _ (by simp only [MacroRef.fn, hlen]; exact hnb)]

/-- The substitution of a macro without options: the body is expanded, and
the counter of the entry is incremented when that succeeded. -/
theorem expandBody_count (env : Env) (rec : Expander) (mb : MacroBuf) (r : MacroRef)
    (me : rpmMacroEntry) (ho : me.opts = none) (hbody : me.body ≠ []) :
    (isLive (rec mb me.body 0).1.mc me.id = true → (rec mb me.body 0).2 = 0 →
      expandBody env rec mb r me
        = ({ (rec mb me.body 0).1 with mc := markUsed (rec mb me.body 0).1.mc me.id },
            0, r.se)) ∧
    ((rec mb me.body 0).2 ≠ 0 →
      (expandBody env rec mb r me).1.mc = (rec mb me.body 0).1.mc ∧
      (expandBody env rec mb r me).2 = ((rec mb me.body 0).2, r.se)) := by
  unfold expandBody
  simp only [ho, Option.isSome_none, Bool.false_eq_true, if_false, hbody, ne_eq,
    not_false_eq_true, if_true]
  constructor
  · intro hl h0
    simp only [hl, not_true_eq_false, if_false, h0, if_true] <;> rfl
  · intro h0
    by_cases hl : isLive (rec mb me.body 0).1.mc me.id = true
    · simp only [hl, not_true_eq_false, if_false, h0] <;>
        (refine ⟨?_, ?_⟩ <;> first | trivial | rfl)
    · simp only [hl, not_false_eq_true, if_true] <;>
        (refine ⟨?_, ?_⟩ <;> first | trivial | rfl)

/-- The substitution of a macro with options called without arguments: the
counter is incremented when the expansion of the body succeeded, then the
arguments are freed. -/
theorem expandBody_count_opts (env : Env) (rec : Expander) (mb : MacroBuf) (r : MacroRef)
    (me : rpmMacroEntry) (ho : me.opts.isSome = true) (hl : r.lastc = none)
    (hbody : me.body ≠ [])
    (hlive : isLive (rec { mb with mc := bindAll mb.depth (noArgBindings me.name) mb.mc }
      me.body 0).1.mc me.id = true)
    (h0 : (rec { mb with mc := bindAll mb.depth (noArgBindings me.name) mb.mc }
      me.body 0).2 = 0) :
    expandBody env rec mb r me
      = (freeArgs
          { (rec { mb with mc := bindAll mb.depth (noArgBindings me.name) mb.mc }
              me.body 0).1 with
            mc := markUsed (rec { mb with mc := bindAll mb.depth (noArgBindings me.name) mb.mc }
              me.body 0).1.mc me.id },
          0, r.se) := by
  have hbind : bindAll mb.depth (noArgBindings me.name) mb.mc
      = addMacro (addMacro (addMacro (addMacro mb.mc ['*', '*'] none [] mb.depth) ['*'] none []
          mb.depth) ['#'] none ['0'] mb.depth) ['0'] none me.name mb.depth := rfl
  rw [hbind] at hlive h0 ⊢
  unfold expandBody
  simp only [ho, if_true, hl, hbody, ne_eq, not_false_eq_true, hlive, not_true_eq_false,
    if_false, h0] <;> rfl

theorem expandCond_some_pos (rec : Expander) (mb : MacroBuf) (r : MacroRef) (me : rpmMacroEntry)
    (hneg : r.negate = false) (hg : r.g = none) (hbody : me.body ≠ []) :
    expandCond rec mb r (some me) = ((rec mb me.body 0).1, (rec mb me.body 0).2, r.se) := by
  unfold expandCond
  simp only [hneg, hg, Option.isNone_some, Option.isSome_some, Option.isSome_none,
    Bool.false_eq_true, false_and, and_false, or_self, if_false, hbody, ne_eq,
    not_false_eq_true, if_true]

theorem expandCond_some_neg (rec : Expander) (mb : MacroBuf) (r : MacroRef) (me : rpmMacroEntry)
    (hneg : r.negate = true) :
    expandCond rec mb r (some me) = (mb, 0, r.se) := by
  unfold expandCond
  simp only [hneg, Option.isNone_some, Option.isSome_some, Bool.false_eq_true, false_and,
    and_self, or_true, if_true]

/-- The turn of the loop at `%{?n}`, `n` defined with a body: the body is
expanded and the state is the one that expansion leaves. -/
theorem expandStep_exists (env : Env) (rec : Expander) (mb : MacroBuf) (n q : List Char)
    (me : rpmMacroEntry) (hs : NameShape n) (hb : isBuiltinName env n = false)
    (hdash : peek n ≠ '-') (hme : lookup mb.mc n n.length = some me) (hbody : me.body ≠ []) :
    expandStep env rec mb '%' ('{' :: '?' :: (n ++ '}' :: q))
      = ((rec mb me.body 0).1, (rec mb me.body 0).2, q) := by
  have hlen : (n ++ '}' :: q).length - ('}' :: q).length = n.length := by simp
  have hlk : lookup mb.mc (n ++ '}' :: q) n.length = some me := by
    rw [lookup_append _ _ _ hs.ne_nil]; exact hme
  have hpk := (hs.peek_ok ('}' :: q)).1
  have hstep := expandStep_flagged env rec mb ['?'] n q hs hb (by simp)
  have hc : (((['?'] : List Char).count '?' : Nat) : Int) = 1 := by decide
  have hn : decide ((['?'] : List Char).count '!' % 2 = 1) = false := by decide
  rw [hc, hn] at hstep
  rw [show '{' :: '?' :: (n ++ '}' :: q) = '{' :: (['?'] ++ (n ++ '}' :: q)) from rfl, hstep]
  unfold expandDefined
  simp only [MacroRef.fn, hlen, hlk, hpk, hdash, if_false, ne_eq, one_ne_zero,
    not_false_eq_true, if_true]
  exact expandCond_some_pos rec mb _ me rfl rfl hbody

/-- The turn of the loop at `%{!?n}`, `n` defined: the reference is skipped. -/
theorem expandStep_not_exists (env : Env) (rec : Expander) (mb : MacroBuf) (n q : List Char)
    (me : rpmMacroEntry) (hs : NameShape n) (hb : isBuiltinName env n = false)
    (hdash : peek n ≠ '-') (hme : lookup mb.mc n n.length = some me) :
    expandStep env rec mb '%' ('{' :: '!' :: '?' :: (n ++ '}' :: q)) = (mb, 0, q) := by
  have hlen : (n ++ '}' :: q).length - ('}' :: q).length = n.length := by simp
  have hlk : lookup mb.mc (n ++ '}' :: q) n.length = some me := by
    rw [lookup_append _ _ _ hs.ne_nil]; exact hme
  have hpk := (hs.peek_ok ('}' :: q)).1
  have hstep := expandStep_flagged env rec mb ['!', '?'] n q hs hb (by simp)
  have hc : (((['!', '?'] : List Char).count '?' : Nat) : Int) = 1 := by decide
  have hn : decide ((['!', '?'] : List Char).count '!' % 2 = 1) = true := by decide
  rw [hc, hn] at hstep
  rw [show '{' :: '!' :: '?' :: (n ++ '}' :: q) = '{' :: (['!', '?'] ++ (n ++ '}' :: q))
    from rfl, hstep]
  unfold expandDefined
  simp only [MacroRef.fn, hlen, hlk, hpk, hdash, if_false, ne_eq, one_ne_zero,
    not_false_eq_true, if_true]
  exact expandCond_some_neg rec mb _ me rfl

/-- The turn of the loop at `%{!-x}`, the option macro `-x` defined: the
reference is skipped, and the counter of the entry is incremented. -/
theorem expandStep_not_option (env : Env) (rec : Expander) (mb : MacroBuf) (n q : List Char)
    (me : rpmMacroEntry) (hs : NameShape n) (hb : isBuiltinName env n = false)
    (hdash : peek n = '-') (hme : lookup mb.mc n n.length = some me) :
    expandStep env rec mb '%' ('{' :: '!' :: (n ++ '}' :: q))
      = ({ mb with mc := markUsed mb.mc me.id }, 0, q) := by
  have hlen : (n ++ '}' :: q).length - ('}' :: q).length = n.length := by simp
  have hlk : lookup mb.mc (n ++ '}' :: q) n.length = some me := by
    rw [lookup_append _ _ _ hs.ne_nil]; exact hme
  have hpk := (hs.peek_ok ('}' :: q)).1
  have hstep := expandStep_flagged env rec mb ['!'] n q hs hb (by simp)
  have hc : (((['!'] : List Char).count '?' : Nat) : Int) = 0 := by decide
  have hn : decide ((['!'] : List Char).count '!' % 2 = 1) = true := by decide
  rw [hc, hn] at hstep
  rw [show '{' :: '!' :: (n ++ '}' :: q) = '{' :: (['!'] ++ (n ++ '}' :: q)) from rfl, hstep]
  unfold expandDefined
  simp only [MacroRef.fn, hlen, hlk, hpk, hdash, if_true]
  exact expandCond_some_neg rec _ _ me rfl

/-- The turn of the loop at a reference that `parseRef` accepts and that
names no built-in macro: the reference is handed to the lookup. -/
theorem expandStep_ref (env : Env) (rec : Expander) (mb : MacroBuf) (s : List Char)
    (r : MacroRef) (hs : s ≠ []) (hpc : peek s ≠ '%') (hp : parseRef s = .ref r)
    (hb : isBuiltin env r.f r.fn = false) :
    expandStep env rec mb '%' s = expandDefined env rec mb s r := by
  unfold expandStep
  rw [if_neg (by simp), if_neg hs, if_neg hpc, hp]
  exact expandRef_user env rec mb s r hb

theorem freeArgs_fault (mb : MacroBuf) :
    (freeArgs { mb with fault := true }).mc = (freeArgs mb).mc := by
  unfold freeArgs
  simp only []
  split <;> rfl

/-- The counter after the substitution of the body of a macro with options
called with arguments. -/
theorem expandBody_count_args (env : Env) (rec : Expander) (mb : MacroBuf) (r : MacroRef)
    (me : rpmMacroEntry) (ho : me.opts.isSome = true) (lastc : List Char)
    (hl : r.lastc = some lastc) (hbody : me.body ≠ []) :
    (isLive (rec (grabArgs env mb me r.fe lastc).1 me.body 0).1.mc me.id = true →
      (rec (grabArgs env mb me r.fe lastc).1 me.body 0).2 = 0 →
      (expandBody env rec mb r me).1.mc
        = (freeArgs
            { (rec (grabArgs env mb me r.fe lastc).1 me.body 0).1 with
              mc := markUsed (rec (grabArgs env mb me r.fe lastc).1 me.body 0).1.mc
                me.id }).mc) ∧
    ((rec (grabArgs env mb me r.fe lastc).1 me.body 0).2 ≠ 0 →
      (expandBody env rec mb r me).1.mc
        = (freeArgs (rec (grabArgs env mb me r.fe lastc).1 me.body 0).1).mc) := by
  unfold expandBody
  simp only [ho, if_true, hl, hbody, ne_eq, not_false_eq_true]
  constructor
  · intro hlive h0
    simp only [hlive, not_true_eq_false, if_false, h0, if_true]
  · intro h0
    by_cases hlive : isLive (rec (grabArgs env mb me r.fe lastc).1 me.body 0).1.mc me.id = true
    · simp only [hlive, not_true_eq_false, if_false, h0]
    · simp only [hlive, not_false_eq_true, if_true]
      exact freeArgs_fault _

/-- What the turn of the loop at a reference to a defined macro `e` with a
body does to the table, for every form of reference that `parseRef` accepts
and every expander `rec` for the nested expansions. -/
theorem used_counter_step (env : Env) (rec : Expander) (mb : MacroBuf) (s : List Char)
    (r : MacroRef) (e : rpmMacroEntry) (hs : s ≠ []) (hpc : peek s ≠ '%')
    (hp : parseRef s = .ref r) (hb : isBuiltin env r.f r.fn = false)
    (hme : lookup mb.mc r.f r.fn = some e) (hbody : e.body ≠ []) :
    (peek r.f ≠ '-' → r.chkexist = 0 → e.opts = none →
      (isLive (rec mb e.body 0).1.mc e.id = true → (rec mb e.body 0).2 = 0 →
        (expandStep env rec mb '%' s).1.mc = markUsed (rec mb e.body 0).1.mc e.id) ∧
      ((rec mb e.body 0).2 ≠ 0 →
        (expandStep env rec mb '%' s).1.mc = (rec mb e.body 0).1.mc)) ∧
    (peek r.f ≠ '-' → r.chkexist = 0 → e.opts.isSome = true →
      ∀ lastc, r.lastc = some lastc →
      (isLive (rec (grabArgs env mb e r.fe lastc).1 e.body 0).1.mc e.id = true →
        (rec (grabArgs env mb e r.fe lastc).1 e.body 0).2 = 0 →
        (expandStep env rec mb '%' s).1.mc
          = (freeArgs
              { (rec (grabArgs env mb e r.fe lastc).1 e.body 0).1 with
                mc := markUsed (rec (grabArgs env mb e r.fe lastc).1 e.body 0).1.mc
                  e.id }).mc) ∧
      ((rec (grabArgs env mb e r.fe lastc).1 e.body 0).2 ≠ 0 →
        (expandStep env rec mb '%' s).1.mc
          = (freeArgs (rec (grabArgs env mb e r.fe lastc).1 e.body 0).1).mc)) ∧
    (peek r.f = '-' →
      (r.negate = true → (expandStep env rec mb '%' s).1.mc = markUsed mb.mc e.id) ∧
      (r.negate = false → r.g = none →
        (expandStep env rec mb '%' s).1.mc
          = (rec { mb with mc := markUsed mb.mc e.id } e.body 0).1.mc) ∧
      (r.negate = false → r.g.isSome = true → 0 < r.gn →
        (expandStep env rec mb '%' s).1.mc
          = (rec { mb with mc := markUsed mb.mc e.id } (r.g.getD []) r.gn).1.mc)) ∧
    (peek r.f ≠ '-' → r.chkexist ≠ 0 →
      (r.negate = true → (expandStep env rec mb '%' s).1.mc = mb.mc) ∧
      (r.negate = false → r.g = none →
        (expandStep env rec mb '%' s).1 = (rec mb e.body 0).1)) := by
  rw [expandStep_ref env rec mb s r hs hpc hp hb]
  refine ⟨fun hd hc ho => ?_, fun hd hc ho lastc hl => ?_, fun hd => ⟨fun hn => ?_, fun hn hg => ?_,
    fun hn hg hgn => ?_⟩, fun hd hc => ⟨fun hn => ?_, fun hn hg => ?_⟩⟩
  · have hD : expandDefined env rec mb s r = expandBody env rec mb r e := by
      unfold expandDefined
      simp only [hme, hd, hc, if_false, ne_eq, not_true_eq_false]
    rw [hD]
    obtain ⟨c1, c2⟩ := expandBody_count env rec mb r e ho hbody
    exact ⟨fun hl h0 => by rw [c1 hl h0], fun h0 => (c2 h0).1⟩
  · have hD : expandDefined env rec mb s r = expandBody env rec mb r e := by
      unfold expandDefined
      simp only [hme, hd, hc, if_false, ne_eq, not_true_eq_false]
    rw [hD]
    exact expandBody_count_args env rec mb r e ho lastc hl hbody
  · unfold expandDefined
    simp only [hme, hd, if_true]
    rw [expandCond_some_neg rec _ r e hn]
  · unfold expandDefined
    simp only [hme, hd, if_true]
    rw [expandCond_some_pos rec _ r e hn hg hbody]
  · unfold expandDefined
    simp only [hme, hd, if_true]
    unfold expandCond
    simp only [hn, hg, hgn, Option.isNone_some, Option.isSome_some, Bool.false_eq_true,
      false_and, and_false, or_self, if_false, and_self, if_true, gt_iff_lt]
  · unfold expandDefined
    simp only [hme, hd, hc, if_false, ne_eq, not_false_eq_true, if_true]
    rw [expandCond_some_neg rec _ r e hn]
  · unfold expandDefined
    simp only [hme, hd, hc, if_false, ne_eq, not_false_eq_true, if_true]
    rw [expandCond_some_pos rec _ r e hn hg hbody]

/-- C25. `markUsed` increments by one the counter of the entries at the
address given and changes nothing else. In every turn of the loop at a
reference to a defined macro with a body that is not built in, whatever the
form of the reference and whatever the nested expansions give: on the plain
path (`%n`, `%{n}`, a call with arguments) the counter of the entry is
incremented, and no other is, when the substitution of its body succeeds, and
the table is left as the expansion of the body left it (the arguments freed)
when it fails; a reference to an option macro (`%{-x}`, `%{!-x}`, `%{-x:...}`)
marks the entry at once, also when the reference is skipped; a skipped
reference with the existence flag (`%{!?n}`) changes nothing. The reference
`%{?n}` substitutes the body and leaves the counter as it was: there a
substitution that succeeds is not counted. The same is shown on a source that
is plain text around one braced reference to a valid, defined name `n`. -/
theorem used_counter (env : Env) (mc : rpmMacroContext) (p n q : List Char)
    (me : rpmMacroEntry) (hp : '%' ∉ p) (hq : '%' ∉ q)
    (hn : parseMacroName n = some []) (hb : isBuiltinName env n = false)
    (hme : lookup mc n n.length = some me) (hbody : me.body ≠ []) :
    (∀ (T : rpmMacroContext) (id : Nat) (m : List Char),
      stackOf (markUsed T id) m
        = (stackOf T m).map (fun e => if e.id = id then { e with used := e.used + 1 } else e)) ∧
    (peek n ≠ '-' → me.opts = none →
      (isLive (expandMacro env 16 { initialBuf mc with depth := 1 } me.body 0).1.mc me.id = true →
        (expandMacro env 16 { initialBuf mc with depth := 1 } me.body 0).2 = 0 →
        (doExpandMacros env mc (p ++ '%' :: '{' :: (n ++ '}' :: q))).1.mc
          = markUsed (expandMacro env 16 { initialBuf mc with depth := 1 } me.body 0).1.mc me.id ∧
        (doExpandMacros env mc (p ++ '%' :: '{' :: (n ++ '}' :: q))).2 = 0) ∧
      ((expandMacro env 16 { initialBuf mc with depth := 1 } me.body 0).2 ≠ 0 →
        (doExpandMacros env mc (p ++ '%' :: '{' :: (n ++ '}' :: q))).1.mc
          = (expandMacro env 16 { initialBuf mc with depth := 1 } me.body 0).1.mc ∧
        (doExpandMacros env mc (p ++ '%' :: '{' :: (n ++ '}' :: q))).2
          = (expandMacro env 16 { initialBuf mc with depth := 1 } me.body 0).2)) ∧
    (peek n ≠ '-' → me.opts.isSome = true →
      isLive (expandMacro env 16
        { initialBuf mc with
          depth := 1
          mc := bindAll 1 (noArgBindings me.name) mc } me.body 0).1.mc me.id = true →
      (expandMacro env 16
        { initialBuf mc with
          depth := 1
          mc := bindAll 1 (noArgBindings me.name) mc } me.body 0).2 = 0 →
      (doExpandMacros env mc (p ++ '%' :: '{' :: (n ++ '}' :: q))).1.mc
        = (freeArgs
            { (expandMacro env 16
                { initialBuf mc with
                  depth := 1
                  mc := bindAll 1 (noArgBindings me.name) mc } me.body 0).1 with
              mc := markUsed (expandMacro env 16
                { initialBuf mc with
                  depth := 1
                  mc := bindAll 1 (noArgBindings me.name) mc } me.body 0).1.mc me.id }).mc) ∧
    (peek n ≠ '-' →
      (doExpandMacros env mc (p ++ '%' :: '{' :: '?' :: (n ++ '}' :: q))).1.mc
        = (expandMacro env 16 { initialBuf mc with depth := 1 } me.body 0).1.mc ∧
      (doExpandMacros env mc (p ++ '%' :: '{' :: '?' :: (n ++ '}' :: q))).2
        = (expandMacro env 16 { initialBuf mc with depth := 1 } me.body 0).2 ∧
      (doExpandMacros env mc (p ++ '%' :: '{' :: '!' :: '?' :: (n ++ '}' :: q))).1.mc = mc) ∧
    (peek n = '-' →
      (doExpandMacros env mc (p ++ '%' :: '{' :: '!' :: (n ++ '}' :: q))).1.mc
        = markUsed mc me.id) ∧
    (∀ (rec : Expander) (mb : MacroBuf) (s : List Char) (r : MacroRef) (e : rpmMacroEntry),
      s ≠ [] → peek s ≠ '%' → parseRef s = .ref r → isBuiltin env r.f r.fn = false →
      lookup mb.mc r.f r.fn = some e → e.body ≠ [] →
      (peek r.f ≠ '-' → r.chkexist = 0 → e.opts = none →
        (isLive (rec mb e.body 0).1.mc e.id = true → (rec mb e.body 0).2 = 0 →
          (expandStep env rec mb '%' s).1.mc = markUsed (rec mb e.body 0).1.mc e.id) ∧
        ((rec mb e.body 0).2 ≠ 0 →
          (expandStep env rec mb '%' s).1.mc = (rec mb e.body 0).1.mc)) ∧
      (peek r.f ≠ '-' → r.chkexist = 0 → e.opts.isSome = true →
        ∀ lastc, r.lastc = some lastc →
        (isLive (rec (grabArgs env mb e r.fe lastc).1 e.body 0).1.mc e.id = true →
          (rec (grabArgs env mb e r.fe lastc).1 e.body 0).2 = 0 →
          (expandStep env rec mb '%' s).1.mc
            = (freeArgs
                { (rec (grabArgs env mb e r.fe lastc).1 e.body 0).1 with
                  mc := markUsed (rec (grabArgs env mb e r.fe lastc).1 e.body 0).1.mc
                    e.id }).mc) ∧
        ((rec (grabArgs env mb e r.fe lastc).1 e.body 0).2 ≠ 0 →
          (expandStep env rec mb '%' s).1.mc
            = (freeArgs (rec (grabArgs env mb e r.fe lastc).1 e.body 0).1).mc)) ∧
      (peek r.f = '-' →
        (r.negate = true → (expandStep env rec mb '%' s).1.mc = markUsed mb.mc e.id) ∧
        (r.negate = false → r.g = none →
          (expandStep env rec mb '%' s).1.mc
            = (rec { mb with mc := markUsed mb.mc e.id } e.body 0).1.mc) ∧
        (r.negate = false → r.g.isSome = true → 0 < r.gn →
          (expandStep env rec mb '%' s).1.mc
            = (rec { mb with mc := markUsed mb.mc e.id } (r.g.getD []) r.gn).1.mc)) ∧
      (peek r.f ≠ '-' → r.chkexist ≠ 0 →
        (r.negate = true → (expandStep env rec mb '%' s).1.mc = mb.mc) ∧
        (r.negate = false → r.g = none →
          (expandStep env rec mb '%' s).1 = (rec mb e.body 0).1))) := by
  have hs := parseMacroName_shape hn
  refine ⟨fun T id m => stackOf_markUsed T id m, ?_, ?_, ?_, ?_,
    fun rec mb s r e h1 h2 h3 h4 h5 h6 => used_counter_step env rec mb s r e h1 h2 h3 h4 h5 h6⟩
  · intro hdash ho
    have hstep := expandStep_braced_body env (expandMacro env 16)
      { initialBuf mc with depth := 1 } n q me hs hb hdash hme
    obtain ⟨c1, c2⟩ := expandBody_count env (expandMacro env 16)
      { initialBuf mc with depth := 1 }
      { f := n ++ '}' :: q, fe := '}' :: q, g := none, ge := [], se := q, lastc := none,
        negate := false, chkexist := 0 } me ho hbody
    constructor
    · intro hl h0
      rw [c1 hl h0] at hstep
      exact doExpandMacros_around env mc p _ q hp hq _ _ hstep
    · intro h0
      obtain ⟨d1, d2⟩ := c2 h0
      rw [← hstep] at d1 d2
      have := doExpandMacros_around env mc p _ q hp hq _ _
        (Prod.ext rfl d2 : expandStep env (expandMacro env 16)
          { initialBuf mc with depth := 1 } '%' ('{' :: (n ++ '}' :: q)) = (_, _, q))
      rw [this.1, this.2]
      exact ⟨d1, rfl⟩
  · intro hdash ho hl h0
    have hstep := expandStep_braced_body env (expandMacro env 16)
      { initialBuf mc with depth := 1 } n q me hs hb hdash hme
    rw [expandBody_count_opts env (expandMacro env 16) { initialBuf mc with depth := 1 } _ me
      ho rfl hbody hl h0] at hstep
    exact (doExpandMacros_around env mc p _ q hp hq _ _ hstep).1
  · intro hdash
    have h1 := expandStep_exists env (expandMacro env 16) { initialBuf mc with depth := 1 }
      n q me hs hb hdash hme hbody
    have h2 := expandStep_not_exists env (expandMacro env 16)
      { initialBuf mc with depth := 1 } n q me hs hb hdash hme
    obtain ⟨a1, a2⟩ := doExpandMacros_around env mc p _ q hp hq _ _ h1
    exact ⟨a1, a2, (doExpandMacros_around env mc p _ q hp hq _ _ h2).1⟩
  · intro hdash
    have h1 := expandStep_not_option env (expandMacro env 16)
      { initialBuf mc with depth := 1 } n q me hs hb hdash hme
    exact (doExpandMacros_around env mc p _ q hp hq _ _ h1).1

set_option maxRecDepth 1000000 in
theorem used_counter_witness :
    lookup (addMacro (addMacro emptyContext "aaa".toList none "one".toList 0)
        "aaa".toList none "two".toList 0) "aaa".toList "aaa".toList.length
      = some { id := 1, name := "aaa".toList, opts := none, body := "two".toList, used := 0,
               level := 0 } ∧
    (stackOf (doExpandMacros quietEnv
      (addMacro (addMacro emptyContext "aaa".toList none "one".toList 0)
        "aaa".toList none "two".toList 0)
      ("<".toList ++ '%' :: '{' :: ("aaa".toList ++ '}' :: ">".toList))).1.mc "aaa".toList).map
        (fun e => (e.body, e.used))
      = [("two".toList, 1), ("one".toList, 0)] :=
  ⟨by decide,
    (congrArg (fun T => (stackOf T "aaa".toList).map (fun e => (e.body, e.used)))
      ((((used_counter quietEnv
        (addMacro (addMacro emptyContext "aaa".toList none "one".toList 0)
          "aaa".toList none "two".toList 0)
        "<".toList "aaa".toList ">".toList
        { id := 1, name := "aaa".toList, opts := none, body := "two".toList, used := 0,
          level := 0 }
        (by decide) (by decide) (by decide) (by decide) (by decide) (by decide)).2.1
        (by decide) rfl).1 (by decide) (by decide)).1)).trans (by decide)⟩

set_option maxRecDepth 1000000 in
/-- C25 fails on the code: the reference `%{?aaa}` substitutes the body of
`aaa` and succeeds, and the counter of the entry stays 0. -/
theorem used_counter_counterexample :
    (doExpandMacros quietEnv (addMacro emptyContext "aaa".toList none "one".toList 0)
      ('%' :: '{' :: '?' :: ("aaa".toList ++ ['}']))).1.buf = "one".toList ∧
    (doExpandMacros quietEnv (addMacro emptyContext "aaa".toList none "one".toList 0)
      ('%' :: '{' :: '?' :: ("aaa".toList ++ ['}']))).2 = 0 ∧
    (stackOf (doExpandMacros quietEnv (addMacro emptyContext "aaa".toList none "one".toList 0)
      ('%' :: '{' :: '?' :: ("aaa".toList ++ ['}']))).1.mc "aaa".toList).map (fun e => e.used)
      = [0] := by
  decide

/-! ## The continuation reader -/

theorem fgetsLine_line (l rest : List Char) (hl : ∀ c ∈ l, c ≠ '\n') :
    ∀ n, l.length + 1 ≤ n → fgetsLine n (l ++ '\n' :: rest) = l ++ ['\n'] := by
  induction l with
  | nil =>
    intro n hn
    cases n with
    | zero => omega
    | succ n => simp [fgetsLine]
  | cons c l ih =>
    intro n hn
    cases n with
    | zero => simp at hn
    | succ n =>
      have hc : c ≠ '\n' := hl c (by simp)
      rw [List.cons_append, fgetsLine, if_neg hc,
        ih (fun a ha => hl a (by simp [ha])) n (by simp at hn; omega)]
      rfl

/-- A line that fits the buffer is read whole, its newline included. -/
theorem fgets_line (l rest : List Char) (hl : ∀ c ∈ l, c ≠ '\n') (size : Nat)
    (hs : l.length + 2 ≤ size) :
    fgets size (l ++ '\n' :: rest) = some (l ++ ['\n'], rest) := by
  have h := fgetsLine_line l rest hl (size - 1) (by omega)
  unfold fgets
  rw [if_neg (by omega), if_neg (by omega), h, if_neg (by simp)]
  simp

theorem fgets_eof (size : Nat) : fgets size [] = none ∨ fgets size [] = some ([], []) := by
  unfold fgets
  by_cases h0 : size = 0
  · left; rw [if_pos h0]
  · by_cases h1 : size = 1
    · right; rw [if_neg h0, if_pos h1]
    · left
      rw [if_neg h0, if_neg h1]
      have : fgetsLine (size - 1) [] = [] := by
        cases size - 1 <;> rfl
      rw [if_pos this]

theorem rdropWhile_line (l : List Char) (hl : ∀ c ∈ l, iseol c = false) :
    (l ++ ['\n']).rdropWhile iseol = l := by
  rw [List.rdropWhile_concat, if_pos (by decide)]
  rw [List.rdropWhile_eq_self_iff]
  intro hne
  rw [hl _ (List.getLast_mem hne)]
  decide

/-- The scanner passes over a plain character. -/
theorem rdclScan_plain (c : Char) (t after : List Char) (bc pc : Int)
    (hc : rdclPlain c = true) : rdclScan (c :: t) after bc pc = rdclScan t after bc pc := by
  have h : c ≠ '\\' ∧ c ≠ '%' ∧ c ≠ '{' ∧ c ≠ '}' ∧ c ≠ '(' ∧ c ≠ ')' := by
    simp only [rdclPlain, Bool.not_eq_true', Bool.or_eq_false_iff, beq_eq_false_iff_ne,
      ne_eq] at hc
    obtain ⟨⟨⟨⟨⟨h1, h2⟩, h3⟩, h4⟩, h5⟩, h6⟩ := hc
    exact ⟨h1, h2, h3, h4, h5, h6⟩
  obtain ⟨h1, h2, h3, h4, h5, h6⟩ := h
  cases t with
  | nil => simp only [rdclScan, h1, h2, h3, h4, h5, h6, if_false]
  | cons d s => simp only [rdclScan, h1, h2, h3, h4, h5, h6, if_false]

/-- The scan of a text followed by more text: the scan of the text, which
looks one character ahead, then the scan of what follows from where the
first one stopped. -/
theorem rdclScan_append : ∀ (n : Nat) (a : List Char), a.length ≤ n →
    ∀ (b after : List Char) (bc pc : Int), b ≠ [] →
      rdclScan (a ++ b) after bc pc
        = rdclScan (b.drop (rdclScan a (b ++ after) bc pc).2.2) after
            (rdclScan a (b ++ after) bc pc).1 (rdclScan a (b ++ after) bc pc).2.1 := by
  intro n
  induction n with
  | zero =>
    intro a ha b after bc pc _
    have : a = [] := List.length_eq_zero.1 (Nat.le_zero.1 ha)
    subst this
    simp [rdclScan]
  | succ n ih =>
    intro a ha b after bc pc hb
    cases a with
    | nil => simp [rdclScan]
    | cons c a =>
      cases a with
      | nil =>
        cases b with
        | nil => exact absurd rfl hb
        | cons d b =>
          simp only [List.cons_append, List.nil_append, rdclScan, peek, List.headD_cons]
          split_ifs <;> simp_all [rdclScan]
      | cons d s =>
        have h1 : s.length ≤ n := by simp at ha; omega
        have h2 : (d :: s).length ≤ n := by simp at ha ⊢; omega
        have i1 := ih s h1 b after
        have i2 := ih (d :: s) h2 b after
        simp only [List.cons_append] at i2 ⊢
        by_cases hc1 : c = '\\'
        · subst hc1
          simp only [rdclScan, if_true]
          exact i1 _ _ hb
        by_cases hc2 : c = '%'
        · subst hc2
          by_cases hd1 : d = '{'
          · subst hd1
            simp only [rdclScan, if_true, if_neg hc1]
            exact i1 _ _ hb
          by_cases hd2 : d = '('
          · subst hd2
            simp only [rdclScan, if_true, if_neg hc1, if_neg hd1]
            exact i1 _ _ hb
          by_cases hd3 : d = '%'
          · subst hd3
            simp only [rdclScan, if_true, if_neg hc1, if_neg hd1, if_neg hd2]
            exact i1 _ _ hb
          simp only [rdclScan, if_true, if_neg hc1, if_neg hd1, if_neg hd2, if_neg hd3]
          exact i2 _ _ hb
        simp only [rdclScan, if_neg hc1, if_neg hc2]
        split_ifs <;> exact i2 _ _ hb

/-- One turn of the scanner at a character that is not the last one: the scan
goes on at the next character or at the one after it, whatever the buffer
holds behind the text. -/
theorem rdclScan_step (c d : Char) (s : List Char) (bc pc : Int) :
    ∃ (s1 : List Char) (bc1 pc1 : Int), (s1 = s ∨ s1 = d :: s) ∧
      ∀ after, rdclScan (c :: d :: s) after bc pc = rdclScan s1 after bc1 pc1 := by
  by_cases hc1 : c = '\\'
  · exact ⟨s, bc, pc, Or.inl rfl, fun after => by simp [rdclScan, hc1]⟩
  by_cases hc2 : c = '%'
  · by_cases hd1 : d = '{'
    · exact ⟨s, bc + 1, pc, Or.inl rfl, fun after => by
        simp [rdclScan, hc1, hc2, hd1]⟩
    by_cases hd2 : d = '('
    · exact ⟨s, bc, pc + 1, Or.inl rfl, fun after => by
        simp [rdclScan, hc1, hc2, hd1, hd2]⟩
    by_cases hd3 : d = '%'
    · exact ⟨s, bc, pc, Or.inl rfl, fun after => by
        simp [rdclScan, hc1, hc2, hd1, hd2, hd3]⟩
    exact ⟨d :: s, bc, pc, Or.inr rfl, fun after => by
      simp [rdclScan, hc1, hc2, hd1, hd2, hd3]⟩
  by_cases hc3 : c = '{'
  · exact ⟨d :: s, if bc > 0 then bc + 1 else bc, pc, Or.inr rfl, fun after => by
      simp [rdclScan, hc1, hc2, hc3]⟩
  by_cases hc4 : c = '}'
  · exact ⟨d :: s, if bc > 0 then bc - 1 else bc, pc, Or.inr rfl, fun after => by
      simp [rdclScan, hc1, hc2, hc3, hc4]⟩
  by_cases hc5 : c = '('
  · exact ⟨d :: s, bc, if pc > 0 then pc + 1 else pc, Or.inr rfl, fun after => by
      simp [rdclScan, hc1, hc2, hc3, hc4, hc5]⟩
  by_cases hc6 : c = ')'
  · exact ⟨d :: s, bc, if pc > 0 then pc - 1 else pc, Or.inr rfl, fun after => by
      simp [rdclScan, hc1, hc2, hc3, hc4, hc5, hc6]⟩
  exact ⟨d :: s, bc, pc, Or.inr rfl, fun after => by
    simp [rdclScan, hc1, hc2, hc3, hc4, hc5, hc6]⟩

/-- What the scan of a text depends on behind the text, when no `{`, `(` or
`%` stands right there: the counts do not depend on it; the scan leaves `p`
at most one character too far, and only at a backslash that ends the text;
and it is the same for all non-empty continuations. -/
theorem rdclScan_after : ∀ (n : Nat) (s : List Char), s.length ≤ n →
    ∀ (after : List Char) (bc pc : Int),
      peek after ≠ '{' → peek after ≠ '(' → peek after ≠ '%' →
      (rdclScan s after bc pc).1 = (rdclScan s [] bc pc).1 ∧
      (rdclScan s after bc pc).2.1 = (rdclScan s [] bc pc).2.1 ∧
      (rdclScan s after bc pc).2.2 ≤ 1 ∧
      ((rdclScan s after bc pc).2.2 = 1 → s.getLast? = some '\\') ∧
      (after ≠ [] → rdclScan s after bc pc = rdclScan s ['\n'] bc pc) := by
  intro n
  induction n with
  | zero =>
    intro s hs after bc pc _ _ _
    have : s = [] := List.length_eq_zero.1 (Nat.le_zero.1 hs)
    subst this
    simp [rdclScan]
  | succ n ih =>
    intro s hs after bc pc h1 h2 h3
    cases s with
    | nil => simp [rdclScan]
    | cons c s =>
      cases s with
      | nil =>
        have e1 : peek ([] : List Char) ≠ '{' ∧ peek ([] : List Char) ≠ '(' ∧
            peek ([] : List Char) ≠ '%' := by decide
        have e2 : peek ['\n'] ≠ '{' ∧ peek ['\n'] ≠ '(' ∧ peek ['\n'] ≠ '%' := by decide
        by_cases hc1 : c = '\\'
        · subst hc1
          by_cases ha : after = []
          · subst ha; simp [rdclScan]
          · simp [rdclScan, ha]
        · simp only [rdclScan, if_neg hc1, if_neg h1, if_neg h2, if_neg h3, if_neg e1.1,
            if_neg e1.2.1, if_neg e1.2.2, if_neg e2.1, if_neg e2.2.1, if_neg e2.2.2]
          split_ifs <;> simp
      | cons d s =>
        obtain ⟨s1, bc1, pc1, hs1, hstep⟩ := rdclScan_step c d s bc pc
        have hlen : s1.length ≤ n := by
          rcases hs1 with e | e <;> subst e <;> simp at hs ⊢ <;> omega
        obtain ⟨g1, g2, g3, g4, g5⟩ := ih s1 hlen after bc1 pc1 h1 h2 h3
        rw [hstep after, hstep [], hstep ['\n']]
        refine ⟨g1, g2, g3, ?_, g5⟩
        intro ho
        have hne : s1 ≠ [] := by
          intro e; subst e
          simp [rdclScan] at ho
        have hl := g4 ho
        rcases hs1 with e | e
        · subst e
          obtain ⟨x, t, rfl⟩ := List.exists_cons_of_ne_nil hne
          simp only [List.getLast?_cons_cons] at hl ⊢
          exact hl
        · subst e
          rw [List.getLast?_cons_cons]
          exact hl

theorem fileOf_cons (l : List Char) (rest : List (List Char)) :
    fileOf (l :: rest) = l ++ '\n' :: fileOf rest := by
  simp [fileOf]

theorem fileOf_concat (pre : List (List Char)) (l : List Char) :
    fileOf (pre ++ [l]) = fileOf pre ++ (l ++ ['\n']) := by
  simp [fileOf]

theorem joinLines_concat : ∀ (pre : List (List Char)) (l : List Char),
    joinLines (pre ++ [l]) = fileOf pre ++ l := by
  intro pre
  induction pre with
  | nil => intro l; simp [joinLines, fileOf, List.intercalate]
  | cons a pre ih =>
    intro l
    have h := ih l
    cases pre with
    | nil => simp [joinLines, fileOf, List.intercalate]
    | cons b t =>
      simp only [joinLines, List.intercalate, List.cons_append, List.intersperse,
        List.flatten_cons, fileOf_cons, List.append_assoc] at h ⊢
      have h2 : (List.intersperse ['\n'] (b :: t.append [l])).flatten
          = b ++ '\n' :: (fileOf t ++ l) := h
      rw [h2]
      simp

/-- The scan of a text that ends in a newline does not look behind it and
stops right after it. -/
theorem rdclScan_line (u after : List Char) (bc pc : Int) :
    rdclScan (u ++ ['\n']) after bc pc
      = ((rdclScan u ['\n'] bc pc).1, (rdclScan u ['\n'] bc pc).2.1, 0) := by
  have hc := rdclScan_append u.length u (Nat.le_refl _) ['\n'] after bc pc (by simp)
  obtain ⟨_, _, g3, _, g5⟩ := rdclScan_after u.length u (Nat.le_refl _) ('\n' :: after) bc pc
    (show '\n' ≠ '{' by decide) (show '\n' ≠ '(' by decide) (show '\n' ≠ '%' by decide)
  have e := g5 (by simp)
  simp only [List.singleton_append] at hc
  rw [e] at hc g3
  rw [hc]
  have hcases : (rdclScan u ['\n'] bc pc).2.2 = 0 ∨ (rdclScan u ['\n'] bc pc).2.2 = 1 := by
    omega
  rcases hcases with h | h
  · rw [h, List.drop_zero, rdclScan_plain '\n' [] after _ _ (by decide)]
    rfl
  · rw [h]
    rfl

/-- The run that the lines read so far and the line `l` make ends a logical
line when `l` is empty, or does not end in a backslash while the counts after
it are zero; `bc` and `pc` are the counts after the lines read so far. -/
theorem endsRun_concat (pre : List (List Char)) (l : List Char) (bc pc : Int)
    (hinv : ∀ after, rdclScan (fileOf pre) after 0 0 = (bc, pc, 0)) :
    EndsRun (pre ++ [l]) ↔
      (l = [] ∨ (l.getLast? ≠ some '\\' ∧
        (rdclScan l ['\n'] bc pc).1 = 0 ∧ (rdclScan l ['\n'] bc pc).2.1 = 0)) := by
  have hlast : (pre ++ [l]).getLastD [] = l := by simp
  have hne : pre ++ [l] ≠ [] := by simp
  unfold EndsRun
  rw [hlast]
  simp only [hne, ne_eq, not_false_eq_true, true_and]
  by_cases hl : l = []
  · simp [hl]
  · have hc := rdclScan_append (fileOf pre).length (fileOf pre) (Nat.le_refl _) l [] 0 0 hl
    rw [List.append_nil, hinv l] at hc
    simp only [List.drop_zero] at hc
    obtain ⟨g1, g2, _, _, _⟩ := rdclScan_after l.length l (Nat.le_refl _) ['\n'] bc pc
      (by decide) (by decide) (by decide)
    have ho : openCounts (joinLines (pre ++ [l]))
        = ((rdclScan l ['\n'] bc pc).1, (rdclScan l ['\n'] bc pc).2.1) := by
      unfold openCounts
      rw [joinLines_concat, hc, g1, g2]
    rw [ho]
    simp only [hl, false_or, Prod.mk.injEq]

theorem iseol_newline {l : List Char} (hl : ∀ c ∈ l, iseol c = false) : ∀ c ∈ l, c ≠ '\n' := by
  intro c hc e
  have := hl c hc
  rw [e] at this
  revert this
  decide

/-- One turn of the loop of `rdcl` at a line that fits the buffer: the loop
is left with the text read so far when the line is empty, or does not end in a
backslash while the counts are zero; otherwise the line and a newline are
kept and the next line is read. -/
theorem rdclLoop_line (fuel : Nat) (l f acc : List Char) (skip : Nat) (bc pc : Int)
    (size nread : Nat) (hl : ∀ c ∈ l, iseol c = false) (hs : l.length + 2 ≤ size)
    (hskip : skip = 0 ∨ (skip = 1 ∧ rdclPlain (peek l) = true)) :
    rdclLoop (fuel + 1) (l ++ '\n' :: f) acc skip bc pc size nread
      = if l = [] ∨ (l.getLast? ≠ some '\\' ∧ (rdclScan l ['\n'] bc pc).1 = 0 ∧
            (rdclScan l ['\n'] bc pc).2.1 = 0) then (some (acc ++ l), f)
        else rdclLoop fuel f (acc ++ l ++ ['\n']) (rdclScan l ['\n'] bc pc).2.2
          (rdclScan l ['\n'] bc pc).1 (rdclScan l ['\n'] bc pc).2.1
          (size - (l.length + 1)) (nread + (l.length + 1)) := by
  have hbody := rdropWhile_line l hl
  have heols : (l ++ ['\n']).drop l.length = ['\n'] := by simp
  rw [rdclLoop, fgets_line l f (iseol_newline hl) size hs]
  simp only [hbody, heols]
  by_cases hle : l = []
  · subst hle
    simp
  · have hscan : rdclScan (l.drop skip) ['\n'] bc pc = rdclScan l ['\n'] bc pc := by
      rcases hskip with h | ⟨h, hp⟩
      · rw [h, List.drop_zero]
      · obtain ⟨c, t, rfl⟩ := List.exists_cons_of_ne_nil hle
        rw [h]
        simp only [List.drop_succ_cons, List.drop_zero]
        exact (rdclScan_plain c t ['\n'] bc pc hp).symm
    have hlen : 0 < l.length := List.length_pos.2 hle
    have hsk : skip - l.length = 0 := by
      rcases hskip with h | ⟨h, _⟩ <;> omega
    have hj : (if peek ['\n'] = '\r' then '\n' else peek ['\n']) = '\n' := by decide
    have hsz : size - (l.length + 1) > 0 := by omega
    simp only [hscan, hle, false_or, List.cons_ne_nil, or_false, hj, hsz, if_true, hsk,
      Nat.zero_add, List.length_append, List.length_singleton]
    split
    · simp
    · rfl

theorem joinLines_cons_cons (a b : List Char) (t : List (List Char)) :
    joinLines (a :: b :: t) = a ++ '\n' :: joinLines (b :: t) := by
  simp [joinLines, List.intercalate, List.intersperse]

theorem joinLines_single (a : List Char) : joinLines [a] = a := by
  simp [joinLines, List.intercalate]

/-- The state of the loop after one more line is kept: the counts are those
of the scan of the text kept, and `p` is one character too far only after a
line that ends in a backslash. -/
theorem rdcl_step_inv (pre : List (List Char)) (l : List Char) (bc pc : Int)
    (hinv : ∀ after, rdclScan (fileOf pre) after 0 0 = (bc, pc, 0)) :
    (∀ after, rdclScan (fileOf (pre ++ [l])) after 0 0
      = ((rdclScan l ['\n'] bc pc).1, (rdclScan l ['\n'] bc pc).2.1, 0)) ∧
    ((rdclScan l ['\n'] bc pc).2.2 = 0 ∨
      ((rdclScan l ['\n'] bc pc).2.2 = 1 ∧ l.getLast? = some '\\')) := by
  constructor
  · intro after
    have hc := rdclScan_append (fileOf pre).length (fileOf pre) (Nat.le_refl _)
      (l ++ ['\n']) after 0 0 (by simp)
    rw [hinv] at hc
    simp only [List.drop_zero] at hc
    rw [fileOf_concat, hc, rdclScan_line]
  · obtain ⟨_, _, g3, g4, _⟩ := rdclScan_after l.length l (Nat.le_refl _) ['\n'] bc pc
      (by decide) (by decide) (by decide)
    by_cases h : (rdclScan l ['\n'] bc pc).2.2 = 0
    · exact Or.inl h
    · have h1 : (rdclScan l ['\n'] bc pc).2.2 = 1 := by omega
      exact Or.inr ⟨h1, g4 h1⟩

/-- The loop of `rdcl` on a file of lines, from a state reached by keeping
the lines `pre`: the loop is left at the first line that ends the run. -/
theorem rdclLoop_run : ∀ (k : Nat) (pre rest : List (List Char)) (fuel skip size nread : Nat)
    (bc pc : Int),
    (∀ l ∈ rest, ∀ c ∈ l, iseol c = false) →
    rest.length + 1 ≤ fuel →
    (fileOf rest).length + 2 ≤ size →
    (skip = 0 ∨ (skip = 1 ∧ rdclPlain (peek (rest.headD [])) = true)) →
    rest.Chain' (fun a b => a.getLast? = some '\\' → rdclPlain (peek b) = true) →
    (∀ after, rdclScan (fileOf pre) after 0 0 = (bc, pc, 0)) →
    k < rest.length → EndsRun (pre ++ rest.take (k + 1)) →
    (∀ j, j < k → ¬ EndsRun (pre ++ rest.take (j + 1))) →
    rdclLoop fuel (fileOf rest) (fileOf pre) skip bc pc size nread
      = (some (fileOf pre ++ joinLines (rest.take (k + 1))), fileOf (rest.drop (k + 1))) := by
  intro k
  induction k with
  | zero =>
    intro pre rest fuel skip size nread bc pc hl hfuel hsize hskip _ hinv hk hend _
    obtain ⟨l, rest1, rfl⟩ := List.exists_cons_of_ne_nil (List.length_pos.1 hk)
    obtain ⟨fuel1, rfl⟩ : ∃ m, fuel = m + 1 := ⟨fuel - 1, by omega⟩
    have hsz : l.length + 2 ≤ size := by
      rw [fileOf_cons] at hsize; simp at hsize; omega
    rw [fileOf_cons, rdclLoop_line fuel1 l _ _ skip bc pc size nread
      (hl l (by simp)) hsz hskip]
    simp only [List.take_succ_cons, List.take_zero] at hend
    rw [if_pos ((endsRun_concat pre l bc pc hinv).1 hend)]
    simp [joinLines_single]
  | succ k ih =>
    intro pre rest fuel skip size nread bc pc hl hfuel hsize hskip hchain hinv hk hend hnot
    obtain ⟨l, rest1, rfl⟩ := List.exists_cons_of_ne_nil
      (List.length_pos.1 (Nat.lt_of_le_of_lt (Nat.zero_le _) hk))
    obtain ⟨fuel1, rfl⟩ : ∃ m, fuel = m + 1 := ⟨fuel - 1, by omega⟩
    have hk1 : k < rest1.length := by simp at hk; omega
    obtain ⟨b, rest2, rfl⟩ := List.exists_cons_of_ne_nil
      (List.length_pos.1 (Nat.lt_of_le_of_lt (Nat.zero_le _) hk1))
    have hsz : l.length + 2 ≤ size := by
      rw [fileOf_cons] at hsize; simp at hsize; omega
    have hn0 : ¬ EndsRun (pre ++ [l]) := by
      have := hnot 0 (Nat.succ_pos _)
      simpa using this
    obtain ⟨i1, i2⟩ := rdcl_step_inv pre l bc pc hinv
    rw [fileOf_cons, rdclLoop_line fuel1 l _ _ skip bc pc size nread
      (hl l (by simp)) hsz hskip,
      if_neg (fun h => hn0 ((endsRun_concat pre l bc pc hinv).2 h))]
    have hacc : fileOf pre ++ l ++ ['\n'] = fileOf (pre ++ [l]) := by
      rw [fileOf_concat]; simp
    rw [hacc]
    have hR := (List.chain'_cons.1 hchain).1
    have key := ih (pre ++ [l]) (b :: rest2) fuel1 (rdclScan l ['\n'] bc pc).2.2
      (size - (l.length + 1)) (nread + (l.length + 1)) (rdclScan l ['\n'] bc pc).1
      (rdclScan l ['\n'] bc pc).2.1
      (fun x hx => hl x (by simp [hx]))
      (by simp at hfuel ⊢; omega)
      (by rw [fileOf_cons] at hsize; simp at hsize ⊢; omega)
      (by
        rcases i2 with h | ⟨h, hlast⟩
        · exact Or.inl h
        · exact Or.inr ⟨h, hR hlast⟩)
      (List.chain'_cons.1 hchain).2 i1 hk1
      (by simpa using hend)
      (fun j hj => by simpa using hnot (j + 1) (by omega))
    rw [key]
    simp only [List.take_succ_cons, List.drop_succ_cons, joinLines_cons_cons, fileOf_concat,
      List.append_assoc, List.singleton_append, List.cons_append, List.nil_append]

/-- The loop of `rdcl` on a file of lines none of which ends the run: all
the lines are kept, each with its newline, up to the end of the file. -/
theorem rdclLoop_eof : ∀ (rest pre : List (List Char)) (fuel skip size nread : Nat)
    (bc pc : Int),
    (∀ l ∈ rest, ∀ c ∈ l, iseol c = false) →
    rest.length + 1 ≤ fuel →
    (fileOf rest).length + 2 ≤ size →
    (skip = 0 ∨ (skip = 1 ∧ rdclPlain (peek (rest.headD [])) = true)) →
    rest.Chain' (fun a b => a.getLast? = some '\\' → rdclPlain (peek b) = true) →
    (∀ after, rdclScan (fileOf pre) after 0 0 = (bc, pc, 0)) →
    (∀ j, j < rest.length → ¬ EndsRun (pre ++ rest.take (j + 1))) →
    rdclLoop fuel (fileOf rest) (fileOf pre) skip bc pc size nread
      = (if nread + (fileOf rest).length > 0 then some (fileOf pre ++ fileOf rest) else none,
         []) := by
  intro rest
  induction rest with
  | nil =>
    intro pre fuel skip size nread bc pc _ hfuel hsize _ _ _ _
    obtain ⟨fuel1, rfl⟩ : ∃ m, fuel = m + 1 := ⟨fuel - 1, by omega⟩
    have hf : fgets size [] = none := by
      unfold fgets
      rw [if_neg (by omega), if_neg (by omega)]
      have : fgetsLine (size - 1) [] = [] := by cases size - 1 <;> rfl
      rw [if_pos this]
    have e : fileOf [] = [] := rfl
    rw [e, rdclLoop, hf]
    simp
  | cons l rest1 ih =>
    intro pre fuel skip size nread bc pc hl hfuel hsize hskip hchain hinv hnot
    obtain ⟨fuel1, rfl⟩ : ∃ m, fuel = m + 1 := ⟨fuel - 1, by omega⟩
    have hsz : l.length + 2 ≤ size := by
      rw [fileOf_cons] at hsize; simp at hsize; omega
    have hn0 : ¬ EndsRun (pre ++ [l]) := by
      have := hnot 0 (by simp)
      simpa using this
    obtain ⟨i1, i2⟩ := rdcl_step_inv pre l bc pc hinv
    rw [fileOf_cons, rdclLoop_line fuel1 l _ _ skip bc pc size nread
      (hl l (by simp)) hsz hskip,
      if_neg (fun h => hn0 ((endsRun_concat pre l bc pc hinv).2 h))]
    have hacc : fileOf pre ++ l ++ ['\n'] = fileOf (pre ++ [l]) := by
      rw [fileOf_concat]; simp
    rw [hacc]
    have key := ih (pre ++ [l]) fuel1 (rdclScan l ['\n'] bc pc).2.2
      (size - (l.length + 1)) (nread + (l.length + 1)) (rdclScan l ['\n'] bc pc).1
      (rdclScan l ['\n'] bc pc).2.1
      (fun x hx => hl x (by simp [hx]))
      (by simp at hfuel ⊢; omega)
      (by rw [fileOf_cons] at hsize; simp at hsize ⊢; omega)
      (by
        rcases i2 with h | ⟨h, hlast⟩
        · exact Or.inl h
        · refine Or.inr ⟨h, ?_⟩
          cases rest1 with
          | nil => decide
          | cons b t => exact (List.chain'_cons.1 hchain).1 hlast)
      (by
        cases rest1 with
        | nil => exact List.chain'_nil
        | cons b t => exact (List.chain'_cons.1 hchain).2)
      i1
      (fun j hj => by simpa using hnot (j + 1) (by simp; omega))
    rw [key]
    have hpos1 : nread + (l.length + 1) + (fileOf rest1).length > 0 := by omega
    have hpos2 : nread + (l ++ '\n' :: fileOf rest1).length > 0 := by simp
    rw [if_pos hpos1, if_pos hpos2, fileOf_concat]
    simp

theorem fileOf_join (lines : List (List Char)) (hne : lines ≠ []) :
    fileOf lines = joinLines lines ++ ['\n'] := by
  rcases List.eq_nil_or_concat lines with h | ⟨pre, l, rfl⟩
  · exact absurd h hne
  · rw [List.concat_eq_append, fileOf_concat, joinLines_concat, List.append_assoc]

theorem rdropWhile_newline (x : List Char) :
    (x ++ ['\n']).rdropWhile iseol = x.rdropWhile iseol := by
  rw [List.rdropWhile_concat, if_pos (by decide)]

theorem take_succ_getD (lines : List (List Char)) (k : Nat) (hk : k < lines.length) :
    lines.take (k + 1) = lines.take k ++ [lines.getD k []] := by
  rw [List.take_succ, List.getD_eq_getElem?_getD, List.getElem?_eq_getElem hk]
  rfl

/-- The text of a run whose last line is not empty ends in the last character
of that line. -/
theorem joinLines_last (lines : List (List Char)) (k : Nat) (hk : k < lines.length)
    (hl : ∀ l ∈ lines, ∀ c ∈ l, iseol c = false) (hne : lines.getD k [] ≠ []) (c : Char)
    (hc : (joinLines (lines.take (k + 1))).getLast? = some c) : iseol c = false := by
  rw [take_succ_getD lines k hk, joinLines_concat, List.getLast?_append_of_ne_nil _ hne] at hc
  have hmem : lines.getD k [] ∈ lines := by
    rw [List.getD_eq_getElem?_getD, List.getElem?_eq_getElem hk]
    exact List.getElem_mem hk
  exact hl _ hmem c (List.mem_of_getLast?_eq_some hc)

/-- C26 (amended). For a file of physical lines, each ended by a newline and
holding no other line-end character, that fits the buffer, and in which the
line after a line that ends in a backslash is empty or begins with a
character the scanner passes over: the logical line that `rdcl` returns is
made of the shortest run of consecutive physical lines, from the first one on,
whose last line is empty, or does not end in a backslash while the run leaves
no `%{` and no `%(` open; the lines after the run are left in the file. When
the last line of the run is not empty, the text returned is the lines of the
run joined by newlines and does not end in a line-end character. When the run
ends at an empty line, and when no line ends the run, which then is the whole
file, the text returned is the lines of the run joined by newlines up to the
line-end characters at its end, of which nothing is said here. At the end of
the file NULL is returned. -/
theorem rdcl_logical_line (lines : List (List Char)) (size : Nat)
    (hl : ∀ l ∈ lines, ∀ c ∈ l, iseol c = false)
    (hsize : (fileOf lines).length + 2 ≤ size)
    (hfirst : lines.Chain' (fun a b => a.getLast? = some '\\' → rdclPlain (peek b) = true)) :
    (∀ k, k < lines.length → EndsRun (lines.take (k + 1)) →
      (∀ j, j < k → ¬ EndsRun (lines.take (j + 1))) →
      ∃ text, rdcl size (some (fileOf lines)) = (some text, fileOf (lines.drop (k + 1))) ∧
        text.rdropWhile iseol = (joinLines (lines.take (k + 1))).rdropWhile iseol ∧
        (lines.getD k [] ≠ [] →
          text = joinLines (lines.take (k + 1)) ∧
          ∀ c, text.getLast? = some c → iseol c = false)) ∧
    (lines ≠ [] → (∀ j, j < lines.length → ¬ EndsRun (lines.take (j + 1))) →
      ∃ text, rdcl size (some (fileOf lines)) = (some text, []) ∧
        text.rdropWhile iseol = (joinLines lines).rdropWhile iseol) ∧
    rdcl size (some []) = (none, []) := by
  have hfuel : lines.length + 1 ≤ (fileOf lines).length + 1 := by
    have : ∀ ls : List (List Char), ls.length ≤ (fileOf ls).length := by
      intro ls
      induction ls with
      | nil => simp
      | cons a t ih => rw [fileOf_cons]; simp; omega
    have := this lines
    omega
  have hinv : ∀ after, rdclScan (fileOf []) after 0 0 = (0, 0, 0) := fun _ => rfl
  refine ⟨?_, ?_, ?_⟩
  · intro k hk hend hnot
    have := rdclLoop_run k [] lines ((fileOf lines).length + 1) 0 size 0 0 0 hl hfuel hsize
      (Or.inl rfl) hfirst hinv hk (by simpa using hend) (fun j hj => by simpa using hnot j hj)
    have hr : rdcl size (some (fileOf lines))
        = (some (joinLines (lines.take (k + 1))), fileOf (lines.drop (k + 1))) := by
      simpa [rdcl, fileOf] using this
    exact ⟨_, hr, rfl, fun hne => ⟨rfl, fun c hc => joinLines_last lines k hk hl hne c hc⟩⟩
  · intro hne hnot
    have := rdclLoop_eof lines [] ((fileOf lines).length + 1) 0 size 0 0 0 hl hfuel hsize
      (Or.inl rfl) hfirst hinv (fun j hj => by simpa using hnot j hj)
    have hpos : 0 + (fileOf lines).length > 0 := by
      obtain ⟨a, t, rfl⟩ := List.exists_cons_of_ne_nil hne
      rw [fileOf_cons]; simp
    rw [if_pos hpos] at this
    have hr : rdcl size (some (fileOf lines)) = (some (fileOf lines), []) := by
      simpa [rdcl, fileOf] using this
    refine ⟨_, hr, ?_⟩
    rw [fileOf_join lines hne, rdropWhile_newline]
  · rcases fgets_eof size with h | h
    · simp [rdcl, rdclLoop, h]
    · simp [rdcl, rdclLoop, h]

set_option maxRecDepth 1000000 in
theorem rdcl_logical_line_witness :
    EndsRun ["%define x %(echo".toList, "foo)".toList] ∧
    ¬ EndsRun ["%define x %(echo".toList] ∧
    ∃ text, rdcl 100 (some (fileOf ["%define x %(echo".toList, "foo)".toList, "next".toList]))
        = (some text, fileOf (["%define x %(echo".toList, "foo)".toList, "next".toList].drop 2)) ∧
      text.rdropWhile iseol
        = (joinLines (["%define x %(echo".toList, "foo)".toList, "next".toList].take 2)).rdropWhile
            iseol ∧
      ((["%define x %(echo".toList, "foo)".toList, "next".toList] : List (List Char)).getD 1 []
          ≠ [] →
        text = joinLines (["%define x %(echo".toList, "foo)".toList, "next".toList].take 2) ∧
        ∀ c, text.getLast? = some c → iseol c = false) :=
  ⟨by decide, by decide,
    (rdcl_logical_line ["%define x %(echo".toList, "foo)".toList, "next".toList] 100
      (by decide) (by decide)
      (List.chain'_cons.2 ⟨by decide, List.chain'_cons.2 ⟨by decide, List.chain'_singleton _⟩⟩)).1
      1 (by decide) (by decide)
      (fun j hj => by
        have : j = 0 := by omega
        subst this
        decide)⟩

set_option maxRecDepth 1000000 in
/-- C26 as stated fails: of the lines `%{`, an empty line and `foo}` the
logical line is made of the first two, though they leave the `%{` open: the
third line stays in the file, where the shortest run that closes the `%{` is
made of all three. -/
theorem rdcl_counterexample :
    (rdcl 100 (some (fileOf ['%' :: ['{'], [], "foo".toList ++ ['}']]))).2
      = fileOf ["foo".toList ++ ['}']] ∧
    (rdcl 100 (some (fileOf ['%' :: ['{'], [], "foo".toList ++ ['}']]))).1.map
        (List.rdropWhile iseol) = some ['%', '{'] ∧
    ¬ EndsRun ['%' :: ['{']] ∧
    openCounts (joinLines ['%' :: ['{'], []]) = (1, 0) ∧
    EndsRun ['%' :: ['{'], [], "foo".toList ++ ['}']] := by
  decide

/-! ## `matchchar` and the balance of openers and closers -/

theorem balMarks_zero (m : Int) (ms : List Int) (lvl : Int) :
    BalMarks (m :: ms) lvl 0 ↔ (m = -1 ∧ lvl + m = 0) := by
  simp [BalMarks]

theorem balMarks_succ (m : Int) (ms : List Int) (lvl : Int) (k : Nat) :
    BalMarks (m :: ms) lvl (k + 1) ↔ BalMarks ms (lvl + m) k := by
  simp [BalMarks, List.take_succ_cons, Int.add_assoc]

theorem balMarks_nil (lvl : Int) (k : Nat) : ¬ BalMarks [] lvl k := by
  simp [BalMarks]

/-- The loop of `matchchar`, entered at a level of 1 or more: it stops at the
first closer at which the level comes down to 0; when there is none it gives
NULL, or runs over the terminator when the text ends in an unescaped
backslash. -/
theorem matchcharFrom_spec (pl pr : Char) (hne : pl ≠ pr) (hpl : pl ≠ '\\') (hpr : pr ≠ '\\') :
    ∀ (n : Nat) (s : List Char), s.length ≤ n → ∀ (lvl : Int), 1 ≤ lvl →
      (∀ k, BalMarks (bracketMarks pl pr false s) lvl k →
        (∀ j, j < k → ¬ BalMarks (bracketMarks pl pr false s) lvl j) →
        matchcharFrom pl pr s lvl = .found (s.drop k)) ∧
      ((∀ k, ¬ BalMarks (bracketMarks pl pr false s) lvl k) →
        matchcharFrom pl pr s lvl
          = if endsEscaping false s = true then .overrun else .null) := by
  intro n
  induction n with
  | zero =>
    intro s hs lvl _
    have : s = [] := List.length_eq_zero.1 (Nat.le_zero.1 hs)
    subst this
    exact ⟨fun k hk _ => absurd hk (balMarks_nil lvl k), fun _ => rfl⟩
  | succ n ih =>
    intro s hs lvl hlvl
    cases s with
    | nil => exact ⟨fun k hk _ => absurd hk (balMarks_nil lvl k), fun _ => rfl⟩
    | cons c t =>
      have ht : t.length ≤ n := by simp at hs; omega
      by_cases hc1 : c = '\\'
      · subst hc1
        cases t with
        | nil =>
          refine ⟨fun k hk _ => ?_, fun _ => ?_⟩
          · exfalso
            cases k with
            | zero => simp [BalMarks, bracketMarks] at hk
            | succ k => simp [BalMarks, bracketMarks] at hk
          · simp [matchcharFrom, endsEscaping]
        | cons x t2 =>
          have ht2 : t2.length ≤ n := by simp at ht; omega
          obtain ⟨i1, i2⟩ := ih t2 ht2 lvl hlvl
          have hm : bracketMarks pl pr false ('\\' :: x :: t2)
              = 0 :: 0 :: bracketMarks pl pr false t2 := by
            simp [bracketMarks]
          have hcode : matchcharFrom pl pr ('\\' :: x :: t2) lvl = matchcharFrom pl pr t2 lvl := by
            rw [matchcharFrom.eq_def]; simp
          have hesc : endsEscaping false ('\\' :: x :: t2) = endsEscaping false t2 := by
            simp [endsEscaping]
          rw [hm, hcode, hesc]
          constructor
          · intro k hk hfirst
            cases k with
            | zero => simp [BalMarks] at hk
            | succ k =>
              cases k with
              | zero => simp [BalMarks] at hk
              | succ k =>
                rw [balMarks_succ, balMarks_succ] at hk
                simp only [Int.add_zero] at hk
                rw [i1 k hk (fun j hj => by
                  have := hfirst (j + 2) (by omega)
                  rw [balMarks_succ, balMarks_succ] at this
                  simpa using this)]
                rfl
          · intro hno
            exact i2 (fun k hk => hno (k + 2) (by
              rw [balMarks_succ, balMarks_succ]; simpa using hk))
      · by_cases hc2 : c = pr
        · subst hc2
          have hm : bracketMarks pl c false (c :: t) = -1 :: bracketMarks pl c false t := by
            simp [bracketMarks, hc1]
          rw [hm]
          by_cases h1 : lvl = 1
          · subst h1
            have hcode : matchcharFrom pl c (c :: t) 1 = .found (c :: t) := by
              rw [matchcharFrom.eq_def]; simp [hc1]
            rw [hcode]
            constructor
            · intro k hk hfirst
              cases k with
              | zero => rfl
              | succ k =>
                exact absurd ((balMarks_zero _ _ _).2 ⟨rfl, by decide⟩) (hfirst 0 (Nat.succ_pos _))
            · intro hno
              exact absurd ((balMarks_zero _ _ _).2 ⟨rfl, by decide⟩) (hno 0)
          · have hl2 : 1 ≤ lvl - 1 := by omega
            obtain ⟨i1, i2⟩ := ih t ht (lvl - 1) hl2
            have hcode : matchcharFrom pl c (c :: t) lvl = matchcharFrom pl c t (lvl - 1) := by
              rw [matchcharFrom.eq_def]
              simp only [hc1, if_false, if_true]
              rw [if_neg (by omega)]
            have hesc : endsEscaping false (c :: t) = endsEscaping false t := by
              have hb : (c == '\\') = false := beq_eq_false_iff_ne.2 hc1
              simp [endsEscaping, hb]
            rw [hcode, hesc]
            have e : lvl + -1 = lvl - 1 := by omega
            constructor
            · intro k hk hfirst
              cases k with
              | zero =>
                rw [balMarks_zero] at hk
                omega
              | succ k =>
                rw [balMarks_succ, e] at hk
                rw [i1 k hk (fun j hj => by
                  have := hfirst (j + 1) (by omega)
                  rw [balMarks_succ, e] at this
                  exact this)]
                rfl
            · intro hno
              exact i2 (fun k hk => hno (k + 1) (by rw [balMarks_succ, e]; exact hk))
        · have hesc : endsEscaping false (c :: t) = endsEscaping false t := by
            have hb : (c == '\\') = false := beq_eq_false_iff_ne.2 hc1
            simp [endsEscaping, hb]
          by_cases hc3 : c = pl
          · subst hc3
            have hm : bracketMarks c pr false (c :: t) = 1 :: bracketMarks c pr false t := by
              simp [bracketMarks, hc1, hc2]
            obtain ⟨i1, i2⟩ := ih t ht (lvl + 1) (by omega)
            have hcode : matchcharFrom c pr (c :: t) lvl = matchcharFrom c pr t (lvl + 1) := by
              rw [matchcharFrom.eq_def]
              simp only [hc1, hc2, if_false, if_true]
            rw [hm, hcode, hesc]
            constructor
            · intro k hk hfirst
              cases k with
              | zero => simp [BalMarks] at hk
              | succ k =>
                rw [balMarks_succ] at hk
                rw [i1 k hk (fun j hj => by
                  have := hfirst (j + 1) (by omega)
                  rw [balMarks_succ] at this
                  exact this)]
                rfl
            · intro hno
              exact i2 (fun k hk => hno (k + 1) (by rw [balMarks_succ]; exact hk))
          · have hm : bracketMarks pl pr false (c :: t) = 0 :: bracketMarks pl pr false t := by
              simp [bracketMarks, hc1, hc2, hc3]
            obtain ⟨i1, i2⟩ := ih t ht lvl hlvl
            have hcode : matchcharFrom pl pr (c :: t) lvl = matchcharFrom pl pr t lvl := by
              rw [matchcharFrom.eq_def]
              simp only [hc1, hc2, hc3, if_false]
            rw [hm, hcode, hesc]
            constructor
            · intro k hk hfirst
              cases k with
              | zero => simp [BalMarks] at hk
              | succ k =>
                rw [balMarks_succ] at hk
                simp only [Int.add_zero] at hk
                rw [i1 k hk (fun j hj => by
                  have := hfirst (j + 1) (by omega)
                  rw [balMarks_succ] at this
                  simpa using this)]
                rfl
            · intro hno
              exact i2 (fun k hk => hno (k + 1) (by rw [balMarks_succ]; simpa using hk))

/-- What `matchchar` returns for a text that begins with the opener: the
first closer at which openers and closers balance; NULL when there is none,
unless the text ends in an unescaped backslash: then the scan runs over the
terminator. -/
theorem matchchar_spec (pl pr : Char) (hne : pl ≠ pr) (hpl : pl ≠ '\\') (hpr : pr ≠ '\\')
    (rest : List Char) :
    (∀ k, BalancedAt pl pr (pl :: rest) k →
      (∀ j, j < k → ¬ BalancedAt pl pr (pl :: rest) j) →
      matchchar (pl :: rest) pl pr = .found ((pl :: rest).drop k)) ∧
    ((∀ k, ¬ BalancedAt pl pr (pl :: rest) k) →
      matchchar (pl :: rest) pl pr
        = if endsEscaping false (pl :: rest) = true then .overrun else .null) := by
  obtain ⟨i1, i2⟩ := matchcharFrom_spec pl pr hne hpl hpr rest.length rest (Nat.le_refl _) 1
    (Int.le_refl _)
  have hm : bracketMarks pl pr false (pl :: rest) = 1 :: bracketMarks pl pr false rest := by
    simp [bracketMarks, hpl, hne]
  have hcode : matchchar (pl :: rest) pl pr = matchcharFrom pl pr rest 1 := by
    unfold matchchar
    rw [matchcharFrom.eq_def]
    simp only [hpl, hne, if_false, if_true]
    rfl
  have hesc : endsEscaping false (pl :: rest) = endsEscaping false rest := by
    have hb : (pl == '\\') = false := beq_eq_false_iff_ne.2 hpl
    simp [endsEscaping, hb]
  have hshift : ∀ k, BalancedAt pl pr (pl :: rest) (k + 1)
      ↔ BalMarks (bracketMarks pl pr false rest) 1 k := by
    intro k
    unfold BalancedAt
    rw [hm, balMarks_succ]
    rfl
  have hzero : ¬ BalancedAt pl pr (pl :: rest) 0 := by
    unfold BalancedAt
    rw [hm, balMarks_zero]
    intro h
    exact absurd h.1 (by decide)
  rw [hcode, hesc]
  constructor
  · intro k hk hfirst
    cases k with
    | zero => exact absurd hk hzero
    | succ k =>
      rw [i1 k ((hshift k).1 hk) (fun j hj h => hfirst (j + 1) (by omega) ((hshift j).2 h))]
      rfl
  · intro hno
    exact i2 (fun k hk => hno (k + 1) ((hshift k).2 hk))

/-- C27. For every text that begins with the opener `pl` (`pl` and `pr`
different, neither a backslash): `matchchar` returns the position of the
first closer `pr` at which the openers and closers seen so far balance, a
character that directly follows an unescaped backslash counting as neither;
when the text has no such position it returns NULL, unless the text ends in
an unescaped backslash. There the scan steps over the terminator: for the
text `{ab\`, which holds no closer, the result is not NULL. -/
theorem matchchar_balance (pl pr : Char) (hne : pl ≠ pr) (hpl : pl ≠ '\\') (hpr : pr ≠ '\\')
    (rest : List Char) :
    (∀ k, BalancedAt pl pr (pl :: rest) k →
      (∀ j, j < k → ¬ BalancedAt pl pr (pl :: rest) j) →
      matchchar (pl :: rest) pl pr = .found ((pl :: rest).drop k)) ∧
    ((∀ k, ¬ BalancedAt pl pr (pl :: rest) k) → endsEscaping false (pl :: rest) = false →
      matchchar (pl :: rest) pl pr = .null) ∧
    ('}' ∉ '{' :: "ab\\".toList ∧ matchchar ('{' :: "ab\\".toList) '{' '}' = .overrun) := by
  obtain ⟨h1, h2⟩ := matchchar_spec pl pr hne hpl hpr rest
  refine ⟨h1, fun hno hesc => ?_, by decide, by decide⟩
  rw [h2 hno, hesc]
  rfl

theorem matchchar_balance_witness :
    BalancedAt '(' ')' ('(' :: "a(b\\)c)d)e".toList) 9 ∧
    matchchar ('(' :: "a(b\\)c)d)e".toList) '(' ')'
      = .found (('(' :: "a(b\\)c)d)e".toList).drop 9) ∧
    ('(' :: "a(b\\)c)d)e".toList).drop 9 = ")e".toList :=
  ⟨by decide,
    (matchchar_balance '(' ')' (by decide) (by decide) (by decide) "a(b\\)c)d)e".toList).1 9
      (by decide) (by decide),
    by decide⟩

/-- C29. A text that begins with the opener and goes on without backslash,
opener or closer up to a backslash that ends it: `matchchar` skips the
character behind the backslash, which is the terminator, and goes on reading
behind it; it does not return NULL at the terminator. -/
theorem matchchar_overrun (pl pr : Char) (hne : pl ≠ pr) (hpl : pl ≠ '\\') (u : List Char)
    (hu : ∀ c ∈ u, c ≠ '\\' ∧ c ≠ pr ∧ c ≠ pl) :
    matchchar (pl :: (u ++ ['\\'])) pl pr = .overrun ∧
    matchchar (pl :: (u ++ ['\\'])) pl pr ≠ .null := by
  have h : matchchar (pl :: (u ++ ['\\'])) pl pr = .overrun := by
    unfold matchchar
    rw [matchcharFrom.eq_def]
    simp only [hpl, hne, if_false, if_true]
    rw [matchcharFrom_plain pl pr _ _ u hu, matchcharFrom.eq_def]
    simp
  rw [h]
  exact ⟨rfl, by decide⟩

theorem matchchar_overrun_witness :
    matchchar ('{' :: ("ab".toList ++ ['\\'])) '{' '}' = .overrun ∧
    matchchar ('{' :: ("ab".toList ++ ['\\'])) '{' '}' ≠ .null :=
  matchchar_overrun '{' '}' (by decide) (by decide) "ab".toList (by decide)

theorem reached_inv (mc : rpmMacroContext) (h : Reached mc) : TableInv mc := by
  induction h with
  | empty => exact TableInv.empty
  | add mc n o b level _ ih => exact TableInv.addMacro mc ih n o b level
  | del mc n _ ih => exact TableInv.delMacro mc ih n
  | free mb _ ih => exact (freeArgs_spec mb ih).1

/-- The names defined in a table in shape are the names of its slots. -/
theorem stackOf_defined (mc : rpmMacroContext) (h : TableInv mc) (n : List Char) :
    stackOf mc n ≠ [] ↔ n ∈ mc.live.map slotName := by
  constructor
  · intro hne
    cases hf : findEntry mc n 0 with
    | none => exact absurd (by unfold stackOf; rw [hf]) hne
    | some i =>
      obtain ⟨hi, e, rest, hs, hname⟩ := findEntry_some mc n 0 i hf
      simp only [gt_iff_lt, Nat.lt_irrefl, if_false] at hname
      refine List.mem_map.2 ⟨mc.macroTable.getD i [], getD_mem_live mc h.le i hi, ?_⟩
      rw [hs]
      exact hname
  · intro hn
    obtain ⟨s, hs, rfl⟩ := List.mem_map.1 hn
    rw [stackOf_mem mc h s hs]
    exact h.used s hs

/-- C28. After every sequence of `addMacro`, `delMacro` and `freeArgs` calls
from the empty context: the slots with an index below `firstFree` are not
empty and stand in strictly ascending byte order of their names, so the names
are pairwise distinct; the names defined are the names of those slots, and
`firstFree` is their number. -/
theorem table_shape (mc : rpmMacroContext) (h : Reached mc) :
    mc.firstFree ≤ mc.macroTable.length ∧
    (∀ i, i < mc.firstFree → mc.macroTable.getD i [] ≠ []) ∧
    (∀ i j, i < j → j < mc.firstFree →
      strcmp (slotName (mc.macroTable.getD i [])) (slotName (mc.macroTable.getD j [])) < 0) ∧
    ((mc.macroTable.take mc.firstFree).map slotName).Nodup ∧
    (∀ n, stackOf mc n ≠ [] ↔ n ∈ (mc.macroTable.take mc.firstFree).map slotName) ∧
    ((mc.macroTable.take mc.firstFree).map slotName).length = mc.firstFree := by
  have hinv := reached_inv mc h
  refine ⟨hinv.le, ?_, ?_, ?_, ?_, ?_⟩
  · intro i hi
    exact hinv.used _ (getD_mem_live mc hinv.le i hi)
  · intro i j hij hj
    exact TableInv.lt mc hinv i j hij hj
  · have hs : (mc.live.map slotName).Pairwise (fun a b => strcmp a b < 0) :=
      (List.pairwise_map).2 hinv.sorted
    exact hs.imp (fun {a b} hab e => by
      rw [e] at hab
      exact strcmp_irrefl _ hab)
  · exact stackOf_defined mc hinv
  · rw [List.length_map]
    exact live_length mc hinv.le

set_option maxRecDepth 1000000 in
theorem table_shape_witness :
    Reached (freeArgs { initialBuf (delMacro (addMacro (addMacro (addMacro emptyContext
        "zzz".toList none "1".toList 0) "aaa".toList none "2".toList 1)
        "mmm".toList none "3".toList 0) "mmm".toList) with depth := 1 }).mc ∧
    (freeArgs { initialBuf (delMacro (addMacro (addMacro (addMacro emptyContext
        "zzz".toList none "1".toList 0) "aaa".toList none "2".toList 1)
        "mmm".toList none "3".toList 0) "mmm".toList) with depth := 1 }).mc.firstFree = 1 ∧
    ((freeArgs { initialBuf (delMacro (addMacro (addMacro (addMacro emptyContext
        "zzz".toList none "1".toList 0) "aaa".toList none "2".toList 1)
        "mmm".toList none "3".toList 0) "mmm".toList) with depth := 1 }).mc.macroTable.take
      1).map slotName = ["zzz".toList] ∧
    (∀ n, stackOf (freeArgs { initialBuf (delMacro (addMacro (addMacro (addMacro emptyContext
        "zzz".toList none "1".toList 0) "aaa".toList none "2".toList 1)
        "mmm".toList none "3".toList 0) "mmm".toList) with depth := 1 }).mc n ≠ [] ↔
      n ∈ ((freeArgs { initialBuf (delMacro (addMacro (addMacro (addMacro emptyContext
        "zzz".toList none "1".toList 0) "aaa".toList none "2".toList 1)
        "mmm".toList none "3".toList 0) "mmm".toList) with depth := 1 }).mc.macroTable.take
        (freeArgs { initialBuf (delMacro (addMacro (addMacro (addMacro emptyContext
        "zzz".toList none "1".toList 0) "aaa".toList none "2".toList 1)
        "mmm".toList none "3".toList 0) "mmm".toList) with depth := 1 }).mc.firstFree).map
          slotName) :=
  by
    have h1 := Reached.add emptyContext "zzz".toList none "1".toList 0 Reached.empty
    have h2 := Reached.add _ "aaa".toList none "2".toList 1 h1
    have h3 := Reached.add _ "mmm".toList none "3".toList 0 h2
    have h4 := Reached.del _ "mmm".toList h3
    have h5 := Reached.free
      { initialBuf (delMacro (addMacro (addMacro (addMacro emptyContext
          "zzz".toList none "1".toList 0) "aaa".toList none "2".toList 1)
          "mmm".toList none "3".toList 0) "mmm".toList) with depth := 1 } h4
    exact ⟨h5, by decide, by decide, (table_shape _ h5).2.2.2.2.1⟩

/-! ## Termination -/

theorem rc_zero_ne : (0 : Int) ≠ 2 := by decide

theorem rc_one_ne : (1 : Int) ≠ 2 := by decide

theorem expandThis_agree (r1 r2 : Expander) (mb : MacroBuf) (H : AgreeAt mb.depth r1 r2)
    (src : List Char) (slen : Nat) : expandThis r1 mb src slen = expandThis r2 mb src slen := by
  unfold expandThis
  simp only [(H { mb with buf := [] } src slen rfl).1]

theorem expandThis_rc (r1 r2 : Expander) (mb : MacroBuf) (H : AgreeAt mb.depth r1 r2)
    (src : List Char) (slen : Nat) : (expandThis r1 mb src slen).2.1 ≠ 2 :=
  (H { mb with buf := [] } src slen rfl).2

theorem doShellEscape_agree (env : Env) (r1 r2 : Expander) (mb : MacroBuf)
    (H : AgreeAt mb.depth r1 r2) (cmd : List Char) (clen : Nat) :
    doShellEscape env r1 mb cmd clen = doShellEscape env r2 mb cmd clen := by
  unfold doShellEscape
  simp only [expandThis_agree r1 r2 mb H]

theorem doShellEscape_rc (env : Env) (r1 r2 : Expander) (mb : MacroBuf)
    (H : AgreeAt mb.depth r1 r2) (cmd : List Char) (clen : Nat) :
    (doShellEscape env r1 mb cmd clen).2 ≠ 2 := by
  unfold doShellEscape
  simp only []
  split
  · exact expandThis_rc r1 r2 mb H cmd clen
  · split
    · exact rc_one_ne
    · exact rc_zero_ne

theorem doDefine_agree (r1 r2 : Expander) (mb : MacroBuf) (H : AgreeAt mb.depth r1 r2)
    (se : List Char) (level : Int) (eb : Bool) :
    doDefine r1 mb se level eb = doDefine r2 mb se level eb := by
  unfold doDefine
  simp only [expandThis_agree r1 r2 mb H]

theorem doOutput_agree (r1 r2 : Expander) (mb : MacroBuf) (H : AgreeAt mb.depth r1 r2)
    (msg : List Char) (msglen : Nat) : doOutput r1 mb msg msglen = doOutput r2 mb msg msglen := by
  unfold doOutput
  simp only [expandThis_agree r1 r2 mb H]

theorem doFoo_agree (env : Env) (r1 r2 : Expander) (mb : MacroBuf) (H : AgreeAt mb.depth r1 r2)
    (negate : Bool) (f : List Char) (fn : Nat) (g : Option (List Char)) (gn : Nat) :
    doFoo env r1 mb negate f fn g gn = doFoo env r2 mb negate f fn g gn := by
  unfold doFoo
  cases g with
  | none =>
    simp only []
    cases fooResult env negate f fn [] with
    | none => rfl
    | some b => exact congrArg Prod.fst (H mb b 0 rfl).1
  | some g =>
    simp only [expandThis_agree r1 r2 mb H]
    cases fooResult env negate f fn (expandThis r2 mb g gn).2.2 with
    | none => rfl
    | some b => exact congrArg Prod.fst (H (expandThis r2 mb g gn).1 b 0 rfl).1

theorem expandCond_agree (r1 r2 : Expander) (mb : MacroBuf) (H : AgreeAt mb.depth r1 r2)
    (r : MacroRef) (me : Option rpmMacroEntry) :
    expandCond r1 mb r me = expandCond r2 mb r me := by
  have he : ∀ s n, r1 mb s n = r2 mb s n := fun s n => (H mb s n rfl).1
  unfold expandCond
  simp only [he]

theorem expandCond_rc (r1 r2 : Expander) (mb : MacroBuf) (H : AgreeAt mb.depth r1 r2)
    (r : MacroRef) (me : Option rpmMacroEntry) : (expandCond r1 mb r me).2.1 ≠ 2 := by
  unfold expandCond
  split
  · exact rc_zero_ne
  · split
    · exact (H mb _ _ rfl).2
    · split
      · split
        · exact (H mb _ _ rfl).2
        · exact rc_zero_ne
      · exact rc_zero_ne

theorem bodyStage_agree (r1 r2 : Expander) (d : Int) (H : AgreeAt d r1 r2) (me : rpmMacroEntry)
    (a : MacroBuf) (ha : a.depth = d) :
    (if me.body ≠ [] then
        (if ¬ isLive (r1 a me.body 0).1.mc me.id = true then
          ({ (r1 a me.body 0).1 with fault := true }, (r1 a me.body 0).2)
        else if (r1 a me.body 0).2 = 0 then
          ({ (r1 a me.body 0).1 with mc := markUsed (r1 a me.body 0).1.mc me.id },
            (r1 a me.body 0).2)
        else r1 a me.body 0)
      else (a, (0 : Int))) =
    (if me.body ≠ [] then
        (if ¬ isLive (r2 a me.body 0).1.mc me.id = true then
          ({ (r2 a me.body 0).1 with fault := true }, (r2 a me.body 0).2)
        else if (r2 a me.body 0).2 = 0 then
          ({ (r2 a me.body 0).1 with mc := markUsed (r2 a me.body 0).1.mc me.id },
            (r2 a me.body 0).2)
        else r2 a me.body 0)
      else (a, (0 : Int))) := by
  rw [(H a me.body 0 ha).1]

theorem bodyStage_rc (r1 r2 : Expander) (d : Int) (H : AgreeAt d r1 r2) (me : rpmMacroEntry)
    (a : MacroBuf) (ha : a.depth = d) :
    (if me.body ≠ [] then
        (if ¬ isLive (r1 a me.body 0).1.mc me.id = true then
          ({ (r1 a me.body 0).1 with fault := true }, (r1 a me.body 0).2)
        else if (r1 a me.body 0).2 = 0 then
          ({ (r1 a me.body 0).1 with mc := markUsed (r1 a me.body 0).1.mc me.id },
            (r1 a me.body 0).2)
        else r1 a me.body 0)
      else (a, (0 : Int))).2 ≠ 2 := by
  have hx := (H a me.body 0 ha).2
  by_cases hb : me.body ≠ []
  · simp only [if_pos hb]
    by_cases hl : ¬ isLive (r1 a me.body 0).1.mc me.id = true
    · simp only [if_pos hl]; exact hx
    · simp only [if_neg hl]
      by_cases h0 : (r1 a me.body 0).2 = 0
      · simp only [if_pos h0]; exact hx
      · simp only [if_neg h0]; exact hx
  · simp only [if_neg hb]; exact rc_zero_ne

theorem expandBody_agree (env : Env) (r1 r2 : Expander) (mb : MacroBuf)
    (H : AgreeAt mb.depth r1 r2) (r : MacroRef) (me : rpmMacroEntry) :
    expandBody env r1 mb r me = expandBody env r2 mb r me := by
  unfold expandBody
  cases ho : me.opts.isSome
  · simp only [Bool.false_eq_true, if_false]
    exact congrArg (fun b : MacroBuf × Int => (b.1, b.2, r.se))
      (bodyStage_agree r1 r2 mb.depth H me mb rfl)
  · simp only [if_true]
    cases hl : r.lastc with
    | none =>
      simp only []
      exact congrArg (fun b : MacroBuf × Int => (freeArgs b.1, b.2, r.se))
        (bodyStage_agree r1 r2 mb.depth H me
        { mb with
          mc := addMacro (addMacro (addMacro (addMacro mb.mc ['*', '*'] none []
            mb.depth) ['*'] none [] mb.depth) ['#'] none ['0'] mb.depth) ['0'] none me.name
            mb.depth } rfl)
    | some lastc =>
      simp only []
      exact congrArg
        (fun b : MacroBuf × Int => (freeArgs b.1, b.2, (grabArgs env mb me r.fe lastc).2))
        (bodyStage_agree r1 r2 mb.depth H me (grabArgs env mb me r.fe lastc).1
          (grabArgs_depth env mb me r.fe lastc))

theorem expandBody_rc (env : Env) (r1 r2 : Expander) (mb : MacroBuf)
    (H : AgreeAt mb.depth r1 r2) (r : MacroRef) (me : rpmMacroEntry) :
    (expandBody env r1 mb r me).2.1 ≠ 2 := by
  unfold expandBody
  cases ho : me.opts.isSome
  · simp only [Bool.false_eq_true, if_false]
    exact bodyStage_rc r1 r2 mb.depth H me mb rfl
  · simp only [if_true]
    cases hl : r.lastc with
    | none =>
      simp only []
      exact bodyStage_rc r1 r2 mb.depth H me
        { mb with
          mc := addMacro (addMacro (addMacro (addMacro mb.mc ['*', '*'] none []
            mb.depth) ['*'] none [] mb.depth) ['#'] none ['0'] mb.depth) ['0'] none me.name
            mb.depth } rfl
    | some lastc =>
      simp only []
      exact bodyStage_rc r1 r2 mb.depth H me (grabArgs env mb me r.fe lastc).1
          (grabArgs_depth env mb me r.fe lastc)

theorem expandDefined_agree (env : Env) (r1 r2 : Expander) (mb : MacroBuf)
    (H : AgreeAt mb.depth r1 r2) (s : List Char) (r : MacroRef) :
    expandDefined env r1 mb s r = expandDefined env r2 mb s r := by
  unfold expandDefined
  simp only []
  by_cases h9 : peek r.f = '-'
  · simp only [h9, if_true]
    cases lookup mb.mc r.f r.fn with
    | none => exact expandCond_agree r1 r2 mb H r _
    | some e => exact expandCond_agree r1 r2 { mb with mc := markUsed mb.mc e.id } H r _
  simp only [h9, if_false]
  by_cases h10 : r.chkexist ≠ 0
  · simp only [h10, if_true, ne_eq, not_false_eq_true]
    exact expandCond_agree r1 r2 mb H r _
  simp only [h10, if_false]
  cases lookup mb.mc r.f r.fn with
  | none => rfl
  | some e => exact expandBody_agree env r1 r2 mb H r e

theorem expandDefined_rc (env : Env) (r1 r2 : Expander) (mb : MacroBuf)
    (H : AgreeAt mb.depth r1 r2) (s : List Char) (r : MacroRef) :
    (expandDefined env r1 mb s r).2.1 ≠ 2 := by
  unfold expandDefined
  simp only []
  by_cases h9 : peek r.f = '-'
  · simp only [h9, if_true]
    cases lookup mb.mc r.f r.fn with
    | none => exact expandCond_rc r1 r2 mb H r _
    | some e => exact expandCond_rc r1 r2 { mb with mc := markUsed mb.mc e.id } H r _
  simp only [h9, if_false]
  by_cases h10 : r.chkexist ≠ 0
  · simp only [h10, if_true, ne_eq, not_false_eq_true]
    exact expandCond_rc r1 r2 mb H r _
  simp only [h10, if_false]
  cases lookup mb.mc r.f r.fn with
  | none => exact rc_zero_ne
  | some e => exact expandBody_rc env r1 r2 mb H r e

theorem expandRef_agree (env : Env) (r1 r2 : Expander) (mb : MacroBuf)
    (H : AgreeAt mb.depth r1 r2) (s : List Char) (r : MacroRef) :
    expandRef env r1 mb s r = expandRef env r2 mb s r := by
  unfold expandRef
  simp only [doDefine_agree r1 r2 mb H, doOutput_agree r1 r2 mb H, doFoo_agree env r1 r2 mb H,
    expandDefined_agree env r1 r2 mb H]

theorem expandRef_rc (env : Env) (r1 r2 : Expander) (mb : MacroBuf)
    (H : AgreeAt mb.depth r1 r2) (s : List Char) (r : MacroRef) :
    (expandRef env r1 mb s r).2.1 ≠ 2 := by
  unfold expandRef
  by_cases h1 : STREQ "global" r.f r.fn = true
  · simp only [h1, if_true]; exact rc_zero_ne
  simp only [h1, Bool.false_eq_true, if_false]
  by_cases h2 : STREQ "define" r.f r.fn = true
  · simp only [h2, if_true]; exact rc_zero_ne
  simp only [h2, Bool.false_eq_true, if_false]
  by_cases h3 : STREQ "undefine" r.f r.fn = true
  · simp only [h3, if_true]; exact rc_zero_ne
  simp only [h3, Bool.false_eq_true, if_false]
  by_cases h4 : (STREQ "echo" r.f r.fn || STREQ "warn" r.f r.fn || STREQ "error" r.f r.fn) = true
  · simp only [h4, if_true]
    by_cases h4a : r.g.isSome = true ∧ r.gn > 0
    · simp only [h4a, and_self, if_true]; exact rc_zero_ne
    · simp only [h4a, if_false]; exact rc_zero_ne
  simp only [h4, Bool.false_eq_true, if_false]
  by_cases h5 : STREQ "trace" r.f r.fn = true
  · simp only [h5, if_true]; exact rc_zero_ne
  simp only [h5, Bool.false_eq_true, if_false]
  by_cases h6 : STREQ "dump" r.f r.fn = true
  · simp only [h6, if_true]; exact rc_zero_ne
  simp only [h6, Bool.false_eq_true, if_false]
  by_cases h7 : env.rpmluaRunScript.isSome = true ∧ STREQ "lua" r.f r.fn = true
  · simp only [h7, and_self, if_true]
    cases hl : env.rpmluaRunScript with
    | none => exact rc_zero_ne
    | some run =>
      simp only []
      by_cases h7a : s.length < r.se.length + 6
      · simp only [h7a, if_true]; exact rc_one_ne
      · simp only [h7a, if_false]
        cases (run ((s.drop 5).take (s.length - 5 - (r.se.length + 1)))).1
        · exact rc_one_ne
        · exact rc_zero_ne
  simp only [h7, if_false]
  by_cases h8 : isFoo r.f r.fn = true
  · simp only [h8, if_true]; exact rc_zero_ne
  simp only [h8, Bool.false_eq_true, if_false]
  exact expandDefined_rc env r1 r2 mb H s r

theorem expandStep_agree (env : Env) (r1 r2 : Expander) (mb : MacroBuf)
    (H : AgreeAt mb.depth r1 r2) (c : Char) (s : List Char) :
    expandStep env r1 mb c s = expandStep env r2 mb c s := by
  unfold expandStep
  simp only [doShellEscape_agree env r1 r2 mb H, expandRef_agree env r1 r2 mb H]

theorem expandStep_rc (env : Env) (r1 r2 : Expander) (mb : MacroBuf)
    (H : AgreeAt mb.depth r1 r2) (c : Char) (s : List Char) :
    (expandStep env r1 mb c s).2.1 ≠ 2 := by
  unfold expandStep
  split
  · exact rc_zero_ne
  · split
    · exact rc_zero_ne
    · split
      · exact rc_zero_ne
      · split
        · exact rc_zero_ne
        · exact rc_one_ne
        · exact rc_one_ne
        · exact doShellEscape_rc env r1 r2 mb H _ _
        · exact expandRef_rc env r1 r2 mb H s _

/-- The loop gives the same with two expanders that agree at its depth, and
with fuel above the length of the text it does not run out. -/
theorem expandLoop_agree (env : Env) (r1 r2 : Expander) (hk : KeepsDepth r1) (d : Int)
    (H : AgreeAt d r1 r2) :
    ∀ (fuel : Nat) (mb : MacroBuf) (s : List Char), mb.depth = d →
      expandLoop env r1 fuel mb s = expandLoop env r2 fuel mb s ∧
      (s.length < fuel → (expandLoop env r1 fuel mb s).2 ≠ 2) := by
  intro fuel
  induction fuel with
  | zero =>
    intro mb s _
    cases s with
    | nil => exact ⟨rfl, fun h => absurd h (Nat.lt_irrefl 0)⟩
    | cons c s => exact ⟨rfl, fun h => absurd h (Nat.not_lt_zero _)⟩
  | succ n ih =>
    intro mb s hd
    cases s with
    | nil => exact ⟨rfl, fun _ => rc_zero_ne⟩
    | cons c s =>
      subst hd
      have he := expandStep_agree env r1 r2 mb H c s
      have hr := expandStep_rc env r1 r2 mb H c s
      have hdep := expandStep_depth env r1 hk mb c s
      have hlen := expandStep_length env r1 mb c s
      have hi := ih (expandStep env r1 mb c s).1 (expandStep env r1 mb c s).2.2 hdep
      simp only [expandLoop]
      rw [← he]
      by_cases h0 : (expandStep env r1 mb c s).2.1 ≠ 0
      · simp only [if_pos h0]
        exact ⟨trivial, fun _ => hr⟩
      · simp only [if_neg h0]
        refine ⟨hi.1, fun hl => hi.2 ?_⟩
        simp only [List.length_cons] at hl
        omega

/-- Entered at depth `d`, the recursion gives the same with every fuel above
`max_macro_depth - d`, and does not run out. -/
theorem expandMacro_agree (env : Env) :
    ∀ (k : Nat) (f1 f2 : Nat) (d : Int), max_macro_depth - d ≤ k → k < f1 → k < f2 →
      AgreeAt d (expandMacro env f1) (expandMacro env f2) := by
  intro k
  induction k with
  | zero =>
    intro f1 f2 d hd h1 h2 mb src slen hmb
    obtain ⟨a, rfl⟩ := Nat.exists_eq_succ_of_ne_zero (Nat.pos_iff_ne_zero.1 h1)
    obtain ⟨b, rfl⟩ := Nat.exists_eq_succ_of_ne_zero (Nat.pos_iff_ne_zero.1 h2)
    have hc : max_macro_depth < mb.depth + 1 := by
      rw [hmb]; simp only [Nat.cast_zero] at hd; omega
    rw [expandMacro_ceiling env a mb src slen hc, expandMacro_ceiling env b mb src slen hc]
    exact ⟨rfl, rc_one_ne⟩
  | succ k ih =>
    intro f1 f2 d hd h1 h2 mb src slen hmb
    obtain ⟨a, rfl⟩ := Nat.exists_eq_succ_of_ne_zero (Nat.pos_iff_ne_zero.1 (Nat.zero_lt_of_lt h1))
    obtain ⟨b, rfl⟩ := Nat.exists_eq_succ_of_ne_zero (Nat.pos_iff_ne_zero.1 (Nat.zero_lt_of_lt h2))
    by_cases hc : max_macro_depth < mb.depth + 1
    · rw [expandMacro_ceiling env a mb src slen hc, expandMacro_ceiling env b mb src slen hc]
      exact ⟨rfl, rc_one_ne⟩
    · have hA : AgreeAt (d + 1) (expandMacro env a) (expandMacro env b) :=
        ih a b (d + 1) (by push_cast at hd; omega) (by omega) (by omega)
      have hl := expandLoop_agree env (expandMacro env a) (expandMacro env b)
        (expandMacro_depth env a) (d + 1) hA
        ((src.take (if slen = 0 then src.length else slen)).length + 1)
        { mb with depth := mb.depth + 1 } (src.take (if slen = 0 then src.length else slen))
        (by show mb.depth + 1 = d + 1; rw [hmb])
      have hc2 : ¬ (mb.depth + 1 > max_macro_depth) := hc
      simp only [expandMacro_succ, if_neg hc2]
      rw [← hl.1]
      exact ⟨rfl, hl.2 (Nat.lt_succ_self _)⟩

/-- C30. The expander terminates, for every text, table and collaborators. A
call entered at depth `d` with fuel above `16 - d` (17 at the top level) does
not run out of it, the value 2 that tells so is not returned, and more fuel
does not change what it gives: the recursion ends by itself. A call either
runs its loop one level deeper, at a depth that is 16 at most, or it is
refused with the value 1. Every turn of the scanning loop, whatever it handles
(a definition, an undefinition, a call with arguments or anything else, and
whatever the nested expansions give), leaves less text to scan than it started
with, so that the loop ends within as many turns as the text has characters. -/
theorem expander_terminates (env : Env) (mb : MacroBuf) (src : List Char) (slen : Nat)
    (fuel : Nat) (h0 : 0 < fuel) (h : max_macro_depth - mb.depth < fuel) :
    (∀ more : Nat,
      expandMacro env (fuel + more) mb src slen = expandMacro env fuel mb src slen) ∧
    (expandMacro env fuel mb src slen).2 ≠ 2 ∧
    (mb.depth + 1 ≤ max_macro_depth ∨
      expandMacro env fuel mb src slen = ({ mb with expand_trace := 1 }, 1)) ∧
    max_macro_depth = 16 ∧
    (∀ (rec : Expander) (mb1 : MacroBuf) (c : Char) (s : List Char),
      (expandStep env rec mb1 c s).2.2.length < (c :: s).length) ∧
    (∀ (rec : Expander) (mb1 : MacroBuf) (s : List Char) (n : Nat), s.length < n →
      expandLoop env rec n mb1 s = expandLoop env rec (s.length + 1) mb1 s) := by
  have hk1 : max_macro_depth - mb.depth ≤ ((max_macro_depth - mb.depth).toNat : Int) :=
    Int.self_le_toNat _
  have hk2 : (max_macro_depth - mb.depth).toNat < fuel := by omega
  refine ⟨fun more => ?_, ?_, ?_, rfl, fun rec mb1 c s => ?_, fun rec mb1 s n hn => ?_⟩
  · exact ((expandMacro_agree env _ (fuel + more) fuel mb.depth hk1 (by omega) hk2)
      mb src slen rfl).1
  · exact ((expandMacro_agree env _ fuel fuel mb.depth hk1 hk2 hk2) mb src slen rfl).2
  · by_cases hc : max_macro_depth < mb.depth + 1
    · right
      obtain ⟨a, rfl⟩ := Nat.exists_eq_succ_of_ne_zero (Nat.pos_iff_ne_zero.1 h0)
      exact expandMacro_ceiling env a mb src slen hc
    · left
      omega
  · have := expandStep_length env rec mb1 c s
    simp only [List.length_cons]
    omega
  · exact expandLoop_fuel env rec n (s.length + 1) mb1 s hn (Nat.lt_succ_self _)

theorem expander_terminates_witness :
    (0 < 17 ∧ max_macro_depth - (initialBuf emptyContext).depth < (17 : Nat)) ∧
    (∀ more : Nat,
      expandMacro quietEnv (17 + more) (initialBuf emptyContext)
        "%define abc(x) 1\n%abc -x\n%undefine abc".toList 0
      = doExpandMacros quietEnv emptyContext "%define abc(x) 1\n%abc -x\n%undefine abc".toList) ∧
    (doExpandMacros quietEnv emptyContext "%define abc(x) 1\n%abc -x\n%undefine abc".toList).2
      ≠ 2 :=
  ⟨⟨by decide, by decide⟩,
   (expander_terminates quietEnv (initialBuf emptyContext)
      "%define abc(x) 1\n%abc -x\n%undefine abc".toList 0 17 (by decide) (by decide)).1,
   (expander_terminates quietEnv (initialBuf emptyContext)
      "%define abc(x) 1\n%abc -x\n%undefine abc".toList 0 17 (by decide) (by decide)).2.1⟩

/-! ## A primitive with an empty argument -/

/-- With the length 0 the expander takes the text up to its terminator: for a
text without `%` the text expanded is all of it. -/
theorem expandThis_whole (env : Env) (fuel : Nat) (mb : MacroBuf) (g : List Char)
    (hg : '%' ∉ g) (hd : mb.depth + 1 ≤ max_macro_depth) :
    expandThis (expandMacro env (fuel + 1)) mb g 0 = (mb, 0, g) := by
  unfold expandThis
  simp only []
  rw [expandMacro_literal env fuel { mb with buf := [] } g hd hg]
  rfl

/-- What `doFoo` does when the length of its argument is 0: the primitive
works on the text from `g` up to the terminator. -/
theorem doFoo_whole (env : Env) (fuel : Nat) (mb : MacroBuf) (negate : Bool) (f : List Char)
    (fn : Nat) (g : List Char) (hg : '%' ∉ g) (hd : mb.depth + 1 ≤ max_macro_depth) :
    doFoo env (expandMacro env (fuel + 1)) mb negate f fn (some g) 0
      = (match fooResult env negate f fn g with
          | some b => (expandMacro env (fuel + 1) mb b 0).1
          | none => mb) := by
  unfold doFoo
  simp only [expandThis_whole env fuel mb g hg hd] <;>
    cases fooResult env negate f fn g <;> rfl

/-- The expansion of a source that is plain text around one reference `%{n:}`
to a primitive of `doFoo`, with nothing between the colon and the brace: the
primitive works on the closing brace and the text after it. -/
theorem expand_foo_whole (env : Env) (mc : rpmMacroContext) (p n q : List Char)
    (hp : '%' ∉ p) (hq : '%' ∉ q) (hs : NameShape n)
    (hpre : (STREQ "global" n n.length || STREQ "define" n n.length ||
      STREQ "undefine" n n.length || STREQ "echo" n n.length || STREQ "warn" n n.length ||
      STREQ "error" n n.length || STREQ "trace" n n.length || STREQ "dump" n n.length ||
      STREQ "lua" n n.length) = false)
    (hfoo : isFoo n n.length = true)
    (res : Option (List Char))
    (hres : fooResult env false (n ++ ':' :: '}' :: q) n.length ('}' :: q) = res)
    (hout : '%' ∉ res.getD []) :
    doExpandMacros env mc (p ++ '%' :: '{' :: (n ++ ':' :: '}' :: q))
      = ({ initialBuf mc with buf := p ++ res.getD [] ++ q }, 0) := by
  have hg : '%' ∉ '}' :: q := by
    simp only [List.mem_cons, not_or]
    exact ⟨by decide, hq⟩
  have hstep := expandStep_foo env (expandMacro env 16) { initialBuf mc with depth := 1 }
    n [] q hs hpre hfoo (fun c hc => absurd hc (List.not_mem_nil c))
  simp only [List.nil_append, List.length_nil] at hstep
  rw [doFoo_whole env 15 _ false _ _ ('}' :: q) hg
    (show (1 : Int) + 1 ≤ max_macro_depth by decide), hres] at hstep
  have hstep2 : expandStep env (expandMacro env 16) { initialBuf mc with depth := 1 } '%'
      ('{' :: (n ++ ':' :: '}' :: q))
      = ({ initialBuf mc with depth := 1, buf := res.getD [] }, 0, q) := by
    rw [hstep]
    cases res with
    | none => rfl
    | some b =>
      simp only [Option.getD_some] at hout ⊢
      show ((expandMacro env (15 + 1) { initialBuf mc with depth := 1 } b 0).1, (0 : Int), q) = _
      rw [expandMacro_literal env 15 _ b (show (1 : Int) + 1 ≤ max_macro_depth by decide) hout]
      rfl
  rw [doExpandMacros_literal_lead env mc p _ hp, doExpandMacros_cons env mc '%' _ q _ hstep2,
    expandLoop_literal_all env _ q _ hq]
  simp [MacroBuf.pre, mbAppendStr, initialBuf]

theorem fooResult_expand (env : Env) (rest buf : List Char) :
    fooResult env false ("expand".toList ++ rest) "expand".toList.length buf = some buf := by
  unfold fooResult
  rw [STREQ_append, if_neg (by decide), STREQ_append, if_neg (by decide), STREQ_append,
    if_neg (by decide), STREQ_append, if_pos (by decide)]

/-- C31. For every text `t` without `%`, in any table. A primitive with a
non-empty argument `a` (free of `%`, backslash and braces) works on exactly
`a`: `%{expand:a}` followed by `t` gives `a` followed by `t`. With nothing
between the colon and the brace the length handed down is 0, which the
expander takes as the request to measure the text itself: the primitive works
on the closing brace and all of `t`. So `%{expand:}` followed by `t` gives `}`,
`t` and `t` again, where `t` alone gives `t`; `%{basename:}` and `%{dirname:}`
give the same when `t` has no `/`; `%{suffix:}` adds nothing when `t` has no
`.`, and otherwise the part of `t` after its last `.`. -/
theorem operator_argument (env : Env) (mc : rpmMacroContext) (t : List Char) (ht : '%' ∉ t) :
    (∀ a : List Char, a ≠ [] → (∀ c ∈ a, c ≠ '%' ∧ c ≠ '\\' ∧ c ≠ '{' ∧ c ≠ '}') →
      doExpandMacros env mc ('%' :: '{' :: ("expand".toList ++ ':' :: (a ++ '}' :: t)))
        = ({ initialBuf mc with buf := a ++ t }, 0)) ∧
    doExpandMacros env mc t = ({ initialBuf mc with buf := t }, 0) ∧
    doExpandMacros env mc ('%' :: '{' :: ("expand".toList ++ ':' :: '}' :: t))
      = ({ initialBuf mc with buf := '}' :: t ++ t }, 0) ∧
    ('/' ∉ t →
      doExpandMacros env mc ('%' :: '{' :: ("basename".toList ++ ':' :: '}' :: t))
        = ({ initialBuf mc with buf := '}' :: t ++ t }, 0) ∧
      doExpandMacros env mc ('%' :: '{' :: ("dirname".toList ++ ':' :: '}' :: t))
        = ({ initialBuf mc with buf := '}' :: t ++ t }, 0)) ∧
    ('.' ∉ t →
      doExpandMacros env mc ('%' :: '{' :: ("suffix".toList ++ ':' :: '}' :: t))
        = ({ initialBuf mc with buf := t }, 0)) ∧
    (∀ a b : List Char, t = a ++ '.' :: b → '.' ∉ b →
      doExpandMacros env mc ('%' :: '{' :: ("suffix".toList ++ ':' :: '}' :: t))
        = ({ initialBuf mc with buf := b ++ t }, 0)) := by
  have hg : '%' ∉ '}' :: t := by
    simp only [List.mem_cons, not_or]
    exact ⟨by decide, ht⟩
  have hW := fun n hs hpre hfoo res h1 h2 =>
    expand_foo_whole env mc [] n t (List.not_mem_nil _) ht hs hpre hfoo res h1 h2
  simp only [List.nil_append] at hW
  refine ⟨fun a hne ha => ?_, ?_, ?_, fun hsl => ⟨?_, ?_⟩, fun hdot => ?_, fun a b hab hb => ?_⟩
  · have := expand_foo env mc [] "expand".toList a t (List.not_mem_nil _) ht
      (parseMacroName_shape (by decide)) (by decide) (by decide) hne ha (some a)
      (fooResult_expand env _ a) (fun h => (ha '%' h).1 rfl)
    simpa using this
  · show expandMacro env (16 + 1) (initialBuf mc) t 0 = _
    rw [expandMacro_literal env 16 _ t (show (0 : Int) + 1 ≤ max_macro_depth by decide) ht]
    rfl
  · exact hW "expand".toList (parseMacroName_shape (by decide)) (by decide) (by decide)
      (some ('}' :: t)) (fooResult_expand env _ _) hg
  · have hn : '/' ∉ '}' :: t := by
      simp only [List.mem_cons, not_or]
      exact ⟨by decide, hsl⟩
    exact hW "basename".toList (parseMacroName_shape (by decide)) (by decide) (by decide)
      (some ('}' :: t)) (fooResult_basename env _ _ none (strrchr_none '/' _ hn)) hg
  · have hn : '/' ∉ '}' :: t := by
      simp only [List.mem_cons, not_or]
      exact ⟨by decide, hsl⟩
    exact hW "dirname".toList (parseMacroName_shape (by decide)) (by decide) (by decide)
      (some ('}' :: t)) (fooResult_dirname env _ _ none (strrchr_none '/' _ hn)) hg
  · have hn : '.' ∉ '}' :: t := by
      simp only [List.mem_cons, not_or]
      exact ⟨by decide, hdot⟩
    have := hW "suffix".toList (parseMacroName_shape (by decide)) (by decide) (by decide)
      none (fooResult_suffix env _ _ none (strrchr_none '.' _ hn)) (List.not_mem_nil _)
    simpa using this
  · have hbt : '%' ∉ b := fun h => ht (by rw [hab]; simp [h])
    have hl : strrchr ('}' :: t) '.' = some ('.' :: b) := by
      rw [hab, ← List.cons_append]
      exact strrchr_last '.' b hb _
    have := hW "suffix".toList (parseMacroName_shape (by decide)) (by decide) (by decide)
      (some b) (fooResult_suffix env _ _ _ hl) hbt
    simpa using this

theorem operator_argument_witness :
    '%' ∉ "x".toList ∧
    doExpandMacros quietEnv emptyContext "x".toList
      = ({ initialBuf emptyContext with buf := "x".toList }, 0) ∧
    doExpandMacros quietEnv emptyContext ('%' :: '{' :: ("expand".toList ++ ':' :: '}' :: "x".toList))
      = ({ initialBuf emptyContext with buf := '}' :: "x".toList ++ "x".toList }, 0) :=
  ⟨by decide, (operator_argument quietEnv emptyContext "x".toList (by decide)).2.1,
    (operator_argument quietEnv emptyContext "x".toList (by decide)).2.2.1⟩

/-! ## The definitions of one name through an expansion -/

theorem TraceOK.nil (n : List Char) : TraceOK n [] := fun _ h => absurd h (List.not_mem_nil _)

theorem TraceOK.defined {n : List Char} (h : legalName n = true) :
    TraceOK n [TableEvent.defined] := by
  intro t ht
  rw [List.mem_singleton] at ht
  subst ht
  exact ⟨fun e => (by cases e), fun _ => h⟩

theorem TraceOK.undefined {n : List Char} (h : legalName n = true) :
    TraceOK n [TableEvent.undefined] := by
  intro t ht
  rw [List.mem_singleton] at ht
  subst ht
  exact ⟨fun e => (by cases e), fun _ => h⟩

theorem WithinL.mono {O L : List (List Char × Option (List Char) × List Char × Int)}
    {k a k1 a1 : Nat} (h : WithinL O k a L) (hk : k ≤ k1) (ha : a ≤ a1) : WithinL O k1 a1 L := by
  obtain ⟨A, j, e, h1, h2⟩ := h
  exact ⟨A, j, e, by omega, by omega⟩

/-- Freeing the arguments at a depth above the levels of the definitions of
before removes none of them. -/
theorem WithinL.free {O : List (List Char × Option (List Char) × List Char × Int)}
    {k a : Nat} (d : Int) (s : Slot) (hO : ∀ x ∈ O, x.2.2.2 < d)
    (h : WithinL O k a (s.map defOf)) : WithinL O k a ((freeArgsSlot d s).map defOf) := by
  cases s with
  | nil => exact h
  | cons e t =>
    by_cases hl : e.level < d
    · rw [freeArgsSlot_keep d e t hl]; exact h
    · have hf : freeArgsSlot d (e :: t) = t := by simp [freeArgsSlot, hl, popMacro]
      rw [hf]
      obtain ⟨A, j, e1, h1, h2⟩ := h
      cases A with
      | nil =>
        exfalso
        simp only [List.nil_append, List.map_cons] at e1
        have hm : defOf e ∈ O.drop j := by rw [← e1]; exact List.mem_cons_self _ _
        exact hl (hO _ (List.mem_of_mem_drop hm))
      | cons x A =>
        simp only [List.map_cons, List.cons_append, List.cons.injEq] at e1
        exact ⟨A, j, e1.2, h1, by simp only [List.length_cons] at h2; omega⟩

theorem WithinL.zero {O L : List (List Char × Option (List Char) × List Char × Int)}
    {k a : Nat} (h : WithinL O k a L) (t : List TableEvent) (ht : t = []) :
    WithinL O (k + t.count TableEvent.undefined) (a + t.count TableEvent.defined) L := by
  subst ht
  exact h

theorem WithinL.append {O L : List (List Char × Option (List Char) × List Char × Int)}
    {k a : Nat} (t1 t2 : List TableEvent)
    (h : WithinL O (k + t1.count TableEvent.undefined + t2.count TableEvent.undefined)
      (a + t1.count TableEvent.defined + t2.count TableEvent.defined) L) :
    WithinL O (k + (t1 ++ t2).count TableEvent.undefined)
      (a + (t1 ++ t2).count TableEvent.defined) L := by
  rw [List.count_append, List.count_append, ← Nat.add_assoc, ← Nat.add_assoc]
  exact h

end RpmMacro
